import Mathlib

/-!
# LibCppHttpParser: a shallow embedding of the streaming parsers

The development embeds `Utils`, `EnvelopeParser`, `TransferEncodingParser`
(chunked and identity) and `MessageParser` as pure state-passing functions.

Conventions of the embedding:

* a `std::string` / `(const char *, size_t)` slice is a `List Byte`, a byte being
  a natural number below 256;
* `size_t` values are natural numbers, arithmetic that can wrap is written with
  `sizeAdd`, `sizeSub`, `sizeMul` (modulo `2 ^ 64`), and `npos` is `2 ^ 64 - 1`;
* `char` is signed (the x86 ABI), so a byte above 127 compares below any ASCII
  character;
* every callback invocation is recorded, in order, in the list of events a
  function returns next to the new state;
* `assert`s are not part of the release behaviour and are not modelled;
* loops whose number of turns is bounded by the buffer length take that bound
  as an explicit fuel argument.
-/

namespace Http

/-! ## Basic types -/

/-- One byte of a string. -/
abbrev Byte := Nat

/-- The bytes of a string literal (used to write inputs and messages readably). -/
def bytes (s : String) : List Byte := s.toList.map Char.toNat

/-- The error sentinel `std::string::npos` of a 64-bit `size_t`. -/
def npos : Nat := 2 ^ 64 - 1

/-- Addition of two `size_t` values. -/
def sizeAdd (a b : Nat) : Nat := (a + b) % 2 ^ 64

/-- Subtraction of two `size_t` values (wraps around below zero). -/
def sizeSub (a b : Nat) : Nat := (a + (2 ^ 64 - b % 2 ^ 64)) % 2 ^ 64

/-- Multiplication of two `size_t` values. -/
def sizeMul (a b : Nat) : Nat := (a * b) % 2 ^ 64

/-- The two bytes CR LF. -/
def crlf : List Byte := [13, 10]

/-- Index of the first occurrence of CR LF in `s`, counted from the head of `s`. -/
def firstCRLF : List Byte → Option Nat
  | [] => none
  | a :: rest =>
    match rest with
    | [] => none
    | b :: _ =>
      if a = 13 ∧ b = 10 then some 0
      else (firstCRLF rest).map (· + 1)

/-- Model of `std::string::find("\r\n", pos)`: the first index at or after `pos`
where CR LF occurs, `none` standing for `npos`. -/
def findCRLF (s : List Byte) (pos : Nat) : Option Nat :=
  (firstCRLF (s.drop pos)).map (· + pos)

/-! ## Utils -/

namespace Utils

/-- The C function `tolower` in the "C" locale. -/
def toLower (c : Byte) : Byte := if 65 ≤ c ∧ c ≤ 90 then c + 32 else c

/-- Embedding of `Utils::strToLower`. -/
def strToLower (s : List Byte) : List Byte := s.map toLower

/-- The bytes `printf` writes for a `%s` argument: up to the first NUL. -/
def cstr (s : List Byte) : List Byte := s.takeWhile (· ≠ 0)

/-- One lower-case hexadecimal digit. -/
def hexDigit (d : Nat) : Byte := if d < 10 then 48 + d else 87 + d

/-- Digits of `n` in base 16, most significant first, prepended to `acc`. -/
def toHexAux : Nat → Nat → List Byte → List Byte
  | 0, _, acc => acc
  | fuel + 1, n, acc =>
    if n < 16 then hexDigit n :: acc
    else toHexAux fuel (n / 16) (hexDigit (n % 16) :: acc)

/-- The bytes `printf` writes for a `%x` argument that is a `char`: the char is
promoted to `int` (sign-extended) and printed as a 32-bit unsigned number. -/
def hexOfChar (c : Byte) : List Byte :=
  toHexAux 8 (if c < 128 then c else 2 ^ 32 - 256 + c) []

/-- The loop of `Utils::stringToInteger<size_t>` for a non-negative number:
`none` when a byte is not a digit or the value does not fit. -/
def stringToIntegerLoop : List Byte → Nat → Option Nat
  | [], result => some result
  | c :: rest, result =>
    if c < 48 ∨ c > 57 then none
    else if npos / 10 < result then none
    else if npos - (c - 48) < result * 10 then none
    else stringToIntegerLoop rest (result * 10 + (c - 48))

/-- Embedding of `Utils::stringToInteger<size_t>`: `some n` when the function
returns true and stores `n`, `none` when it returns false (and stores nothing).
A leading `+` is accepted, a leading `-` is refused for the unsigned type. -/
def stringToInteger (astr : List Byte) : Option Nat :=
  match astr with
  | 43 :: rest => stringToIntegerLoop rest 0
  | 45 :: _ => none
  | _ => stringToIntegerLoop astr 0

end Utils

/-! ## EnvelopeParser -/

/-- One `onHeaderLine(key, value)` callback. -/
abbrev HeaderLine := List Byte × List Byte

/-- The members of `EnvelopeParser`. -/
structure EnvelopeParser where
  mIsInHeaders : Bool
  mIncomingData : List Byte
  mLastKey : List Byte
  mLastValue : List Byte
  deriving DecidableEq

namespace EnvelopeParser

/-- The constructor: a fresh parser is in headers, with empty buffers. -/
def new : EnvelopeParser :=
  { mIsInHeaders := true, mIncomingData := [], mLastKey := [], mLastValue := [] }

/-- Embedding of `EnvelopeParser::reset`. -/
def reset (_p : EnvelopeParser) : EnvelopeParser := new

/-- Embedding of `EnvelopeParser::notifyLast`. -/
def notifyLast (p : EnvelopeParser) : EnvelopeParser × List HeaderLine :=
  if !p.mLastKey.isEmpty then
    ({ p with mLastKey := [], mLastValue := [] }, [(p.mLastKey, p.mLastValue)])
  else
    ({ p with mLastValue := [] }, [])

/-- The comparison `c <= ' '` on a signed `char`. -/
def leSpace (c : Byte) : Bool := decide (c ≤ 32) || decide (128 ≤ c)

/-- The `for` loop of `EnvelopeParser::parseLine` that looks for the colon:
`rest` is the line from index `i` on. -/
def parseLineLoop (p : EnvelopeParser) (line : List Byte) :
    List Byte → Nat → EnvelopeParser × Bool
  | [], _ => (p, false)
  | c :: rest, i =>
    if c = 58 then
      ({ p with
          mLastKey := line.take i,
          mLastValue :=
            if line.length > i + 1 then (line.drop (i + 2)).take (line.length - i - 2)
            else [] }, true)
    else parseLineLoop p line rest (i + 1)

/-- Embedding of `EnvelopeParser::parseLine`; the boolean is its return value. -/
def parseLine (p : EnvelopeParser) (line : List Byte) :
    EnvelopeParser × List HeaderLine × Bool :=
  if leSpace (line.headD 0) then
    if p.mLastKey.isEmpty then (p, [], false)
    else ({ p with mLastValue := p.mLastValue ++ line }, [], true)
  else
    let r := p.notifyLast
    let q := parseLineLoop r.1 line line 0
    (q.1, r.2, q.2)

/-- The `do ... while` loop of `EnvelopeParser::parse`, entered with the indices
`last` and `idxCRLF`; `aSize` is the size of the slice being parsed. -/
def parseLines : Nat → EnvelopeParser → Nat → Nat → Nat →
    EnvelopeParser × List HeaderLine × Nat
  | 0, p, aSize, _, _ => (p, [], aSize)
  | fuel + 1, p, aSize, last, idxCRLF =>
    if idxCRLF = last then
      let r := p.notifyLast
      ({ r.1 with mIsInHeaders := false }, r.2,
        sizeAdd (sizeSub aSize (sizeSub p.mIncomingData.length idxCRLF)) 2)
    else
      let r := p.parseLine ((p.mIncomingData.drop last).take (idxCRLF - last))
      if !r.2.2 then
        ({ r.1 with mIsInHeaders := false }, r.2.1, npos)
      else
        match findCRLF r.1.mIncomingData (idxCRLF + 2) with
        | some idx =>
          let t := parseLines fuel r.1 aSize (idxCRLF + 2) idx
          (t.1, r.2.1 ++ t.2.1, t.2.2)
        | none =>
          ({ r.1 with mIncomingData := r.1.mIncomingData.drop (idxCRLF + 2) }, r.2.1, aSize)

/-- Embedding of `EnvelopeParser::parse`: the new state, the `onHeaderLine`
callbacks made, and the returned count (`npos` on error). -/
def parse (p : EnvelopeParser) (aData : List Byte) :
    EnvelopeParser × List HeaderLine × Nat :=
  if !p.mIsInHeaders then (p, [], 0)
  else
    let searchStart :=
      if p.mIncomingData.length > 1 then p.mIncomingData.length - 1 else 0
    let q := { p with mIncomingData := p.mIncomingData ++ aData }
    match findCRLF q.mIncomingData searchStart with
    | none => (q, [], aData.length)
    | some idx => parseLines (q.mIncomingData.length + 1) q aData.length 0 idx

end EnvelopeParser

/-! ## TransferEncodingParser -/

/-- A callback of `TransferEncodingParser::Callbacks`. -/
inductive TEEvent where
  | onError (aErrorDescription : List Byte)
  | onBodyData (aData : List Byte)
  | onBodyFinished
  deriving DecidableEq

/-- The states of the chunked parser, `ChunkedTEParser::eState`. -/
inductive eState where
  | psChunkLength
  | psChunkLengthTrailer
  | psChunkLengthLF
  | psChunkData
  | psChunkDataCR
  | psChunkDataLF
  | psTrailer
  | psFinished
  deriving DecidableEq

/-- The members of `ChunkedTEParser`. -/
structure ChunkedTEParser where
  mState : eState
  mChunkDataLengthLeft : Nat
  mTrailerParser : EnvelopeParser
  deriving DecidableEq

namespace ChunkedTEParser

/-- The constructor of `ChunkedTEParser`. -/
def new : ChunkedTEParser :=
  { mState := eState.psChunkLength, mChunkDataLengthLeft := 0,
    mTrailerParser := EnvelopeParser.new }

/-- Embedding of `ChunkedTEParser::error`. -/
def error (p : ChunkedTEParser) (aErrorMsg : List Byte) : ChunkedTEParser × List TEEvent :=
  ({ p with mState := eState.psFinished }, [TEEvent.onError aErrorMsg])

/-- Embedding of `ChunkedTEParser::parseChunkLength`: the `for` loop, with `i`
the index of the head of the remaining data. -/
def parseChunkLength (p : ChunkedTEParser) :
    List Byte → Nat → ChunkedTEParser × List TEEvent × Nat
  | [], i => (p, [], i)
  | c :: rest, i =>
    if 48 ≤ c ∧ c ≤ 57 then
      parseChunkLength
        { p with mChunkDataLengthLeft := sizeAdd (sizeMul p.mChunkDataLengthLeft 16) (c - 48) }
        rest (i + 1)
    else if 97 ≤ c ∧ c ≤ 102 then
      parseChunkLength
        { p with mChunkDataLengthLeft := sizeAdd (sizeMul p.mChunkDataLengthLeft 16) (c - 97 + 10) }
        rest (i + 1)
    else if 65 ≤ c ∧ c ≤ 70 then
      parseChunkLength
        { p with mChunkDataLengthLeft := sizeAdd (sizeMul p.mChunkDataLengthLeft 16) (c - 65 + 10) }
        rest (i + 1)
    else if c = 13 then
      ({ p with mState := eState.psChunkLengthLF }, [], i + 1)
    else if c = 59 then
      ({ p with mState := eState.psChunkLengthTrailer }, [], i + 1)
    else
      let r := p.error (bytes "Invalid character in chunk length line: 0x" ++ Utils.hexOfChar c)
      (r.1, r.2, npos)

/-- Embedding of `ChunkedTEParser::parseChunkLengthTrailer`: the `for` loop, with
`i` the index of the head of the remaining data. The comparison `aData[i] < 32`
is on a signed `char`. -/
def parseChunkLengthTrailer (p : ChunkedTEParser) :
    List Byte → Nat → ChunkedTEParser × List TEEvent × Nat
  | [], i => (p, [], i)
  | c :: rest, i =>
    if c = 13 then
      ({ p with mState := eState.psChunkLengthLF }, [], i)
    else if c < 32 ∨ 128 ≤ c then
      let r := p.error (bytes "Invalid character in chunk length line: 0x" ++ Utils.hexOfChar c)
      (r.1, r.2, npos)
    else parseChunkLengthTrailer p rest (i + 1)

/-- Embedding of `ChunkedTEParser::parseChunkLengthLF`. -/
def parseChunkLengthLF (p : ChunkedTEParser) (aData : List Byte) :
    ChunkedTEParser × List TEEvent × Nat :=
  match aData with
  | [] => (p, [], 0)
  | c :: _ =>
    if c = 10 then
      if p.mChunkDataLengthLeft = 0 then
        ({ p with mState := eState.psTrailer }, [], 1)
      else
        ({ p with mState := eState.psChunkData }, [], 1)
    else
      let r := p.error (bytes "Invalid character past chunk length's CR: 0x" ++ Utils.hexOfChar c)
      (r.1, r.2, npos)

/-- Embedding of `ChunkedTEParser::parseChunkData`. -/
def parseChunkData (p : ChunkedTEParser) (aData : List Byte) :
    ChunkedTEParser × List TEEvent × Nat :=
  let bytes := min aData.length p.mChunkDataLengthLeft
  let q := { p with mChunkDataLengthLeft := p.mChunkDataLengthLeft - bytes }
  let ev := [TEEvent.onBodyData (aData.take bytes)]
  if q.mChunkDataLengthLeft = 0 then
    ({ q with mState := eState.psChunkDataCR }, ev, bytes)
  else (q, ev, bytes)

/-- Embedding of `ChunkedTEParser::parseChunkDataCR`. -/
def parseChunkDataCR (p : ChunkedTEParser) (aData : List Byte) :
    ChunkedTEParser × List TEEvent × Nat :=
  match aData with
  | [] => (p, [], 0)
  | c :: _ =>
    if c = 13 then ({ p with mState := eState.psChunkDataLF }, [], 1)
    else
      let r := p.error (bytes "Invalid character past chunk data: 0x" ++ Utils.hexOfChar c)
      (r.1, r.2, npos)

/-- Embedding of `ChunkedTEParser::parseChunkDataLF`. -/
def parseChunkDataLF (p : ChunkedTEParser) (aData : List Byte) :
    ChunkedTEParser × List TEEvent × Nat :=
  match aData with
  | [] => (p, [], 0)
  | c :: _ =>
    if c = 10 then ({ p with mState := eState.psChunkLength }, [], 1)
    else
      let r := p.error (bytes "Invalid character past chunk data's CR: 0x" ++ Utils.hexOfChar c)
      (r.1, r.2, npos)

/-- Embedding of `ChunkedTEParser::parseTrailer`. The header lines the trailer
parser reports go to the empty `onHeaderLine` override and are dropped. -/
def parseTrailer (p : ChunkedTEParser) (aData : List Byte) :
    ChunkedTEParser × List TEEvent × Nat :=
  let t := p.mTrailerParser.parse aData
  let res := t.2.2
  let p1 := { p with mTrailerParser := t.1 }
  let r1 := if res = npos then p1.error (bytes "Error while parsing the trailer") else (p1, [])
  if res < aData.length ∨ !r1.1.mTrailerParser.mIsInHeaders then
    ({ r1.1 with mState := eState.psFinished }, r1.2 ++ [TEEvent.onBodyFinished], res)
  else (r1.1, r1.2, res)

/-- The `switch` of `ChunkedTEParser::parse`: one call of the parsing function
of the current state. -/
def dispatch (p : ChunkedTEParser) (aData : List Byte) :
    ChunkedTEParser × List TEEvent × Nat :=
  match p.mState with
  | eState.psChunkLength => p.parseChunkLength aData 0
  | eState.psChunkLengthTrailer => p.parseChunkLengthTrailer aData 0
  | eState.psChunkLengthLF => p.parseChunkLengthLF aData
  | eState.psChunkData => p.parseChunkData aData
  | eState.psChunkDataCR => p.parseChunkDataCR aData
  | eState.psChunkDataLF => p.parseChunkDataLF aData
  | eState.psTrailer => p.parseTrailer aData
  | eState.psFinished => (p, [], 0)

/-- The `while` loop of `ChunkedTEParser::parse`. Every two turns consume at
least one byte, so `2 * aSize + 1` turns of fuel are never used up. -/
def parseLoop : Nat → ChunkedTEParser → List Byte → ChunkedTEParser × List TEEvent × Nat
  | 0, p, aData => (p, [], aData.length)
  | fuel + 1, p, aData =>
    if aData.length > 0 ∧ p.mState ≠ eState.psFinished then
      let r := p.dispatch aData
      if r.2.2 = npos then (r.1, r.2.1, npos)
      else
        let t := parseLoop fuel r.1 (aData.drop r.2.2)
        (t.1, r.2.1 ++ t.2.1, t.2.2)
    else (p, [], aData.length)

/-- Embedding of `ChunkedTEParser::parse`: the new state, the callbacks made and
the number of bytes at the end of the slice that were not consumed (`npos` on
error). -/
def parse (p : ChunkedTEParser) (aData : List Byte) :
    ChunkedTEParser × List TEEvent × Nat :=
  parseLoop (2 * aData.length + 1) p aData

end ChunkedTEParser

/-- The members of `IdentityTEParser`. -/
structure IdentityTEParser where
  mBytesLeft : Nat
  deriving DecidableEq

namespace IdentityTEParser

/-- Embedding of `IdentityTEParser::parse`. -/
def parse (p : IdentityTEParser) (aData : List Byte) :
    IdentityTEParser × List TEEvent × Nat :=
  let size := min aData.length p.mBytesLeft
  let ev1 := if size > 0 then [TEEvent.onBodyData (aData.take size)] else []
  let q : IdentityTEParser := { mBytesLeft := p.mBytesLeft - size }
  let ev2 := if q.mBytesLeft = 0 then [TEEvent.onBodyFinished] else []
  (q, ev1 ++ ev2, aData.length - size)

end IdentityTEParser

/-- The polymorphic `TransferEncodingParser`: one of its two implementations. -/
inductive TransferEncodingParser where
  | chunked (p : ChunkedTEParser)
  | identity (p : IdentityTEParser)
  deriving DecidableEq

namespace TransferEncodingParser

/-- Embedding of the factory `TransferEncodingParser::create`; `none` is the
null pointer. -/
def create (aTransferEncoding : List Byte) (aContentLength : Nat) :
    Option TransferEncodingParser :=
  let transferEncoding := Utils.strToLower aTransferEncoding
  if transferEncoding = bytes "chunked" then
    some (TransferEncodingParser.chunked ChunkedTEParser.new)
  else if transferEncoding = bytes "identity" then
    some (TransferEncodingParser.identity { mBytesLeft := aContentLength })
  else none

/-- The virtual call `TransferEncodingParser::parse`. -/
def parse (p : TransferEncodingParser) (aData : List Byte) :
    TransferEncodingParser × List TEEvent × Nat :=
  match p with
  | chunked c =>
    let r := c.parse aData
    (chunked r.1, r.2.1, r.2.2)
  | identity c =>
    let r := c.parse aData
    (identity r.1, r.2.1, r.2.2)

end TransferEncodingParser

/-! ## MessageParser -/

/-- A callback of `MessageParser::Callbacks`. -/
inductive Event where
  | onError (aErrorDescription : List Byte)
  | onFirstLine (aFirstLine : List Byte)
  | onHeaderLine (aKey aValue : List Byte)
  | onHeadersFinished
  | onBodyData (aData : List Byte)
  | onBodyFinished
  deriving DecidableEq

/-- The members of `MessageParser`. -/
structure MessageParser where
  mHasHadError : Bool
  mIsFinished : Bool
  mFirstLine : List Byte
  mBuffer : List Byte
  mEnvelopeParser : EnvelopeParser
  mTransferEncodingParser : Option TransferEncodingParser
  mTransferEncoding : List Byte
  mContentLength : Nat
  deriving DecidableEq

namespace MessageParser

/-- The constructor, which calls `reset`. -/
def new : MessageParser :=
  { mHasHadError := false, mIsFinished := false, mFirstLine := [], mBuffer := [],
    mEnvelopeParser := EnvelopeParser.new, mTransferEncodingParser := none,
    mTransferEncoding := [], mContentLength := 0 }

/-- Embedding of `MessageParser::reset`. -/
def reset (_p : MessageParser) : MessageParser := new

/-- Embedding of `MessageParser::isFinished`. -/
def isFinished (p : MessageParser) : Bool := p.mIsFinished

/-- Embedding of `MessageParser::onError`. -/
def onError (p : MessageParser) (aErrorDescription : List Byte) :
    MessageParser × List Event :=
  ({ p with mHasHadError := true }, [Event.onError aErrorDescription])

/-- Embedding of `MessageParser::onBodyData`. -/
def onBodyData (p : MessageParser) (aData : List Byte) : MessageParser × List Event :=
  (p, [Event.onBodyData aData])

/-- Embedding of `MessageParser::onBodyFinished`. -/
def onBodyFinished (p : MessageParser) : MessageParser × List Event :=
  ({ p with mIsFinished := true }, [Event.onBodyFinished])

/-- Embedding of `MessageParser::onHeaderLine`. -/
def onHeaderLine (p : MessageParser) (aKey aValue : List Byte) :
    MessageParser × List Event :=
  let ev := [Event.onHeaderLine aKey aValue]
  let key := Utils.strToLower aKey
  if key = bytes "content-length" then
    match Utils.stringToInteger aValue with
    | some n => ({ p with mContentLength := n }, ev)
    | none =>
      let r := p.onError
        (bytes "Invalid content length header value: \"" ++ Utils.cstr aValue ++ bytes "\"")
      (r.1, ev ++ r.2)
  else if key = bytes "transfer-encoding" then
    ({ p with mTransferEncoding := aValue }, ev)
  else (p, ev)

/-- Delivery of the envelope parser's callbacks of one call to
`MessageParser::onHeaderLine`, in order. -/
def onHeaderLines (p : MessageParser) : List HeaderLine → MessageParser × List Event
  | [] => (p, [])
  | h :: rest =>
    let r := p.onHeaderLine h.1 h.2
    let t := onHeaderLines r.1 rest
    (t.1, r.2 ++ t.2)

/-- Delivery of one callback of the transfer-encoding parser to the overrides
`onError`, `onBodyData` and `onBodyFinished` of `MessageParser`. -/
def onTEEvent (p : MessageParser) : TEEvent → MessageParser × List Event
  | TEEvent.onError d => p.onError d
  | TEEvent.onBodyData d => p.onBodyData d
  | TEEvent.onBodyFinished => p.onBodyFinished

/-- Delivery of the transfer-encoding parser's callbacks of one call, in order. -/
def onTEEvents (p : MessageParser) : List TEEvent → MessageParser × List Event
  | [] => (p, [])
  | e :: rest =>
    let r := p.onTEEvent e
    let t := onTEEvents r.1 rest
    (t.1, r.2 ++ t.2)

/-- Embedding of `MessageParser::parseFirstLine`. -/
def parseFirstLine (p : MessageParser) : MessageParser × List Event × Nat :=
  match findCRLF p.mBuffer 0 with
  | none => (p, [], p.mBuffer.length)
  | some idxLineEnd =>
    let mFirstLine := p.mBuffer.take idxLineEnd
    ({ p with mFirstLine := mFirstLine, mBuffer := p.mBuffer.drop (idxLineEnd + 2) },
      [Event.onFirstLine mFirstLine], idxLineEnd + 2)

/-- The call `mEnvelopeParser.parse(...)` made by `MessageParser::parse`,
together with the `onHeaderLine` callbacks it makes into the message parser. -/
def parseEnvelope (p : MessageParser) (aData : List Byte) :
    MessageParser × List Event × Nat :=
  let r := p.mEnvelopeParser.parse aData
  let t := onHeaderLines { p with mEnvelopeParser := r.1 } r.2.1
  (t.1, t.2, r.2.2)

/-- Embedding of `MessageParser::parseBody`. -/
def parseBody (p : MessageParser) (aData : List Byte) : MessageParser × List Event × Nat :=
  match p.mTransferEncodingParser with
  | none =>
    let r := p.onError (bytes "No transfer encoding parser")
    (r.1, r.2, npos)
  | some te =>
    let r := te.parse aData
    let t := onTEEvents { p with mTransferEncodingParser := some r.1 } r.2.1
    (t.1, t.2, sizeSub aData.length r.2.2)

/-- Embedding of `MessageParser::headersFinished`. -/
def headersFinished (p : MessageParser) : MessageParser × List Event :=
  let ev := [Event.onHeadersFinished]
  let p1 :=
    if p.mTransferEncoding.isEmpty then { p with mTransferEncoding := bytes "Identity" } else p
  let p2 :=
    { p1 with mTransferEncodingParser :=
        TransferEncodingParser.create p1.mTransferEncoding p1.mContentLength }
  match p2.mTransferEncodingParser with
  | none =>
    let r := p2.onError (bytes "Unknown transfer encoding: " ++ Utils.cstr p2.mTransferEncoding)
    (r.1, ev ++ r.2)
  | some _ => (p2, ev)

/-- Embedding of `MessageParser::parse`: the new state, the callbacks made to
the user and the returned value. -/
def parse (p : MessageParser) (aData : List Byte) : MessageParser × List Event × Nat :=
  if p.mIsFinished || p.mHasHadError then (p, [], 0)
  else
    let inBufferSoFar := p.mBuffer.length
    if p.mFirstLine.isEmpty then
      let r1 := parseFirstLine { p with mBuffer := p.mBuffer ++ aData }
      let bytesConsumedFirstLine := r1.2.2
      if r1.1.mFirstLine.isEmpty then (r1.1, r1.2.1, aData.length)
      else if r1.1.mHasHadError then (r1.1, r1.2.1, npos)
      else
        let r2 := r1.1.parseEnvelope r1.1.mBuffer
        let bytesConsumedEnvelope := r2.2.2
        if bytesConsumedEnvelope = npos then
          ({ r2.1 with mHasHadError := true },
            r1.2.1 ++ r2.2.1 ++ [Event.onError (bytes "Failed to parse the envelope")], npos)
        else
          let p3 := { r2.1 with mBuffer := r2.1.mBuffer.drop bytesConsumedEnvelope }
          if !p3.mEnvelopeParser.mIsInHeaders then
            let r4 := p3.headersFinished
            let r5 := r4.1.parseBody r4.1.mBuffer
            let bytesConsumedBody := r5.2.2
            if bytesConsumedBody = npos then
              (r5.1, r1.2.1 ++ r2.2.1 ++ r4.2 ++ r5.2.1, npos)
            else
              (r5.1, r1.2.1 ++ r2.2.1 ++ r4.2 ++ r5.2.1,
                sizeSub
                  (sizeAdd (sizeAdd bytesConsumedBody bytesConsumedEnvelope)
                    bytesConsumedFirstLine)
                  inBufferSoFar)
          else (p3, r1.2.1 ++ r2.2.1, aData.length)
    else if p.mEnvelopeParser.mIsInHeaders then
      let r2 := p.parseEnvelope aData
      let bytesConsumed := r2.2.2
      if bytesConsumed = npos then
        ({ r2.1 with mHasHadError := true },
          r2.2.1 ++ [Event.onError (bytes "Failed to parse the envelope")], npos)
      else if !r2.1.mEnvelopeParser.mIsInHeaders then
        let r4 := r2.1.headersFinished
        let r5 := r4.1.parseBody (aData.drop bytesConsumed)
        let bytesConsumedBody := r5.2.2
        if bytesConsumedBody = npos then (r5.1, r2.2.1 ++ r4.2 ++ r5.2.1, npos)
        else (r5.1, r2.2.1 ++ r4.2 ++ r5.2.1, aData.length)
      else (r2.1, r2.2.1, aData.length)
    else p.parseBody aData

end MessageParser

end Http

namespace Http

/-! ## Reference definitions for the envelope parser -/

/-- The complete lines of `s` (each without its terminating CR LF) and the
unterminated rest after the last CR LF. -/
def splitLines : List Byte → List (List Byte) × List Byte
  | [] => ([], [])
  | [a] => ([], [a])
  | a :: b :: rest2 =>
    if a = 13 ∧ b = 10 then ([] :: (splitLines rest2).1, (splitLines rest2).2)
    else
      match (splitLines (b :: rest2)).1 with
      | [] => ([], a :: (splitLines (b :: rest2)).2)
      | l :: ls => ((a :: l) :: ls, (splitLines (b :: rest2)).2)

/-- How the processing of a sequence of lines ends. -/
inductive Outcome where
  | more
  | done (idxCRLF : Nat)
  | failed
  deriving DecidableEq

/-- The outcome with the index of the empty line moved by `k`. -/
def Outcome.shift (k : Nat) : Outcome → Outcome
  | Outcome.more => Outcome.more
  | Outcome.done idx => Outcome.done (idx + k)
  | Outcome.failed => Outcome.failed

/-- The state `p` with another buffer and in-headers flag. -/
def EnvelopeParser.withBuf (p : EnvelopeParser) (flag : Bool) (buf : List Byte) :
    EnvelopeParser :=
  { p with mIsInHeaders := flag, mIncomingData := buf }

/-- The effect of the line loop of `EnvelopeParser::parse` on a list of complete
lines, the first of which starts at index `pos` of the buffer: the lines are
handed to `parseLine` until an empty line (the end of the headers, found at
index `idxCRLF`) or a line `parseLine` refuses. -/
def processLines (p : EnvelopeParser) : List (List Byte) → Nat →
    EnvelopeParser × List HeaderLine × Outcome
  | [], _ => (p, [], Outcome.more)
  | l :: ls, pos =>
    if l = [] then ((p.notifyLast).1, (p.notifyLast).2, Outcome.done pos)
    else if !(p.parseLine l).2.2 then ((p.parseLine l).1, (p.parseLine l).2.1, Outcome.failed)
    else
      ((processLines (p.parseLine l).1 ls (pos + l.length + 2)).1,
        (p.parseLine l).2.1 ++ (processLines (p.parseLine l).1 ls (pos + l.length + 2)).2.1,
        (processLines (p.parseLine l).1 ls (pos + l.length + 2)).2.2)

/-- The result of `EnvelopeParser::parse` in terms of the outcome of the line
loop: `buf` is the buffer with the slice appended, `tail` its unterminated rest. -/
def EnvelopeParser.finishParse (aSize : Nat) (buf tail : List Byte)
    (r : EnvelopeParser × List HeaderLine × Outcome) : EnvelopeParser × List HeaderLine × Nat :=
  match r.2.2 with
  | Outcome.more => ({ r.1 with mIncomingData := tail }, r.2.1, aSize)
  | Outcome.done idx =>
    ({ r.1 with mIsInHeaders := false, mIncomingData := buf }, r.2.1,
      sizeAdd (sizeSub aSize (sizeSub buf.length idx)) 2)
  | Outcome.failed => ({ r.1 with mIsInHeaders := false, mIncomingData := buf }, r.2.1, npos)

/-- Total length of a list of lines, each counted with its CR LF. -/
def linesLen (ls : List (List Byte)) : Nat := (ls.map (fun l => l.length + 2)).sum

/-- Feeding a list of slices to an envelope parser, one `parse` call per slice:
the final state, all callbacks in order, and the value each call returned. -/
def EnvelopeParser.feed (p : EnvelopeParser) : List (List Byte) →
    EnvelopeParser × List HeaderLine × List Nat
  | [] => (p, [], [])
  | s :: rest =>
    ((feed (p.parse s).1 rest).1, (p.parse s).2.1 ++ (feed (p.parse s).1 rest).2.1,
      (p.parse s).2.2 :: (feed (p.parse s).1 rest).2.2)

/-- The invariant of the envelope parser between calls: while it is in the
headers, the buffered bytes contain no complete line. -/
def EnvelopeParser.Inv (p : EnvelopeParser) : Prop :=
  p.mIsInHeaders = true → firstCRLF p.mIncomingData = none

/-- Two envelope parser states that behave alike: both are out of the headers,
or they are the same state. -/
def EnvelopeParser.Equiv (p q : EnvelopeParser) : Prop :=
  p.mIsInHeaders = q.mIsInHeaders ∧ (p.mIsInHeaders = true → p = q)

/-! ## Well-formed header blocks -/

/-- A header as it is sent: the key, the value on the key line, and the
continuation lines that follow it. -/
structure Header where
  key : List Byte
  value : List Byte
  conts : List (List Byte)
  deriving DecidableEq

/-- No byte of `l` is CR or LF. -/
def noCRorLF (l : List Byte) : Prop := ∀ b ∈ l, b ≠ 13 ∧ b ≠ 10

instance (l : List Byte) : Decidable (noCRorLF l) := by
  unfold noCRorLF; infer_instance

/-- The header line `K: V` CR LF followed by its continuation lines, each with
its CR LF. -/
def Header.encode (h : Header) : List Byte :=
  h.key ++ 58 :: 32 :: h.value ++ crlf ++ (h.conts.map (fun c => c ++ crlf)).flatten

/-- The value the parser is to report: the value on the key line followed by
all continuation lines, verbatim. -/
def Header.fullValue (h : Header) : List Byte := h.value ++ h.conts.flatten

/-- The callback expected for a header. -/
def Header.callback (h : Header) : HeaderLine := (h.key, h.fullValue)

/-- The header lines of a block, without the closing empty line. -/
def encodeHeaders (hs : List Header) : List Byte := (hs.map Header.encode).flatten

/-- A header block: the header lines and the closing empty line. -/
def encodeBlock (hs : List Header) : List Byte := encodeHeaders hs ++ crlf

/-- A header in the form the one-shot claim states: the key is non-empty,
starts with a byte in 0x21..0x7E and holds no colon; the value holds no CR or LF;
each continuation line is non-empty, starts with a space or a tab and holds no
CR or LF. -/
def Header.WfStated (h : Header) : Prop :=
  h.key ≠ [] ∧ 33 ≤ h.key.headD 0 ∧ h.key.headD 0 ≤ 126 ∧ 58 ∉ h.key ∧
    noCRorLF h.value ∧
    ∀ c ∈ h.conts, c ≠ [] ∧ (c.headD 0 = 32 ∨ c.headD 0 = 9) ∧ noCRorLF c

instance (h : Header) : Decidable h.WfStated := by
  unfold Header.WfStated; infer_instance

/-- A well-formed header: as stated, and the key holds no CR LF pair either. -/
def Header.Wf (h : Header) : Prop := h.WfStated ∧ firstCRLF h.key = none

instance (h : Header) : Decidable h.Wf := by
  unfold Header.Wf; infer_instance

/-- The lines of a header: the key line and the continuation lines. -/
def Header.lines (h : Header) : List (List Byte) :=
  (h.key ++ 58 :: 32 :: h.value) :: h.conts

end Http

namespace Http

/-! ## Feeding slices to the chunked parser and to the message parser -/

/-- Feeding a list of slices to a chunked parser, one `parse` call per slice:
the final state, all callbacks in order, and the value each call returned. -/
def ChunkedTEParser.feed (p : ChunkedTEParser) : List (List Byte) →
    ChunkedTEParser × List TEEvent × List Nat
  | [] => (p, [], [])
  | s :: rest =>
    ((feed (p.parse s).1 rest).1, (p.parse s).2.1 ++ (feed (p.parse s).1 rest).2.1,
      (p.parse s).2.2 :: (feed (p.parse s).1 rest).2.2)

/-- Feeding a list of slices to a message parser, one `parse` call per slice:
the final state, all callbacks in order, and the value each call returned. -/
def MessageParser.feed (p : MessageParser) : List (List Byte) →
    MessageParser × List Event × List Nat
  | [] => (p, [], [])
  | s :: rest =>
    ((feed (p.parse s).1 rest).1, (p.parse s).2.1 ++ (feed (p.parse s).1 rest).2.1,
      (p.parse s).2.2 :: (feed (p.parse s).1 rest).2.2)

/-! ## Reference definitions for the chunked parser -/

/-- One callback put in front of an already merged sequence: body data joins
body data that follows it directly. -/
def pushTE (e : TEEvent) (acc : List TEEvent) : List TEEvent :=
  match e, acc with
  | TEEvent.onBodyData a, TEEvent.onBodyData b :: r => TEEvent.onBodyData (a ++ b) :: r
  | e, r => e :: r

/-- The sequence of callbacks with adjacent `onBodyData` callbacks merged into
one: how a sequence of callbacks is read when the cut of the body into segments
is not to matter. -/
def mergeTE : List TEEvent → List TEEvent
  | [] => []
  | e :: rest => pushTE e (mergeTE rest)

/-- A bound on the number of turns the loop of `ChunkedTEParser::parse` still
makes: two per byte, and one more in the two states that may hand over without
consuming a byte. -/
def ChunkedTEParser.weight (p : ChunkedTEParser) (d : List Byte) : Nat :=
  if p.mState = eState.psFinished then 0
  else 2 * d.length +
    (if p.mState = eState.psChunkLengthTrailer ∨ p.mState = eState.psChunkData then 1 else 0)

/-- The conditions under which a chunked parser is run on the slice `d`: the
slice is shorter than `npos`, and unless the parser has finished, its trailer
parser keeps its invariant and its buffer with the slice stays below `npos`. -/
def ChunkedTEParser.Ok (p : ChunkedTEParser) (d : List Byte) : Prop :=
  d.length < npos ∧
    (p.mState ≠ eState.psFinished →
      p.mTrailerParser.Inv ∧ p.mTrailerParser.mIncomingData.length + d.length < npos)

/-- Two chunked parser states that behave alike: both have finished, or they
are the same state. -/
def ChunkedTEParser.Equiv (p q : ChunkedTEParser) : Prop :=
  p.mState = q.mState ∧ (p.mState ≠ eState.psFinished → p = q)

/-- How one turn of the loop on the slice `a ++ b` relates to one turn on `a`:
either both fail alike, or the turn on `a` stops inside `a` and the one on
`a ++ b` does the same, or the turn on `a` uses up `a` without leaving the state
and the turn on `a ++ b` is that turn followed by a turn on `b`. -/
def ChunkedTEParser.AppendStep (s : ChunkedTEParser) (a b : List Byte) : Prop :=
  ((s.dispatch a).2.2 = npos ∧ (s.dispatch (a ++ b)).2.2 = npos ∧
    (s.dispatch (a ++ b)).2.1 = (s.dispatch a).2.1 ∧
    (s.dispatch a).1.mState = eState.psFinished ∧
    (s.dispatch (a ++ b)).1.mState = eState.psFinished) ∨
  ((s.dispatch a).2.2 ≠ npos ∧ (s.dispatch a).2.2 ≤ a.length ∧
    (s.dispatch (a ++ b)).2.2 = (s.dispatch a).2.2 ∧
    (s.dispatch (a ++ b)).2.1 = (s.dispatch a).2.1 ∧
    (s.dispatch (a ++ b)).1.Equiv (s.dispatch a).1) ∨
  ((s.dispatch a).2.2 = a.length ∧ (s.dispatch a).1.mState = s.mState ∧
    (s.dispatch a).1.Ok b ∧
    (b ≠ [] →
      (((s.dispatch a).1.dispatch b).2.2 = npos →
        (s.dispatch (a ++ b)).2.2 = npos ∧
        mergeTE ((s.dispatch a).2.1 ++ ((s.dispatch a).1.dispatch b).2.1) =
          mergeTE (s.dispatch (a ++ b)).2.1 ∧
        ((s.dispatch a).1.dispatch b).1.mState = eState.psFinished ∧
        (s.dispatch (a ++ b)).1.mState = eState.psFinished) ∧
      (((s.dispatch a).1.dispatch b).2.2 ≠ npos →
        (s.dispatch (a ++ b)).2.2 = a.length + ((s.dispatch a).1.dispatch b).2.2 ∧
        (∀ X, mergeTE ((s.dispatch a).2.1 ++ ((s.dispatch a).1.dispatch b).2.1 ++ X) =
          mergeTE ((s.dispatch (a ++ b)).2.1 ++ X)) ∧
        (s.dispatch (a ++ b)).1.Equiv ((s.dispatch a).1.dispatch b).1)))

/-- What it means that the chunked parser treats the slice `a ++ b` as it treats
`a` followed by `b`: the same callbacks up to the cut of the body data, final
states that behave alike, an error in the one exactly when in the other, and
without error the same number of unconsumed bytes; and the state after `a` can
be run on `b`. -/
def ChunkedTEParser.AppendOk (s : ChunkedTEParser) (a b : List Byte) : Prop :=
  mergeTE (s.parse (a ++ b)).2.1 = mergeTE ((s.parse a).2.1 ++ ((s.parse a).1.parse b).2.1) ∧
  ((s.parse a).1.parse b).1.Equiv (s.parse (a ++ b)).1 ∧
  ((s.parse a).2.2 = npos → (s.parse (a ++ b)).2.2 = npos) ∧
  ((s.parse a).2.2 ≠ npos →
    ((s.parse (a ++ b)).2.2 = npos ↔ ((s.parse a).1.parse b).2.2 = npos) ∧
    (((s.parse a).1.parse b).2.2 ≠ npos →
      (s.parse (a ++ b)).2.2 = (s.parse a).2.2 + ((s.parse a).1.parse b).2.2)) ∧
  (s.parse a).1.Ok b

/-- The result of a parsing function with the returned index moved by `k`
(`npos` stays `npos`). -/
def addIdx (k : Nat) (r : ChunkedTEParser × List TEEvent × Nat) :
    ChunkedTEParser × List TEEvent × Nat :=
  (r.1, r.2.1, if r.2.2 = npos then npos else r.2.2 + k)

/-- The bytes `0`..`9`, `a`..`f`, `A`..`F`. -/
def isHexDigit (c : Byte) : Prop :=
  (48 ≤ c ∧ c ≤ 57) ∨ (97 ≤ c ∧ c ≤ 102) ∨ (65 ≤ c ∧ c ≤ 70)

instance (c : Byte) : Decidable (isHexDigit c) := by
  unfold isHexDigit; infer_instance

/-- The value of one hexadecimal digit. -/
def hexDigitValue (c : Byte) : Nat :=
  if 48 ≤ c ∧ c ≤ 57 then c - 48
  else if 97 ≤ c ∧ c ≤ 102 then c - 97 + 10
  else c - 65 + 10

/-- The number a string of hexadecimal digits denotes, continuing from `init`. -/
def hexValueFrom (init : Nat) (ds : List Byte) : Nat :=
  ds.foldl (fun acc c => acc * 16 + hexDigitValue c) init

/-- The number a string of hexadecimal digits denotes. -/
def hexValue (ds : List Byte) : Nat := hexValueFrom 0 ds

/-- The length counter after `ChunkedTEParser::parseChunkLength` has read the
digits `ds`, in `size_t` arithmetic. -/
def accumLength (init : Nat) (ds : List Byte) : Nat :=
  ds.foldl (fun acc c => sizeAdd (sizeMul acc 16) (hexDigitValue c)) init

/-- One chunk as it is sent: the digits of its size line and its data. -/
structure Chunk where
  size : List Byte
  data : List Byte
  deriving DecidableEq

/-- A well-formed chunk without extension: the data is not empty and the size
line is a string of hexadecimal digits, in either case and with any number of
leading zeros, that denotes the length of the data. -/
def Chunk.Wf (c : Chunk) : Prop :=
  c.data ≠ [] ∧ (∀ d ∈ c.size, isHexDigit d) ∧ hexValue c.size = c.data.length

instance (c : Chunk) : Decidable c.Wf := by
  unfold Chunk.Wf; infer_instance

/-- The bytes of a chunk: size line, CR LF, data, CR LF. -/
def Chunk.encode (c : Chunk) : List Byte := c.size ++ crlf ++ c.data ++ crlf

/-- The bytes of the chunks of a body, without the last-chunk line. -/
def encodeChunks (cs : List Chunk) : List Byte := (cs.map Chunk.encode).flatten

/-- A chunked body: the chunks, the last-chunk line `0` CR LF, the trailer
lines and the closing empty line. -/
def encodeChunked (cs : List Chunk) (trailers : List Header) : List Byte :=
  encodeChunks cs ++ 48 :: crlf ++ encodeBlock trailers

/-- The body a list of chunks carries. -/
def chunksBody (cs : List Chunk) : List Byte := (cs.map Chunk.data).flatten

end Http

namespace Http

/-! ## Reference definitions for the message parser -/

/-- The header is a Content-Length header (the key compared without case). -/
def Header.isContentLength (h : Header) : Bool :=
  decide (Utils.strToLower h.key = bytes "content-length")

/-- The header is a Transfer-Encoding header (the key compared without case). -/
def Header.isTransferEncoding (h : Header) : Bool :=
  decide (Utils.strToLower h.key = bytes "transfer-encoding")

/-- The `onHeaderLine` callback of the message parser expected for a header. -/
def Header.event (h : Header) : Event := Event.onHeaderLine h.key h.fullValue

/-- The decimal digits of `n`, most significant first, put in front of `acc`. -/
def decimalAux : Nat → Nat → List Byte → List Byte
  | 0, _, acc => acc
  | fuel + 1, n, acc =>
    if n < 10 then (48 + n) :: acc
    else decimalAux fuel (n / 10) ((48 + n % 10) :: acc)

/-- The decimal representation of `n`, without sign or leading zeros. -/
def decimal (n : Nat) : List Byte := decimalAux (n + 1) n []

/-- The number a string of decimal digits denotes, continuing from `init`. -/
def decValueFrom (init : Nat) (ds : List Byte) : Nat :=
  ds.foldl (fun acc c => acc * 10 + (c - 48)) init

/-- A message: the first line, CR LF, the header block with its closing empty
line, and the bytes of the body as they are sent. -/
def encodeMessage (firstLine : List Byte) (hs : List Header) (body : List Byte) : List Byte :=
  firstLine ++ crlf ++ encodeBlock hs ++ body

/-- The callback of the message parser that a callback of the transfer-encoding
parser is passed on as. -/
def liftTE : TEEvent → Event
  | TEEvent.onError d => Event.onError d
  | TEEvent.onBodyData d => Event.onBodyData d
  | TEEvent.onBodyFinished => Event.onBodyFinished

/-- One callback put in front of an already merged sequence: body data joins
body data that follows it directly. -/
def pushEv (e : Event) (acc : List Event) : List Event :=
  match e, acc with
  | Event.onBodyData a, Event.onBodyData b :: r => Event.onBodyData (a ++ b) :: r
  | e, r => e :: r

/-- The sequence of callbacks of the message parser with adjacent `onBodyData`
callbacks merged into one. -/
def mergeEv : List Event → List Event
  | [] => []
  | e :: rest => pushEv e (mergeEv rest)

/-- The callbacks expected for a message: the first line, the headers in order,
the end of the headers, the body in one piece if there is any, the end of the
body. -/
def expectedEvents (firstLine : List Byte) (hs : List Header) (body : List Byte) :
    List Event :=
  Event.onFirstLine firstLine :: (hs.map Header.event ++
    Event.onHeadersFinished ::
      ((if body = [] then [] else [Event.onBodyData body]) ++ [Event.onBodyFinished]))

/-- The headers frame an identity body `B`: there is no Transfer-Encoding
header, and either no Content-Length header and `B` is empty, or exactly one
Content-Length header, whose value is the decimal of the length of `B`. -/
def IdentityFraming (hs : List Header) (B : List Byte) : Prop :=
  (∀ h ∈ hs, h.isTransferEncoding = false) ∧
    ((hs.filter Header.isContentLength = [] ∧ B = []) ∨
      (hs.filter Header.isContentLength).map Header.fullValue = [decimal B.length])

instance (hs : List Header) (B : List Byte) : Decidable (IdentityFraming hs B) := by
  unfold IdentityFraming; infer_instance

/-- The headers frame a chunked body: there is exactly one Transfer-Encoding
header, its value is `chunked` in any case, and the value of every
Content-Length header is a number `stringToInteger` accepts. -/
def ChunkedFraming (hs : List Header) : Prop :=
  (hs.filter Header.isTransferEncoding).map (fun h => Utils.strToLower h.fullValue) =
      [bytes "chunked"] ∧
    (∀ h ∈ hs, h.isContentLength = true → Utils.stringToInteger h.fullValue ≠ none)

instance (hs : List Header) : Decidable (ChunkedFraming hs) := by
  unfold ChunkedFraming; infer_instance

/-! ### What a run of header callbacks does to the message parser -/

/-- The content length stored after the header callbacks `l`, from `cl`. -/
def clAfter (cl : Nat) : List HeaderLine → Nat
  | [] => cl
  | h :: rest =>
    clAfter
      (if Utils.strToLower h.1 = bytes "content-length" then
        (match Utils.stringToInteger h.2 with
          | some n => n
          | none => cl)
       else cl) rest

/-- The transfer encoding stored after the header callbacks `l`, from `te`. -/
def teAfter (te : List Byte) : List HeaderLine → List Byte
  | [] => te
  | h :: rest =>
    teAfter
      (if Utils.strToLower h.1 = bytes "content-length" then te
       else if Utils.strToLower h.1 = bytes "transfer-encoding" then h.2
       else te) rest

/-- One of the header callbacks `l` is a Content-Length that is not a number. -/
def hdrError : List HeaderLine → Bool
  | [] => false
  | h :: rest =>
    (decide (Utils.strToLower h.1 = bytes "content-length") &&
      (Utils.stringToInteger h.2).isNone) || hdrError rest

/-- The callbacks the message parser makes for the header callbacks `l`. -/
def hdrEvents : List HeaderLine → List Event
  | [] => []
  | h :: rest =>
    (Event.onHeaderLine h.1 h.2 ::
      (if Utils.strToLower h.1 = bytes "content-length" ∧ Utils.stringToInteger h.2 = none then
        [Event.onError
          (bytes "Invalid content length header value: \"" ++ Utils.cstr h.2 ++ bytes "\"")]
       else [])) ++ hdrEvents rest

/-- One of the callbacks of the transfer-encoding parser is `onError`. -/
def teError : List TEEvent → Bool
  | [] => false
  | TEEvent.onError _ :: _ => true
  | _ :: rest => teError rest

/-- One of the callbacks of the transfer-encoding parser is `onBodyFinished`. -/
def teFinished : List TEEvent → Bool
  | [] => false
  | TEEvent.onBodyFinished :: _ => true
  | _ :: rest => teFinished rest

/-- The part of `MessageParser::parse` after the first line is known: the
envelope parser is run on `d`, and when it reaches the end of the headers, the
body parser is set up and run on what is left of `d`. The state and the
callbacks (the returned value is left out). -/
def MessageParser.continueParse (p : MessageParser) (d : List Byte) :
    MessageParser × List Event :=
  let r2 := p.parseEnvelope d
  if r2.2.2 = npos then
    ({ r2.1 with mHasHadError := true },
      r2.2.1 ++ [Event.onError (bytes "Failed to parse the envelope")])
  else if !r2.1.mEnvelopeParser.mIsInHeaders then
    let r4 := r2.1.headersFinished
    let r5 := r4.1.parseBody (d.drop r2.2.2)
    (r5.1, r2.2.1 ++ r4.2 ++ r5.2.1)
  else (r2.1, r2.2.1)

/-- The state of a fresh message parser that has read the first line `L` and
the header block of `hs` in one call, `rest` being what follows the block:
the state `headersFinished` is called in. -/
def MessageParser.headState (L : List Byte) (hs : List Header) (rest : List Byte) :
    MessageParser :=
  { mHasHadError := hdrError (hs.map Header.callback),
    mIsFinished := false,
    mFirstLine := L,
    mBuffer := rest,
    mEnvelopeParser := (EnvelopeParser.new.parse (encodeBlock hs ++ rest)).1,
    mTransferEncodingParser := none,
    mTransferEncoding := teAfter [] (hs.map Header.callback),
    mContentLength := clAfter 0 (hs.map Header.callback) }

/-! ### Running the message parser on a slice in two pieces -/

/-- The callbacks of the transfer-encoding parser after which the message
parser takes no further data: an error or the end of the body. -/
def teStopped (l : List TEEvent) : Bool := teError l || teFinished l

/-- One of the callbacks of the message parser is `onError`. -/
def evError : List Event → Bool
  | [] => false
  | Event.onError _ :: _ => true
  | _ :: rest => evError rest

/-- The conditions under which a transfer-encoding parser `headersFinished` has
just created is run on the slice `d`: a chunked parser meets
`ChunkedTEParser.Ok`. -/
def TransferEncodingParser.Ok0 (te : TransferEncodingParser) (d : List Byte) : Prop :=
  match te with
  | TransferEncodingParser.chunked c => c.Ok d
  | TransferEncodingParser.identity _ => True

/-- The conditions under which the transfer-encoding parser of a message parser
that has not stopped is run on the slice `d`: a chunked parser meets
`ChunkedTEParser.Ok`; an identity parser still expects bytes. -/
def TransferEncodingParser.Ok (te : TransferEncodingParser) (d : List Byte) : Prop :=
  match te with
  | TransferEncodingParser.chunked c => c.Ok d
  | TransferEncodingParser.identity i => 0 < i.mBytesLeft

/-- The conditions under which a message parser that has not stopped is run on
the slice `d`: the envelope parser keeps its invariant; before the first line
is known the buffer holds no CR LF and the first line will not be empty;
buffers and slice stay below `npos`; and in the body there is a
transfer-encoding parser that can be run on `d`. -/
def MessageParser.Ok (p : MessageParser) (d : List Byte) : Prop :=
  (p.mIsFinished || p.mHasHadError) = false →
  d.length < npos ∧ p.mEnvelopeParser.Inv ∧
  (p.mFirstLine = [] →
    firstCRLF p.mBuffer = none ∧ firstCRLF (p.mBuffer ++ d) ≠ some 0 ∧
    p.mBuffer.length + p.mEnvelopeParser.mIncomingData.length + d.length < npos) ∧
  (p.mFirstLine ≠ [] → p.mEnvelopeParser.mIsInHeaders = true →
    p.mEnvelopeParser.mIncomingData.length + d.length < npos) ∧
  (p.mFirstLine ≠ [] → p.mEnvelopeParser.mIsInHeaders = false →
    ∃ te, p.mTransferEncodingParser = some te ∧ te.Ok d)

/-- The message parser with another envelope parser and another buffer: the
two members the end of the headers and the body do not look at. -/
def MessageParser.withEnv (p : MessageParser) (e : EnvelopeParser) (b : List Byte) :
    MessageParser :=
  { p with mEnvelopeParser := e, mBuffer := b }

/-- The end of the headers followed by the body: `headersFinished`, then
`parseBody` on `d`. The state and the callbacks. -/
def MessageParser.bodyStart (p : MessageParser) (d : List Byte) : MessageParser × List Event :=
  ((p.headersFinished.1.parseBody d).1,
    p.headersFinished.2 ++ (p.headersFinished.1.parseBody d).2.1)

/-- The message parser after the envelope parser, left in the state `e`, has
delivered the header callbacks `l`. -/
def MessageParser.afterHeaders (p : MessageParser) (e : EnvelopeParser)
    (l : List HeaderLine) : MessageParser :=
  { p with
      mEnvelopeParser := e,
      mContentLength := clAfter p.mContentLength l,
      mTransferEncoding := teAfter p.mTransferEncoding l,
      mHasHadError := p.mHasHadError || hdrError l }

end Http

namespace Http

/-! ## The `finish` functions of the transfer-encoding parsers -/

/-- The number of a state of the chunked parser: its position in `enum eState`,
which `printf` writes for `%d`. -/
def eState.toNat : eState → Nat
  | eState.psChunkLength => 0
  | eState.psChunkLengthTrailer => 1
  | eState.psChunkLengthLF => 2
  | eState.psChunkData => 3
  | eState.psChunkDataCR => 4
  | eState.psChunkDataLF => 5
  | eState.psTrailer => 6
  | eState.psFinished => 7

/-- The bytes `printf` writes for a `%d` argument that is not negative. -/
def Utils.decOfNat (n : Nat) : List Byte := decimalAux (n + 1) n []

/-- Embedding of `ChunkedTEParser::finish`: the new state and the callbacks. -/
def ChunkedTEParser.finish (p : ChunkedTEParser) : ChunkedTEParser × List TEEvent :=
  let r :=
    if p.mState ≠ eState.psFinished then
      p.error (bytes "ChunkedTransferEncoding: Finish signal received before the data stream ended (state: " ++
        Utils.decOfNat p.mState.toNat ++ bytes ")")
    else (p, [])
  ({ r.1 with mState := eState.psFinished }, r.2)

/-- Embedding of `IdentityTEParser::finish`: the new state and the callbacks. -/
def IdentityTEParser.finish (p : IdentityTEParser) : IdentityTEParser × List TEEvent :=
  if p.mBytesLeft > 0 then
    (p, [TEEvent.onError (bytes "IdentityTransferEncoding: body was truncated")])
  else (p, [])

/-- The virtual call `TransferEncodingParser::finish`. -/
def TransferEncodingParser.finish (p : TransferEncodingParser) :
    TransferEncodingParser × List TEEvent :=
  match p with
  | TransferEncodingParser.chunked c => (TransferEncodingParser.chunked c.finish.1, c.finish.2)
  | TransferEncodingParser.identity c => (TransferEncodingParser.identity c.finish.1, c.finish.2)

/-- The number of `onError` callbacks in a sequence of callbacks. -/
def countErrors : List TEEvent → Nat
  | [] => 0
  | TEEvent.onError _ :: rest => countErrors rest + 1
  | _ :: rest => countErrors rest

/-- The number of `onBodyFinished` callbacks in a sequence of callbacks. -/
def countFinished : List TEEvent → Nat
  | [] => 0
  | TEEvent.onBodyFinished :: rest => countFinished rest + 1
  | _ :: rest => countFinished rest

/-- Feeding a list of slices to an identity parser, one `parse` call per slice:
the final state, the callbacks of each call, and the value each call returned. -/
def IdentityTEParser.feed (p : IdentityTEParser) : List (List Byte) →
    IdentityTEParser × List (List TEEvent) × List Nat
  | [] => (p, [], [])
  | s :: rest =>
    ((feed (p.parse s).1 rest).1, (p.parse s).2.1 :: (feed (p.parse s).1 rest).2.1,
      (p.parse s).2.2 :: (feed (p.parse s).1 rest).2.2)

end Http

namespace Http

/-! ## NameValueParser

The parser is a `std::map<std::string, std::string>` with parsing state. The map
is embedded as the list of its entries in the order of the keys; `parse` walks
the slice with the two indices `i` and `Last`, which are embedded as the bytes
from `i` on (`rest`) and the bytes between `Last` and `i` (`pend`), the only
part of the slice before `i` the code still reads. -/

/-- The content of a `std::map<std::string, std::string>`: its entries, sorted
by key. -/
abbrev StringMap := List (List Byte × List Byte)

/-- The order of `std::string`: lexicographic on the bytes as unsigned chars. -/
def lexLt : List Byte → List Byte → Bool
  | [], [] => false
  | [], _ :: _ => true
  | _ :: _, [] => false
  | a :: as, b :: bs => if a < b then true else if b < a then false else lexLt as bs

/-- The assignment `map[k] = v`. -/
def StringMap.set : StringMap → List Byte → List Byte → StringMap
  | [], k, v => [(k, v)]
  | (k', v') :: rest, k, v =>
    if k = k' then (k, v) :: rest
    else if lexLt k k' then (k, v) :: (k', v') :: rest
    else (k', v') :: StringMap.set rest k v

/-- The lookup `map.find(k)`: the value stored for `k`, if any. -/
def StringMap.find : StringMap → List Byte → Option (List Byte)
  | [], _ => none
  | (k', v') :: rest, k => if k = k' then some v' else StringMap.find rest k

/-- The value of the expression `map[k]`: the value stored for `k`, the empty
string if there is none. -/
def StringMap.at (m : StringMap) (k : List Byte) : List Byte :=
  (m.find k).getD []

/-- The states of `NameValueParser`. -/
inductive NVState where
  | psKeySpace
  | psKey
  | psEqualSpace
  | psEqual
  | psValueInSQuotes
  | psValueInDQuotes
  | psValueRaw
  | psAfterValue
  | psInvalid
  | psFinished
  deriving DecidableEq

/-- The members of `NameValueParser`, `mMap` being the map it derives from. -/
structure NameValueParser where
  mState : NVState
  mAllowsKeyOnly : Bool
  mCurrentKey : List Byte
  mCurrentValue : List Byte
  mMap : StringMap
  deriving DecidableEq

/-- The object and the local variables of `NameValueParser::parse` after a piece
of the loop body: `rest` is the slice from `i` on, `pend` the slice from `Last`
to `i`, `returned` tells that the piece ended in `return`. -/
structure NVLoop where
  p : NameValueParser
  rest : List Byte
  pend : List Byte
  returned : Bool
  deriving DecidableEq

namespace NameValueParser

/-- The constructor `NameValueParser(bool aAllowsKeyOnly)`. -/
def new (aAllowsKeyOnly : Bool) : NameValueParser :=
  { mState := NVState.psKeySpace, mAllowsKeyOnly := aAllowsKeyOnly, mCurrentKey := [],
    mCurrentValue := [], mMap := [] }

/-- The comparison `c <= ' '` on a signed `char`. -/
def leSpace (c : Byte) : Bool := decide (c ≤ 32) || decide (128 ≤ c)

/-- The comparison `c > ' '` on a signed `char`. -/
def gtSpace (c : Byte) : Bool := decide (32 < c) && decide (c < 128)

/-- The comparison `c < ' '` on a signed `char`. -/
def ltSpace (c : Byte) : Bool := decide (c < 32) || decide (128 ≤ c)

/-- The loop `while ((i < aSize) && (aData[i] <= ' ')) i++` of the case
`psKeySpace`: the new `rest` and `pend`. -/
def skipSpace : List Byte → List Byte → List Byte × List Byte
  | [], pend => ([], pend)
  | c :: r, pend => if leSpace c then skipSpace r (pend ++ [c]) else (c :: r, pend)

/-- The case `psKeySpace` of the switch. -/
def caseKeySpace (p : NameValueParser) (rest pend : List Byte) : NVLoop :=
  let r := skipSpace rest pend
  match r.1 with
  | [] => { p := p, rest := [], pend := r.2, returned := false }
  | c :: _ =>
    if gtSpace c then
      { p := { p with mState := NVState.psKey }, rest := r.1, pend := [], returned := false }
    else { p := p, rest := r.1, pend := r.2, returned := false }

/-- The `while` loop of the case `psKey`. -/
def keyLoop (p : NameValueParser) : List Byte → List Byte → NVLoop
  | [], pend => { p := p, rest := [], pend := pend, returned := false }
  | c :: r, pend =>
    if c = 61 then
      { p := { p with mCurrentKey := p.mCurrentKey ++ pend, mState := NVState.psEqual },
        rest := r, pend := [], returned := false }
    else if leSpace c then
      { p := { p with mCurrentKey := p.mCurrentKey ++ pend, mState := NVState.psEqualSpace },
        rest := r, pend := [], returned := false }
    else if c = 59 then
      if !p.mAllowsKeyOnly then
        { p := { p with mState := NVState.psInvalid }, rest := c :: r, pend := pend,
          returned := true }
      else
        { p := { p with
                  mMap := p.mMap.set (p.mCurrentKey ++ pend) [],
                  mCurrentKey := [],
                  mState := NVState.psKeySpace },
          rest := r, pend := [], returned := false }
    else if c = 34 ∨ c = 39 then
      { p := { p with mState := NVState.psInvalid }, rest := c :: r, pend := pend,
        returned := true }
    else keyLoop p r (pend ++ [c])

/-- The case `psKey` of the switch: the loop, and the test `i == aSize` after it. -/
def caseKey (p : NameValueParser) (rest pend : List Byte) : NVLoop :=
  let s := keyLoop p rest pend
  if s.returned then s
  else if s.rest = [] then
    { p := { s.p with mCurrentKey := s.p.mCurrentKey ++ s.pend }, rest := [], pend := s.pend,
      returned := true }
  else s

/-- The `while` loop of the case `psEqualSpace`. -/
def equalSpaceLoop (p : NameValueParser) : List Byte → List Byte → NVLoop
  | [], pend => { p := p, rest := [], pend := pend, returned := false }
  | c :: r, pend =>
    if c = 61 then
      { p := { p with mState := NVState.psEqual }, rest := r, pend := [], returned := false }
    else if c = 59 then
      if !p.mAllowsKeyOnly then
        { p := { p with mState := NVState.psInvalid }, rest := c :: r, pend := pend,
          returned := true }
      else
        { p := { p with
                  mMap := p.mMap.set p.mCurrentKey [],
                  mCurrentKey := [],
                  mState := NVState.psKeySpace },
          rest := r, pend := [], returned := false }
    else if gtSpace c then
      { p := { p with mState := NVState.psInvalid }, rest := c :: r, pend := pend,
        returned := true }
    else equalSpaceLoop p r (pend ++ [c])

/-- The case `psEqual` of the switch; its loop ends in its first turn. -/
def caseEqual (p : NameValueParser) (rest pend : List Byte) : NVLoop :=
  match rest with
  | [] => { p := p, rest := [], pend := pend, returned := false }
  | c :: r =>
    if c = 59 then
      if !p.mAllowsKeyOnly then
        { p := { p with mState := NVState.psInvalid }, rest := c :: r, pend := pend,
          returned := true }
      else
        { p := { p with
                  mMap := p.mMap.set p.mCurrentKey [],
                  mCurrentKey := [],
                  mState := NVState.psKeySpace },
          rest := r, pend := [], returned := false }
    else if c = 34 then
      { p := { p with mState := NVState.psValueInDQuotes }, rest := r, pend := [],
        returned := false }
    else if c = 39 then
      { p := { p with mState := NVState.psValueInSQuotes }, rest := r, pend := [],
        returned := false }
    else
      { p := { p with mCurrentValue := p.mCurrentValue ++ [c], mState := NVState.psValueRaw },
        rest := r, pend := [], returned := false }

/-- The `while` loop of the cases `psValueInDQuotes` (with `quote` the double
quote) and `psValueInSQuotes` (with the single quote), which are the same code
but for that byte. -/
def quotedLoop (quote : Byte) (p : NameValueParser) : List Byte → List Byte → NVLoop
  | [], pend => { p := p, rest := [], pend := pend, returned := false }
  | c :: r, pend =>
    if c = quote then
      { p := { p with
                mMap := p.mMap.set p.mCurrentKey (p.mCurrentValue ++ pend),
                mCurrentKey := [],
                mCurrentValue := [],
                mState := NVState.psAfterValue },
        rest := r, pend := [], returned := false }
    else quotedLoop quote p r (pend ++ [c])

/-- The cases `psValueInDQuotes` and `psValueInSQuotes` of the switch: the loop,
and the test `i == aSize` after it. -/
def caseValueInQuotes (quote : Byte) (p : NameValueParser) (rest pend : List Byte) : NVLoop :=
  let s := quotedLoop quote p rest pend
  if s.rest = [] then
    { p := { s.p with mCurrentValue := s.p.mCurrentValue ++ s.pend }, rest := [],
      pend := s.pend, returned := false }
  else s

/-- The `while` loop of the case `psValueRaw`. -/
def rawLoop (p : NameValueParser) : List Byte → List Byte → NVLoop
  | [], pend => { p := p, rest := [], pend := pend, returned := false }
  | c :: r, pend =>
    if c = 59 then
      { p := { p with
                mMap := p.mMap.set p.mCurrentKey (p.mCurrentValue ++ pend),
                mCurrentKey := [],
                mCurrentValue := [],
                mState := NVState.psKeySpace },
        rest := r, pend := [], returned := false }
    else rawLoop p r (pend ++ [c])

/-- The case `psValueRaw` of the switch: the loop, and the test `i == aSize`
after it. -/
def caseValueRaw (p : NameValueParser) (rest pend : List Byte) : NVLoop :=
  let s := rawLoop p rest pend
  if s.rest = [] then
    { p := { s.p with mCurrentValue := s.p.mCurrentValue ++ s.pend }, rest := [],
      pend := s.pend, returned := false }
  else s

/-- The `while` loop of the case `psAfterValue`. -/
def afterValueLoop (p : NameValueParser) : List Byte → List Byte → NVLoop
  | [], pend => { p := p, rest := [], pend := pend, returned := false }
  | c :: r, pend =>
    if c = 59 then
      { p := { p with mState := NVState.psKeySpace }, rest := r, pend := [],
        returned := false }
    else if ltSpace c then afterValueLoop p r (pend ++ [c])
    else
      { p := { p with mState := NVState.psInvalid }, rest := c :: r, pend := pend,
        returned := true }

/-- The `switch` of `NameValueParser::parse`: one turn of the `for` loop. -/
def dispatch (p : NameValueParser) (rest pend : List Byte) : NVLoop :=
  match p.mState with
  | NVState.psInvalid => { p := p, rest := rest, pend := pend, returned := true }
  | NVState.psFinished => { p := p, rest := rest, pend := pend, returned := true }
  | NVState.psKeySpace => caseKeySpace p rest pend
  | NVState.psKey => caseKey p rest pend
  | NVState.psEqualSpace => equalSpaceLoop p rest pend
  | NVState.psEqual => caseEqual p rest pend
  | NVState.psValueInDQuotes => caseValueInQuotes 34 p rest pend
  | NVState.psValueInSQuotes => caseValueInQuotes 39 p rest pend
  | NVState.psValueRaw => caseValueRaw p rest pend
  | NVState.psAfterValue => afterValueLoop p rest pend

/-- The `for` loop of `NameValueParser::parse`. A turn that consumes no byte
changes from `psKeySpace` to `psKey`, and the next one consumes a byte or
returns, so `2 * aSize + 1` turns of fuel are never used up. -/
def parseLoop : Nat → NameValueParser → List Byte → List Byte → NameValueParser
  | 0, p, _, _ => p
  | fuel + 1, p, rest, pend =>
    if rest = [] then p
    else
      let s := p.dispatch rest pend
      if s.returned then s.p else parseLoop fuel s.p s.rest s.pend

/-- Embedding of `NameValueParser::parse`. -/
def parse (p : NameValueParser) (aData : List Byte) : NameValueParser :=
  parseLoop (2 * aData.length + 1) p aData []

/-- The constructor `NameValueParser(aData, aSize, aAllowsKeyOnly)`. -/
def newParse (aData : List Byte) (aAllowsKeyOnly : Bool) : NameValueParser :=
  (new aAllowsKeyOnly).parse aData

/-- Embedding of `NameValueParser::finish`: the new state and the returned
value. -/
def finish (p : NameValueParser) : NameValueParser × Bool :=
  match p.mState with
  | NVState.psInvalid => (p, false)
  | NVState.psFinished => (p, true)
  | NVState.psKey | NVState.psEqualSpace | NVState.psEqual =>
    if p.mAllowsKeyOnly && !p.mCurrentKey.isEmpty then
      ({ p with mMap := p.mMap.set p.mCurrentKey [], mState := NVState.psFinished }, true)
    else ({ p with mState := NVState.psInvalid }, false)
  | NVState.psValueRaw =>
    ({ p with mMap := p.mMap.set p.mCurrentKey p.mCurrentValue,
              mState := NVState.psFinished }, true)
  | NVState.psValueInDQuotes | NVState.psValueInSQuotes =>
    ({ p with mState := NVState.psInvalid }, false)
  | NVState.psKeySpace | NVState.psAfterValue =>
    ({ p with mState := NVState.psFinished }, true)

/-- Embedding of `NameValueParser::isValid`. -/
def isValid (p : NameValueParser) : Bool := decide (p.mState ≠ NVState.psInvalid)

/-- Embedding of `NameValueParser::isFinished`. -/
def isFinished (p : NameValueParser) : Bool :=
  decide (p.mState = NVState.psInvalid) || decide (p.mState = NVState.psFinished)

end NameValueParser

/-! ### Reference definitions for name/value lists -/

/-- One item of a name/value list as it is written. -/
inductive NVItem where
  | keyOnly (k : List Byte)
  | raw (k v : List Byte)
  | dquoted (k v : List Byte)
  | squoted (k v : List Byte)
  deriving DecidableEq

/-- The key of an item. -/
def NVItem.key : NVItem → List Byte
  | NVItem.keyOnly k => k
  | NVItem.raw k _ => k
  | NVItem.dquoted k _ => k
  | NVItem.squoted k _ => k

/-- The value an item gives its key: the empty string for a key alone, a quoted
value without its quotes. -/
def NVItem.value : NVItem → List Byte
  | NVItem.keyOnly _ => []
  | NVItem.raw _ v => v
  | NVItem.dquoted _ v => v
  | NVItem.squoted _ v => v

/-- The bytes of an item: `k`, `k=v`, `k="v"` or `k='v'`. -/
def NVItem.encode : NVItem → List Byte
  | NVItem.keyOnly k => k
  | NVItem.raw k v => k ++ 61 :: v
  | NVItem.dquoted k v => k ++ 61 :: 34 :: (v ++ [34])
  | NVItem.squoted k v => k ++ 61 :: 39 :: (v ++ [39])

/-- A byte a key is made of: 0x21..0x7E other than `=`, `;` and the two quotes. -/
def isKeyByte (c : Byte) : Prop :=
  33 ≤ c ∧ c ≤ 126 ∧ c ≠ 61 ∧ c ≠ 59 ∧ c ≠ 34 ∧ c ≠ 39

instance (c : Byte) : Decidable (isKeyByte c) := by
  unfold isKeyByte; infer_instance

/-- The conditions on the value of an item: a raw value is not empty, does not
start with a quote and holds no `;`; a quoted value does not hold its quote. -/
def NVItem.valueOk : NVItem → Prop
  | NVItem.keyOnly _ => True
  | NVItem.raw _ v => v ≠ [] ∧ v.headD 0 ≠ 34 ∧ v.headD 0 ≠ 39 ∧ 59 ∉ v
  | NVItem.dquoted _ v => 34 ∉ v
  | NVItem.squoted _ v => 39 ∉ v

instance (it : NVItem) : Decidable it.valueOk := by
  cases it <;> unfold NVItem.valueOk <;> infer_instance

/-- A well-formed item: the key is not empty and made of key bytes, and the
value meets `valueOk`. -/
def NVItem.Wf (it : NVItem) : Prop :=
  it.key ≠ [] ∧ (∀ c ∈ it.key, isKeyByte c) ∧ it.valueOk

instance (it : NVItem) : Decidable it.Wf := by
  unfold NVItem.Wf; infer_instance

/-- The bytes of a list of items, each given with the number of spaces written
in front of it: the items are joined with `;`. -/
def serializeItems : List (Nat × NVItem) → List Byte
  | [] => []
  | [x] => List.replicate x.1 32 ++ x.2.encode
  | x :: y :: rest => List.replicate x.1 32 ++ x.2.encode ++ 59 :: serializeItems (y :: rest)

/-- The map a list of items denotes, on top of `m`: every key is given its
value, in order, so the last occurrence of a key wins. -/
def itemsMap (m : StringMap) (items : List NVItem) : StringMap :=
  items.foldl (fun acc it => acc.set it.key it.value) m

/-- The value the last item with the key `k` gives it, if there is such an item. -/
def lastValue (items : List NVItem) (k : List Byte) : Option (List Byte) :=
  (items.reverse.find? (fun it => decide (it.key = k))).map NVItem.value

end Http

namespace Http

/-! ## MultipartParser -/

/-- Index of the first occurrence of `needle` in `s`, counted from the head of
`s`: the model of `std::string::find(needle)`. -/
def findSub (needle : List Byte) : List Byte → Option Nat
  | [] => if needle = [] then some 0 else none
  | c :: r =>
    if needle.isPrefixOf (c :: r) then some 0 else (findSub needle r).map (· + 1)

/-- Model of `std::string::find(needle, pos)`. -/
def findFrom (needle s : List Byte) (pos : Nat) : Option Nat :=
  if pos ≤ s.length then (findSub needle (s.drop pos)).map (· + pos) else none

/-- Model of `strncmp(a, b, n) == 0` on two C strings: the comparison ends at
the first difference, at a NUL, or after `n` bytes. The end of a list stands
for the terminating NUL. -/
def strncmpEq : List Byte → List Byte → Nat → Bool
  | _, _, 0 => true
  | a, b, n + 1 =>
    if a.headD 0 ≠ b.headD 0 then false
    else if a.headD 0 = 0 then true
    else strncmpEq a.tail b.tail n

/-- A callback of `MultipartParser::Callbacks`. -/
inductive MPEvent where
  | onPartStart
  | onPartHeader (aKey aValue : List Byte)
  | onPartData (aData : List Byte)
  | onPartEnd
  deriving DecidableEq

/-- The members of `MultipartParser`. -/
structure MultipartParser where
  mIsValid : Bool
  mEnvelopeParser : EnvelopeParser
  mIncomingData : List Byte
  mBoundary : List Byte
  mHasHadData : Bool
  deriving DecidableEq

namespace MultipartParser

/-- The constructor `MultipartParser(aContentType, aCallbacks)`. -/
def new (aContentType : List Byte) : MultipartParser :=
  let p0 : MultipartParser :=
    { mIsValid := true, mEnvelopeParser := EnvelopeParser.new, mIncomingData := [],
      mBoundary := [], mHasHadData := false }
  if !strncmpEq aContentType (bytes "multipart/") 10 then { p0 with mIsValid := false }
  else
    match findFrom [59] aContentType 10 with
    | none => { p0 with mIsValid := false }
    | some idxSC =>
      let contentType := aContentType.drop (idxSC + 1)
      let ctParser := (NameValueParser.newParse contentType true).finish.1
      if !ctParser.isValid then { p0 with mIsValid := false }
      else
        let p1 := { p0 with mBoundary := ctParser.mMap.at (bytes "boundary") }
        if p1.mBoundary.isEmpty then { p1 with mIsValid := false }
        else
          { p1 with
              mEnvelopeParser := { p1.mEnvelopeParser with mIsInHeaders := false },
              mIncomingData := crlf }

/-- The two places of `MultipartParser::parse` that report as much data as
cannot belong to a boundary and return. -/
def flushMargin (p : MultipartParser) : MultipartParser × List MPEvent :=
  if p.mIncomingData.length > p.mBoundary.length + 8 then
    let bytesToReport := p.mIncomingData.length - p.mBoundary.length - 8
    ({ p with mIncomingData := p.mIncomingData.drop bytesToReport },
      [MPEvent.onPartData (p.mIncomingData.take bytesToReport)])
  else (p, [])

/-- The end of the loop body of `MultipartParser::parse`, from the search for the
end of the line on: the buffer starts with `\r\n--`, and the line after it is
a boundary, the last boundary, or data. The new state, the callbacks, and whether
the function returned (otherwise the loop goes on). -/
def candidateLine (p1 : MultipartParser) : MultipartParser × List MPEvent × Bool :=
  match findCRLF p1.mIncomingData 4 with
  | none => ((flushMargin p1).1, (flushMargin p1).2, true)
  | some lineEnd =>
    if lineEnd - 4 ≠ p1.mBoundary.length ∧ lineEnd - 4 ≠ p1.mBoundary.length + 2 then
      ({ p1 with mIncomingData := p1.mIncomingData.drop lineEnd },
        [MPEvent.onPartData (p1.mIncomingData.take lineEnd)], false)
    else if strncmpEq (p1.mIncomingData.drop 4) p1.mBoundary p1.mBoundary.length then
      let idxSlash := 4 + p1.mBoundary.length
      if p1.mIncomingData.getD idxSlash 0 = 45 ∧
          p1.mIncomingData.getD (idxSlash + 1) 0 = 45 then
        ({ p1 with mIncomingData := [] },
          [MPEvent.onPartEnd, MPEvent.onPartData (p1.mIncomingData.drop (idxSlash + 4))],
          true)
      else
        ({ p1 with
            mIncomingData := p1.mIncomingData.drop (lineEnd + 2),
            mEnvelopeParser := p1.mEnvelopeParser.reset },
          [MPEvent.onPartEnd, MPEvent.onPartStart], false)
    else
      ({ p1 with mIncomingData := p1.mIncomingData.drop lineEnd },
        [MPEvent.onPartData (p1.mIncomingData.take lineEnd)], false)

/-- The part of the loop body of `MultipartParser::parse` after the envelope
parser: the search for `\r\n--`, the report of the data in front of it, and the
handling of the line after it. The new state, the callbacks, and whether the
function returned. -/
def boundaryStep (p : MultipartParser) : MultipartParser × List MPEvent × Bool :=
  match findSub [13, 10, 45, 45] p.mIncomingData with
  | none => ((flushMargin p).1, (flushMargin p).2, true)
  | some idxBoundary =>
    let ev1 :=
      if idxBoundary > 0 then [MPEvent.onPartData (p.mIncomingData.take idxBoundary)] else []
    let p1 :=
      if idxBoundary > 0 then { p with mIncomingData := p.mIncomingData.drop idxBoundary }
      else p
    ((candidateLine p1).1, ev1 ++ (candidateLine p1).2.1, (candidateLine p1).2.2)

/-- The first part of the loop body of `MultipartParser::parse`: the envelope
parser, when it is in the headers, is given the whole buffer. The new state,
the callbacks (the header lines, passed on as `onPartHeader`), and whether the
function returned. -/
def envelopeStep (p : MultipartParser) (aSize : Nat) : MultipartParser × List MPEvent × Bool :=
  if p.mEnvelopeParser.mIsInHeaders then
    let r := p.mEnvelopeParser.parse p.mIncomingData
    let ev := r.2.1.map (fun h => MPEvent.onPartHeader h.1 h.2)
    let p0 := { p with mEnvelopeParser := r.1 }
    if r.2.2 = npos then ({ p0 with mIsValid := false }, ev, true)
    else if r.2.2 = aSize ∧ r.1.mIsInHeaders then (p0, ev, true)
    else ({ p0 with mIncomingData := p0.mIncomingData.drop r.2.2 }, ev, false)
  else (p, [], false)

/-- The loop `for (;;)` of `MultipartParser::parse`. Every turn that does not
return takes at least four bytes from the buffer, so the length of the buffer
bounds the number of turns. -/
def parseLoop : Nat → MultipartParser → Nat → MultipartParser × List MPEvent
  | 0, p, _ => (p, [])
  | fuel + 1, p, aSize =>
    let e := p.envelopeStep aSize
    if e.2.2 then (e.1, e.2.1)
    else
      let b := e.1.boundaryStep
      if b.2.2 then (b.1, e.2.1 ++ b.2.1)
      else
        let t := parseLoop fuel b.1 aSize
        (t.1, e.2.1 ++ b.2.1 ++ t.2)

/-- Embedding of `MultipartParser::parse`: the new state and the callbacks. -/
def parse (p : MultipartParser) (aData : List Byte) : MultipartParser × List MPEvent :=
  if !p.mIsValid then (p, [])
  else
    parseLoop ((p.mIncomingData ++ aData).length + 1)
      { p with mIncomingData := p.mIncomingData ++ aData } aData.length

/-- Feeding a list of slices to a multipart parser, one `parse` call per slice:
the final state and all callbacks in order. -/
def feed (p : MultipartParser) : List (List Byte) → MultipartParser × List MPEvent
  | [] => (p, [])
  | s :: rest => ((feed (p.parse s).1 rest).1, (p.parse s).2 ++ (feed (p.parse s).1 rest).2)

end MultipartParser

/-! ### Reference definitions for multipart streams -/

/-- One part of a multipart stream: its headers and its body. -/
structure Part where
  headers : List Header
  data : List Byte
  deriving DecidableEq

/-- The bytes `\r\n--` followed by the boundary: the start of a boundary line
with the CR LF in front of it. -/
def boundaryMark (b : List Byte) : List Byte := 13 :: 10 :: 45 :: 45 :: b

/-- What follows the first boundary of a stream: for each part CR LF, the header
block with its empty line, the body, CR LF and the next boundary; after the last
boundary `--` and CR LF. -/
def encodeParts (b : List Byte) : List Part → List Byte
  | [] => 45 :: 45 :: crlf
  | p :: rest =>
    crlf ++ encodeBlock p.headers ++ p.data ++ boundaryMark b ++ encodeParts b rest

/-- A multipart stream that starts with its first boundary. -/
def encodeMultipart (b : List Byte) (parts : List Part) : List Byte :=
  45 :: 45 :: b ++ encodeParts b parts

/-- A boundary the parser can be given and recognises: not empty; written as a
raw value of the `boundary` parameter, so without `;` and not opening with a
quote; without NUL, at which `strncmp` would stop; and without CR or LF. -/
def BoundaryOk (b : List Byte) : Prop :=
  b ≠ [] ∧ 59 ∉ b ∧ b.headD 0 ≠ 34 ∧ b.headD 0 ≠ 39 ∧ 0 ∉ b ∧ noCRorLF b

instance (b : List Byte) : Decidable (BoundaryOk b) := by
  unfold BoundaryOk; infer_instance

/-- A well-formed part: well-formed headers, and a body that does not hold
CR LF, `--` and the boundary. -/
def Part.Wf (b : List Byte) (p : Part) : Prop :=
  (∀ h ∈ p.headers, h.Wf) ∧ findSub (boundaryMark b) p.data = none

instance (b : List Byte) (p : Part) : Decidable (p.Wf b) := by
  unfold Part.Wf; infer_instance

/-- The callbacks of one part whose body is reported in the segments `segs`. -/
def Part.events (p : Part) (segs : List (List Byte)) : List MPEvent :=
  MPEvent.onPartStart :: (p.headers.map (fun h => MPEvent.onPartHeader h.key h.fullValue) ++
    (segs.map MPEvent.onPartData ++ [MPEvent.onPartEnd]))

/-- The callbacks of a list of parts, the body of each reported in the segments
given for it. -/
def partsEvents : List Part → List (List (List Byte)) → List MPEvent
  | p :: ps, segs :: segss => p.events segs ++ partsEvents ps segss
  | _, _ => []

end Http

namespace Http

/-! ## Utils: splitting, Base64 and URL decoding -/

namespace Utils

/-- Embedding of `hexToDec`: the value of a single hex digit, `0xff` for any
other char. -/
def hexToDec : Byte → Nat
  | 48 => 0
  | 49 => 1
  | 50 => 2
  | 51 => 3
  | 52 => 4
  | 53 => 5
  | 54 => 6
  | 55 => 7
  | 56 => 8
  | 57 => 9
  | 97 => 10
  | 98 => 11
  | 99 => 12
  | 100 => 13
  | 101 => 14
  | 102 => 15
  | 65 => 10
  | 66 => 11
  | 67 => 12
  | 68 => 13
  | 69 => 14
  | 70 => 15
  | _ => 255

/-- The loop of `Utils::stringSplit`: the input from the position the search has
reached, and `cur`, the input from `prev` to that position. A char of the
separator set ends the segment, which is pushed even when it is empty; what
follows the last separator is pushed only when `prev < aInput.length()`, that
is, when it is not empty. -/
def stringSplitLoop (aSeparator : List Byte) : List Byte → List Byte → List (List Byte)
  | [], cur => if cur ≠ [] then [cur] else []
  | c :: r, cur =>
    if c ∈ aSeparator then cur :: stringSplitLoop aSeparator r []
    else stringSplitLoop aSeparator r (cur ++ [c])

/-- Embedding of `Utils::stringSplit`. -/
def stringSplit (aInput aSeparator : List Byte) : List (List Byte) :=
  stringSplitLoop aSeparator aInput []

/-- Embedding of `Utils::noCaseCompare` (the branch without `_stricmp`): the
comparison of the two strings in lower case; only the sign of the result of
`std::string::compare` is specified, so the result is -1, 0 or 1. -/
def noCaseCompare (s1 s2 : List Byte) : Int :=
  if strToLower s1 = strToLower s2 then 0
  else if lexLt (strToLower s1) (strToLower s2) then -1
  else 1

/-- Embedding of `UnBase64`: the value of a char of the Base64 alphabet, -1 for
the padding char, -2 for any other char. -/
def UnBase64 (c : Byte) : Int :=
  if 65 ≤ c ∧ c ≤ 90 then (c : Int) - 65
  else if 97 ≤ c ∧ c ≤ 122 then (c : Int) - 97 + 26
  else if 48 ≤ c ∧ c ≤ 57 then (c : Int) - 48 + 52
  else if c = 43 then 62
  else if c = 47 then 63
  else if c = 61 then -1
  else -2

/-- The call `s.resize(n, 0)` on a string. -/
def resize (s : List Byte) (n : Nat) : List Byte :=
  s.take n ++ List.replicate (n - s.length) 0

/-- The statement `res[i] |= v` for an `int` value `v`: the char is or-ed with
the value and the result is cut to a char. -/
def orAt (res : List Byte) (i : Nat) (v : Nat) : List Byte :=
  res.set i ((res.getD i 0 ||| v) % 256)

/-- The `switch (o & 7)` of `Utils::base64Decode`, which stores the six bits `c`
at the bit offset `o` of the result. -/
def base64Store (res : List Byte) (o : Nat) (c : Nat) : List Byte :=
  match o &&& 7 with
  | 0 => orAt res (o >>> 3) (c <<< 2)
  | 6 => orAt (orAt res (o >>> 3) (c >>> 4)) ((o >>> 3) + 1) (c <<< 4)
  | 4 => orAt (orAt res (o >>> 3) (c >>> 2)) ((o >>> 3) + 1) (c <<< 6)
  | 2 => orAt res (o >>> 3) c
  | _ => res

/-- The loop of `Utils::base64Decode` from the char at `i` on: the rest of the
input, the bit offset `o` and the result string. -/
def base64DecodeLoop : List Byte → Nat → List Byte → List Byte
  | [], o, res => resize res (o >>> 3)
  | ch :: rest, o, res =>
    let c := UnBase64 ch
    let res1 := if 0 ≤ c then base64Store res o c.toNat else res
    let o1 := if 0 ≤ c then sizeAdd o 6 else o
    if c = -1 then resize res1 (o1 >>> 3)
    else base64DecodeLoop rest o1 res1

/-- Embedding of `Utils::base64Decode`. -/
def base64Decode (aBase64String : List Byte) : List Byte :=
  base64DecodeLoop aBase64String 0
    (resize [] (sizeAdd (sizeMul aBase64String.length 4 / 3) 5))

/-- Embedding of `Utils::replaceAllCharOccurrences`. -/
def replaceAllCharOccurrences (aString : List Byte) (aFrom aTo : Byte) : List Byte :=
  aString.map (fun c => if c = aFrom then aTo else c)

/-- Embedding of `UnicodeCharToUtf8`, on an `unsigned` of 32 bits: the
subtraction wraps, every byte is cut to a char. -/
def UnicodeCharToUtf8 (aUnicodeChar : Nat) : List Byte :=
  if aUnicodeChar < 0x80 then [aUnicodeChar % 256]
  else if aUnicodeChar < 0x800 then
    [(192 + aUnicodeChar / 64) % 256, (128 + aUnicodeChar % 64) % 256]
  else if (aUnicodeChar + (2 ^ 32 - 0xd800)) % 2 ^ 32 < 0x800 then []
  else if aUnicodeChar < 0x10000 then
    [(224 + aUnicodeChar / 4096) % 256, (128 + (aUnicodeChar / 64) % 64) % 256,
      (128 + aUnicodeChar % 64) % 256]
  else if aUnicodeChar < 0x110000 then
    [(240 + aUnicodeChar / 262144) % 256, (128 + (aUnicodeChar / 4096) % 64) % 256,
      (128 + (aUnicodeChar / 64) % 64) % 256, (128 + aUnicodeChar % 64) % 256]
  else []

/-- The loop of `Utils::urlDecode` from the char at `i` on: the rest of the
input and the result so far. The tests `i + 1 >= len`, `i + 6 >= len` and
`i + 2 >= len` are tests on the length of the rest. A failure returns the empty
string. -/
def urlDecodeLoop : List Byte → List Byte → Bool × List Byte
  | [], res => (true, res)
  | c :: r, res =>
    if c = 43 then urlDecodeLoop r (res ++ [32])
    else if c ≠ 37 then urlDecodeLoop r (res ++ [c])
    else
      match r with
      | [] => (false, [])
      | c1 :: r1 =>
        if c1 = 117 ∨ c1 = 85 then
          match r1 with
          | c2 :: c3 :: c4 :: c5 :: c6 :: r6 =>
            if c2 ≠ 48 then (false, [])
            else if hexToDec c3 = 255 ∨ hexToDec c4 = 255 ∨ hexToDec c6 = 255 ∨
                hexToDec c5 = 255 then (false, [])
            else
              urlDecodeLoop r6 (res ++ UnicodeCharToUtf8
                ((hexToDec c3 <<< 12) ||| (hexToDec c4 <<< 8) ||| (hexToDec c5 <<< 4) |||
                  hexToDec c6))
          | _ => (false, [])
        else
          match r1 with
          | [] => (false, [])
          | c2 :: r2 =>
            if hexToDec c1 = 255 ∨ hexToDec c2 = 255 then (false, [])
            else urlDecodeLoop r2 (res ++ [((hexToDec c1 <<< 4) ||| hexToDec c2) % 256])

/-- Embedding of `Utils::urlDecode`: whether the decoding was successful, and
the decoded string. -/
def urlDecode (aText : List Byte) : Bool × List Byte :=
  urlDecodeLoop aText []

end Utils

/-! ### Reference definitions for the encodings -/

/-- One unit of a percent-encoded text: a byte written as itself, a space
written as `+`, or a byte written as `%` and two hex digits. -/
inductive UrlToken where
  | literal (c : Byte)
  | plus
  | escape (h1 h2 : Byte)
  deriving DecidableEq

/-- The bytes a unit is written as. -/
def UrlToken.encode : UrlToken → List Byte
  | UrlToken.literal c => [c]
  | UrlToken.plus => [43]
  | UrlToken.escape h1 h2 => [37, h1, h2]

/-- The byte a unit stands for. -/
def UrlToken.byte : UrlToken → Byte
  | UrlToken.literal c => c
  | UrlToken.plus => 32
  | UrlToken.escape h1 h2 => hexDigitValue h1 * 16 + hexDigitValue h2

/-- A unit of a percent-encoder: a byte written as itself is not `+` or `%`, the
two chars after a `%` are hex digits (of either case). -/
def UrlToken.Wf : UrlToken → Prop
  | UrlToken.literal c => c ≠ 43 ∧ c ≠ 37
  | UrlToken.plus => True
  | UrlToken.escape h1 h2 => isHexDigit h1 ∧ isHexDigit h2

instance (t : UrlToken) : Decidable t.Wf := by
  cases t <;> unfold UrlToken.Wf <;> infer_instance

/-- The percent-encoded text of a list of units. -/
def urlEncode (ts : List UrlToken) : List Byte := (ts.map UrlToken.encode).flatten

/-- The byte string a list of units stands for. -/
def urlDecoded (ts : List UrlToken) : List Byte := ts.map UrlToken.byte

/-- The UTF-8 encoding of a code point (RFC 3629), written with the bit patterns
of the encoding: `0xxxxxxx`, `110xxxxx 10xxxxxx`, `1110xxxx 10xxxxxx 10xxxxxx`,
`11110xxx 10xxxxxx 10xxxxxx 10xxxxxx`. -/
def utf8 (cp : Nat) : List Byte :=
  if cp < 0x80 then [cp]
  else if cp < 0x800 then [0xC0 ||| (cp >>> 6), 0x80 ||| (cp &&& 0x3F)]
  else if cp < 0x10000 then
    [0xE0 ||| (cp >>> 12), 0x80 ||| ((cp >>> 6) &&& 0x3F), 0x80 ||| (cp &&& 0x3F)]
  else
    [0xF0 ||| (cp >>> 18), 0x80 ||| ((cp >>> 12) &&& 0x3F), 0x80 ||| ((cp >>> 6) &&& 0x3F),
      0x80 ||| (cp &&& 0x3F)]

/-- The char of the Base64 alphabet (RFC 4648) for a value below 64. -/
def base64Char (n : Nat) : Byte :=
  if n < 26 then 65 + n
  else if n < 52 then 97 + (n - 26)
  else if n < 62 then 48 + (n - 52)
  else if n = 62 then 43
  else 47

/-- The standard padded Base64 encoding (RFC 4648) of a byte string: three
bytes give four chars; two bytes left give three chars and `=`; one byte left
gives two chars and `==`. -/
def base64Encode : List Byte → List Byte
  | a :: b :: c :: rest =>
    base64Char (a / 4) :: base64Char (a % 4 * 16 + b / 16) ::
      base64Char (b % 16 * 4 + c / 64) :: base64Char (c % 64) :: base64Encode rest
  | [a, b] =>
    [base64Char (a / 4), base64Char (a % 4 * 16 + b / 16), base64Char (b % 16 * 4), 61]
  | [a] => [base64Char (a / 4), base64Char (a % 4 * 16), 61, 61]
  | [] => []

/-- The chars of Base64 text: `A`-`Z`, `a`-`z`, `0`-`9`, `+`, `/` and `=`. -/
def isBase64Char (c : Byte) : Bool :=
  (decide (65 ≤ c) && decide (c ≤ 90)) || (decide (97 ≤ c) && decide (c ≤ 122)) ||
    (decide (48 ≤ c) && decide (c ≤ 57)) || decide (c = 43) || decide (c = 47) || decide (c = 61)

end Http

namespace Http

/-! ## Message and IncomingRequest -/

/-- The enum `Message::Kind`. -/
inductive Message.Kind where
  | mkRequest
  | mkResponse
  deriving DecidableEq

/-- The members of `Message`. -/
structure Message where
  mKind : Message.Kind
  mHeaders : StringMap
  mContentType : List Byte
  mContentLength : Nat
  deriving DecidableEq

namespace Message

/-- The constructor `Message(aKind)`. -/
def new (aKind : Message.Kind) : Message :=
  { mKind := aKind, mHeaders := [], mContentType := [], mContentLength := npos }

/-- Embedding of `Message::addHeader`. -/
def addHeader (m : Message) (aKey aValue : List Byte) : Message :=
  let Key := Utils.strToLower aKey
  let m1 : Message :=
    match m.mHeaders.find Key with
    | none => { m with mHeaders := m.mHeaders.set Key aValue }
    | some v => { m with mHeaders := m.mHeaders.set Key (v ++ bytes ", " ++ aValue) }
  if Key = bytes "content-type" then { m1 with mContentType := m1.mHeaders.at Key }
  else if Key = bytes "content-length" then
    match Utils.stringToInteger (m1.mHeaders.at Key) with
    | some n => { m1 with mContentLength := n }
    | none => { m1 with mContentLength := 0 }
  else m1

/-- Embedding of `Message::headerToValue`. -/
def headerToValue (m : Message) (aKey aDefault : List Byte) : List Byte :=
  match m.mHeaders.find (Utils.strToLower aKey) with
  | none => aDefault
  | some v => v

/-- Embedding of `Message::setContentType`. -/
def setContentType (m : Message) (aContentType : List Byte) : Message :=
  { m with
    mHeaders := m.mHeaders.set (bytes "content-type") aContentType
    mContentType := aContentType }

/-- Embedding of `Message::setContentLength`; `printf("%llu", n)` writes the
decimal digits of `n`. -/
def setContentLength (m : Message) (aContentLength : Nat) : Message :=
  { m with
    mHeaders := m.mHeaders.set (bytes "content-length") (Utils.decOfNat aContentLength)
    mContentLength := aContentLength }

end Message

/-- The calls a client can make to change the headers of a message. -/
inductive MessageOp where
  | addHeader (aKey aValue : List Byte)
  | setContentType (aContentType : List Byte)
  | setContentLength (aContentLength : Nat)
  deriving DecidableEq

/-- One call on a message. -/
def Message.apply (m : Message) : MessageOp → Message
  | MessageOp.addHeader aKey aValue => m.addHeader aKey aValue
  | MessageOp.setContentType aContentType => m.setContentType aContentType
  | MessageOp.setContentLength aContentLength => m.setContentLength aContentLength

/-- A sequence of calls on a message, in order. -/
def Message.applyAll (m : Message) (ops : List MessageOp) : Message :=
  ops.foldl Message.apply m

/-- A sequence of `addHeader` calls on a message, in order. -/
def Message.addHeaders (m : Message) (hs : List (List Byte × List Byte)) : Message :=
  hs.foldl (fun acc h => acc.addHeader h.1 h.2) m

/-- The values `v1`, ..., `vk` joined with a comma and a space. -/
def joinValues : List (List Byte) → List Byte
  | [] => []
  | [v] => v
  | v :: w :: rest => v ++ bytes ", " ++ joinValues (w :: rest)

/-- The members of `IncomingRequest`, which derives from `Message`; the user
data pointer, which no function of the class reads, is left out. -/
structure IncomingRequest extends Message where
  mMethod : List Byte
  mURL : List Byte
  mHasAuth : Bool
  mAuthUsername : List Byte
  mAuthPassword : List Byte
  mAllowKeepAlive : Bool
  deriving DecidableEq

namespace IncomingRequest

/-- The constructor `IncomingRequest(aMethod, aURL)`. It does not initialise
`mAllowKeepAlive`, whose indeterminate value is the argument `allowKeepAlive0`. -/
def new (aMethod aURL : List Byte) (allowKeepAlive0 : Bool) : IncomingRequest :=
  { toMessage := Message.new Message.Kind.mkRequest
    mMethod := aMethod
    mURL := aURL
    mHasAuth := false
    mAuthUsername := []
    mAuthPassword := []
    mAllowKeepAlive := allowKeepAlive0 }

/-- Embedding of `IncomingRequest::addHeader`. -/
def addHeader (r : IncomingRequest) (aKey aValue : List Byte) : IncomingRequest :=
  let r1 : IncomingRequest :=
    if Utils.noCaseCompare aKey (bytes "Authorization") = 0 ∧
        strncmpEq aValue (bytes "Basic ") 6 = true then
      let UserPass := Utils.base64Decode (aValue.drop 6)
      match findSub [58] UserPass with
      | some idxCol =>
        { r with
          mAuthUsername := UserPass.take idxCol
          mAuthPassword := UserPass.drop (idxCol + 1)
          mHasAuth := true }
      | none => r
    else r
  let r2 : IncomingRequest :=
    if aKey = bytes "Connection" ∧ Utils.noCaseCompare aValue (bytes "keep-alive") = 0 then
      { r1 with mAllowKeepAlive := true }
    else r1
  { r2 with toMessage := r2.toMessage.addHeader aKey aValue }

end IncomingRequest

end Http

namespace Http

/-! ## FormParser -/

/-- The enum `FormParser::Kind`. -/
inductive FormParser.Kind where
  | fpkURL
  | fpkFormUrlEncoded
  | fpkMultipart
  deriving DecidableEq

/-- A callback of `FormParser::Callbacks`. -/
inductive FormEvent where
  | onFileStart (aFileName : List Byte)
  | onFileData (aData : List Byte)
  | onFileEnd
  deriving DecidableEq

/-- The members of `FormParser`, `mMap` being the map it derives from. The
multipart parser is `none` for the null pointer. -/
structure FormParser where
  mMap : StringMap
  mKind : FormParser.Kind
  mIncomingData : List Byte
  mIsValid : Bool
  mMultipartParser : Option MultipartParser
  mCurrentPartName : List Byte
  mIsCurrentPartFile : Bool
  mCurrentPartFileName : List Byte
  mFileHasBeenAnnounced : Bool
  deriving DecidableEq

namespace FormParser

/-- The loop of `FormParser::parseFormUrlEncoded` over the lines: the new state
and whether the function returned from inside the loop. -/
def parseLines (p : FormParser) : List (List Byte) → FormParser × Bool
  | [] => (p, false)
  | line :: rest =>
    match Utils.stringSplit line (bytes "=") with
    | [c0] =>
      let name := Utils.urlDecode (Utils.replaceAllCharOccurrences c0 43 32)
      parseLines (if name.1 then { p with mMap := p.mMap.set name.2 [] } else p) rest
    | [c0, c1] =>
      let name := Utils.urlDecode c0
      let value := Utils.urlDecode c1
      parseLines
        (if name.1 && value.1 then { p with mMap := p.mMap.set name.2 value.2 } else p) rest
    | _ => ({ p with mIsValid := false }, true)

/-- Embedding of `FormParser::parseFormUrlEncoded`. -/
def parseFormUrlEncoded (p : FormParser) : FormParser :=
  let r := p.parseLines (Utils.stringSplit p.mIncomingData (bytes "&"))
  if r.2 then r.1 else { r.1 with mIncomingData := [] }

/-- Embedding of `FormParser::onPartStart`. -/
def onPartStart (p : FormParser) : FormParser :=
  { p with
    mCurrentPartFileName := []
    mCurrentPartName := []
    mIsCurrentPartFile := false
    mFileHasBeenAnnounced := false }

/-- The loop of `FormParser::onPartHeader` that looks for the first char above
the space: the index of that char, if there is one. -/
def firstAboveSpace : List Byte → Option Nat
  | [] => none
  | c :: r => if NameValueParser.gtSpace c then some 0 else (firstAboveSpace r).map (· + 1)

/-- Embedding of `FormParser::onPartHeader`. -/
def onPartHeader (p : FormParser) (aKey aValue : List Byte) : FormParser :=
  if Utils.noCaseCompare aKey (bytes "Content-Disposition") = 0 then
    match firstAboveSpace aValue with
    | none => { p with mIsValid := false }
    | some i =>
      if !strncmpEq (aValue.drop i) (bytes "form-data") 9 then { p with mIsValid := false }
      else
        match findFrom [59] aValue (i + 9) with
        | none => { p with mIsValid := false }
        | some ParamsStart =>
          let Parser := (NameValueParser.newParse (aValue.drop ParamsStart) true).finish.1
          let p1 := { p with mCurrentPartName := Parser.mMap.at (bytes "name") }
          if !Parser.isValid || p1.mCurrentPartName.isEmpty then { p1 with mIsValid := false }
          else { p1 with mCurrentPartFileName := Parser.mMap.at (bytes "filename") }
  else p

/-- Embedding of `FormParser::onPartData`: the new state and the callbacks. -/
def onPartData (p : FormParser) (aData : List Byte) : FormParser × List FormEvent :=
  if p.mCurrentPartName.isEmpty then (p, [])
  else if p.mCurrentPartFileName.isEmpty then
    match p.mMap.find p.mCurrentPartName with
    | none => ({ p with mMap := p.mMap.set p.mCurrentPartName aData }, [])
    | some v => ({ p with mMap := p.mMap.set p.mCurrentPartName (v ++ aData) }, [])
  else if !p.mFileHasBeenAnnounced then
    ({ p with mFileHasBeenAnnounced := true },
      [FormEvent.onFileStart p.mCurrentPartFileName, FormEvent.onFileData aData])
  else (p, [FormEvent.onFileData aData])

/-- Embedding of `FormParser::onPartEnd`: the new state and the callbacks. -/
def onPartEnd (p : FormParser) : FormParser × List FormEvent :=
  ({ p with mCurrentPartName := [], mCurrentPartFileName := [] },
    if p.mFileHasBeenAnnounced then [FormEvent.onFileEnd] else [])

/-- One callback of the multipart parser, received by the form parser. -/
def onMPEvent (p : FormParser) : MPEvent → FormParser × List FormEvent
  | MPEvent.onPartStart => (p.onPartStart, [])
  | MPEvent.onPartHeader aKey aValue => (p.onPartHeader aKey aValue, [])
  | MPEvent.onPartData aData => p.onPartData aData
  | MPEvent.onPartEnd => p.onPartEnd

/-- The callbacks of the multipart parser, received in order. -/
def onMPEvents (p : FormParser) : List MPEvent → FormParser × List FormEvent
  | [] => (p, [])
  | e :: rest =>
    ((onMPEvents (p.onMPEvent e).1 rest).1, (p.onMPEvent e).2 ++ (onMPEvents (p.onMPEvent e).1 rest).2)

/-- Embedding of `FormParser::parse`: the new state and the callbacks. The
callbacks of the multipart parser change the form parser only, so they are
applied to it after the call of `MultipartParser::parse`. A multipart form
without a multipart parser (which the constructor from a request never builds)
is left as it is. -/
def parse (p : FormParser) (aData : List Byte) : FormParser × List FormEvent :=
  if !p.mIsValid then (p, [])
  else
    match p.mKind with
    | Kind.fpkURL | Kind.fpkFormUrlEncoded =>
      ({ p with mIncomingData := p.mIncomingData ++ aData }, [])
    | Kind.fpkMultipart =>
      match p.mMultipartParser with
      | none => (p, [])
      | some mp =>
        onMPEvents { p with mMultipartParser := some (mp.parse aData).1 } (mp.parse aData).2

/-- Embedding of `FormParser::finish`: the new state and the returned value. -/
def finish (p : FormParser) : FormParser × Bool :=
  let p1 :=
    match p.mKind with
    | Kind.fpkURL | Kind.fpkFormUrlEncoded => p.parseFormUrlEncoded
    | Kind.fpkMultipart => p
  (p1, p1.mIsValid && p1.mIncomingData.isEmpty)

/-- The members after the initialiser list of the constructors; `mKind` is set
by the initialiser list of the second constructor only. -/
def init (aKind : Kind) : FormParser :=
  { mMap := []
    mKind := aKind
    mIncomingData := []
    mIsValid := true
    mMultipartParser := none
    mCurrentPartName := []
    mIsCurrentPartFile := false
    mCurrentPartFileName := []
    mFileHasBeenAnnounced := false }

/-- The constructor `FormParser(aRequest, aCallbacks)`. It leaves `mKind`
uninitialised when the request is not a form; `kind0` is that indeterminate
value (a value outside the enum behaves as `fpkMultipart` in `finish`, which
does nothing for it). -/
def new (aRequest : IncomingRequest) (kind0 : Kind) : FormParser :=
  if aRequest.mMethod = bytes "GET" then
    let p := init Kind.fpkURL
    match findSub [63] aRequest.mURL with
    | some idxQM => (p.parse (aRequest.mURL.drop (idxQM + 1))).1
    | none => p
  else if (aRequest.mMethod = bytes "POST" ∨ aRequest.mMethod = bytes "PUT") ∧
      strncmpEq aRequest.mContentType (bytes "application/x-www-form-urlencoded") 33 = true then
    init Kind.fpkFormUrlEncoded
  else if (aRequest.mMethod = bytes "POST" ∨ aRequest.mMethod = bytes "PUT") ∧
      strncmpEq aRequest.mContentType (bytes "multipart/form-data") 19 = true then
    { init Kind.fpkMultipart with
      mMultipartParser := some (MultipartParser.new aRequest.mContentType) }
  else { init kind0 with mIsValid := false }

/-- The constructor `FormParser(aKind, aData, aSize, aCallbacks)`: the new
parser and the callbacks. -/
def newKind (aKind : Kind) (aData : List Byte) : FormParser × List FormEvent :=
  (init aKind).parse aData

/-- Feeding a list of slices to a form parser, one `parse` call per slice: the
final state and all callbacks in order. -/
def feed (p : FormParser) : List (List Byte) → FormParser × List FormEvent
  | [] => (p, [])
  | s :: rest => ((feed (p.parse s).1 rest).1, (p.parse s).2 ++ (feed (p.parse s).1 rest).2)

end FormParser

/-! ### Reference definitions for forms -/

/-- A unit of the percent-encoder of a form: a byte written as itself is none
of `&`, `=`, `+` and `%`. -/
def UrlToken.FormWf (t : UrlToken) : Prop :=
  t.Wf ∧ t ≠ UrlToken.literal 38 ∧ t ≠ UrlToken.literal 61

instance (t : UrlToken) : Decidable t.FormWf := by
  unfold UrlToken.FormWf; infer_instance

/-- The body of a form: `enc(name)=enc(value)` for each pair, joined with `&`. -/
def encodeForm : List (List UrlToken × List UrlToken) → List Byte
  | [] => []
  | [x] => urlEncode x.1 ++ 61 :: urlEncode x.2
  | x :: y :: rest => urlEncode x.1 ++ 61 :: urlEncode x.2 ++ 38 :: encodeForm (y :: rest)

/-- The map a list of pairs denotes, on top of `m`: every name is given its
value, in order, so the last occurrence of a name wins. -/
def formMapFrom (m : StringMap) (pairs : List (List UrlToken × List UrlToken)) : StringMap :=
  pairs.foldl (fun acc x => acc.set (urlDecoded x.1) (urlDecoded x.2)) m

/-- The map a list of pairs denotes. -/
def formMap (pairs : List (List UrlToken × List UrlToken)) : StringMap :=
  formMapFrom [] pairs

/-- One part of a multipart form: its name, its file name when it is a file,
and its content. -/
structure FormPart where
  name : List Byte
  fileName : Option (List Byte)
  content : List Byte
  deriving DecidableEq

/-- The value of the `Content-Disposition` header of a part:
`form-data; name="N"` or `form-data; name="N"; filename="F"`. -/
def FormPart.disposition (x : FormPart) : List Byte :=
  match x.fileName with
  | none => bytes "form-data; name=" ++ 34 :: (x.name ++ [34])
  | some f =>
    bytes "form-data; name=" ++ 34 :: (x.name ++ [34]) ++ bytes "; filename=" ++ 34 :: (f ++ [34])

/-- The parameters of the `Content-Disposition` header of a part, each with the
space written in front of it. -/
def FormPart.items (x : FormPart) : List (Nat × NVItem) :=
  match x.fileName with
  | none => [(1, NVItem.dquoted (bytes "name") x.name)]
  | some f => [(1, NVItem.dquoted (bytes "name") x.name), (1, NVItem.dquoted (bytes "filename") f)]

/-- The part of a multipart stream for a part of a form. -/
def FormPart.toPart (x : FormPart) : Part :=
  { headers := [Header.mk (bytes "Content-Disposition") x.disposition []], data := x.content }

/-- The condition on the file name of a part: a file name is not empty and holds
no double quote, CR or LF. -/
def FormPart.fileNameOk (x : FormPart) : Prop :=
  match x.fileName with
  | none => True
  | some f => f ≠ [] ∧ 34 ∉ f ∧ noCRorLF f

instance (x : FormPart) : Decidable x.fileNameOk := by
  unfold FormPart.fileNameOk; cases x.fileName <;> infer_instance

/-- A well-formed part of a form for the boundary `b`: the name is not empty and
holds no double quote, CR or LF, the file name is as `fileNameOk` states, the
content is not empty and does not hold CR LF `--` and the boundary. -/
def FormPart.Wf (b : List Byte) (x : FormPart) : Prop :=
  x.name ≠ [] ∧ 34 ∉ x.name ∧ noCRorLF x.name ∧ x.fileNameOk ∧
    x.content ≠ [] ∧ findSub (boundaryMark b) x.content = none

instance (b : List Byte) (x : FormPart) : Decidable (x.Wf b) := by
  unfold FormPart.Wf; infer_instance

/-- The map the fields of a form denote, on top of `m`: every field is given its
content, in order; a file gives nothing. -/
def fieldMapFrom (m : StringMap) (parts : List FormPart) : StringMap :=
  parts.foldl (fun acc x =>
    match x.fileName with
    | none => acc.set x.name x.content
    | some _ => acc) m

/-- The map the fields of a form denote. -/
def fieldMap (parts : List FormPart) : StringMap := fieldMapFrom [] parts

/-- The callbacks of the files of a form, the content of each part reported in
the segments given for it: `onFileStart`, `onFileData` for each segment, and
`onFileEnd`. -/
def fileEvents : List FormPart → List (List (List Byte)) → List FormEvent
  | x :: xs, segs :: segss =>
    match x.fileName with
    | none => fileEvents xs segss
    | some f =>
      FormEvent.onFileStart f :: (segs.map FormEvent.onFileData ++
        FormEvent.onFileEnd :: fileEvents xs segss)
  | _, _ => []

end Http

namespace Http

/-! ## Serialization of responses -/

namespace Utils

/-- The bytes `printf` writes for a `%d` argument. -/
def decOfInt (n : Int) : List Byte :=
  if n < 0 then 45 :: decOfNat n.natAbs else decOfNat n.toNat

/-- Embedding of `appendVPrintf`, given the text `formatted` that the format and
its arguments produce. `vsnprintf` returns the length of that text as an `int`,
and cannot when the text is longer than `INT_MAX`: the result is then `none`.
A text of fewer than 2048 chars is read from the static buffer, a longer one
from a vector of `len + 1` chars. -/
def appendVPrintf (str formatted : List Byte) : Option (List Byte) :=
  if 2 ^ 31 ≤ formatted.length then none
  else if formatted.length < 2048 then some (str ++ (formatted.take 2047).take formatted.length)
  else some (str ++ formatted.take (formatted.length + 1 - 1))

/-- Embedding of `Utils::printf`, given the text that the format and its
arguments produce. -/
def printf (formatted : List Byte) : Option (List Byte) :=
  appendVPrintf [] formatted

end Utils

/-- The text `printf("HTTP/1.1 %d %s\r\n", aStatusCode, aStatusText.c_str())`
formats: a `%s` argument is read up to its first NUL. -/
def statusFormat (aStatusCode : Int) (aStatusText : List Byte) : List Byte :=
  bytes "HTTP/1.1 " ++ Utils.decOfInt aStatusCode ++ 32 :: (Utils.cstr aStatusText ++ crlf)

namespace OutgoingResponse

/-- The constructor `OutgoingResponse()`; the class adds no member to
`Message`. -/
def new : Message := Message.new Message.Kind.mkResponse

/-- The loop of `OutgoingResponse::serialize` over the headers. -/
def appendHeaders (res : List Byte) : StringMap → List Byte
  | [] => res
  | hdr :: rest => appendHeaders (res ++ hdr.1 ++ bytes ": " ++ hdr.2 ++ bytes "\r\n") rest

/-- Embedding of `OutgoingResponse::serialize`: `none` when `printf` fails. -/
def serialize (m : Message) (aStatusCode : Int) (aStatusText : List Byte) :
    Option (List Byte) :=
  match Utils.printf (statusFormat aStatusCode aStatusText) with
  | none => none
  | some res => some (appendHeaders res m.mHeaders ++ bytes "\r\n")

end OutgoingResponse

namespace SimpleOutgoingResponse

/-- The loop of `SimpleOutgoingResponse::serialize` over the headers: every line
is formatted with `printf("%s: %s\r\n", ...)`. -/
def appendHeaders (res : List Byte) : StringMap → Option (List Byte)
  | [] => some res
  | hdr :: rest =>
    match Utils.printf (Utils.cstr hdr.1 ++ bytes ": " ++ Utils.cstr hdr.2 ++ bytes "\r\n") with
    | none => none
    | some line => appendHeaders (res ++ line) rest

/-- Embedding of `SimpleOutgoingResponse::serialize(aStatusCode, aStatusText,
aHeaders, aBody)`: `none` when `printf` fails. -/
def serialize (aStatusCode : Int) (aStatusText : List Byte) (aHeaders : StringMap)
    (aBody : List Byte) : Option (List Byte) :=
  match Utils.printf (statusFormat aStatusCode aStatusText) with
  | none => none
  | some res =>
    match appendHeaders res aHeaders with
    | none => none
    | some res2 => some (res2 ++ bytes "\r\n" ++ aBody)

/-- Embedding of `SimpleOutgoingResponse::serialize(aStatusCode, aStatusText,
aBody)`, the overload that provides the `Content-Length` header only. -/
def serializeBody (aStatusCode : Int) (aStatusText aBody : List Byte) : Option (List Byte) :=
  serialize aStatusCode aStatusText
    (StringMap.set [] (bytes "Content-Length") (Utils.decOfNat aBody.length)) aBody

/-- Embedding of `SimpleOutgoingResponse::serialize(aStatusCode, aStatusText,
aContentType, aBody)`, the overload that provides the `Content-Type` and
`Content-Length` headers; the map keeps them in the order of the keys. -/
def serializeType (aStatusCode : Int) (aStatusText aContentType aBody : List Byte) :
    Option (List Byte) :=
  serialize aStatusCode aStatusText
    ((StringMap.set [] (bytes "Content-Type") aContentType).set (bytes "Content-Length")
      (Utils.decOfNat aBody.length)) aBody

end SimpleOutgoingResponse

/-! ### Reference definitions for responses -/

/-- The decimal representation of an integer: a minus sign for a negative
number, then the digits. -/
def decimalInt (n : Int) : List Byte :=
  if n < 0 then 45 :: decimal n.natAbs else decimal n.natAbs

/-- The status line of a response, without its CR LF. -/
def statusLine (c : Int) (r : List Byte) : List Byte :=
  bytes "HTTP/1.1 " ++ decimalInt c ++ 32 :: r

/-- The header lines of a map, each `name: value` and CR LF, in the order of
the map. -/
def headerLines (h : StringMap) : List Byte :=
  (h.map (fun x => x.1 ++ 58 :: 32 :: x.2 ++ crlf)).flatten

/-! ## The assertions of `MessageParser::parse` -/

namespace MessageParser

/-- The values of the two `assert`s that follow the call of `parseFirstLine` in
`MessageParser::parse`, for a parser that is still waiting for the first line:
`bytesConsumedFirstLine <= inBufferSoFar + aSize` and
`bytesConsumedFirstLine > inBufferSoFar`. -/
def firstLineAsserts (p : MessageParser) (aData : List Byte) : Bool × Bool :=
  let inBufferSoFar := p.mBuffer.length
  let r1 := parseFirstLine { p with mBuffer := p.mBuffer ++ aData }
  (decide (r1.2.2 ≤ sizeAdd inBufferSoFar aData.length), decide (r1.2.2 > inBufferSoFar))

/-- The value of the `assert` that follows the call of the envelope parser in
the first path of `MessageParser::parse`:
`bytesConsumedEnvelope <= bytesConsumedFirstLine + aSize`. -/
def envelopeAssert (p : MessageParser) (aData : List Byte) : Bool :=
  let r1 := parseFirstLine { p with mBuffer := p.mBuffer ++ aData }
  let r2 := r1.1.parseEnvelope r1.1.mBuffer
  decide (r2.2.2 ≤ sizeAdd r1.2.2 aData.length)

end MessageParser

/-! ### Reference definitions for the order of the multipart callbacks -/

/-- Where a sequence of callbacks stands: outside any part, in the headers of a
part, or in the data of a part. -/
inductive PartPhase where
  | outside
  | headers
  | data
  deriving DecidableEq

/-- The order of the callbacks of a part: `onPartStart`, then `onPartHeader`
callbacks, then `onPartData` callbacks, then `onPartEnd`. The phase after a
callback, `none` when the callback is out of order. -/
def orderStep : PartPhase → MPEvent → Option PartPhase
  | PartPhase.outside, MPEvent.onPartStart => some PartPhase.headers
  | PartPhase.headers, MPEvent.onPartHeader _ _ => some PartPhase.headers
  | PartPhase.headers, MPEvent.onPartData _ => some PartPhase.data
  | PartPhase.data, MPEvent.onPartData _ => some PartPhase.data
  | PartPhase.headers, MPEvent.onPartEnd => some PartPhase.outside
  | PartPhase.data, MPEvent.onPartEnd => some PartPhase.outside
  | _, _ => none

/-- The phase after a sequence of callbacks, `none` when one of them is out of
order. -/
def orderRun : PartPhase → List MPEvent → Option PartPhase
  | ph, [] => some ph
  | ph, e :: rest =>
    match orderStep ph e with
    | none => none
    | some ph2 => orderRun ph2 rest

/-- The number of `onPartStart` callbacks of a sequence. -/
def countPartStart : List MPEvent → Nat
  | [] => 0
  | MPEvent.onPartStart :: rest => countPartStart rest + 1
  | _ :: rest => countPartStart rest

end Http

namespace Http

/-! ### Reference definitions for the slicings of a multipart stream -/

/-- Whether the offset `k`, counted from the start of `encodeParts b ps`, lies
inside the header block of a part: after the first byte of the block and before
its end. The block of the first part starts at the offset 2, after the CR LF
that ends the boundary line. -/
def headerCut (b : List Byte) : List Part → Nat → Bool
  | [], _ => false
  | p :: ps, k =>
    (decide (2 < k) && decide (k < 2 + (encodeBlock p.headers).length)) ||
      (decide (2 + (encodeBlock p.headers).length + p.data.length + (boundaryMark b).length ≤ k) &&
        headerCut b ps
          (k - (2 + (encodeBlock p.headers).length + p.data.length + (boundaryMark b).length)))

/-- Whether the slices of a multipart stream, the first of which starts at the
offset `pos` of the stream, end outside the header blocks of the parts. The
stream starts with the two dashes and the boundary, which `encodeParts b parts`
follows. -/
def cutsOk (b : List Byte) (parts : List Part) : Nat → List (List Byte) → Bool
  | _, [] => true
  | pos, s :: rest =>
    !headerCut b parts (pos + s.length - (2 + b.length)) &&
      cutsOk b parts (pos + s.length) rest

/-- Where a multipart parser stands in a stream: in the body of a part, of
which `d` is still to come, in front of the boundary and the parts `ps`; at the
start of the header block of the part `q`; or after the last boundary. Before
the first boundary the parser stands in an empty body. -/
inductive StreamPos where
  | data (d : List Byte) (ps : List Part)
  | headers (q : Part) (ps : List Part)
  | finished

namespace StreamPos

/-- The bytes of the stream from the position on. -/
def rest (b : List Byte) : StreamPos → List Byte
  | data d ps => d ++ boundaryMark b ++ encodeParts b ps
  | headers q ps => encodeBlock q.headers ++ (q.data ++ boundaryMark b ++ encodeParts b ps)
  | finished => []

/-- Whether the offset `k`, counted from the position, lies inside a header
block. -/
def headerCut (b : List Byte) : StreamPos → Nat → Bool
  | data d ps, k =>
    decide (d.length + (boundaryMark b).length ≤ k) &&
      Http.headerCut b ps (k - (d.length + (boundaryMark b).length))
  | headers q ps, k =>
    (decide (0 < k) && decide (k < (encodeBlock q.headers).length)) ||
      (decide ((encodeBlock q.headers).length + q.data.length + (boundaryMark b).length ≤ k) &&
        Http.headerCut b ps
          (k - ((encodeBlock q.headers).length + q.data.length + (boundaryMark b).length)))
  | finished, _ => false

/-- The callbacks that are to come from the position on: the rest of the body in
segments that are not empty, the end of the part, the callbacks of the parts
that follow, and the empty epilogue. -/
def Expect : StreamPos → List MPEvent → Prop
  | data d ps, evs =>
    ∃ (segs : List (List Byte)) (segss : List (List (List Byte))),
      segs.flatten = d ∧ (∀ s ∈ segs, s ≠ []) ∧
        List.Forall₂ (fun (part : Part) sg => sg.flatten = part.data) ps segss ∧
        evs = segs.map MPEvent.onPartData ++
          MPEvent.onPartEnd :: (partsEvents ps segss ++ [MPEvent.onPartData []])
  | headers q ps, evs =>
    ∃ (segs : List (List Byte)) (segss : List (List (List Byte))),
      segs.flatten = q.data ∧
        List.Forall₂ (fun (part : Part) sg => sg.flatten = part.data) ps segss ∧
        evs = q.headers.map (fun h => MPEvent.onPartHeader h.key h.fullValue) ++
          (segs.map MPEvent.onPartData ++
            MPEvent.onPartEnd :: (partsEvents ps segss ++ [MPEvent.onPartData []]))
  | finished, evs => evs = []

/-- The position is one of a stream of well-formed parts: the body to come
does not hold the boundary mark, the headers to come are well-formed. -/
def Wf (b : List Byte) : StreamPos → Prop
  | data d ps => findSub (boundaryMark b) d = none ∧ ∀ q ∈ ps, q.Wf b
  | headers q ps => q.Wf b ∧ ∀ q2 ∈ ps, q2.Wf b
  | finished => True

/-- The parser `p` stands at the position `c` with the first `n` bytes of what
follows the position in its buffer: it is valid and holds the boundary `b`; at
the start of a header block its envelope parser is fresh and the buffer is
empty, elsewhere the envelope parser is outside the headers; and bytes of the
stream are still to come unless the parser stands after the last boundary. -/
def Holds (b : List Byte) (c : StreamPos) (n : Nat) (p : MultipartParser) : Prop :=
  p.mIsValid = true ∧ p.mBoundary = b ∧ n ≤ (c.rest b).length ∧
    p.mIncomingData = (c.rest b).take n ∧ c.Wf b ∧
    (match c with
      | headers _ _ => p.mEnvelopeParser = EnvelopeParser.new ∧ n = 0
      | data _ _ => p.mEnvelopeParser.mIsInHeaders = false ∧ n < (c.rest b).length
      | finished => p.mEnvelopeParser.mIsInHeaders = false)

/-- The position `c2` with the offset `n2` is the same place of the stream as
the position `c1` with the offset `n1`, and not before `c1`: the same bytes
follow, and the same offsets lie inside header blocks. -/
def Same (b : List Byte) (c1 : StreamPos) (n1 : Nat) (c2 : StreamPos) (n2 : Nat) : Prop :=
  (c2.rest b).drop n2 = (c1.rest b).drop n1 ∧
    (∀ x, c2.headerCut b (n2 + x) = c1.headerCut b (n1 + x)) ∧
    (c2.rest b).length ≤ (c1.rest b).length

/-- From the position `c1` with the offset `n1` the parser gets to the same
place `c2` with the offset `n2` with the callbacks `evs0`: what is to come
from `c2`, put after `evs0`, is what is to come from `c1`. -/
def Trans (b : List Byte) (c1 : StreamPos) (n1 : Nat) (c2 : StreamPos) (n2 : Nat)
    (evs0 : List MPEvent) : Prop :=
  Same b c1 n1 c2 n2 ∧ ∀ evs, c2.Expect evs → c1.Expect (evs0 ++ evs)

/-- With the callbacks `evs` the parser has got from the position `c` with the
offset `n` to the state `p`, which stands at some position of the stream. -/
def Step (b : List Byte) (c : StreamPos) (n : Nat) (p : MultipartParser)
    (evs : List MPEvent) : Prop :=
  ∃ (c2 : StreamPos) (n2 : Nat), Holds b c2 n2 p ∧ Trans b c n c2 n2 evs

/-- The loop of `MultipartParser::parse` is right for the body `d` in front of
the parts `ps` with `m` bytes in the buffer: run with the fuel `F` on a parser
that stands there, outside the headers, it ends in a state that stands at a
place of the stream, with the callbacks that lead to it. -/
def LoopSpec (b : List Byte) (F a : Nat) (d : List Byte) (ps : List Part) (m : Nat) : Prop :=
  ∀ p : MultipartParser, p.mIsValid = true → p.mBoundary = b →
    p.mEnvelopeParser.mIsInHeaders = false → (data d ps).Wf b →
    m ≤ ((data d ps).rest b).length → p.mIncomingData = ((data d ps).rest b).take m →
    (data d ps).headerCut b m = false → m < F → ((data d ps).rest b).length + 1 < 2 ^ 64 →
    Step b (data d ps) m (p.parseLoop F a).1 (p.parseLoop F a).2

/-- The slices end outside the header blocks, the first of them starting at the
offset `n` from the position `c`. -/
def cuts (b : List Byte) (c : StreamPos) : Nat → List (List Byte) → Prop
  | _, [] => True
  | n, s :: rest => c.headerCut b (n + s.length) = false ∧ cuts b c (n + s.length) rest

end StreamPos

end Http

namespace Http

/-! ## Lemmas on `size_t` arithmetic -/

theorem two_pow_64 : (2 : Nat) ^ 64 = 18446744073709551616 := by norm_num

theorem npos_eq : npos = 18446744073709551615 := by
  unfold npos; norm_num

theorem sizeSub_of_le {a b : Nat} (hb : b ≤ a) (ha : a < 2 ^ 64) : sizeSub a b = a - b := by
  unfold sizeSub
  rw [two_pow_64] at *
  omega

theorem sizeAdd_of_lt {a b : Nat} (h : a + b < 2 ^ 64) : sizeAdd a b = a + b := by
  unfold sizeAdd
  exact Nat.mod_eq_of_lt h

/-- The value `EnvelopeParser::parse` returns at the end of the headers is the
number of bytes of the slice up to and including the empty line. -/
theorem ret_done {aSize len idx : Nat} (hlen : len < 2 ^ 64) (h1 : idx + 2 ≤ len)
    (h2 : len ≤ aSize + idx + 1) (h3 : aSize ≤ len) :
    sizeAdd (sizeSub aSize (sizeSub len idx)) 2 = idx + 2 - (len - aSize) := by
  unfold sizeAdd sizeSub
  rw [two_pow_64] at *
  omega

/-! ## Lemmas on CR LF search and line splitting -/

theorem firstCRLF_cons_cons (a b : Byte) (r : List Byte) :
    firstCRLF (a :: b :: r) =
      if a = 13 ∧ b = 10 then some 0 else (firstCRLF (b :: r)).map (· + 1) := by
  simp [firstCRLF]

theorem firstCRLF_some_le : ∀ (s : List Byte) (i : Nat), firstCRLF s = some i → i + 2 ≤ s.length
  | [], i, h => by simp [firstCRLF] at h
  | [a], i, h => by simp [firstCRLF] at h
  | a :: b :: r, i, h => by
    rw [firstCRLF_cons_cons] at h
    split at h
    · simp at h; subst h; simp
    · cases hr : firstCRLF (b :: r) with
      | none => simp [hr] at h
      | some j =>
        simp [hr] at h
        have := firstCRLF_some_le (b :: r) j hr
        subst h
        simp at this ⊢
        omega

theorem splitLines_of_none : ∀ (s : List Byte), firstCRLF s = none → splitLines s = ([], s)
  | [], _ => by simp [splitLines]
  | [a], _ => by simp [splitLines]
  | a :: b :: r, h => by
    rw [firstCRLF_cons_cons] at h
    split at h
    · simp at h
    · rename_i hab
      have hr : firstCRLF (b :: r) = none := by
        cases hr : firstCRLF (b :: r) with
        | none => rfl
        | some j => simp [hr] at h
      have ih := splitLines_of_none (b :: r) hr
      simp only [splitLines, hab, if_false, ih]

theorem splitLines_of_some : ∀ (s : List Byte) (i : Nat), firstCRLF s = some i →
    splitLines s = (s.take i :: (splitLines (s.drop (i + 2))).1, (splitLines (s.drop (i + 2))).2)
  | [], i, h => by simp [firstCRLF] at h
  | [a], i, h => by simp [firstCRLF] at h
  | a :: b :: r, i, h => by
    rw [firstCRLF_cons_cons] at h
    split at h
    · rename_i hab
      simp at h; subst h
      simp [splitLines, hab]
    · rename_i hab
      cases hr : firstCRLF (b :: r) with
      | none => simp [hr] at h
      | some j =>
        simp [hr] at h
        subst h
        have ih := splitLines_of_some (b :: r) j hr
        simp only [splitLines, hab, if_false, ih]
        simp

theorem firstCRLF_tail : ∀ (s : List Byte), firstCRLF (splitLines s).2 = none
  | [] => by simp [splitLines, firstCRLF]
  | [a] => by simp [splitLines, firstCRLF]
  | a :: b :: r => by
    by_cases hab : a = 13 ∧ b = 10
    · simp only [splitLines, hab, and_self, if_true]
      exact firstCRLF_tail r
    · have ih := firstCRLF_tail (b :: r)
      cases hr : firstCRLF (b :: r) with
      | none =>
        have := splitLines_of_none (b :: r) hr
        simp only [splitLines, hab, if_false, this]
        rw [firstCRLF_cons_cons]
        simp [hab, hr]
      | some j =>
        have := splitLines_of_some (b :: r) j hr
        rw [this] at ih
        simp only [splitLines, hab, if_false, this]
        exact ih

theorem splitLines_lines_nil {s : List Byte} (h : (splitLines s).1 = []) :
    firstCRLF s = none := by
  cases hs : firstCRLF s with
  | none => rfl
  | some i =>
    rw [splitLines_of_some s i hs] at h
    simp at h

theorem length_splitLines : ∀ (n : Nat) (s : List Byte), s.length ≤ n →
    s.length = linesLen (splitLines s).1 + (splitLines s).2.length
  | 0, s, h => by
    have : s = [] := List.length_eq_zero.mp (Nat.le_zero.mp h)
    subst this
    simp [splitLines, linesLen]
  | n + 1, s, h => by
    cases hs : firstCRLF s with
    | none => rw [splitLines_of_none s hs]; simp [linesLen]
    | some i =>
      have hi := firstCRLF_some_le s i hs
      rw [splitLines_of_some s i hs]
      have ih := length_splitLines n (s.drop (i + 2)) (by simp; omega)
      simp only [linesLen, List.map_cons, List.sum_cons] at ih ⊢
      simp only [List.length_drop, List.length_take] at ih ⊢
      omega

theorem firstCRLF_append_some : ∀ (x b : List Byte) (i : Nat), firstCRLF x = some i →
    firstCRLF (x ++ b) = some i
  | [], b, i, h => by simp [firstCRLF] at h
  | [a], b, i, h => by simp [firstCRLF] at h
  | a :: c :: r, b, i, h => by
    rw [firstCRLF_cons_cons] at h
    simp only [List.cons_append]
    rw [firstCRLF_cons_cons]
    split at h
    · rename_i hab
      simp [hab] at h ⊢
      exact h
    · rename_i hab
      cases hr : firstCRLF (c :: r) with
      | none => simp [hr] at h
      | some j =>
        have ih := firstCRLF_append_some (c :: r) b j hr
        simp only [List.cons_append] at ih
        simp [hr] at h
        simp [hab, ih, h]

theorem firstCRLF_append_none_le : ∀ (x b : List Byte) (i : Nat), firstCRLF x = none →
    firstCRLF (x ++ b) = some i → x.length ≤ i + 1
  | [], b, i, _, _ => by simp
  | [a], b, i, _, _ => by simp
  | a :: c :: r, b, i, h, h2 => by
    rw [firstCRLF_cons_cons] at h
    simp only [List.cons_append] at h2
    rw [firstCRLF_cons_cons] at h2
    split at h
    · simp at h
    · rename_i hab
      have hr : firstCRLF (c :: r) = none := by
        cases hr : firstCRLF (c :: r) with
        | none => rfl
        | some j => simp [hr] at h
      simp only [hab, if_false] at h2
      cases hr2 : firstCRLF (c :: (r ++ b)) with
      | none => simp [hr2] at h2
      | some j =>
        simp [hr2] at h2
        have ih := firstCRLF_append_none_le (c :: r) b j hr (by simpa using hr2)
        simp at ih ⊢
        omega

theorem splitLines_append : ∀ (n : Nat) (x b : List Byte), x.length ≤ n →
    splitLines (x ++ b) =
      ((splitLines x).1 ++ (splitLines ((splitLines x).2 ++ b)).1,
        (splitLines ((splitLines x).2 ++ b)).2)
  | 0, x, b, h => by
    have : x = [] := List.length_eq_zero.mp (Nat.le_zero.mp h)
    subst this
    simp [splitLines]
  | n + 1, x, b, h => by
    cases hs : firstCRLF x with
    | none => rw [splitLines_of_none x hs]; simp
    | some i =>
      have hi := firstCRLF_some_le x i hs
      have hs2 : firstCRLF (x ++ b) = some i := firstCRLF_append_some x b i hs
      rw [splitLines_of_some x i hs, splitLines_of_some (x ++ b) i hs2]
      have ih := splitLines_append n (x.drop (i + 2)) b (by simp; omega)
      have e1 : (x ++ b).drop (i + 2) = x.drop (i + 2) ++ b := by
        rw [List.drop_append_of_le_length hi]
      have e2 : (x ++ b).take i = x.take i := by
        rw [List.take_append_of_le_length (by omega)]
      rw [e1, e2, ih]
      simp

end Http

namespace Http

namespace EnvelopeParser

/-! ## `parseLine` only reads and writes the pending key and value -/

theorem notifyLast_withBuf (p : EnvelopeParser) (f : Bool) (X : List Byte) :
    (p.withBuf f X).notifyLast = ((p.notifyLast).1.withBuf f X, (p.notifyLast).2) := by
  unfold notifyLast withBuf
  by_cases h : p.mLastKey.isEmpty <;> simp [h]

theorem parseLineLoop_withBuf (p : EnvelopeParser) (f : Bool) (X : List Byte)
    (line : List Byte) : ∀ (rest : List Byte) (i : Nat),
    parseLineLoop (p.withBuf f X) line rest i =
      ((parseLineLoop p line rest i).1.withBuf f X, (parseLineLoop p line rest i).2)
  | [], i => by simp [parseLineLoop]
  | c :: rest, i => by
    by_cases h : c = 58
    · simp [parseLineLoop, h, withBuf]
    · simp only [parseLineLoop, h, if_false]
      exact parseLineLoop_withBuf p f X line rest (i + 1)

theorem parseLine_withBuf (p : EnvelopeParser) (f : Bool) (X : List Byte) (l : List Byte) :
    (p.withBuf f X).parseLine l =
      ((p.parseLine l).1.withBuf f X, (p.parseLine l).2.1, (p.parseLine l).2.2) := by
  unfold parseLine
  by_cases h1 : leSpace (l.headD 0) = true
  · rw [if_pos h1, if_pos h1]
    by_cases h2 : p.mLastKey.isEmpty = true
    · have h3 : (p.withBuf f X).mLastKey.isEmpty = true := h2
      rw [if_pos h2, if_pos h3]
    · have h3 : ¬ (p.withBuf f X).mLastKey.isEmpty = true := h2
      rw [if_neg h2, if_neg h3]
      rfl
  · rw [if_neg h1, if_neg h1]
    simp only [notifyLast_withBuf, parseLineLoop_withBuf]

theorem withBuf_self (p : EnvelopeParser) : p.withBuf p.mIsInHeaders p.mIncomingData = p := rfl

theorem withBuf_withBuf (p : EnvelopeParser) (f g : Bool) (X Y : List Byte) :
    (p.withBuf f X).withBuf g Y = p.withBuf g Y := rfl

theorem parseLine_buf (p : EnvelopeParser) (l : List Byte) :
    (p.parseLine l).1.mIncomingData = p.mIncomingData ∧
      (p.parseLine l).1.mIsInHeaders = p.mIsInHeaders := by
  have h := parseLine_withBuf p p.mIsInHeaders p.mIncomingData l
  rw [withBuf_self] at h
  have h1 := congrArg (fun r => r.1) h
  simp only at h1
  constructor
  · rw [h1]; rfl
  · rw [h1]; rfl

theorem notifyLast_buf (p : EnvelopeParser) :
    (p.notifyLast).1.mIncomingData = p.mIncomingData ∧
      (p.notifyLast).1.mIsInHeaders = p.mIsInHeaders := by
  unfold notifyLast
  by_cases h : p.mLastKey.isEmpty <;> simp [h]

end EnvelopeParser

open EnvelopeParser

/-! ## Properties of `processLines` -/

theorem processLines_withBuf (f : Bool) (X : List Byte) :
    ∀ (ls : List (List Byte)) (p : EnvelopeParser) (pos : Nat),
    processLines (p.withBuf f X) ls pos =
      ((processLines p ls pos).1.withBuf f X, (processLines p ls pos).2.1,
        (processLines p ls pos).2.2)
  | [], p, pos => by simp [processLines]
  | l :: ls, p, pos => by
    by_cases hl : l = []
    · simp [processLines, hl, notifyLast_withBuf]
    · by_cases hp : (p.parseLine l).2.2 = true
      · have ih := processLines_withBuf f X ls (p.parseLine l).1 (pos + l.length + 2)
        simp only [processLines, hl, if_false, parseLine_withBuf, hp, Bool.not_true,
          Bool.false_eq_true, ih]
      · simp [processLines, hl, parseLine_withBuf, hp]

theorem processLines_buf :
    ∀ (ls : List (List Byte)) (p : EnvelopeParser) (pos : Nat),
    (processLines p ls pos).1.mIncomingData = p.mIncomingData ∧
      (processLines p ls pos).1.mIsInHeaders = p.mIsInHeaders
  | [], p, pos => by simp [processLines]
  | l :: ls, p, pos => by
    by_cases hl : l = []
    · simp [processLines, hl, notifyLast_buf]
    · by_cases hp : (p.parseLine l).2.2 = true
      · have ih := processLines_buf ls (p.parseLine l).1 (pos + l.length + 2)
        simp only [processLines, hl, if_false, hp, Bool.not_true, Bool.false_eq_true]
        rw [ih.1, ih.2]
        exact parseLine_buf p l
      · simp [processLines, hl, hp, parseLine_buf]

theorem processLines_shift (k : Nat) :
    ∀ (ls : List (List Byte)) (p : EnvelopeParser) (pos : Nat),
    processLines p ls (pos + k) =
      ((processLines p ls pos).1, (processLines p ls pos).2.1,
        (processLines p ls pos).2.2.shift k)
  | [], p, pos => by simp [processLines, Outcome.shift]
  | l :: ls, p, pos => by
    by_cases hl : l = []
    · simp [processLines, hl, Outcome.shift]
    · by_cases hp : (p.parseLine l).2.2 = true
      · have ih := processLines_shift k ls (p.parseLine l).1 (pos + l.length + 2)
        have e : pos + k + l.length + 2 = pos + l.length + 2 + k := by omega
        simp only [processLines, hl, if_false, hp, Bool.not_true, Bool.false_eq_true, e, ih]
      · simp [processLines, hl, hp, Outcome.shift]

theorem processLines_append :
    ∀ (ls1 ls2 : List (List Byte)) (p : EnvelopeParser) (pos : Nat),
    processLines p (ls1 ++ ls2) pos =
      if (processLines p ls1 pos).2.2 = Outcome.more then
        ((processLines (processLines p ls1 pos).1 ls2 (pos + linesLen ls1)).1,
          (processLines p ls1 pos).2.1 ++
            (processLines (processLines p ls1 pos).1 ls2 (pos + linesLen ls1)).2.1,
          (processLines (processLines p ls1 pos).1 ls2 (pos + linesLen ls1)).2.2)
      else processLines p ls1 pos
  | [], ls2, p, pos => by simp [processLines, linesLen]
  | l :: ls, ls2, p, pos => by
    by_cases hl : l = []
    · simp [processLines, hl]
    · by_cases hp : (p.parseLine l).2.2 = true
      · have ih := processLines_append ls ls2 (p.parseLine l).1 (pos + l.length + 2)
        have e : pos + linesLen (l :: ls) = pos + l.length + 2 + linesLen ls := by
          simp [linesLen]; omega
        rw [List.cons_append]
        simp only [processLines, hl, if_false, hp, Bool.not_true,
          Bool.false_eq_true, e]
        rw [ih]
        split <;> simp
      · simp [processLines, hl, hp]

theorem processLines_done_bound :
    ∀ (ls : List (List Byte)) (p : EnvelopeParser) (pos idx : Nat),
    (processLines p ls pos).2.2 = Outcome.done idx →
      pos + (ls.headD []).length ≤ idx ∧ idx + 2 ≤ pos + linesLen ls
  | [], p, pos, idx, h => by simp [processLines] at h
  | l :: ls, p, pos, idx, h => by
    by_cases hl : l = []
    · simp [processLines, hl] at h
      subst h
      simp [hl, linesLen]
    · by_cases hp : (p.parseLine l).2.2 = true
      · simp only [processLines, hl, if_false, hp, Bool.not_true, Bool.false_eq_true] at h
        have ih := processLines_done_bound ls (p.parseLine l).1 (pos + l.length + 2) idx h
        simp only [List.headD_cons, linesLen, List.map_cons, List.sum_cons] at ih ⊢
        omega
      · simp [processLines, hl, hp] at h

end Http

namespace Http

open EnvelopeParser

/-! ## The line loop of `EnvelopeParser::parse` in terms of `processLines` -/

theorem findCRLF_some {s : List Byte} {pos idx : Nat} (h : findCRLF s pos = some idx) :
    ∃ i, firstCRLF (s.drop pos) = some i ∧ idx = i + pos := by
  unfold findCRLF at h
  cases hf : firstCRLF (s.drop pos) with
  | none => simp [hf] at h
  | some i =>
    simp [hf] at h
    exact ⟨i, rfl, h.symm⟩

theorem finishParse_prepend (aSize : Nat) (buf tail : List Byte) (e : List HeaderLine)
    (x : EnvelopeParser × List HeaderLine × Outcome) :
    finishParse aSize buf tail (x.1, e ++ x.2.1, x.2.2) =
      ((finishParse aSize buf tail x).1, e ++ (finishParse aSize buf tail x).2.1,
        (finishParse aSize buf tail x).2.2) := by
  unfold finishParse
  cases x.2.2 <;> rfl

theorem setFlag_eq (q : EnvelopeParser) (B : List Byte) (h : q.mIncomingData = B) :
    ({ q with mIsInHeaders := false } : EnvelopeParser) =
      { q with mIsInHeaders := false, mIncomingData := B } := by
  subst h; rfl

theorem parseLines_eq : ∀ (fuel : Nat) (p : EnvelopeParser) (aSize last idx : Nat),
    findCRLF p.mIncomingData last = some idx →
    p.mIncomingData.length + 1 ≤ fuel + last →
    parseLines fuel p aSize last idx =
      finishParse aSize p.mIncomingData (splitLines (p.mIncomingData.drop last)).2
        (processLines p (splitLines (p.mIncomingData.drop last)).1 last)
  | 0, p, aSize, last, idx, h, hf => by
    obtain ⟨i, hi, _⟩ := findCRLF_some h
    have := firstCRLF_some_le _ _ hi
    simp only [List.length_drop] at this
    omega
  | fuel + 1, p, aSize, last, idx, h, hf => by
    obtain ⟨i, hi, hidx⟩ := findCRLF_some h
    have hlen := firstCRLF_some_le _ _ hi
    simp only [List.length_drop] at hlen
    rw [splitLines_of_some _ i hi]
    unfold parseLines
    by_cases h0 : idx = last
    · have hi0 : i = 0 := by omega
      subst hi0
      rw [if_pos h0]
      simp only [List.take_zero, processLines, if_true, finishParse, h0]
      rw [setFlag_eq _ _ (notifyLast_buf p).1]
    · rw [if_neg h0]
      have hipos : 0 < i := by omega
      have hsub : idx - last = i := by omega
      have hne : (p.mIncomingData.drop last).take i ≠ [] := by
        intro hcon
        have := congrArg List.length hcon
        simp only [List.length_take, List.length_drop, List.length_nil] at this
        omega
      have hb := parseLine_buf p ((p.mIncomingData.drop last).take i)
      rw [hsub]
      simp only [processLines, hne, if_false]
      by_cases hp : (p.parseLine ((p.mIncomingData.drop last).take i)).2.2 = true
      · simp only [hp, Bool.not_true, Bool.false_eq_true, if_false]
        have hdd : (p.mIncomingData.drop last).drop (i + 2) = p.mIncomingData.drop (idx + 2) := by
          rw [List.drop_drop]; congr 1; omega
        have hpos : last + ((p.mIncomingData.drop last).take i).length + 2 = idx + 2 := by
          simp only [List.length_take, List.length_drop]
          omega
        rw [hdd, hpos, hb.1]
        cases hn : firstCRLF (p.mIncomingData.drop (idx + 2)) with
        | none =>
          have hfn : findCRLF p.mIncomingData (idx + 2) = none := by
            unfold findCRLF; simp [hn]
          rw [hfn, splitLines_of_none _ hn]
          simp only [processLines, finishParse, List.append_nil]
        | some j =>
          have hfn : findCRLF p.mIncomingData (idx + 2) = some (j + (idx + 2)) := by
            unfold findCRLF; simp [hn]
          rw [hfn]
          simp only
          have ih := parseLines_eq fuel (p.parseLine ((p.mIncomingData.drop last).take i)).1
            aSize (idx + 2) (j + (idx + 2)) (by rw [hb.1]; exact hfn) (by rw [hb.1]; omega)
          rw [ih, hb.1]
          exact (finishParse_prepend _ _ _ _ _).symm
      · have hp2 : (p.parseLine ((p.mIncomingData.drop last).take i)).2.2 = false := by
          simpa using hp
        simp only [hp2, Bool.not_false, if_true, finishParse]
        rw [setFlag_eq _ _ hb.1]

theorem findCRLF_searchStart : ∀ (b0 d : List Byte), firstCRLF b0 = none →
    findCRLF (b0 ++ d) (b0.length - 1) = findCRLF (b0 ++ d) 0
  | [], d, _ => by simp
  | [a], d, _ => by simp
  | a :: c :: r, d, h => by
    rw [firstCRLF_cons_cons] at h
    split at h
    · simp at h
    · rename_i hab
      have hr : firstCRLF (c :: r) = none := by
        cases hr : firstCRLF (c :: r) with
        | none => rfl
        | some j => simp [hr] at h
      have ih := findCRLF_searchStart (c :: r) d hr
      unfold findCRLF at ih ⊢
      simp only [List.length_cons, Nat.add_sub_cancel, List.cons_append, List.drop_succ_cons,
        List.drop_zero] at ih ⊢
      rw [firstCRLF_cons_cons]
      simp only [hab, if_false]
      cases hX : firstCRLF (List.drop r.length (c :: (r ++ d))) <;>
        cases hY : firstCRLF (c :: (r ++ d)) <;> simp [hX, hY] at ih ⊢
      omega

/-- `EnvelopeParser::parse` of a parser that is in the headers and holds no
complete line: the lines of buffer and slice are processed in order. -/
theorem EnvelopeParser.parse_eq (p : EnvelopeParser) (d : List Byte)
    (hin : p.mIsInHeaders = true) (hb : firstCRLF p.mIncomingData = none) :
    p.parse d =
      finishParse d.length (p.mIncomingData ++ d) (splitLines (p.mIncomingData ++ d)).2
        (processLines p (splitLines (p.mIncomingData ++ d)).1 0) := by
  obtain ⟨f, B, k, v⟩ := p
  simp only at hin hb
  subst hin
  unfold EnvelopeParser.parse
  simp only [Bool.not_true, Bool.false_eq_true, if_false]
  have hs : (if B.length > 1 then B.length - 1 else 0) = B.length - 1 := by
    split <;> omega
  rw [hs, findCRLF_searchStart _ _ hb]
  cases hf : findCRLF (B ++ d) 0 with
  | none =>
    have hn : firstCRLF (B ++ d) = none := by
      unfold findCRLF at hf
      cases h : firstCRLF (B ++ d) with
      | none => rfl
      | some j => simp [h] at hf
    rw [splitLines_of_none _ hn]
    simp only [processLines, finishParse]
  | some idx =>
    simp only
    have h := parseLines_eq ((B ++ d).length + 1)
      (EnvelopeParser.mk true (B ++ d) k v) d.length 0 idx hf (by simp)
    simp only [List.drop_zero] at h
    rw [h]
    have hw := processLines_withBuf true (B ++ d) (splitLines (B ++ d)).1
      (EnvelopeParser.mk true B k v) 0
    simp only [withBuf] at hw
    rw [hw]
    have hfl := (processLines_buf (splitLines (B ++ d)).1 (EnvelopeParser.mk true B k v) 0).2
    simp only at hfl
    generalize processLines (EnvelopeParser.mk true B k v) (splitLines (B ++ d)).1 0 = x at hfl
    obtain ⟨q, e, o⟩ := x
    simp only at hfl
    unfold finishParse
    cases o <;> simp [hfl]

end Http

namespace Http

open EnvelopeParser

/-! ## What one call of `EnvelopeParser::parse` does -/

theorem splitLines_head {s : List Byte} {l : List Byte} {ls : List (List Byte)}
    (h : (splitLines s).1 = l :: ls) : firstCRLF s = some l.length := by
  cases hs : firstCRLF s with
  | none => rw [splitLines_of_none s hs] at h; simp at h
  | some i =>
    have hi := firstCRLF_some_le s i hs
    rw [splitLines_of_some s i hs] at h
    simp only [List.cons.injEq] at h
    rw [← h.1]
    simp only [List.length_take]
    congr 1
    omega

theorem processLines_done_first {b0 d : List Byte} {p : EnvelopeParser} {idx : Nat}
    (hb : firstCRLF b0 = none)
    (h : (processLines p (splitLines (b0 ++ d)).1 0).2.2 = Outcome.done idx) :
    b0.length ≤ idx + 1 ∧ idx + 2 ≤ b0.length + d.length := by
  have hbound := processLines_done_bound _ _ _ _ h
  have hl := length_splitLines (b0 ++ d).length (b0 ++ d) (Nat.le_refl _)
  simp only [List.length_append] at hl
  constructor
  · cases hL : (splitLines (b0 ++ d)).1 with
    | nil => rw [hL] at h; simp [processLines] at h
    | cons l ls =>
      have h1 := splitLines_head hL
      have h2 := firstCRLF_append_none_le b0 d l.length hb h1
      rw [hL] at hbound
      simp only [List.headD_cons] at hbound
      omega
  · omega

theorem EnvelopeParser.parse_out (p : EnvelopeParser) (d : List Byte)
    (hin : p.mIsInHeaders = false) : p.parse d = (p, [], 0) := by
  unfold EnvelopeParser.parse
  simp [hin]

theorem EnvelopeParser.parse_more (p : EnvelopeParser) (d : List Byte)
    (hin : p.mIsInHeaders = true) (hb : firstCRLF p.mIncomingData = none)
    (h : (processLines p (splitLines (p.mIncomingData ++ d)).1 0).2.2 = Outcome.more) :
    p.parse d =
      ((processLines p (splitLines (p.mIncomingData ++ d)).1 0).1.withBuf true
          (splitLines (p.mIncomingData ++ d)).2,
        (processLines p (splitLines (p.mIncomingData ++ d)).1 0).2.1, d.length) := by
  rw [parse_eq p d hin hb]
  have hfl := (processLines_buf (splitLines (p.mIncomingData ++ d)).1 p 0).2
  rw [hin] at hfl
  unfold finishParse
  rw [h]
  simp only [withBuf, hfl]

theorem EnvelopeParser.parse_done (p : EnvelopeParser) (d : List Byte) (idx : Nat)
    (hin : p.mIsInHeaders = true) (hb : firstCRLF p.mIncomingData = none)
    (hlen : p.mIncomingData.length + d.length < 2 ^ 64)
    (h : (processLines p (splitLines (p.mIncomingData ++ d)).1 0).2.2 = Outcome.done idx) :
    p.parse d =
      ((processLines p (splitLines (p.mIncomingData ++ d)).1 0).1.withBuf false
          (p.mIncomingData ++ d),
        (processLines p (splitLines (p.mIncomingData ++ d)).1 0).2.1,
        idx + 2 - p.mIncomingData.length) := by
  rw [parse_eq p d hin hb]
  have hbd := processLines_done_first hb h
  unfold finishParse
  rw [h]
  simp only [withBuf]
  rw [ret_done (by simpa using hlen) (by simp; omega) (by simp; omega) (by simp)]
  simp

theorem EnvelopeParser.parse_failed (p : EnvelopeParser) (d : List Byte)
    (hin : p.mIsInHeaders = true) (hb : firstCRLF p.mIncomingData = none)
    (h : (processLines p (splitLines (p.mIncomingData ++ d)).1 0).2.2 = Outcome.failed) :
    p.parse d =
      ((processLines p (splitLines (p.mIncomingData ++ d)).1 0).1.withBuf false
          (p.mIncomingData ++ d),
        (processLines p (splitLines (p.mIncomingData ++ d)).1 0).2.1, npos) := by
  rw [parse_eq p d hin hb]
  unfold finishParse
  rw [h]
  simp only [withBuf]

/-- The invariant of the envelope parser is kept by `parse`. -/
theorem EnvelopeParser.parse_inv (p : EnvelopeParser) (d : List Byte) (hinv : p.Inv) :
    (p.parse d).1.Inv := by
  by_cases hin : p.mIsInHeaders = true
  · have hb := hinv hin
    rw [parse_eq p d hin hb]
    unfold finishParse
    cases (processLines p (splitLines (p.mIncomingData ++ d)).1 0).2.2 with
    | more =>
      intro _
      exact firstCRLF_tail _
    | done idx => intro h; simp at h
    | failed => intro h; simp at h
  · have hin2 : p.mIsInHeaders = false := by simpa using hin
    rw [parse_out p d hin2]
    exact hinv

/-- The value returned by `parse`: the whole slice while the parser stays in the
headers, `npos` or at most the slice once it has left them. -/
theorem EnvelopeParser.parse_ret (p : EnvelopeParser) (d : List Byte) (hinv : p.Inv)
    (hlen : p.mIncomingData.length + d.length < npos) :
    ((p.parse d).1.mIsInHeaders = true → (p.parse d).2.2 = d.length) ∧
      ((p.parse d).2.2 = npos ∨ (p.parse d).2.2 ≤ d.length) ∧
      ((p.parse d).2.2 = npos → (p.parse d).1.mIsInHeaders = false) := by
  by_cases hin : p.mIsInHeaders = true
  · have hb := hinv hin
    cases ho : (processLines p (splitLines (p.mIncomingData ++ d)).1 0).2.2 with
    | more =>
      rw [parse_more p d hin hb ho]
      simp only [withBuf, true_implies, le_refl, or_true, true_and]
      intro h
      omega
    | done idx =>
      rw [parse_done p d idx hin hb (by rw [npos_eq] at hlen; rw [two_pow_64]; omega) ho]
      have hbd := processLines_done_first hb ho
      simp only [withBuf, Bool.false_eq_true, false_implies, true_and]
      constructor
      · right; omega
      · intro _; trivial
    | failed =>
      rw [parse_failed p d hin hb ho]
      simp [withBuf]
  · have hin2 : p.mIsInHeaders = false := by simpa using hin
    rw [parse_out p d hin2]
    simp [hin2]

end Http

namespace Http

open EnvelopeParser

/-! ## Feeding a slice in two pieces -/

theorem EnvelopeParser.Equiv.refl (p : EnvelopeParser) : p.Equiv p := ⟨rfl, fun _ => rfl⟩

theorem EnvelopeParser.Equiv.of_out {p q : EnvelopeParser} (hp : p.mIsInHeaders = false)
    (hq : q.mIsInHeaders = false) : p.Equiv q :=
  ⟨by rw [hp, hq], fun h => by rw [hp] at h; cases h⟩

/-- Splitting a slice in two does not change what the envelope parser does:
same callbacks, equivalent final state, and the returned counts add up. -/
theorem EnvelopeParser.parse_append (p : EnvelopeParser) (a b : List Byte) (hinv : p.Inv)
    (hlen : p.mIncomingData.length + a.length + b.length < npos) :
    (p.parse (a ++ b)).2.1 = (p.parse a).2.1 ++ ((p.parse a).1.parse b).2.1 ∧
    ((p.parse a).1.parse b).1.Equiv (p.parse (a ++ b)).1 ∧
    ((p.parse a).2.2 = npos → (p.parse (a ++ b)).2.2 = npos) ∧
    ((p.parse a).2.2 ≠ npos →
      ((p.parse (a ++ b)).2.2 = npos ↔ ((p.parse a).1.parse b).2.2 = npos) ∧
      (((p.parse a).1.parse b).2.2 ≠ npos →
        (p.parse (a ++ b)).2.2 = (p.parse a).2.2 + ((p.parse a).1.parse b).2.2)) := by
  have hnp := npos_eq
  have h64 := two_pow_64
  by_cases hin : p.mIsInHeaders = true
  · have hb := hinv hin
    have hsplit := splitLines_append (p.mIncomingData ++ a).length (p.mIncomingData ++ a) b
      (Nat.le_refl _)
    have hl1 := length_splitLines _ (p.mIncomingData ++ a) (Nat.le_refl _)
    have hl2 := length_splitLines _ ((splitLines (p.mIncomingData ++ a)).2 ++ b) (Nat.le_refl _)
    simp only [List.length_append] at hl1 hl2
    have happ := processLines_append (splitLines (p.mIncomingData ++ a)).1
      (splitLines ((splitLines (p.mIncomingData ++ a)).2 ++ b)).1 p 0
    have hb1 : firstCRLF (p.mIncomingData ++ a ++ b) = firstCRLF (p.mIncomingData ++ (a ++ b)) := by
      rw [List.append_assoc]
    have hproc : processLines p (splitLines (p.mIncomingData ++ (a ++ b))).1 0 =
        processLines p ((splitLines (p.mIncomingData ++ a)).1 ++
          (splitLines ((splitLines (p.mIncomingData ++ a)).2 ++ b)).1) 0 := by
      rw [← List.append_assoc, hsplit]
    have htail : (splitLines (p.mIncomingData ++ (a ++ b))).2 =
        (splitLines ((splitLines (p.mIncomingData ++ a)).2 ++ b)).2 := by
      rw [← List.append_assoc, hsplit]
    cases ho : (processLines p (splitLines (p.mIncomingData ++ a)).1 0).2.2 with
    | more =>
      have hr1 := parse_more p a hin hb ho
      rw [ho] at happ
      simp only [if_true, Nat.zero_add] at happ
      -- the state after the first piece
      have hin1 : ((processLines p (splitLines (p.mIncomingData ++ a)).1 0).1.withBuf true
          (splitLines (p.mIncomingData ++ a)).2).mIsInHeaders = true := rfl
      have hb1 : firstCRLF ((processLines p (splitLines (p.mIncomingData ++ a)).1 0).1.withBuf true
          (splitLines (p.mIncomingData ++ a)).2).mIncomingData = none := firstCRLF_tail _
      have hw := processLines_withBuf true (splitLines (p.mIncomingData ++ a)).2
        (splitLines ((splitLines (p.mIncomingData ++ a)).2 ++ b)).1
        (processLines p (splitLines (p.mIncomingData ++ a)).1 0).1 0
      have hsh := processLines_shift (linesLen (splitLines (p.mIncomingData ++ a)).1)
        (splitLines ((splitLines (p.mIncomingData ++ a)).2 ++ b)).1
        (processLines p (splitLines (p.mIncomingData ++ a)).1 0).1 0
      simp only [Nat.zero_add] at hsh
      rw [hsh] at happ
      cases ho2 : (processLines (processLines p (splitLines (p.mIncomingData ++ a)).1 0).1
          (splitLines ((splitLines (p.mIncomingData ++ a)).2 ++ b)).1 0).2.2 with
      | more =>
        have ho2' : (processLines ((processLines p (splitLines (p.mIncomingData ++ a)).1 0).1.withBuf
            true (splitLines (p.mIncomingData ++ a)).2)
            (splitLines (((processLines p (splitLines (p.mIncomingData ++ a)).1 0).1.withBuf
            true (splitLines (p.mIncomingData ++ a)).2).mIncomingData ++ b)).1 0).2.2 =
            Outcome.more := by
          show (processLines _ (splitLines ((splitLines (p.mIncomingData ++ a)).2 ++ b)).1 0).2.2 = _
          rw [hw]; exact ho2
        have hr2 := parse_more _ b hin1 hb1 ho2'
        have ho3 : (processLines p (splitLines (p.mIncomingData ++ (a ++ b))).1 0).2.2 =
            Outcome.more := by
          rw [hproc, happ]; simp only [ho2, Outcome.shift]
        have hr3 := parse_more p (a ++ b) hin hb ho3
        rw [hr1, hr2, hr3]
        simp only [withBuf] at hw ⊢
        rw [hw, hproc, happ, htail]
        simp only [List.length_append]
        refine ⟨trivial, Equiv.refl _, ?_, ?_⟩
        · intro h; omega
        · intro _
          constructor
          · constructor <;> intro h <;> omega
          · intro _; trivial
      | done idx2 =>
        have ho2' : (processLines ((processLines p (splitLines (p.mIncomingData ++ a)).1 0).1.withBuf
            true (splitLines (p.mIncomingData ++ a)).2)
            (splitLines (((processLines p (splitLines (p.mIncomingData ++ a)).1 0).1.withBuf
            true (splitLines (p.mIncomingData ++ a)).2).mIncomingData ++ b)).1 0).2.2 =
            Outcome.done idx2 := by
          show (processLines _ (splitLines ((splitLines (p.mIncomingData ++ a)).2 ++ b)).1 0).2.2 = _
          rw [hw]; exact ho2
        have hbd2 := processLines_done_first hb1 ho2'
        simp only [withBuf] at hbd2
        have hr2 := parse_done _ b idx2 hin1 hb1 (by simp only [withBuf]; omega) ho2'
        have ho3 : (processLines p (splitLines (p.mIncomingData ++ (a ++ b))).1 0).2.2 =
            Outcome.done (idx2 + linesLen (splitLines (p.mIncomingData ++ a)).1) := by
          rw [hproc, happ]; simp only [ho2, Outcome.shift]
        have hr3 := parse_done p (a ++ b) _ hin hb (by simp only [List.length_append]; omega) ho3
        rw [hr1, hr2, hr3]
        simp only [withBuf] at hw ⊢
        rw [hw, hproc, happ]
        refine ⟨rfl, Equiv.of_out rfl rfl, ?_, ?_⟩
        · intro h; omega
        · intro _
          constructor
          · constructor <;> intro h <;> omega
          · intro _; omega
      | failed =>
        have ho2' : (processLines ((processLines p (splitLines (p.mIncomingData ++ a)).1 0).1.withBuf
            true (splitLines (p.mIncomingData ++ a)).2)
            (splitLines (((processLines p (splitLines (p.mIncomingData ++ a)).1 0).1.withBuf
            true (splitLines (p.mIncomingData ++ a)).2).mIncomingData ++ b)).1 0).2.2 =
            Outcome.failed := by
          show (processLines _ (splitLines ((splitLines (p.mIncomingData ++ a)).2 ++ b)).1 0).2.2 = _
          rw [hw]; exact ho2
        have hr2 := parse_failed _ b hin1 hb1 ho2'
        have ho3 : (processLines p (splitLines (p.mIncomingData ++ (a ++ b))).1 0).2.2 =
            Outcome.failed := by
          rw [hproc, happ]; simp only [ho2, Outcome.shift]
        have hr3 := parse_failed p (a ++ b) hin hb ho3
        rw [hr1, hr2, hr3]
        simp only [withBuf] at hw ⊢
        rw [hw, hproc, happ]
        refine ⟨rfl, Equiv.of_out rfl rfl, ?_, ?_⟩
        · intro _; trivial
        · intro _
          exact ⟨trivial, fun h => absurd rfl h⟩
    | done idx1 =>
      have hbd1 := processLines_done_first hb ho
      have hr1 := parse_done p a idx1 hin hb (by omega) ho
      rw [ho] at happ
      simp only [reduceCtorEq, if_false] at happ
      have ho3 : (processLines p (splitLines (p.mIncomingData ++ (a ++ b))).1 0).2.2 =
          Outcome.done idx1 := by
        rw [hproc, happ]; exact ho
      have hr3 := parse_done p (a ++ b) _ hin hb (by simp only [List.length_append]; omega) ho3
      rw [hr1, hr3, parse_out _ b rfl]
      rw [hproc, happ]
      simp only [withBuf, List.append_nil]
      refine ⟨trivial, Equiv.of_out rfl rfl, ?_, ?_⟩
      · intro h; omega
      · intro _
        constructor
        · constructor <;> intro h <;> omega
        · intro _; omega
    | failed =>
      have hr1 := parse_failed p a hin hb ho
      rw [ho] at happ
      simp only [reduceCtorEq, if_false] at happ
      have ho3 : (processLines p (splitLines (p.mIncomingData ++ (a ++ b))).1 0).2.2 =
          Outcome.failed := by
        rw [hproc, happ]; exact ho
      have hr3 := parse_failed p (a ++ b) hin hb ho3
      rw [hr1, hr3, parse_out _ b rfl]
      rw [hproc, happ]
      simp only [withBuf, List.append_nil]
      refine ⟨trivial, Equiv.of_out rfl rfl, ?_, ?_⟩
      · intro _; trivial
      · intro h; exact absurd rfl h
  · have hin2 : p.mIsInHeaders = false := by simpa using hin
    rw [parse_out p a hin2, parse_out p (a ++ b) hin2, parse_out p b hin2]
    exact ⟨by simp, Equiv.refl _, fun h => h, fun _ => ⟨Iff.rfl, fun _ => rfl⟩⟩

end Http

namespace Http

open EnvelopeParser

/-! ## Feeding a list of slices -/

theorem EnvelopeParser.Equiv.trans {p q r : EnvelopeParser} (h1 : p.Equiv q) (h2 : q.Equiv r) :
    p.Equiv r := by
  refine ⟨h1.1.trans h2.1, fun h => ?_⟩
  have e1 := h1.2 h
  subst e1
  exact h2.2 h

theorem EnvelopeParser.parse_nil (p : EnvelopeParser) (hinv : p.Inv) : p.parse [] = (p, [], 0) := by
  by_cases hin : p.mIsInHeaders = true
  · have hb := hinv hin
    have hs : splitLines (p.mIncomingData ++ []) = ([], p.mIncomingData) := by
      rw [List.append_nil]; exact splitLines_of_none _ hb
    have ho : (processLines p (splitLines (p.mIncomingData ++ [])).1 0).2.2 = Outcome.more := by
      rw [hs]; rfl
    rw [parse_more p [] hin hb ho, hs]
    simp only [processLines, withBuf, List.length_nil]
    rw [← hin]
  · have hin2 : p.mIsInHeaders = false := by simpa using hin
    exact parse_out p [] hin2

theorem EnvelopeParser.parse_buf_len (p : EnvelopeParser) (d : List Byte) (hinv : p.Inv) :
    (p.parse d).1.mIncomingData.length ≤ p.mIncomingData.length + d.length := by
  by_cases hin : p.mIsInHeaders = true
  · have hb := hinv hin
    rw [parse_eq p d hin hb]
    have hl := length_splitLines _ (p.mIncomingData ++ d) (Nat.le_refl _)
    simp only [List.length_append] at hl
    unfold finishParse
    cases (processLines p (splitLines (p.mIncomingData ++ d)).1 0).2.2 with
    | more => simp only; omega
    | done idx => simp
    | failed => simp
  · have hin2 : p.mIsInHeaders = false := by simpa using hin
    rw [parse_out p d hin2]
    simp

theorem EnvelopeParser.feed_eq_parse : ∀ (slices : List (List Byte)) (p : EnvelopeParser),
    p.Inv → p.mIncomingData.length + slices.flatten.length < npos →
    (p.feed slices).2.1 = (p.parse slices.flatten).2.1 ∧
    (p.feed slices).1.Equiv (p.parse slices.flatten).1 ∧
    (npos ∈ (p.feed slices).2.2 ↔ (p.parse slices.flatten).2.2 = npos) ∧
    ((p.parse slices.flatten).2.2 ≠ npos →
      (p.feed slices).2.2.sum = (p.parse slices.flatten).2.2)
  | [], p, hinv, _ => by
    have hnp := npos_eq
    simp only [List.flatten_nil, parse_nil p hinv, EnvelopeParser.feed]
    refine ⟨trivial, Equiv.refl _, ?_, ?_⟩
    · simp; omega
    · intro _; simp
  | s :: rest, p, hinv, hlen => by
    simp only [List.flatten_cons, List.length_append] at hlen ⊢
    have hbl := parse_buf_len p s hinv
    have ih := feed_eq_parse rest (p.parse s).1 (parse_inv p s hinv) (by omega)
    have happ := parse_append p s rest.flatten hinv (by omega)
    obtain ⟨i1, i2, i3, i4⟩ := ih
    obtain ⟨a1, a2, a3, a4⟩ := happ
    simp only [EnvelopeParser.feed]
    refine ⟨?_, ?_, ?_, ?_⟩
    · rw [a1, i1]
    · exact Equiv.trans i2 a2
    · by_cases hr : (p.parse s).2.2 = npos
      · simp only [List.mem_cons]
        constructor
        · intro _; exact a3 hr
        · intro _; left; exact hr.symm
      · simp only [List.mem_cons]
        constructor
        · intro h
          rcases h with h | h
          · exact absurd h.symm hr
          · exact (a4 hr).1.mpr (i3.mp h)
        · intro h
          right
          exact i3.mpr ((a4 hr).1.mp h)
    · intro hne
      have hr : (p.parse s).2.2 ≠ npos := fun h => hne (a3 h)
      have hr2 : ((p.parse s).1.parse rest.flatten).2.2 ≠ npos := fun h => hne ((a4 hr).1.mpr h)
      rw [List.sum_cons, i4 hr2, (a4 hr).2 hr2]

theorem EnvelopeParser.new_inv : EnvelopeParser.new.Inv := fun _ => rfl

end Http

namespace Http

open EnvelopeParser

/-! ## The lines of a well-formed header block -/

theorem firstCRLF_of_noCRorLF : ∀ (l : List Byte), noCRorLF l → firstCRLF l = none
  | [], _ => rfl
  | [a], _ => rfl
  | a :: b :: r, h => by
    rw [firstCRLF_cons_cons]
    have ha : a ≠ 13 := (h a (by simp)).1
    have ih := firstCRLF_of_noCRorLF (b :: r) (fun x hx => h x (List.mem_cons_of_mem _ hx))
    simp [ha, ih]

theorem firstCRLF_line : ∀ (l rest : List Byte), firstCRLF l = none →
    firstCRLF (l ++ 13 :: 10 :: rest) = some l.length
  | [], rest, _ => by simp [firstCRLF]
  | [a], rest, _ => by
    simp only [List.singleton_append, List.length_singleton]
    rw [firstCRLF_cons_cons, firstCRLF_cons_cons]
    simp
  | a :: b :: r, rest, h => by
    rw [firstCRLF_cons_cons] at h
    simp only [List.cons_append]
    rw [firstCRLF_cons_cons]
    split at h
    · simp at h
    · rename_i hab
      have hr : firstCRLF (b :: r) = none := by
        cases hr : firstCRLF (b :: r) with
        | none => rfl
        | some j => simp [hr] at h
      have ih := firstCRLF_line (b :: r) rest hr
      simp only [List.cons_append] at ih
      simp [hab, ih]

theorem firstCRLF_append_none : ∀ (x y : List Byte), firstCRLF x = none →
    firstCRLF y = none → y.head? ≠ some 10 → firstCRLF (x ++ y) = none
  | [], y, _, hy, _ => by simpa using hy
  | [a], y, _, hy, hh => by
    cases y with
    | nil => rfl
    | cons c r =>
      simp only [List.singleton_append]
      rw [firstCRLF_cons_cons]
      have hc : c ≠ 10 := by simpa using hh
      simp [hc, hy]
  | a :: b :: r, y, h, hy, hh => by
    rw [firstCRLF_cons_cons] at h
    simp only [List.cons_append]
    rw [firstCRLF_cons_cons]
    split at h
    · simp at h
    · rename_i hab
      have hr : firstCRLF (b :: r) = none := by
        cases hr : firstCRLF (b :: r) with
        | none => rfl
        | some j => simp [hr] at h
      have ih := firstCRLF_append_none (b :: r) y hr hy hh
      simp only [List.cons_append] at ih
      simp [hab, ih]

theorem splitLines_line (l rest : List Byte) (h : firstCRLF l = none) :
    splitLines (l ++ crlf ++ rest) = (l :: (splitLines rest).1, (splitLines rest).2) := by
  have e : l ++ crlf ++ rest = l ++ 13 :: 10 :: rest := by simp [crlf]
  rw [e, splitLines_of_some _ _ (firstCRLF_line l rest h)]
  simp

theorem firstCRLF_keyLine (h : Header) (hwf : h.Wf) :
    firstCRLF (h.key ++ 58 :: 32 :: h.value) = none := by
  apply firstCRLF_append_none _ _ hwf.2
  · have hv := firstCRLF_of_noCRorLF _ hwf.1.2.2.2.2.1
    cases hval : h.value with
    | nil => simp [firstCRLF]
    | cons c r =>
      rw [hval] at hv
      rw [firstCRLF_cons_cons, firstCRLF_cons_cons]
      simp [hv]
  · simp

theorem splitLines_conts : ∀ (cs : List (List Byte)) (rest : List Byte),
    (∀ c ∈ cs, noCRorLF c) →
    splitLines ((cs.map (fun c => c ++ crlf)).flatten ++ rest) =
      (cs ++ (splitLines rest).1, (splitLines rest).2)
  | [], rest, _ => by simp
  | c :: cs, rest, h => by
    have ih := splitLines_conts cs rest (fun x hx => h x (List.mem_cons_of_mem _ hx))
    have hc := firstCRLF_of_noCRorLF c (h c (by simp))
    simp only [List.map_cons, List.flatten_cons, List.append_assoc]
    have := splitLines_line c ((cs.map (fun c => c ++ crlf)).flatten ++ rest) hc
    simp only [List.append_assoc] at this
    rw [this, ih]
    simp

theorem splitLines_header (h : Header) (hwf : h.Wf) (rest : List Byte) :
    splitLines (h.encode ++ rest) = (h.lines ++ (splitLines rest).1, (splitLines rest).2) := by
  have hk := firstCRLF_keyLine h hwf
  have hc := splitLines_conts h.conts rest (fun c hc => (hwf.1.2.2.2.2.2 c hc).2.2)
  unfold Header.encode Header.lines
  have e : h.key ++ 58 :: 32 :: h.value ++ crlf ++ (h.conts.map (fun c => c ++ crlf)).flatten ++ rest =
      (h.key ++ 58 :: 32 :: h.value) ++ crlf ++
        ((h.conts.map (fun c => c ++ crlf)).flatten ++ rest) := by
    simp
  rw [e, splitLines_line _ _ hk, hc]
  simp

theorem splitLines_headers : ∀ (hs : List Header) (rest : List Byte), (∀ h ∈ hs, h.Wf) →
    splitLines (encodeHeaders hs ++ rest) =
      (hs.flatMap Header.lines ++ (splitLines rest).1, (splitLines rest).2)
  | [], rest, _ => by simp [encodeHeaders]
  | h :: hs, rest, hwf => by
    have ih := splitLines_headers hs rest (fun x hx => hwf x (List.mem_cons_of_mem _ hx))
    unfold encodeHeaders at ih ⊢
    simp only [List.map_cons, List.flatten_cons, List.append_assoc, List.flatMap_cons]
    rw [splitLines_header h (hwf h (by simp)), ih]

theorem length_encodeHeaders : ∀ (hs : List Header),
    (encodeHeaders hs).length = linesLen (hs.flatMap Header.lines)
  | [] => by simp [encodeHeaders, linesLen]
  | h :: hs => by
    have ih := length_encodeHeaders hs
    have hc : ∀ (cs : List (List Byte)),
        ((cs.map (fun c => c ++ crlf)).flatten).length = linesLen cs := by
      intro cs
      induction cs with
      | nil => simp [linesLen]
      | cons c cs ihc =>
        rw [List.map_cons, List.flatten_cons, List.length_append, ihc]
        simp [linesLen, crlf]
    unfold encodeHeaders at ih ⊢
    simp only [List.map_cons, List.flatten_cons, List.length_append, ih, List.flatMap_cons,
      Header.encode, Header.lines, hc]
    simp only [linesLen, List.map_append, List.sum_append, List.map_cons, List.sum_cons,
      List.length_append, List.length_cons, crlf, List.length_nil]

/-! ## `parseLine` on the lines of a well-formed header -/

theorem parseLineLoop_colon (p : EnvelopeParser) (line : List Byte) :
    ∀ (k rest : List Byte) (i : Nat), 58 ∉ k →
    parseLineLoop p line (k ++ 58 :: rest) i =
      ({ p with
          mLastKey := line.take (i + k.length),
          mLastValue :=
            if line.length > i + k.length + 1 then
              (line.drop (i + k.length + 2)).take (line.length - (i + k.length) - 2)
            else [] }, true)
  | [], rest, i, _ => by simp [parseLineLoop]
  | c :: k, rest, i, h => by
    have hc : c ≠ 58 := fun e => h (by simp [e])
    have hk : 58 ∉ k := fun e => h (List.mem_cons_of_mem _ e)
    have ih := parseLineLoop_colon p line k rest (i + 1) hk
    show parseLineLoop p line (c :: (k ++ 58 :: rest)) i = _
    simp only [parseLineLoop, hc, if_false]
    rw [ih]
    have e : i + 1 + k.length = i + (k.length + 1) := by omega
    simp only [List.length_cons, e]

theorem parseLine_keyLine (p : EnvelopeParser) (h : Header) (hwf : h.Wf) :
    p.parseLine (h.key ++ 58 :: 32 :: h.value) =
      ({ (p.notifyLast).1 with mLastKey := h.key, mLastValue := h.value },
        (p.notifyLast).2, true) := by
  obtain ⟨⟨hne, h33, h126, hcolon, _, _⟩, _⟩ := hwf
  unfold parseLine
  have hhead : (h.key ++ 58 :: 32 :: h.value).headD 0 = h.key.headD 0 := by
    cases hk : h.key with
    | nil => exact absurd hk hne
    | cons c r => rfl
  have hls : leSpace ((h.key ++ 58 :: 32 :: h.value).headD 0) = false := by
    rw [hhead]
    unfold leSpace
    have d1 : decide (h.key.headD 0 ≤ 32) = false :=
      decide_eq_false (by simp only [Byte] at *; omega)
    have d2 : decide (128 ≤ h.key.headD 0) = false :=
      decide_eq_false (by simp only [Byte] at *; omega)
    rw [d1, d2]
    rfl
  rw [hls]
  simp only [Bool.false_eq_true, if_false]
  rw [parseLineLoop_colon _ _ h.key (32 :: h.value) 0 hcolon]
  simp only [Nat.zero_add, List.length_append, List.length_cons]
  have e1 : (h.key ++ 58 :: 32 :: h.value).take h.key.length = h.key := by
    rw [List.take_left']
    rfl
  have e2 : h.key.length + (h.value.length + 1 + 1) > h.key.length + 1 := by omega
  have e3 : (h.key ++ 58 :: 32 :: h.value).drop (h.key.length + 2) = h.value := by
    rw [List.drop_append_eq_append_drop]
    simp
  rw [e1, if_pos e2, e3]
  have e4 : h.key.length + (h.value.length + 1 + 1) - h.key.length - 2 = h.value.length := by omega
  rw [e4, List.take_length]

theorem parseLine_cont (p : EnvelopeParser) (c : List Byte) (hk : p.mLastKey ≠ [])
    (hc : c.headD 0 = 32 ∨ c.headD 0 = 9) :
    p.parseLine c = ({ p with mLastValue := p.mLastValue ++ c }, [], true) := by
  unfold parseLine
  have hls : leSpace (c.headD 0) = true := by
    unfold leSpace
    rcases hc with hc | hc <;> rw [hc] <;> decide
  have hke : p.mLastKey.isEmpty = false := by
    cases hq : p.mLastKey with
    | nil => exact absurd hq hk
    | cons a r => rfl
  rw [hls, hke]
  simp

theorem processLines_conts : ∀ (cs : List (List Byte)) (rest : List (List Byte))
    (p : EnvelopeParser) (pos : Nat), p.mLastKey ≠ [] →
    (∀ c ∈ cs, c ≠ [] ∧ (c.headD 0 = 32 ∨ c.headD 0 = 9) ∧ noCRorLF c) →
    processLines p (cs ++ rest) pos =
      processLines { p with mLastValue := p.mLastValue ++ cs.flatten } rest (pos + linesLen cs)
  | [], rest, p, pos, _, _ => by simp [linesLen]
  | c :: cs, rest, p, pos, hk, h => by
    have hc := h c (by simp)
    have ih := processLines_conts cs rest { p with mLastValue := p.mLastValue ++ c }
      (pos + c.length + 2) hk (fun x hx => h x (List.mem_cons_of_mem _ hx))
    rw [List.cons_append]
    simp only [processLines, hc.1, if_false, parseLine_cont p c hk hc.2.1, Bool.not_true,
      Bool.false_eq_true, List.nil_append]
    rw [ih]
    simp only [List.flatten_cons, List.append_assoc, linesLen, List.map_cons, List.sum_cons]
    have e : pos + c.length + 2 + (cs.map (fun l => l.length + 2)).sum =
        pos + (c.length + 2 + (cs.map (fun l => l.length + 2)).sum) := by omega
    rw [e]

theorem processLines_headers : ∀ (hs : List Header) (rest : List (List Byte))
    (p : EnvelopeParser) (pos : Nat), (∀ h ∈ hs, h.Wf) →
    (processLines p (hs.flatMap Header.lines ++ [] :: rest) pos).2 =
      ((p.notifyLast).2 ++ hs.map Header.callback,
        Outcome.done (pos + linesLen (hs.flatMap Header.lines)))
  | [], rest, p, pos, _ => by simp [processLines, linesLen]
  | h :: hs, rest, p, pos, hwf => by
    have hh := hwf h (by simp)
    have hkl : h.key ++ 58 :: 32 :: h.value ≠ [] := by simp
    simp only [List.flatMap_cons, Header.lines, List.cons_append, List.append_assoc]
    simp only [processLines, hkl, if_false, parseLine_keyLine p h hh, Bool.not_true,
      Bool.false_eq_true]
    rw [processLines_conts h.conts _ _ _ hh.1.1 hh.1.2.2.2.2.2]
    have ih := processLines_headers hs rest
      { (p.notifyLast).1 with mLastKey := h.key, mLastValue := h.value ++ h.conts.flatten }
      (pos + (h.key ++ 58 :: 32 :: h.value).length + 2 + linesLen h.conts)
      (fun x hx => hwf x (List.mem_cons_of_mem _ hx))
    have hnl : (EnvelopeParser.notifyLast { (p.notifyLast).1 with
        mLastKey := h.key, mLastValue := h.value ++ h.conts.flatten }).2 = [h.callback] := by
      unfold EnvelopeParser.notifyLast
      have hke : h.key.isEmpty = false := by
        cases hq : h.key with
        | nil => exact absurd hq hh.1.1
        | cons a r => rfl
      simp [hke, Header.callback, Header.fullValue]
    rw [hnl] at ih
    simp only at ih ⊢
    rw [ih]
    simp only [List.map_cons, List.singleton_append, linesLen, List.map_append, List.sum_append,
      List.map_cons, List.sum_cons, Prod.mk.injEq, true_and, Outcome.done.injEq]
    omega

/-- A fresh envelope parser on a block of well-formed headers followed by any
bytes: it returns the length of the block, leaves the headers, and reports the
headers in order. -/
theorem EnvelopeParser.parse_block (hs : List Header) (R : List Byte) (hwf : ∀ h ∈ hs, h.Wf)
    (hlen : (encodeBlock hs ++ R).length < 2 ^ 64) :
    (EnvelopeParser.new.parse (encodeBlock hs ++ R)).2.2 = (encodeBlock hs).length ∧
    (EnvelopeParser.new.parse (encodeBlock hs ++ R)).1.mIsInHeaders = false ∧
    (EnvelopeParser.new.parse (encodeBlock hs ++ R)).2.1 = hs.map Header.callback := by
  have hsp : splitLines (encodeBlock hs ++ R) =
      (hs.flatMap Header.lines ++ [] :: (splitLines R).1, (splitLines R).2) := by
    unfold encodeBlock
    rw [List.append_assoc, splitLines_headers hs _ hwf]
    have := splitLines_line [] R rfl
    simp only [List.nil_append] at this
    rw [this]
  have hpl := processLines_headers hs (splitLines R).1 EnvelopeParser.new 0 hwf
  have hnl : (EnvelopeParser.new.notifyLast).2 = [] := rfl
  rw [hnl, List.nil_append, Nat.zero_add] at hpl
  have ho : (processLines EnvelopeParser.new
      (splitLines (EnvelopeParser.new.mIncomingData ++ (encodeBlock hs ++ R))).1 0).2.2 =
      Outcome.done (linesLen (hs.flatMap Header.lines)) := by
    show (processLines EnvelopeParser.new (splitLines ([] ++ (encodeBlock hs ++ R))).1 0).2.2 = _
    rw [List.nil_append, hsp, hpl]
  have hr := parse_done EnvelopeParser.new (encodeBlock hs ++ R) _ rfl rfl
    (by simpa [EnvelopeParser.new] using hlen) ho
  rw [hr]
  refine ⟨?_, rfl, ?_⟩
  · show linesLen (hs.flatMap Header.lines) + 2 - 0 = _
    unfold encodeBlock
    rw [List.length_append, length_encodeHeaders]
    rfl
  · show (processLines EnvelopeParser.new (splitLines ([] ++ (encodeBlock hs ++ R))).1 0).2.1 = _
    rw [List.nil_append, hsp, hpl]

end Http

namespace Http

/-! ## Merging adjacent body data -/

theorem mergeTE_cons_congr (e : TEEvent) {x y : List TEEvent} (h : mergeTE x = mergeTE y) :
    mergeTE (e :: x) = mergeTE (e :: y) := by
  simp only [mergeTE, h]

theorem mergeTE_append_congr : ∀ (p : List TEEvent) {x y : List TEEvent},
    mergeTE x = mergeTE y → mergeTE (p ++ x) = mergeTE (p ++ y)
  | [], _, _, h => h
  | e :: p, _, _, h => mergeTE_cons_congr e (mergeTE_append_congr p h)

theorem mergeTE_body_body (a b : List Byte) (x : List TEEvent) :
    mergeTE (TEEvent.onBodyData a :: TEEvent.onBodyData b :: x) =
      mergeTE (TEEvent.onBodyData (a ++ b) :: x) := by
  simp only [mergeTE]
  cases h : mergeTE x with
  | nil => rfl
  | cons f r =>
    cases f with
    | onError d => rfl
    | onBodyData c => simp [pushTE, List.append_assoc]
    | onBodyFinished => rfl

theorem mergeTE_eq_nil : ∀ {x : List TEEvent}, mergeTE x = [] → x = []
  | [], _ => rfl
  | e :: rest, h => by
    simp only [mergeTE] at h
    unfold pushTE at h
    split at h <;> simp at h

/-- A sequence of callbacks that merges to the body followed by
`onBodyFinished` consists of body segments followed by one `onBodyFinished`. -/
theorem mergeTE_shape : ∀ (x : List TEEvent),
    (mergeTE x = [TEEvent.onBodyFinished] → x = [TEEvent.onBodyFinished]) ∧
    (∀ B, mergeTE x = [TEEvent.onBodyData B, TEEvent.onBodyFinished] →
      ∃ segs : List (List Byte),
        x = segs.map TEEvent.onBodyData ++ [TEEvent.onBodyFinished] ∧ segs.flatten = B)
  | [] => by simp [mergeTE, pushTE]
  | e :: rest => by
    have ih := mergeTE_shape rest
    cases e with
    | onError d =>
      simp [mergeTE, pushTE]
    | onBodyFinished =>
      constructor
      · intro h
        simp only [mergeTE, pushTE, List.cons.injEq, true_and] at h
        rw [mergeTE_eq_nil h]
      · intro B h
        simp [mergeTE, pushTE] at h
    | onBodyData a =>
      cases hm : mergeTE rest with
      | nil =>
        have := mergeTE_eq_nil hm
        subst this
        simp [mergeTE, pushTE]
      | cons f r =>
        cases f with
        | onError d =>
          simp [mergeTE, pushTE, hm]
        | onBodyFinished =>
          constructor
          · intro h; simp [mergeTE, pushTE, hm] at h
          · intro B h
            simp only [mergeTE, pushTE, hm, List.cons.injEq, TEEvent.onBodyData.injEq, true_and] at h
            obtain ⟨hB, hr⟩ := h
            subst hr
            have := ih.1 hm
            subst this
            exact ⟨[a], by simp, by simpa using hB⟩
        | onBodyData b =>
          constructor
          · intro h; simp [mergeTE, pushTE, hm] at h
          · intro B h
            simp only [mergeTE, pushTE, hm, List.cons.injEq, TEEvent.onBodyData.injEq] at h
            obtain ⟨hB, hr⟩ := h
            subst hr
            obtain ⟨segs, hs, hf⟩ := ih.2 b hm
            refine ⟨a :: segs, by simp [hs], ?_⟩
            simp [hf, hB]

end Http

namespace Http

namespace ChunkedTEParser

/-! ## The scanning loops of the chunked parser -/

theorem parseChunkLength_shift : ∀ (d : List Byte) (p : ChunkedTEParser) (i k : Nat),
    i + k + d.length < npos →
    parseChunkLength p d (i + k) = addIdx k (parseChunkLength p d i)
  | [], p, i, k, h => by
    have hi : i ≠ npos := by simp only [List.length_nil] at h; omega
    simp [parseChunkLength, addIdx, hi]
  | c :: rest, p, i, k, h => by
    simp only [List.length_cons] at h
    have e : i + k + 1 = i + 1 + k := by omega
    have hi : i + 1 ≠ npos := by omega
    by_cases h1 : 48 ≤ c ∧ c ≤ 57
    · simp only [parseChunkLength, h1, and_self, if_true, e]
      exact parseChunkLength_shift rest _ (i + 1) k (by omega)
    · by_cases h2 : 97 ≤ c ∧ c ≤ 102
      · simp only [parseChunkLength, h1, h2, and_self, if_true, if_false, e]
        exact parseChunkLength_shift rest _ (i + 1) k (by omega)
      · by_cases h3 : 65 ≤ c ∧ c ≤ 70
        · simp only [parseChunkLength, h1, h2, h3, and_self, if_true, if_false, e]
          exact parseChunkLength_shift rest _ (i + 1) k (by omega)
        · by_cases h4 : c = 13
          · subst h4
            simp [parseChunkLength, addIdx, hi, e]
          · by_cases h5 : c = 59
            · subst h5
              simp [parseChunkLength, addIdx, hi, e]
            · simp only [parseChunkLength, h1, h2, h3, h4, h5, if_false, addIdx, if_true, error]

theorem parseChunkLength_append : ∀ (a b : List Byte) (p : ChunkedTEParser) (i : Nat),
    p.mState = eState.psChunkLength →
    parseChunkLength p (a ++ b) i =
      if (parseChunkLength p a i).1.mState = eState.psChunkLength then
        parseChunkLength (parseChunkLength p a i).1 b (i + a.length)
      else parseChunkLength p a i
  | [], b, p, i, hp => by simp [parseChunkLength, hp]
  | c :: rest, b, p, i, hp => by
    have e : i + 1 + rest.length = i + (c :: rest).length := by simp; omega
    rw [List.cons_append]
    by_cases h1 : 48 ≤ c ∧ c ≤ 57
    · simp only [parseChunkLength, h1, and_self, if_true]
      refine (parseChunkLength_append rest b _ (i + 1) ?_).trans ?_
      · exact hp
      · rw [e]
    · by_cases h2 : 97 ≤ c ∧ c ≤ 102
      · simp only [parseChunkLength, h1, h2, and_self, if_true, if_false]
        refine (parseChunkLength_append rest b _ (i + 1) ?_).trans ?_
        · exact hp
        · rw [e]
      · by_cases h3 : 65 ≤ c ∧ c ≤ 70
        · simp only [parseChunkLength, h1, h2, h3, and_self, if_true, if_false]
          refine (parseChunkLength_append rest b _ (i + 1) ?_).trans ?_
          · exact hp
          · rw [e]
        · by_cases h4 : c = 13
          · subst h4
            simp [parseChunkLength]
          · by_cases h5 : c = 59
            · subst h5
              simp [parseChunkLength]
            · simp [parseChunkLength, h1, h2, h3, h4, h5, error]

theorem parseChunkLength_spec : ∀ (d : List Byte) (p : ChunkedTEParser) (i : Nat),
    (parseChunkLength p d i).1.mTrailerParser = p.mTrailerParser ∧
    (((parseChunkLength p d i).2.2 = npos ∧
        (parseChunkLength p d i).1.mState = eState.psFinished) ∨
      ((parseChunkLength p d i).2.2 = i + d.length ∧
        (parseChunkLength p d i).1.mState = p.mState) ∨
      (i + 1 ≤ (parseChunkLength p d i).2.2 ∧ (parseChunkLength p d i).2.2 ≤ i + d.length ∧
        ((parseChunkLength p d i).1.mState = eState.psChunkLengthLF ∨
          (parseChunkLength p d i).1.mState = eState.psChunkLengthTrailer)))
  | [], p, i => by simp [parseChunkLength]
  | c :: rest, p, i => by
    have hstep : ∀ (q : ChunkedTEParser), q.mTrailerParser = p.mTrailerParser →
        q.mState = p.mState →
        (parseChunkLength q rest (i + 1)).1.mTrailerParser = p.mTrailerParser ∧
        (((parseChunkLength q rest (i + 1)).2.2 = npos ∧
            (parseChunkLength q rest (i + 1)).1.mState = eState.psFinished) ∨
          ((parseChunkLength q rest (i + 1)).2.2 = i + (c :: rest).length ∧
            (parseChunkLength q rest (i + 1)).1.mState = p.mState) ∨
          (i + 1 ≤ (parseChunkLength q rest (i + 1)).2.2 ∧
            (parseChunkLength q rest (i + 1)).2.2 ≤ i + (c :: rest).length ∧
            ((parseChunkLength q rest (i + 1)).1.mState = eState.psChunkLengthLF ∨
              (parseChunkLength q rest (i + 1)).1.mState = eState.psChunkLengthTrailer))) := by
      intro q hq1 hq2
      have ih := parseChunkLength_spec rest q (i + 1)
      simp only [List.length_cons]
      refine ⟨ih.1.trans hq1, ?_⟩
      rcases ih.2 with h | h | h
      · left; exact h
      · right; left; exact ⟨by omega, h.2.trans hq2⟩
      · right; right; exact ⟨by omega, by omega, h.2.2⟩
    by_cases h1 : 48 ≤ c ∧ c ≤ 57
    · simp only [parseChunkLength, h1, and_self, if_true]
      exact hstep _ rfl rfl
    · by_cases h2 : 97 ≤ c ∧ c ≤ 102
      · simp only [parseChunkLength, h1, h2, and_self, if_true, if_false]
        exact hstep _ rfl rfl
      · by_cases h3 : 65 ≤ c ∧ c ≤ 70
        · simp only [parseChunkLength, h1, h2, h3, and_self, if_true, if_false]
          exact hstep _ rfl rfl
        · by_cases h4 : c = 13
          · subst h4
            simp [parseChunkLength]
          · by_cases h5 : c = 59
            · subst h5
              simp [parseChunkLength]
            · simp [parseChunkLength, h1, h2, h3, h4, h5, error]

theorem parseChunkLength_events : ∀ (d : List Byte) (p : ChunkedTEParser) (i : Nat),
    (parseChunkLength p d i).1.mState ≠ eState.psFinished → (parseChunkLength p d i).2.1 = []
  | [], p, i, _ => rfl
  | c :: rest, p, i, h => by
    by_cases h1 : 48 ≤ c ∧ c ≤ 57
    · simp only [parseChunkLength, h1, and_self, if_true] at h ⊢
      exact parseChunkLength_events rest _ (i + 1) h
    · by_cases h2 : 97 ≤ c ∧ c ≤ 102
      · simp only [parseChunkLength, h1, h2, and_self, if_true, if_false] at h ⊢
        exact parseChunkLength_events rest _ (i + 1) h
      · by_cases h3 : 65 ≤ c ∧ c ≤ 70
        · simp only [parseChunkLength, h1, h2, h3, and_self, if_true, if_false] at h ⊢
          exact parseChunkLength_events rest _ (i + 1) h
        · by_cases h4 : c = 13
          · subst h4
            simp [parseChunkLength]
          · by_cases h5 : c = 59
            · subst h5
              simp [parseChunkLength]
            · simp [parseChunkLength, h1, h2, h3, h4, h5, error] at h

theorem parseChunkLengthTrailer_events : ∀ (d : List Byte) (p : ChunkedTEParser) (i : Nat),
    (parseChunkLengthTrailer p d i).1.mState ≠ eState.psFinished →
    (parseChunkLengthTrailer p d i).2.1 = []
  | [], p, i, _ => rfl
  | c :: rest, p, i, h => by
    by_cases h1 : c = 13
    · subst h1
      simp [parseChunkLengthTrailer]
    · by_cases h2 : c < 32 ∨ 128 ≤ c
      · simp [parseChunkLengthTrailer, h1, h2, error] at h
      · simp only [parseChunkLengthTrailer, h1, h2, if_false] at h ⊢
        exact parseChunkLengthTrailer_events rest _ (i + 1) h

theorem parseChunkLengthTrailer_shift : ∀ (d : List Byte) (p : ChunkedTEParser) (i k : Nat),
    i + k + d.length < npos →
    parseChunkLengthTrailer p d (i + k) = addIdx k (parseChunkLengthTrailer p d i)
  | [], p, i, k, h => by
    have hi : i ≠ npos := by simp only [List.length_nil] at h; omega
    simp [parseChunkLengthTrailer, addIdx, hi]
  | c :: rest, p, i, k, h => by
    simp only [List.length_cons] at h
    have e : i + k + 1 = i + 1 + k := by omega
    have hi : i ≠ npos := by omega
    by_cases h1 : c = 13
    · subst h1
      simp [parseChunkLengthTrailer, addIdx, hi]
    · by_cases h2 : c < 32 ∨ 128 ≤ c
      · simp only [parseChunkLengthTrailer, h1, h2, if_true, if_false, addIdx]
      · simp only [parseChunkLengthTrailer, h1, h2, if_false, e]
        exact parseChunkLengthTrailer_shift rest _ (i + 1) k (by omega)

theorem parseChunkLengthTrailer_append : ∀ (a b : List Byte) (p : ChunkedTEParser) (i : Nat),
    p.mState = eState.psChunkLengthTrailer →
    parseChunkLengthTrailer p (a ++ b) i =
      if (parseChunkLengthTrailer p a i).1.mState = eState.psChunkLengthTrailer then
        parseChunkLengthTrailer (parseChunkLengthTrailer p a i).1 b (i + a.length)
      else parseChunkLengthTrailer p a i
  | [], b, p, i, hp => by simp [parseChunkLengthTrailer, hp]
  | c :: rest, b, p, i, hp => by
    have e : i + 1 + rest.length = i + (c :: rest).length := by simp; omega
    rw [List.cons_append]
    by_cases h1 : c = 13
    · subst h1
      simp [parseChunkLengthTrailer]
    · by_cases h2 : c < 32 ∨ 128 ≤ c
      · simp [parseChunkLengthTrailer, h1, h2, error]
      · simp only [parseChunkLengthTrailer, h1, h2, if_false]
        refine (parseChunkLengthTrailer_append rest b _ (i + 1) ?_).trans ?_
        · exact hp
        · rw [e]

theorem parseChunkLengthTrailer_spec : ∀ (d : List Byte) (p : ChunkedTEParser) (i : Nat),
    (parseChunkLengthTrailer p d i).1.mTrailerParser = p.mTrailerParser ∧
    (((parseChunkLengthTrailer p d i).2.2 = npos ∧
        (parseChunkLengthTrailer p d i).1.mState = eState.psFinished) ∨
      ((parseChunkLengthTrailer p d i).2.2 = i + d.length ∧
        (parseChunkLengthTrailer p d i).1 = p) ∨
      (i ≤ (parseChunkLengthTrailer p d i).2.2 ∧
        (parseChunkLengthTrailer p d i).2.2 < i + d.length ∧
        (parseChunkLengthTrailer p d i).1.mState = eState.psChunkLengthLF))
  | [], p, i => by simp [parseChunkLengthTrailer]
  | c :: rest, p, i => by
    by_cases h1 : c = 13
    · subst h1
      simp [parseChunkLengthTrailer]
    · by_cases h2 : c < 32 ∨ 128 ≤ c
      · simp [parseChunkLengthTrailer, h1, h2, error]
      · simp only [parseChunkLengthTrailer, h1, h2, if_false]
        have ih := parseChunkLengthTrailer_spec rest p (i + 1)
        simp only [List.length_cons]
        refine ⟨ih.1, ?_⟩
        rcases ih.2 with h | h | h
        · left; exact h
        · right; left; exact ⟨by omega, h.2⟩
        · right; right; exact ⟨by omega, by omega, h.2.2⟩

end ChunkedTEParser

end Http

namespace Http

namespace ChunkedTEParser

/-! ## One turn of the loop of `ChunkedTEParser::parse` makes progress -/

theorem parseTrailer_spec (p : ChunkedTEParser) (d : List Byte) (hinv : p.mTrailerParser.Inv)
    (hlen : p.mTrailerParser.mIncomingData.length + d.length < npos) :
    ((p.mTrailerParser.parse d).2.2 = npos ∧
      p.parseTrailer d =
        ({ p with mTrailerParser := (p.mTrailerParser.parse d).1, mState := eState.psFinished },
          [TEEvent.onError (bytes "Error while parsing the trailer"), TEEvent.onBodyFinished],
          npos)) ∨
    ((p.mTrailerParser.parse d).2.2 ≠ npos ∧ (p.mTrailerParser.parse d).2.2 ≤ d.length ∧
      (p.mTrailerParser.parse d).1.mIsInHeaders = false ∧
      p.parseTrailer d =
        ({ p with mTrailerParser := (p.mTrailerParser.parse d).1, mState := eState.psFinished },
          [TEEvent.onBodyFinished], (p.mTrailerParser.parse d).2.2)) ∨
    ((p.mTrailerParser.parse d).2.2 = d.length ∧
      (p.mTrailerParser.parse d).1.mIsInHeaders = true ∧
      p.parseTrailer d =
        ({ p with mTrailerParser := (p.mTrailerParser.parse d).1 }, [], d.length)) := by
  have hr := EnvelopeParser.parse_ret p.mTrailerParser d hinv hlen
  obtain ⟨h1, h2, h3⟩ := hr
  by_cases hn : (p.mTrailerParser.parse d).2.2 = npos
  · left
    refine ⟨hn, ?_⟩
    have hf := h3 hn
    unfold parseTrailer
    simp [hn, hf, error]
  · right
    have hle : (p.mTrailerParser.parse d).2.2 ≤ d.length := by
      rcases h2 with h | h
      · exact absurd h hn
      · exact h
    by_cases hin : (p.mTrailerParser.parse d).1.mIsInHeaders = true
    · right
      have he := h1 hin
      refine ⟨he, hin, ?_⟩
      have hdn : d.length ≠ npos := by omega
      unfold parseTrailer
      simp [hin, he, hdn]
    · left
      have hin2 : (p.mTrailerParser.parse d).1.mIsInHeaders = false := by simpa using hin
      refine ⟨hn, hle, hin2, ?_⟩
      unfold parseTrailer
      simp [hn, hin2]

theorem weight_le (p : ChunkedTEParser) (d : List Byte) : weight p d ≤ 2 * d.length + 1 := by
  unfold weight
  split
  · omega
  · split <;> omega

theorem weight_le_two (p : ChunkedTEParser) (d : List Byte)
    (h1 : p.mState ≠ eState.psChunkLengthTrailer) (h2 : p.mState ≠ eState.psChunkData) :
    weight p d ≤ 2 * d.length := by
  unfold weight
  split
  · omega
  · simp [h1, h2]

theorem dispatch_spec (s : ChunkedTEParser) (d : List Byte) (hd : d ≠ [])
    (hs : s.mState ≠ eState.psFinished) (hok : s.Ok d) :
    ((s.dispatch d).2.2 = npos ∧ (s.dispatch d).1.mState = eState.psFinished) ∨
    ((s.dispatch d).2.2 ≤ d.length ∧
      weight (s.dispatch d).1 (d.drop (s.dispatch d).2.2) < weight s d ∧
      Ok (s.dispatch d).1 (d.drop (s.dispatch d).2.2)) := by
  have hnp := npos_eq
  obtain ⟨hdl, hok2⟩ := hok
  obtain ⟨hinv, hbound⟩ := hok2 hs
  have hdpos : 0 < d.length := List.length_pos.mpr hd
  have hw : weight s d = 2 * d.length +
      (if s.mState = eState.psChunkLengthTrailer ∨ s.mState = eState.psChunkData then 1 else 0) := by
    unfold weight; rw [if_neg hs]
  -- a step that keeps the trailer parser and consumes within the slice
  have hkeep : ∀ (r : ChunkedTEParser × List TEEvent × Nat),
      r.1.mTrailerParser = s.mTrailerParser → r.2.2 ≤ d.length →
      weight r.1 (d.drop r.2.2) < weight s d →
      (r.2.2 = npos ∧ r.1.mState = eState.psFinished) ∨
      (r.2.2 ≤ d.length ∧ weight r.1 (d.drop r.2.2) < weight s d ∧ Ok r.1 (d.drop r.2.2)) := by
    intro r ht hle hwt
    right
    refine ⟨hle, hwt, ?_, fun _ => ?_⟩
    · simp only [List.length_drop]; omega
    · rw [ht]
      refine ⟨hinv, ?_⟩
      simp only [List.length_drop]; omega
  cases hst : s.mState with
  | psFinished => exact absurd hst hs
  | psChunkLength =>
    have hdis : s.dispatch d = s.parseChunkLength d 0 := by
      unfold dispatch; rw [hst]
    rw [hdis]
    have hsp := parseChunkLength_spec d s 0
    obtain ⟨ht, hc⟩ := hsp
    rw [hst] at hw
    simp only [reduceCtorEq, or_self, if_false, Nat.add_zero] at hw
    rcases hc with h | h | h
    · left; exact h
    · apply hkeep _ ht (by omega)
      have := weight_le_two (s.parseChunkLength d 0).1 (d.drop (s.parseChunkLength d 0).2.2)
        (by rw [h.2, hst]; simp) (by rw [h.2, hst]; simp)
      simp only [List.length_drop] at this
      omega
    · apply hkeep _ ht (by omega)
      have := weight_le (s.parseChunkLength d 0).1 (d.drop (s.parseChunkLength d 0).2.2)
      simp only [List.length_drop] at this
      omega
  | psChunkLengthTrailer =>
    have hdis : s.dispatch d = s.parseChunkLengthTrailer d 0 := by
      unfold dispatch; rw [hst]
    rw [hdis]
    have hsp := parseChunkLengthTrailer_spec d s 0
    obtain ⟨ht, hc⟩ := hsp
    rw [hst] at hw
    simp only [true_or, if_true] at hw
    rcases hc with h | h | h
    · left; exact h
    · apply hkeep _ ht (by omega)
      have := weight_le (s.parseChunkLengthTrailer d 0).1
        (d.drop (s.parseChunkLengthTrailer d 0).2.2)
      simp only [List.length_drop] at this
      omega
    · apply hkeep _ ht (by omega)
      have := weight_le_two (s.parseChunkLengthTrailer d 0).1
        (d.drop (s.parseChunkLengthTrailer d 0).2.2) (by rw [h.2.2]; simp) (by rw [h.2.2]; simp)
      simp only [List.length_drop] at this
      omega
  | psChunkLengthLF =>
    rw [hst] at hw
    simp only [reduceCtorEq, or_self, if_false, Nat.add_zero] at hw
    cases d with
    | nil => exact absurd rfl hd
    | cons c rest =>
      have hdis : s.dispatch (c :: rest) = s.parseChunkLengthLF (c :: rest) := by
        unfold dispatch; rw [hst]
      rw [hdis]
      by_cases hc : c = 10
      · by_cases hl : s.mChunkDataLengthLeft = 0
        · have hr : s.parseChunkLengthLF (c :: rest) =
              ({ s with mState := eState.psTrailer }, [], 1) := by
            simp [parseChunkLengthLF, hc, hl]
          rw [hr]
          refine hkeep _ rfl (by simp) ?_
          have := weight_le_two ({ s with mState := eState.psTrailer } : ChunkedTEParser)
            (List.drop 1 (c :: rest)) (by simp) (by simp)
          simp only [List.length_drop, List.length_cons] at this hw ⊢
          omega
        · have hr : s.parseChunkLengthLF (c :: rest) =
              ({ s with mState := eState.psChunkData }, [], 1) := by
            simp [parseChunkLengthLF, hc, hl]
          rw [hr]
          refine hkeep _ rfl (by simp) ?_
          have := weight_le ({ s with mState := eState.psChunkData } : ChunkedTEParser)
            (List.drop 1 (c :: rest))
          simp only [List.length_drop, List.length_cons] at this hw ⊢
          omega
      · left
        simp [parseChunkLengthLF, hc, error]
  | psChunkData =>
    rw [hst] at hw
    simp only [or_true, if_true] at hw
    have hdis : s.dispatch d = s.parseChunkData d := by
      unfold dispatch; rw [hst]
    rw [hdis]
    by_cases hl : s.mChunkDataLengthLeft - min d.length s.mChunkDataLengthLeft = 0
    · have hr : s.parseChunkData d =
          ({ s with
              mChunkDataLengthLeft := s.mChunkDataLengthLeft - min d.length s.mChunkDataLengthLeft,
              mState := eState.psChunkDataCR },
            [TEEvent.onBodyData (d.take (min d.length s.mChunkDataLengthLeft))],
            min d.length s.mChunkDataLengthLeft) := by
        unfold parseChunkData
        simp only [hl, if_true]
      rw [hr]
      refine hkeep _ rfl (by simp) ?_
      have := weight_le_two ({ s with
              mChunkDataLengthLeft := s.mChunkDataLengthLeft - min d.length s.mChunkDataLengthLeft,
              mState := eState.psChunkDataCR } : ChunkedTEParser)
        (d.drop (min d.length s.mChunkDataLengthLeft)) (by simp) (by simp)
      simp only [List.length_drop] at this ⊢
      omega
    · have hmin : min d.length s.mChunkDataLengthLeft = d.length := by omega
      have hr : s.parseChunkData d =
          ({ s with mChunkDataLengthLeft := s.mChunkDataLengthLeft - d.length },
            [TEEvent.onBodyData (d.take d.length)], d.length) := by
        unfold parseChunkData
        simp only [hmin]
        rw [hmin] at hl
        simp only [hl, if_false]
      rw [hr]
      refine hkeep _ rfl (by simp) ?_
      have := weight_le ({ s with mChunkDataLengthLeft := s.mChunkDataLengthLeft - d.length } :
        ChunkedTEParser) (d.drop d.length)
      simp only [List.drop_length, List.length_nil] at this ⊢
      omega
  | psChunkDataCR =>
    rw [hst] at hw
    simp only [reduceCtorEq, or_self, if_false, Nat.add_zero] at hw
    cases d with
    | nil => exact absurd rfl hd
    | cons c rest =>
      have hdis : s.dispatch (c :: rest) = s.parseChunkDataCR (c :: rest) := by
        unfold dispatch; rw [hst]
      rw [hdis]
      by_cases hc : c = 13
      · have hr : s.parseChunkDataCR (c :: rest) =
            ({ s with mState := eState.psChunkDataLF }, [], 1) := by
          simp [parseChunkDataCR, hc]
        rw [hr]
        refine hkeep _ rfl (by simp) ?_
        have := weight_le_two ({ s with mState := eState.psChunkDataLF } : ChunkedTEParser)
          (List.drop 1 (c :: rest)) (by simp) (by simp)
        simp only [List.length_drop, List.length_cons] at this hw ⊢
        omega
      · left
        simp [parseChunkDataCR, hc, error]
  | psChunkDataLF =>
    rw [hst] at hw
    simp only [reduceCtorEq, or_self, if_false, Nat.add_zero] at hw
    cases d with
    | nil => exact absurd rfl hd
    | cons c rest =>
      have hdis : s.dispatch (c :: rest) = s.parseChunkDataLF (c :: rest) := by
        unfold dispatch; rw [hst]
      rw [hdis]
      by_cases hc : c = 10
      · have hr : s.parseChunkDataLF (c :: rest) =
            ({ s with mState := eState.psChunkLength }, [], 1) := by
          simp [parseChunkDataLF, hc]
        rw [hr]
        refine hkeep _ rfl (by simp) ?_
        have := weight_le_two ({ s with mState := eState.psChunkLength } : ChunkedTEParser)
          (List.drop 1 (c :: rest)) (by simp) (by simp)
        simp only [List.length_drop, List.length_cons] at this hw ⊢
        omega
      · left
        simp [parseChunkDataLF, hc, error]
  | psTrailer =>
    rw [hst] at hw
    simp only [reduceCtorEq, or_self, if_false, Nat.add_zero] at hw
    have hdis : s.dispatch d = s.parseTrailer d := by
      unfold dispatch; rw [hst]
    rw [hdis]
    rcases parseTrailer_spec s d hinv hbound with h | h | h
    · left
      rw [h.2]
      exact ⟨rfl, rfl⟩
    · right
      rw [h.2.2.2]
      refine ⟨h.2.1, ?_, ?_, ?_⟩
      · have hz : weight ({ s with
            mTrailerParser := (s.mTrailerParser.parse d).1,
            mState := eState.psFinished } : ChunkedTEParser)
            (d.drop (s.mTrailerParser.parse d).2.2) = 0 := by
          unfold weight; simp
        rw [hz]; omega
      · simp only [List.length_drop]; omega
      · intro hcon; exact absurd rfl hcon
    · right
      rw [h.2.2]
      refine ⟨Nat.le_refl _, ?_, ?_, ?_⟩
      · show weight ({ s with mTrailerParser := (s.mTrailerParser.parse d).1 } :
          ChunkedTEParser) (d.drop d.length) < weight s d
        have := weight_le_two ({ s with mTrailerParser := (s.mTrailerParser.parse d).1 } :
          ChunkedTEParser) (d.drop d.length) (by simp [hst]) (by simp [hst])
        simp only [List.drop_length, List.length_nil] at this ⊢
        omega
      · simp
        omega
      · intro _
        refine ⟨EnvelopeParser.parse_inv _ _ hinv, ?_⟩
        have := EnvelopeParser.parse_buf_len s.mTrailerParser d hinv
        simp only [List.drop_length, List.length_nil]
        omega

end ChunkedTEParser

end Http

namespace Http

namespace ChunkedTEParser

/-! ## The fuel of `parseLoop` is never used up -/

theorem parseLoop_unfold (fuel : Nat) (s : ChunkedTEParser) (d : List Byte) :
    parseLoop (fuel + 1) s d =
      if d.length > 0 ∧ s.mState ≠ eState.psFinished then
        if (s.dispatch d).2.2 = npos then ((s.dispatch d).1, (s.dispatch d).2.1, npos)
        else
          ((parseLoop fuel (s.dispatch d).1 (d.drop (s.dispatch d).2.2)).1,
            (s.dispatch d).2.1 ++ (parseLoop fuel (s.dispatch d).1 (d.drop (s.dispatch d).2.2)).2.1,
            (parseLoop fuel (s.dispatch d).1 (d.drop (s.dispatch d).2.2)).2.2)
      else (s, [], d.length) := rfl

theorem parseLoop_finished (fuel : Nat) (s : ChunkedTEParser) (d : List Byte)
    (h : s.mState = eState.psFinished) : parseLoop fuel s d = (s, [], d.length) := by
  cases fuel with
  | zero => rfl
  | succ n => rw [parseLoop_unfold]; simp [h]

theorem parseLoop_nil (fuel : Nat) (s : ChunkedTEParser) : parseLoop fuel s [] = (s, [], 0) := by
  cases fuel with
  | zero => rfl
  | succ n => rw [parseLoop_unfold]; simp

theorem weight_pos (s : ChunkedTEParser) (d : List Byte) (hd : d ≠ [])
    (hs : s.mState ≠ eState.psFinished) : 2 ≤ weight s d := by
  have := List.length_pos.mpr hd
  unfold weight
  rw [if_neg hs]
  omega

theorem parseLoop_succ : ∀ (fuel : Nat) (s : ChunkedTEParser) (d : List Byte),
    s.Ok d → weight s d ≤ fuel → parseLoop (fuel + 1) s d = parseLoop fuel s d
  | 0, s, d, _, hw => by
    rw [parseLoop_unfold]
    by_cases hc : d.length > 0 ∧ s.mState ≠ eState.psFinished
    · have := weight_pos s d (List.length_pos.mp hc.1) hc.2
      omega
    · rw [if_neg hc]; rfl
  | n + 1, s, d, hok, hw => by
    conv_rhs => rw [parseLoop_unfold n]
    conv_lhs => rw [parseLoop_unfold (n + 1)]
    by_cases hc : d.length > 0 ∧ s.mState ≠ eState.psFinished
    · rw [if_pos hc, if_pos hc]
      by_cases hn : (s.dispatch d).2.2 = npos
      · rw [if_pos hn, if_pos hn]
      · rw [if_neg hn, if_neg hn]
        rcases dispatch_spec s d (List.length_pos.mp hc.1) hc.2 hok with h | h
        · exact absurd h.1 hn
        · rw [parseLoop_succ n _ _ h.2.2 (by omega)]
    · rw [if_neg hc, if_neg hc]

theorem parseLoop_add (k : Nat) : ∀ (fuel : Nat) (s : ChunkedTEParser) (d : List Byte),
    s.Ok d → weight s d ≤ fuel → parseLoop (fuel + k) s d = parseLoop fuel s d := by
  induction k with
  | zero => intro fuel s d _ _; rfl
  | succ k ih =>
    intro fuel s d hok hw
    rw [← Nat.add_assoc, parseLoop_succ (fuel + k) s d hok (by omega)]
    exact ih fuel s d hok hw

theorem parseLoop_eq_parse (fuel : Nat) (s : ChunkedTEParser) (d : List Byte) (hok : s.Ok d)
    (hw : weight s d ≤ fuel) : parseLoop fuel s d = s.parse d := by
  have hle := weight_le s d
  have h1 := parseLoop_add (fuel - weight s d) (weight s d) s d hok (Nat.le_refl _)
  have h2 := parseLoop_add (2 * d.length + 1 - weight s d) (weight s d) s d hok (Nat.le_refl _)
  have e1 : weight s d + (fuel - weight s d) = fuel := by omega
  have e2 : weight s d + (2 * d.length + 1 - weight s d) = 2 * d.length + 1 := by omega
  rw [e1] at h1
  rw [e2] at h2
  unfold parse
  rw [h1, h2]

/-! ## Unfolding one turn of `ChunkedTEParser::parse` -/

theorem parse_finished (s : ChunkedTEParser) (d : List Byte) (h : s.mState = eState.psFinished) :
    s.parse d = (s, [], d.length) :=
  parseLoop_finished _ s d h

theorem chunked_parse_nil (s : ChunkedTEParser) : s.parse [] = (s, [], 0) :=
  parseLoop_nil _ s

theorem parse_step_err (s : ChunkedTEParser) (d : List Byte) (hd : d ≠ [])
    (hs : s.mState ≠ eState.psFinished) (hn : (s.dispatch d).2.2 = npos) :
    s.parse d = ((s.dispatch d).1, (s.dispatch d).2.1, npos) := by
  unfold parse
  rw [parseLoop_unfold, if_pos ⟨List.length_pos.mpr hd, hs⟩, if_pos hn]

theorem parse_step (s : ChunkedTEParser) (d : List Byte) (hd : d ≠ [])
    (hs : s.mState ≠ eState.psFinished) (hok : s.Ok d) (hn : (s.dispatch d).2.2 ≠ npos) :
    s.parse d =
      (((s.dispatch d).1.parse (d.drop (s.dispatch d).2.2)).1,
        (s.dispatch d).2.1 ++ ((s.dispatch d).1.parse (d.drop (s.dispatch d).2.2)).2.1,
        ((s.dispatch d).1.parse (d.drop (s.dispatch d).2.2)).2.2) := by
  rcases dispatch_spec s d hd hs hok with h | h
  · exact absurd h.1 hn
  · have hle := weight_le s d
    have := parseLoop_eq_parse (2 * d.length) (s.dispatch d).1 (d.drop (s.dispatch d).2.2)
      h.2.2 (by omega)
    rw [← this]
    unfold parse
    rw [parseLoop_unfold, if_pos ⟨List.length_pos.mpr hd, hs⟩, if_neg hn]

end ChunkedTEParser

end Http

namespace Http

namespace ChunkedTEParser

/-! ## One turn on `a ++ b` against one turn on `a` -/

theorem equiv_refl (p : ChunkedTEParser) : p.Equiv p := ⟨rfl, fun _ => rfl⟩

theorem equiv_of_finished {p q : ChunkedTEParser} (hp : p.mState = eState.psFinished)
    (hq : q.mState = eState.psFinished) : p.Equiv q :=
  ⟨by rw [hp, hq], fun h => absurd hp h⟩

theorem Ok.left {s : ChunkedTEParser} {a b : List Byte} (h : s.Ok (a ++ b)) : s.Ok a := by
  refine ⟨?_, fun hs => ⟨(h.2 hs).1, ?_⟩⟩
  · have := h.1; simp only [List.length_append] at this; omega
  · have := (h.2 hs).2; simp only [List.length_append] at this; omega

theorem Ok.right {s : ChunkedTEParser} {a b : List Byte} (h : s.Ok (a ++ b)) : s.Ok b := by
  refine ⟨?_, fun hs => ⟨(h.2 hs).1, ?_⟩⟩
  · have := h.1; simp only [List.length_append] at this; omega
  · have := (h.2 hs).2; simp only [List.length_append] at this; omega

theorem Ok.of_trailer {s q : ChunkedTEParser} {d : List Byte} (h : s.Ok d)
    (hs : s.mState ≠ eState.psFinished) (ht : q.mTrailerParser = s.mTrailerParser) : q.Ok d :=
  ⟨h.1, fun _ => by rw [ht]; exact h.2 hs⟩

theorem appendStep_length (s : ChunkedTEParser) (a b : List Byte)
    (hst : s.mState = eState.psChunkLength) (hok : s.Ok (a ++ b)) : s.AppendStep a b := by
  have hnp := npos_eq
  have hs : s.mState ≠ eState.psFinished := by rw [hst]; simp
  have hlen := hok.1
  simp only [List.length_append] at hlen
  have hda : s.dispatch a = s.parseChunkLength a 0 := by unfold dispatch; rw [hst]
  have hdab : s.dispatch (a ++ b) = s.parseChunkLength (a ++ b) 0 := by unfold dispatch; rw [hst]
  have happ := parseChunkLength_append a b s 0 hst
  have hsp := parseChunkLength_spec a s 0
  unfold AppendStep
  rw [hda, hdab, happ]
  obtain ⟨ht, hc⟩ := hsp
  rcases hc with h | h | h
  · left
    have : ¬ (s.parseChunkLength a 0).1.mState = eState.psChunkLength := by rw [h.2]; simp
    rw [if_neg this]
    exact ⟨h.1, h.1, rfl, h.2, h.2⟩
  · right; right
    rw [hst] at h
    rw [if_pos h.2]
    rw [Nat.zero_add] at h ⊢
    have hokb : (s.parseChunkLength a 0).1.Ok b := Ok.of_trailer hok.right hs ht
    refine ⟨h.1, by rw [h.2, hst], hokb, fun hb => ?_⟩
    have hd2 : (s.parseChunkLength a 0).1.dispatch b = (s.parseChunkLength a 0).1.parseChunkLength b 0 := by
      unfold dispatch; rw [h.2]
    rw [hd2]
    have hsh := parseChunkLength_shift b (s.parseChunkLength a 0).1 0 a.length (by omega)
    rw [Nat.zero_add] at hsh
    rw [hsh]
    have hev : (s.parseChunkLength a 0).2.1 = [] :=
      parseChunkLength_events a s 0 (by rw [h.2]; simp)
    have hsp2 := parseChunkLength_spec b (s.parseChunkLength a 0).1 0
    constructor
    · intro hn
      have hf : ((s.parseChunkLength a 0).1.parseChunkLength b 0).1.mState = eState.psFinished := by
        rcases hsp2.2 with h2 | h2 | h2
        · exact h2.2
        · have := h2.1; omega
        · have := h2.2.1; omega
      simp only [addIdx, hn, if_true, hev, List.nil_append]
      exact ⟨trivial, trivial, hf, hf⟩
    · intro hn
      simp only [addIdx, hn, if_false, hev, List.nil_append]
      exact ⟨by omega, fun _ => trivial, equiv_refl _⟩
  · right; left
    have : ¬ (s.parseChunkLength a 0).1.mState = eState.psChunkLength := by
      rcases h.2.2 with h2 | h2 <;> rw [h2] <;> simp
    rw [if_neg this]
    exact ⟨by omega, by omega, rfl, rfl, equiv_refl _⟩

theorem appendStep_lengthTrailer (s : ChunkedTEParser) (a b : List Byte)
    (hst : s.mState = eState.psChunkLengthTrailer) (hok : s.Ok (a ++ b)) :
    s.AppendStep a b := by
  have hnp := npos_eq
  have hs : s.mState ≠ eState.psFinished := by rw [hst]; simp
  have hlen := hok.1
  simp only [List.length_append] at hlen
  have hda : s.dispatch a = s.parseChunkLengthTrailer a 0 := by unfold dispatch; rw [hst]
  have hdab : s.dispatch (a ++ b) = s.parseChunkLengthTrailer (a ++ b) 0 := by
    unfold dispatch; rw [hst]
  have happ := parseChunkLengthTrailer_append a b s 0 hst
  have hsp := parseChunkLengthTrailer_spec a s 0
  unfold AppendStep
  rw [hda, hdab, happ]
  obtain ⟨ht, hc⟩ := hsp
  rcases hc with h | h | h
  · left
    have : ¬ (s.parseChunkLengthTrailer a 0).1.mState = eState.psChunkLengthTrailer := by
      rw [h.2]; simp
    rw [if_neg this]
    exact ⟨h.1, h.1, rfl, h.2, h.2⟩
  · right; right
    have hst2 : (s.parseChunkLengthTrailer a 0).1.mState = eState.psChunkLengthTrailer := by
      rw [h.2, hst]
    rw [if_pos hst2]
    rw [Nat.zero_add] at h ⊢
    have hokb : (s.parseChunkLengthTrailer a 0).1.Ok b := Ok.of_trailer hok.right hs ht
    refine ⟨h.1, by rw [h.2], hokb, fun hb => ?_⟩
    have hd2 : (s.parseChunkLengthTrailer a 0).1.dispatch b =
        (s.parseChunkLengthTrailer a 0).1.parseChunkLengthTrailer b 0 := by
      unfold dispatch; rw [hst2]
    rw [hd2]
    have hsh := parseChunkLengthTrailer_shift b (s.parseChunkLengthTrailer a 0).1 0 a.length
      (by omega)
    rw [Nat.zero_add] at hsh
    rw [hsh]
    have hev : (s.parseChunkLengthTrailer a 0).2.1 = [] :=
      parseChunkLengthTrailer_events a s 0 (by rw [hst2]; simp)
    have hsp2 := parseChunkLengthTrailer_spec b (s.parseChunkLengthTrailer a 0).1 0
    constructor
    · intro hn
      have hf : ((s.parseChunkLengthTrailer a 0).1.parseChunkLengthTrailer b 0).1.mState =
          eState.psFinished := by
        rcases hsp2.2 with h2 | h2 | h2
        · exact h2.2
        · have := h2.1; omega
        · have := h2.2.1; omega
      simp only [addIdx, hn, if_true, hev, List.nil_append]
      exact ⟨trivial, trivial, hf, hf⟩
    · intro hn
      simp only [addIdx, hn, if_false, hev, List.nil_append]
      exact ⟨by omega, fun _ => trivial, equiv_refl _⟩
  · right; left
    have : ¬ (s.parseChunkLengthTrailer a 0).1.mState = eState.psChunkLengthTrailer := by
      rw [h.2.2]; simp
    rw [if_neg this]
    exact ⟨by omega, by omega, rfl, rfl, equiv_refl _⟩

/-- In the three states that look at one byte only, the turn on `a ++ b` is the
turn on `a`. -/
theorem appendStep_byte (s : ChunkedTEParser) (a b : List Byte) (ha : a ≠ [])
    (hst : s.mState = eState.psChunkLengthLF ∨ s.mState = eState.psChunkDataCR ∨
      s.mState = eState.psChunkDataLF) (hok : s.Ok (a ++ b)) : s.AppendStep a b := by
  have hnp := npos_eq
  have hs : s.mState ≠ eState.psFinished := by
    rcases hst with h | h | h <;> rw [h] <;> simp
  cases a with
  | nil => exact absurd rfl ha
  | cons c rest =>
    have heq : s.dispatch (c :: rest ++ b) = s.dispatch (c :: rest) := by
      unfold dispatch
      rcases hst with h | h | h <;> rw [h] <;> rfl
    have hsp := dispatch_spec s (c :: rest) ha hs hok.left
    unfold AppendStep
    rw [heq]
    rcases hsp with h | h
    · left; exact ⟨h.1, h.1, rfl, h.2, h.2⟩
    · right; left
      have hl := hok.1
      simp only [List.length_append] at hl
      exact ⟨by omega, h.1, rfl, rfl, equiv_refl _⟩

end ChunkedTEParser

end Http

namespace Http

namespace ChunkedTEParser

theorem parseChunkData_eq (s : ChunkedTEParser) (d : List Byte) :
    s.parseChunkData d =
      ({ s with
          mChunkDataLengthLeft := s.mChunkDataLengthLeft - min d.length s.mChunkDataLengthLeft,
          mState :=
            if s.mChunkDataLengthLeft - min d.length s.mChunkDataLengthLeft = 0 then
              eState.psChunkDataCR
            else s.mState },
        [TEEvent.onBodyData (d.take (min d.length s.mChunkDataLengthLeft))],
        min d.length s.mChunkDataLengthLeft) := by
  unfold parseChunkData
  by_cases h : s.mChunkDataLengthLeft - min d.length s.mChunkDataLengthLeft = 0
  · simp only [h, if_true]
  · simp only [h, if_false]

theorem appendStep_data (s : ChunkedTEParser) (a b : List Byte)
    (hst : s.mState = eState.psChunkData) (hok : s.Ok (a ++ b)) : s.AppendStep a b := by
  have hnp := npos_eq
  have hs : s.mState ≠ eState.psFinished := by rw [hst]; simp
  have hlen := hok.1
  simp only [List.length_append] at hlen
  have hda : s.dispatch a = s.parseChunkData a := by unfold dispatch; rw [hst]
  have hdab : s.dispatch (a ++ b) = s.parseChunkData (a ++ b) := by unfold dispatch; rw [hst]
  unfold AppendStep
  rw [hda, hdab]
  by_cases hle : s.mChunkDataLengthLeft ≤ a.length
  · right; left
    have m1 : min a.length s.mChunkDataLengthLeft = s.mChunkDataLengthLeft := by omega
    have m2 : min (a ++ b).length s.mChunkDataLengthLeft = s.mChunkDataLengthLeft := by
      simp only [List.length_append]; omega
    have ht : (a ++ b).take s.mChunkDataLengthLeft = a.take s.mChunkDataLengthLeft :=
      List.take_append_of_le_length hle
    rw [parseChunkData_eq s a, parseChunkData_eq s (a ++ b), m1, m2, ht]
    exact ⟨by simp only; omega, hle, rfl, rfl, equiv_refl _⟩
  · right; right
    have m1 : min a.length s.mChunkDataLengthLeft = a.length := by omega
    have hne : ¬ s.mChunkDataLengthLeft - a.length = 0 := by omega
    rw [parseChunkData_eq s a, m1]
    simp only [hne, if_false, List.take_length]
    refine ⟨trivial, trivial, Ok.of_trailer hok.right hs rfl, fun hb => ?_⟩
    have hd2 : dispatch ({ s with mChunkDataLengthLeft := s.mChunkDataLengthLeft - a.length } :
        ChunkedTEParser) b =
        parseChunkData ({ s with mChunkDataLengthLeft := s.mChunkDataLengthLeft - a.length } :
        ChunkedTEParser) b := by
      unfold dispatch; simp only [hst]
    rw [hd2, parseChunkData_eq _ b, parseChunkData_eq s (a ++ b)]
    simp only
    have m3 : min (a ++ b).length s.mChunkDataLengthLeft =
        a.length + min b.length (s.mChunkDataLengthLeft - a.length) := by
      simp only [List.length_append]; omega
    have ht : (a ++ b).take (a.length + min b.length (s.mChunkDataLengthLeft - a.length)) =
        a ++ b.take (min b.length (s.mChunkDataLengthLeft - a.length)) := by
      rw [List.take_append]
    have e1 : s.mChunkDataLengthLeft -
        (a.length + min b.length (s.mChunkDataLengthLeft - a.length)) =
        s.mChunkDataLengthLeft - a.length - min b.length (s.mChunkDataLengthLeft - a.length) := by
      omega
    rw [m3, ht, e1]
    constructor
    · intro hn
      omega
    · intro _
      refine ⟨rfl, fun X => ?_, equiv_refl _⟩
      simp only [List.singleton_append, List.cons_append, List.nil_append]
      exact mergeTE_body_body _ _ _

theorem appendStep_trailer (s : ChunkedTEParser) (a b : List Byte)
    (hst : s.mState = eState.psTrailer) (hok : s.Ok (a ++ b)) : s.AppendStep a b := by
  have hnp := npos_eq
  have hs : s.mState ≠ eState.psFinished := by rw [hst]; simp
  have hlen := hok.1
  simp only [List.length_append] at hlen
  obtain ⟨hinv, hbound⟩ := hok.2 hs
  simp only [List.length_append] at hbound
  have hda : s.dispatch a = s.parseTrailer a := by unfold dispatch; rw [hst]
  have hdab : s.dispatch (a ++ b) = s.parseTrailer (a ++ b) := by unfold dispatch; rw [hst]
  have hcomp := EnvelopeParser.parse_append s.mTrailerParser a b hinv (by omega)
  obtain ⟨_, c2, c3, c4⟩ := hcomp
  have hspa := parseTrailer_spec s a hinv (by omega)
  have hspab := parseTrailer_spec s (a ++ b) hinv (by simp only [List.length_append]; omega)
  unfold AppendStep
  rw [hda, hdab]
  rcases hspa with h | h | h
  · -- the trailer parser fails inside `a`
    left
    have h3 := c3 h.1
    rcases hspab with g | g | g
    · rw [h.2, g.2]
      exact ⟨rfl, rfl, rfl, rfl, rfl⟩
    · exact absurd h3 g.1
    · have := g.1; simp only [List.length_append] at this; omega
  · -- the trailer ends inside `a`
    right; left
    have hout := EnvelopeParser.parse_out (s.mTrailerParser.parse a).1 b h.2.2.1
    rw [hout] at c2 c4
    have h4 := c4 h.1
    have hne : (s.mTrailerParser.parse (a ++ b)).2.2 ≠ npos := fun e => by
      have := h4.1.mp e; simp only at this; omega
    have heq : (s.mTrailerParser.parse (a ++ b)).2.2 = (s.mTrailerParser.parse a).2.2 := by
      have := h4.2 (by simp only; omega); simpa using this
    have hfl : (s.mTrailerParser.parse (a ++ b)).1.mIsInHeaders = false := by
      rw [← c2.1]; exact h.2.2.1
    rcases hspab with g | g | g
    · exact absurd g.1 hne
    · rw [h.2.2.2, g.2.2.2]
      exact ⟨h.1, h.2.1, heq, rfl, equiv_of_finished rfl rfl⟩
    · rw [hfl] at g; simp at g
  · -- the trailer parser is still in the headers after `a`
    right; right
    have hinv1 := EnvelopeParser.parse_inv s.mTrailerParser a hinv
    have hbl := EnvelopeParser.parse_buf_len s.mTrailerParser a hinv
    rw [h.2.2]
    have hok1 : Ok ({ s with mTrailerParser := (s.mTrailerParser.parse a).1 } : ChunkedTEParser) b :=
      ⟨by omega, fun _ => ⟨hinv1, by simp only; omega⟩⟩
    refine ⟨rfl, rfl, hok1, fun hb => ?_⟩
    have hd2 : dispatch ({ s with mTrailerParser := (s.mTrailerParser.parse a).1 } :
        ChunkedTEParser) b =
        parseTrailer ({ s with mTrailerParser := (s.mTrailerParser.parse a).1 } :
        ChunkedTEParser) b := by
      unfold dispatch; simp only [hst]
    rw [hd2]
    have hspb := parseTrailer_spec ({ s with mTrailerParser := (s.mTrailerParser.parse a).1 } :
      ChunkedTEParser) b hinv1 (by simp only; omega)
    simp only at hspb
    have hane : (s.mTrailerParser.parse a).2.2 ≠ npos := by rw [h.1]; omega
    have h4 := c4 hane
    rcases hspb with k | k | k
    · -- failure inside `b`
      have h3 : (s.mTrailerParser.parse (a ++ b)).2.2 = npos := h4.1.mpr k.1
      rcases hspab with g | g | g
      · rw [k.2, g.2]
        simp only [List.nil_append]
        constructor
        · intro _; simp
        · intro e; exact absurd rfl e
      · exact absurd h3 g.1
      · have := g.1; simp only [List.length_append] at this; omega
    · -- the trailer ends inside `b`
      have hne : (s.mTrailerParser.parse (a ++ b)).2.2 ≠ npos := fun e => k.1 (h4.1.mp e)
      have heq := h4.2 k.1
      rw [h.1] at heq
      have hfl : (s.mTrailerParser.parse (a ++ b)).1.mIsInHeaders = false := by
        rw [← c2.1]; exact k.2.2.1
      rcases hspab with g | g | g
      · exact absurd g.1 hne
      · rw [k.2.2.2, g.2.2.2]
        simp only [List.nil_append]
        exact ⟨fun e => absurd e k.1,
          fun _ => ⟨heq, fun _ => trivial, equiv_of_finished rfl rfl⟩⟩
      · rw [hfl] at g; simp at g
    · -- still in the headers after `b`
      have hkne : ((s.mTrailerParser.parse a).1.parse b).2.2 ≠ npos := by rw [k.1]; omega
      have hne : (s.mTrailerParser.parse (a ++ b)).2.2 ≠ npos := fun e => hkne (h4.1.mp e)
      have hfl : (s.mTrailerParser.parse (a ++ b)).1.mIsInHeaders = true := by
        rw [← c2.1]; exact k.2.1
      have hst3 : ((s.mTrailerParser.parse a).1.parse b).1 = (s.mTrailerParser.parse (a ++ b)).1 :=
        c2.2 k.2.1
      rcases hspab with g | g | g
      · exact absurd g.1 hne
      · rw [hfl] at g; simp at g
      · rw [k.2.2, g.2.2]
        simp only [List.nil_append, List.length_append, hst3]
        exact ⟨fun e => by omega, fun _ => ⟨trivial, fun _ => trivial, equiv_refl _⟩⟩

/-- One turn of the loop on `a ++ b` against one turn on `a`, in every state. -/
theorem appendStep (s : ChunkedTEParser) (a b : List Byte) (ha : a ≠ [])
    (hs : s.mState ≠ eState.psFinished) (hok : s.Ok (a ++ b)) : s.AppendStep a b := by
  cases hst : s.mState with
  | psFinished => exact absurd hst hs
  | psChunkLength => exact appendStep_length s a b hst hok
  | psChunkLengthTrailer => exact appendStep_lengthTrailer s a b hst hok
  | psChunkLengthLF => exact appendStep_byte s a b ha (Or.inl hst) hok
  | psChunkData => exact appendStep_data s a b hst hok
  | psChunkDataCR => exact appendStep_byte s a b ha (Or.inr (Or.inl hst)) hok
  | psChunkDataLF => exact appendStep_byte s a b ha (Or.inr (Or.inr hst)) hok
  | psTrailer => exact appendStep_trailer s a b hst hok

end ChunkedTEParser

end Http

namespace Http

namespace ChunkedTEParser

/-! ## Feeding a slice to the chunked parser in two pieces -/

theorem parse_equiv {s t : ChunkedTEParser} (h : s.Equiv t) (d : List Byte) :
    (s.parse d).2 = (t.parse d).2 ∧ (s.parse d).1.Equiv (t.parse d).1 := by
  by_cases hs : s.mState = eState.psFinished
  · have ht : t.mState = eState.psFinished := by rw [← h.1]; exact hs
    rw [parse_finished s d hs, parse_finished t d ht]
    exact ⟨rfl, equiv_of_finished hs ht⟩
  · have := h.2 hs
    subst this
    exact ⟨rfl, equiv_refl _⟩

theorem equiv_symm {s t : ChunkedTEParser} (h : s.Equiv t) : t.Equiv s := by
  refine ⟨h.1.symm, fun ht => ?_⟩
  have hs : s.mState ≠ eState.psFinished := by rw [h.1]; exact ht
  exact (h.2 hs).symm

theorem equiv_trans {s t u : ChunkedTEParser} (h1 : s.Equiv t) (h2 : t.Equiv u) : s.Equiv u := by
  refine ⟨h1.1.trans h2.1, fun hs => ?_⟩
  have e := h1.2 hs
  subst e
  exact h2.2 hs

theorem appendOk_nil (s : ChunkedTEParser) (b : List Byte) (hok : s.Ok b) : s.AppendOk [] b := by
  have hnp := npos_eq
  unfold AppendOk
  rw [chunked_parse_nil, List.nil_append]
  simp only [List.nil_append, Nat.zero_add]
  refine ⟨?_, equiv_refl _, fun h => by omega, fun _ => ?_, hok⟩
  · first | rfl | trivial
  · refine ⟨?_, ?_⟩
    · first | trivial | exact Iff.rfl
    · first | trivial | (intro _; first | rfl | trivial)

theorem appendOk_finished (s : ChunkedTEParser) (a b : List Byte)
    (hs : s.mState = eState.psFinished) (hok : s.Ok (a ++ b)) : s.AppendOk a b := by
  have hnp := npos_eq
  have hl := hok.1
  simp only [List.length_append] at hl
  unfold AppendOk
  rw [parse_finished s a hs, parse_finished s (a ++ b) hs]
  simp only [parse_finished s b hs, List.length_append, List.append_nil]
  refine ⟨?_, equiv_refl _, fun h => by omega, fun _ => ⟨?_, ?_⟩, hok.right⟩
  · first | rfl | trivial
  · constructor <;> intro h <;> omega
  · first | trivial | (intro _; first | rfl | trivial)

theorem chunked_parse_append_aux : ∀ (n : Nat) (s : ChunkedTEParser) (a b : List Byte),
    weight s a ≤ n → s.Ok (a ++ b) → s.AppendOk a b
  | 0, s, a, b, hw, hok => by
    by_cases ha : a = []
    · subst ha; exact appendOk_nil s b hok
    · by_cases hs : s.mState = eState.psFinished
      · exact appendOk_finished s a b hs hok
      · have := weight_pos s a ha hs
        omega
  | n + 1, s, a, b, hw, hok => by
    have hnp := npos_eq
    have hl := hok.1
    simp only [List.length_append] at hl
    by_cases ha : a = []
    · subst ha; exact appendOk_nil s b hok
    by_cases hs : s.mState = eState.psFinished
    · exact appendOk_finished s a b hs hok
    have hab : a ++ b ≠ [] := by simp [ha]
    have hspa := dispatch_spec s a ha hs hok.left
    have hspab := dispatch_spec s (a ++ b) hab hs hok
    rcases appendStep s a b ha hs hok with h | h | h
    · -- both turns fail
      obtain ⟨h1, h2, h3, h4, h5⟩ := h
      unfold AppendOk
      rw [parse_step_err s a ha hs h1, parse_step_err s (a ++ b) hab hs h2]
      simp only [parse_finished _ b h4, List.append_nil, h3]
      refine ⟨?_, equiv_of_finished h4 h5, ?_, fun hn => absurd rfl hn, ?_⟩
      · first | rfl | trivial
      · first | trivial | (intro _; first | rfl | trivial)
      · exact ⟨by omega, fun hcon => absurd h4 hcon⟩
    · -- the turn stops inside `a`
      obtain ⟨h1, h2, h3, h4, h5⟩ := h
      have h1' : (s.dispatch (a ++ b)).2.2 ≠ npos := by rw [h3]; exact h1
      have hdrop : (a ++ b).drop (s.dispatch a).2.2 = a.drop (s.dispatch a).2.2 ++ b :=
        List.drop_append_of_le_length h2
      rcases hspa with g | g
      · exact absurd g.1 h1
      rcases hspab with g' | g'
      · exact absurd g'.1 h1'
      obtain ⟨_, gw, gok⟩ := g
      obtain ⟨_, _, gok'⟩ := g'
      rw [h3, hdrop] at gok'
      unfold AppendOk
      rw [parse_step s a ha hs hok.left h1, parse_step s (a ++ b) hab hs hok h1']
      rw [h3, h4, hdrop]
      have heq := parse_equiv h5 (a.drop (s.dispatch a).2.2 ++ b)
      rw [heq.1]
      by_cases hf : (s.dispatch a).1.mState = eState.psFinished
      · have hfab : (s.dispatch (a ++ b)).1.mState = eState.psFinished := by rw [h5.1]; exact hf
        rw [parse_finished _ (a.drop (s.dispatch a).2.2 ++ b) hf,
          parse_finished _ (a.drop (s.dispatch a).2.2) hf]
        simp only [parse_finished _ b hf, List.append_nil, List.length_append, List.length_drop]
        have hfin := parse_finished (s.dispatch (a ++ b)).1 (a.drop (s.dispatch a).2.2 ++ b) hfab
        refine ⟨?_, ?_, fun e => by omega, fun _ => ⟨?_, ?_⟩, ?_⟩
        · first | rfl | trivial
        · rw [hfin]; exact equiv_of_finished hf hfab
        · constructor <;> intro e <;> omega
        · first | trivial | (intro _; first | rfl | trivial)
        · exact ⟨by omega, fun hcon => absurd hf hcon⟩
      · have e := (equiv_symm h5).2 hf
        have hok2 : (s.dispatch a).1.Ok (a.drop (s.dispatch a).2.2 ++ b) := by
          rw [e]; exact gok'
        have ih := chunked_parse_append_aux n (s.dispatch a).1 (a.drop (s.dispatch a).2.2) b
          (by omega) hok2
        unfold AppendOk at ih
        obtain ⟨i1, i2, i3, i4, i5⟩ := ih
        simp only
        refine ⟨?_, ?_, i3, i4, i5⟩
        · rw [List.append_assoc]
          exact mergeTE_append_congr _ i1
        · exact equiv_trans i2 (equiv_symm heq.2)
    · -- the turn uses up `a` and stays in the state
      obtain ⟨h1, h2, h3, h4⟩ := h
      have h1' : (s.dispatch a).2.2 ≠ npos := by rw [h1]; omega
      have hsa : (s.dispatch a).1.mState ≠ eState.psFinished := by rw [h2]; exact hs
      have hpa : s.parse a = ((s.dispatch a).1, (s.dispatch a).2.1, 0) := by
        rw [parse_step s a ha hs hok.left h1', h1, List.drop_length, chunked_parse_nil]
        simp
      by_cases hb : b = []
      · subst hb
        unfold AppendOk
        simp only [List.append_nil]
        rw [hpa, chunked_parse_nil]
        simp only [List.append_nil, Nat.add_zero]
        refine ⟨?_, equiv_refl _, fun e => by omega, fun _ => ⟨?_, ?_⟩, h3⟩
        · first | rfl | trivial
        · first | trivial | exact Iff.rfl
        · first | trivial | (intro _; first | rfl | trivial)
      obtain ⟨k1, k2⟩ := h4 hb
      unfold AppendOk
      rw [hpa]
      simp only
      by_cases hn : ((s.dispatch a).1.dispatch b).2.2 = npos
      · obtain ⟨m1, m2, m3, m4⟩ := k1 hn
        rw [parse_step_err _ b hb hsa hn, parse_step_err s (a ++ b) hab hs m1]
        simp only
        refine ⟨m2.symm, equiv_of_finished m3 m4, fun e => by omega, fun _ => ⟨?_, ?_⟩, h3⟩
        · first | trivial | exact Iff.rfl
        · first | trivial | (intro e; exact absurd rfl e)
      · obtain ⟨m1, m2, m3⟩ := k2 hn
        have hn' : (s.dispatch (a ++ b)).2.2 ≠ npos := by
          rcases hspab with g | g
          · rw [m1] at g
            rcases dispatch_spec _ b hb hsa h3 with q | q
            · exact absurd q.1 hn
            · have := q.1; have := g.1; omega
          · have := g.1; simp only [List.length_append] at this; omega
        have hdrop : (a ++ b).drop (s.dispatch (a ++ b)).2.2 =
            b.drop ((s.dispatch a).1.dispatch b).2.2 := by
          rw [m1, List.drop_append]
        rw [parse_step _ b hb hsa h3 hn, parse_step s (a ++ b) hab hs hok hn', hdrop]
        have heq := parse_equiv m3 (b.drop ((s.dispatch a).1.dispatch b).2.2)
        rw [heq.1]
        simp only [Nat.zero_add]
        refine ⟨?_, (equiv_symm heq.2), fun e => by omega, fun _ => ⟨?_, ?_⟩, h3⟩
        · rw [← List.append_assoc]
          exact (m2 _).symm
        · first | trivial | exact Iff.rfl
        · first | trivial | (intro _; first | rfl | trivial)

/-- Splitting a slice in two does not change what the chunked parser does. -/
theorem chunked_parse_append (s : ChunkedTEParser) (a b : List Byte) (hok : s.Ok (a ++ b)) :
    s.AppendOk a b :=
  chunked_parse_append_aux (weight s a) s a b (Nat.le_refl _) hok

end ChunkedTEParser

end Http

namespace Http

namespace ChunkedTEParser

/-! ## Feeding a list of slices to the chunked parser -/

theorem chunked_feed_eq_parse : ∀ (slices : List (List Byte)) (s : ChunkedTEParser),
    s.Ok slices.flatten →
    mergeTE (s.feed slices).2.1 = mergeTE (s.parse slices.flatten).2.1 ∧
    (s.feed slices).1.Equiv (s.parse slices.flatten).1 ∧
    (npos ∈ (s.feed slices).2.2 ↔ (s.parse slices.flatten).2.2 = npos) ∧
    ((s.parse slices.flatten).2.2 ≠ npos →
      (s.feed slices).2.2.sum = (s.parse slices.flatten).2.2)
  | [], s, _ => by
    have hnp := npos_eq
    simp only [List.flatten_nil, chunked_parse_nil, feed]
    refine ⟨trivial, equiv_refl _, ?_, ?_⟩
    · simp; omega
    · intro _; simp
  | x :: xs, s, hok => by
    simp only [List.flatten_cons] at hok ⊢
    have happ := chunked_parse_append s x xs.flatten hok
    unfold AppendOk at happ
    obtain ⟨a1, a2, a3, a4, a5⟩ := happ
    have ih := chunked_feed_eq_parse xs (s.parse x).1 a5
    obtain ⟨i1, i2, i3, i4⟩ := ih
    simp only [feed]
    refine ⟨?_, equiv_trans i2 a2, ?_, ?_⟩
    · rw [a1]
      exact mergeTE_append_congr _ i1
    · by_cases hr : (s.parse x).2.2 = npos
      · simp only [List.mem_cons]
        constructor
        · intro _; exact a3 hr
        · intro _; left; exact hr.symm
      · simp only [List.mem_cons]
        constructor
        · intro h
          rcases h with h | h
          · exact absurd h.symm hr
          · exact (a4 hr).1.mpr (i3.mp h)
        · intro h
          right
          exact i3.mpr ((a4 hr).1.mp h)
    · intro hne
      have hr : (s.parse x).2.2 ≠ npos := fun h => hne (a3 h)
      have hr2 : ((s.parse x).1.parse xs.flatten).2.2 ≠ npos := fun h => hne ((a4 hr).1.mpr h)
      rw [List.sum_cons, i4 hr2, (a4 hr).2 hr2]

/-! ## The chunked parser on a well-formed body, in one call -/

theorem parse_of_dispatch (s : ChunkedTEParser) (d : List Byte) (s' : ChunkedTEParser)
    (ev : List TEEvent) (c : Nat) (hd : d ≠ []) (hs : s.mState ≠ eState.psFinished)
    (hok : s.Ok d) (hdis : s.dispatch d = (s', ev, c)) (hc : c ≠ npos) :
    s.parse d = ((s'.parse (d.drop c)).1, ev ++ (s'.parse (d.drop c)).2.1,
      (s'.parse (d.drop c)).2.2) := by
  have h := parse_step s d hd hs hok (by rw [hdis]; exact hc)
  rw [hdis] at h
  exact h

theorem ok_of_new_trailer (s : ChunkedTEParser) (d : List Byte)
    (ht : s.mTrailerParser = EnvelopeParser.new) (hl : d.length < npos) : s.Ok d := by
  refine ⟨hl, fun _ => ?_⟩
  rw [ht]
  exact ⟨EnvelopeParser.new_inv, by simpa [EnvelopeParser.new] using hl⟩

theorem hexValueFrom_le : ∀ (ds : List Byte) (init : Nat), init ≤ hexValueFrom init ds
  | [], init => Nat.le_refl _
  | c :: ds, init => by
    have ih := hexValueFrom_le ds (init * 16 + hexDigitValue c)
    unfold hexValueFrom at ih ⊢
    simp only [List.foldl_cons]
    omega

theorem accumLength_eq : ∀ (ds : List Byte) (init : Nat), hexValueFrom init ds < 2 ^ 64 →
    accumLength init ds = hexValueFrom init ds
  | [], init, _ => rfl
  | c :: ds, init, h => by
    have hle := hexValueFrom_le ds (init * 16 + hexDigitValue c)
    have h' : hexValueFrom (init * 16 + hexDigitValue c) ds < 2 ^ 64 := h
    have ih := accumLength_eq ds (init * 16 + hexDigitValue c) h'
    have e : sizeAdd (sizeMul init 16) (hexDigitValue c) = init * 16 + hexDigitValue c := by
      unfold sizeAdd sizeMul
      rw [two_pow_64] at *
      omega
    show accumLength (sizeAdd (sizeMul init 16) (hexDigitValue c)) ds = _
    rw [e, ih]
    rfl

theorem parseChunkLength_hex : ∀ (ds rest : List Byte) (p : ChunkedTEParser) (i : Nat),
    (∀ d ∈ ds, isHexDigit d) →
    parseChunkLength p (ds ++ 13 :: rest) i =
      ({ p with
          mChunkDataLengthLeft := accumLength p.mChunkDataLengthLeft ds,
          mState := eState.psChunkLengthLF }, [], i + ds.length + 1)
  | [], rest, p, i, _ => by
    simp [parseChunkLength, accumLength]
  | c :: ds, rest, p, i, h => by
    have hc : isHexDigit c := h c (by simp)
    have hds : ∀ d ∈ ds, isHexDigit d := fun d hd => h d (List.mem_cons_of_mem _ hd)
    have e : i + 1 + ds.length + 1 = i + (c :: ds).length + 1 := by simp; omega
    rw [List.cons_append]
    unfold isHexDigit at hc
    simp only [Byte] at hc
    by_cases h1 : 48 ≤ c ∧ c ≤ 57
    · have hv : hexDigitValue c = c - 48 := by unfold hexDigitValue; rw [if_pos h1]
      simp only [parseChunkLength, h1, and_self, if_true]
      rw [parseChunkLength_hex ds rest _ (i + 1) hds, e]
      simp only [accumLength, List.foldl_cons, hv]
    · by_cases h2 : 97 ≤ c ∧ c ≤ 102
      · have hv : hexDigitValue c = c - 97 + 10 := by
          unfold hexDigitValue; rw [if_neg h1, if_pos h2]
        simp only [parseChunkLength, h1, h2, and_self, if_true, if_false]
        rw [parseChunkLength_hex ds rest _ (i + 1) hds, e]
        simp only [accumLength, List.foldl_cons, hv]
      · have h3 : 65 ≤ c ∧ c ≤ 70 := by
          simp only [Byte] at h1 h2 ⊢
          omega
        have hv : hexDigitValue c = c - 65 + 10 := by
          unfold hexDigitValue; rw [if_neg h1, if_neg h2]
        simp only [parseChunkLength, h1, h2, h3, and_self, if_true, if_false]
        rw [parseChunkLength_hex ds rest _ (i + 1) hds, e]
        simp only [accumLength, List.foldl_cons, hv]

end ChunkedTEParser

end Http

namespace Http

namespace ChunkedTEParser

theorem parse_consume (s s' : ChunkedTEParser) (pre X : List Byte) (ev : List TEEvent)
    (hpre : pre ≠ []) (hs : s.mState ≠ eState.psFinished) (hok : s.Ok (pre ++ X))
    (hdis : s.dispatch (pre ++ X) = (s', ev, pre.length)) :
    s.parse (pre ++ X) = ((s'.parse X).1, ev ++ (s'.parse X).2.1, (s'.parse X).2.2) := by
  have hl := hok.1
  simp only [List.length_append] at hl
  have h := parse_of_dispatch s (pre ++ X) s' ev pre.length (by simp [hpre]) hs hok hdis
    (by omega)
  rw [List.drop_left] at h
  exact h

/-- The states of the chunked parser between the pieces of a chunk: all keep
the fresh trailer parser. -/
theorem parse_chunk (c : Chunk) (hwf : c.Wf) (rest : List Byte)
    (hlen : (c.encode ++ rest).length < npos) :
    ChunkedTEParser.new.parse (c.encode ++ rest) =
      ((ChunkedTEParser.new.parse rest).1,
        TEEvent.onBodyData c.data :: (ChunkedTEParser.new.parse rest).2.1,
        (ChunkedTEParser.new.parse rest).2.2) := by
  have hnp := npos_eq
  obtain ⟨hdata, hhex, hval⟩ := hwf
  have hdl : 0 < c.data.length := List.length_pos.mpr hdata
  have henc : c.encode ++ rest =
      (c.size ++ [13]) ++ ([10] ++ (c.data ++ ([13] ++ ([10] ++ rest)))) := by
    simp [Chunk.encode, crlf]
  rw [henc] at hlen ⊢
  simp only [List.length_append, List.length_cons, List.length_nil] at hlen
  have hacc : accumLength 0 c.size = c.data.length := by
    rw [accumLength_eq c.size 0 (by
      show hexValue c.size < 2 ^ 64
      rw [hval, two_pow_64]; omega)]
    exact hval
  have hokl : ∀ (s : ChunkedTEParser) (d : List Byte), s.mTrailerParser = EnvelopeParser.new →
      d.length ≤ c.size.length + c.data.length + rest.length + 4 → s.Ok d :=
    fun s d ht hd => ok_of_new_trailer s d ht (by omega)
  -- the size line
  have h1 := parse_consume ChunkedTEParser.new
    { mState := eState.psChunkLengthLF, mChunkDataLengthLeft := c.data.length,
      mTrailerParser := EnvelopeParser.new }
    (c.size ++ [13]) ([10] ++ (c.data ++ ([13] ++ ([10] ++ rest)))) [] (by simp)
    (by simp [ChunkedTEParser.new])
    (hokl _ _ rfl (by simp; omega))
    (by
      have := parseChunkLength_hex c.size ([10] ++ (c.data ++ ([13] ++ ([10] ++ rest))))
        ChunkedTEParser.new 0 hhex
      simp only [List.append_assoc, List.singleton_append] at this ⊢
      unfold dispatch
      simp only [ChunkedTEParser.new] at this ⊢
      rw [this, hacc]
      simp)
  -- the LF of the size line
  have h2 := parse_consume
    { mState := eState.psChunkLengthLF, mChunkDataLengthLeft := c.data.length,
      mTrailerParser := EnvelopeParser.new }
    { mState := eState.psChunkData, mChunkDataLengthLeft := c.data.length,
      mTrailerParser := EnvelopeParser.new }
    [10] (c.data ++ ([13] ++ ([10] ++ rest))) [] (by simp) (by simp)
    (hokl _ _ rfl (by simp; omega))
    (by
      have hne : c.data.length ≠ 0 := by omega
      simp [dispatch, parseChunkLengthLF, hne])
  -- the data
  have h3 := parse_consume
    { mState := eState.psChunkData, mChunkDataLengthLeft := c.data.length,
      mTrailerParser := EnvelopeParser.new }
    { mState := eState.psChunkDataCR, mChunkDataLengthLeft := 0,
      mTrailerParser := EnvelopeParser.new }
    c.data ([13] ++ ([10] ++ rest)) [TEEvent.onBodyData c.data] hdata (by simp)
    (hokl _ _ rfl (by simp; omega))
    (by
      show parseChunkData _ (c.data ++ ([13] ++ ([10] ++ rest))) = _
      rw [parseChunkData_eq]
      have hm : min (c.data ++ ([13] ++ ([10] ++ rest))).length c.data.length = c.data.length := by
        simp only [List.length_append]; omega
      simp only [hm, Nat.sub_self, if_true, List.take_left'])
  -- the CR and the LF after the data
  have h4 := parse_consume
    { mState := eState.psChunkDataCR, mChunkDataLengthLeft := 0,
      mTrailerParser := EnvelopeParser.new }
    { mState := eState.psChunkDataLF, mChunkDataLengthLeft := 0,
      mTrailerParser := EnvelopeParser.new }
    [13] ([10] ++ rest) [] (by simp) (by simp)
    (hokl _ _ rfl (by simp; omega))
    (by simp [dispatch, parseChunkDataCR])
  have h5 := parse_consume
    { mState := eState.psChunkDataLF, mChunkDataLengthLeft := 0,
      mTrailerParser := EnvelopeParser.new }
    ChunkedTEParser.new
    [10] rest [] (by simp) (by simp)
    (hokl _ _ rfl (by simp; omega))
    (by simp [dispatch, parseChunkDataLF, ChunkedTEParser.new])
  rw [h1, h2, h3, h4, h5]
  simp

end ChunkedTEParser

end Http

namespace Http

namespace ChunkedTEParser

theorem parse_chunks : ∀ (cs : List Chunk) (rest : List Byte), (∀ c ∈ cs, c.Wf) →
    (encodeChunks cs ++ rest).length < npos →
    ChunkedTEParser.new.parse (encodeChunks cs ++ rest) =
      ((ChunkedTEParser.new.parse rest).1,
        cs.map (fun c => TEEvent.onBodyData c.data) ++ (ChunkedTEParser.new.parse rest).2.1,
        (ChunkedTEParser.new.parse rest).2.2)
  | [], rest, _, _ => by simp [encodeChunks]
  | c :: cs, rest, hwf, hlen => by
    have e : encodeChunks (c :: cs) ++ rest = c.encode ++ (encodeChunks cs ++ rest) := by
      simp [encodeChunks]
    rw [e] at hlen ⊢
    have hl2 : (encodeChunks cs ++ rest).length < npos := by
      simp only [List.length_append] at hlen ⊢; omega
    rw [parse_chunk c (hwf c (by simp)) _ hlen,
      parse_chunks cs rest (fun x hx => hwf x (List.mem_cons_of_mem _ hx)) hl2]
    simp

/-- The last-chunk line, the trailer and the closing empty line. -/
theorem parse_last (trailers : List Header) (R : List Byte) (hwf : ∀ h ∈ trailers, h.Wf)
    (hlen : (48 :: crlf ++ encodeBlock trailers ++ R).length < npos) :
    (ChunkedTEParser.new.parse (48 :: crlf ++ encodeBlock trailers ++ R)).2 =
      ([TEEvent.onBodyFinished], R.length) ∧
    (ChunkedTEParser.new.parse (48 :: crlf ++ encodeBlock trailers ++ R)).1.mState =
      eState.psFinished := by
  have hnp := npos_eq
  have henc : 48 :: crlf ++ encodeBlock trailers ++ R =
      ([48] ++ [13]) ++ ([10] ++ (encodeBlock trailers ++ R)) := by
    simp [crlf]
  rw [henc] at hlen ⊢
  simp only [List.length_append, List.length_cons, List.length_nil] at hlen
  have hokl : ∀ (s : ChunkedTEParser) (d : List Byte), s.mTrailerParser = EnvelopeParser.new →
      d.length ≤ (encodeBlock trailers).length + R.length + 3 → s.Ok d :=
    fun s d ht hd => ok_of_new_trailer s d ht (by omega)
  have h1 := parse_consume ChunkedTEParser.new
    { mState := eState.psChunkLengthLF, mChunkDataLengthLeft := 0,
      mTrailerParser := EnvelopeParser.new }
    ([48] ++ [13]) ([10] ++ (encodeBlock trailers ++ R)) [] (by simp)
    (by simp [ChunkedTEParser.new]) (hokl _ _ rfl (by simp))
    (by
      have := parseChunkLength_hex [48] ([10] ++ (encodeBlock trailers ++ R))
        ChunkedTEParser.new 0 (by decide)
      have hz : accumLength ChunkedTEParser.new.mChunkDataLengthLeft [48] = 0 := by decide
      rw [hz] at this
      show parseChunkLength _ (48 :: 13 :: 10 :: (encodeBlock trailers ++ R)) 0 = _
      exact this)
  have h2 := parse_consume
    { mState := eState.psChunkLengthLF, mChunkDataLengthLeft := 0,
      mTrailerParser := EnvelopeParser.new }
    { mState := eState.psTrailer, mChunkDataLengthLeft := 0,
      mTrailerParser := EnvelopeParser.new }
    [10] (encodeBlock trailers ++ R) [] (by simp) (by simp) (hokl _ _ rfl (by simp))
    (by simp [dispatch, parseChunkLengthLF])
  have hblock := EnvelopeParser.parse_block trailers R hwf (by
    rw [two_pow_64]; simp only [List.length_append]; omega)
  have hbne : encodeBlock trailers ++ R ≠ [] := by simp [encodeBlock, crlf]
  have hsp := parseTrailer_spec
    { mState := eState.psTrailer, mChunkDataLengthLeft := 0,
      mTrailerParser := EnvelopeParser.new }
    (encodeBlock trailers ++ R) EnvelopeParser.new_inv (by
      simp only [EnvelopeParser.new, List.length_nil, List.length_append]; omega)
  simp only at hsp
  have hble : (encodeBlock trailers).length < npos := by omega
  have hpt : parseTrailer
      { mState := eState.psTrailer, mChunkDataLengthLeft := 0,
        mTrailerParser := EnvelopeParser.new } (encodeBlock trailers ++ R) =
      ({ mState := eState.psFinished, mChunkDataLengthLeft := 0,
          mTrailerParser := (EnvelopeParser.new.parse (encodeBlock trailers ++ R)).1 },
        [TEEvent.onBodyFinished], (encodeBlock trailers).length) := by
    rcases hsp with g | g | g
    · rw [hblock.1] at g; omega
    · rw [g.2.2.2, hblock.1]
    · rw [hblock.2.1] at g; simp at g
  have h3 := parse_consume
    { mState := eState.psTrailer, mChunkDataLengthLeft := 0,
      mTrailerParser := EnvelopeParser.new }
    { mState := eState.psFinished, mChunkDataLengthLeft := 0,
      mTrailerParser := (EnvelopeParser.new.parse (encodeBlock trailers ++ R)).1 }
    (encodeBlock trailers) R [TEEvent.onBodyFinished] (by simp [encodeBlock, crlf]) (by simp)
    (hokl _ _ rfl (by simp))
    (by
      show parseTrailer _ (encodeBlock trailers ++ R) = _
      exact hpt)
  rw [h1, h2, h3, parse_finished _ R rfl]
  simp

/-- A fresh chunked parser on a well-formed chunked body followed by any bytes
`R`, in one call: the data of the chunks, then `onBodyFinished`, and `R` is left
unconsumed. -/
theorem parse_chunked_body (cs : List Chunk) (trailers : List Header) (R : List Byte)
    (hcs : ∀ c ∈ cs, c.Wf) (htr : ∀ h ∈ trailers, h.Wf)
    (hlen : (encodeChunked cs trailers ++ R).length < npos) :
    (ChunkedTEParser.new.parse (encodeChunked cs trailers ++ R)).2 =
      (cs.map (fun c => TEEvent.onBodyData c.data) ++ [TEEvent.onBodyFinished], R.length) ∧
    (ChunkedTEParser.new.parse (encodeChunked cs trailers ++ R)).1.mState =
      eState.psFinished := by
  have e : encodeChunked cs trailers ++ R =
      encodeChunks cs ++ (48 :: crlf ++ encodeBlock trailers ++ R) := by
    simp [encodeChunked]
  rw [e] at hlen ⊢
  have hl2 : (48 :: crlf ++ encodeBlock trailers ++ R).length < npos := by
    rw [List.length_append] at hlen; omega
  have hlast := parse_last trailers R htr hl2
  rw [parse_chunks cs _ hcs hlen]
  simp only [hlast.1, hlast.2, and_self]

theorem mergeTE_bodies : ∀ (ds : List (List Byte)), ds ≠ [] →
    mergeTE (ds.map TEEvent.onBodyData ++ [TEEvent.onBodyFinished]) =
      [TEEvent.onBodyData ds.flatten, TEEvent.onBodyFinished]
  | [], h => absurd rfl h
  | [d], _ => by simp [mergeTE, pushTE]
  | d :: d' :: r, _ => by
    have ih := mergeTE_bodies (d' :: r) (by simp)
    simp only [List.map_cons, List.cons_append] at ih ⊢
    rw [mergeTE, ih]
    simp [pushTE]

end ChunkedTEParser

end Http

namespace Http

namespace MessageParser

theorem onHeaderLines_eq : ∀ (l : List HeaderLine) (p : MessageParser),
    p.onHeaderLines l =
      ({ p with
          mContentLength := clAfter p.mContentLength l,
          mTransferEncoding := teAfter p.mTransferEncoding l,
          mHasHadError := p.mHasHadError || hdrError l }, hdrEvents l)
  | [], p => by
    simp [onHeaderLines, clAfter, teAfter, hdrError, hdrEvents]
  | h :: rest, p => by
    unfold onHeaderLines
    simp only [onHeaderLines_eq rest]
    unfold onHeaderLine onError
    by_cases h1 : Utils.strToLower h.1 = bytes "content-length"
    · cases h2 : Utils.stringToInteger h.2 with
      | none => simp [h1, h2, clAfter, teAfter, hdrError, hdrEvents]
      | some n => simp [h1, h2, clAfter, teAfter, hdrError, hdrEvents]
    · by_cases h3 : Utils.strToLower h.1 = bytes "transfer-encoding"
      · have hne : ¬ bytes "transfer-encoding" = bytes "content-length" := by decide
        simp [h3, hne, clAfter, teAfter, hdrError, hdrEvents]
      · simp [h1, h3, clAfter, teAfter, hdrError, hdrEvents]

theorem onTEEvents_eq : ∀ (l : List TEEvent) (p : MessageParser),
    p.onTEEvents l =
      ({ p with
          mHasHadError := p.mHasHadError || teError l,
          mIsFinished := p.mIsFinished || teFinished l }, l.map liftTE)
  | [], p => by
    simp [onTEEvents, teError, teFinished]
  | e :: rest, p => by
    unfold onTEEvents
    simp only [onTEEvents_eq rest]
    cases e with
    | onError d => simp [onTEEvent, onError, teError, teFinished, liftTE]
    | onBodyData d => simp [onTEEvent, onBodyData, teError, teFinished, liftTE]
    | onBodyFinished => simp [onTEEvent, onBodyFinished, teError, teFinished, liftTE]

end MessageParser

end Http

namespace Http

theorem decValueFrom_append (a b : List Byte) (init : Nat) :
    decValueFrom init (a ++ b) = decValueFrom (decValueFrom init a) b := by
  unfold decValueFrom
  rw [List.foldl_append]

theorem decValueFrom_ge : ∀ (ds : List Byte) (init : Nat), init ≤ decValueFrom init ds
  | [], init => by simp [decValueFrom]
  | c :: ds, init => by
    have ih := decValueFrom_ge ds (init * 10 + (c - 48))
    simp only [decValueFrom, List.foldl_cons] at ih ⊢
    omega

theorem decimalAux_append : ∀ (fuel n : Nat) (acc : List Byte),
    decimalAux fuel n acc = decimalAux fuel n [] ++ acc
  | 0, n, acc => by simp [decimalAux]
  | fuel + 1, n, acc => by
    unfold decimalAux
    by_cases h : n < 10
    · simp [h]
    · rw [if_neg h, if_neg h, decimalAux_append fuel (n / 10) ((48 + n % 10) :: acc),
        decimalAux_append fuel (n / 10) [48 + n % 10]]
      simp

theorem decimalAux_digits : ∀ (fuel n : Nat), ∀ c ∈ decimalAux fuel n [], 48 ≤ c ∧ c ≤ 57
  | 0, n => by simp [decimalAux]
  | fuel + 1, n => by
    unfold decimalAux
    by_cases h : n < 10
    · rw [if_pos h]
      intro c hc
      simp only [List.mem_singleton] at hc
      simp only [Byte] at *
      omega
    · rw [if_neg h, decimalAux_append]
      intro c hc
      rw [List.mem_append] at hc
      rcases hc with hc | hc
      · exact decimalAux_digits fuel (n / 10) c hc
      · simp only [List.mem_singleton] at hc
        simp only [Byte] at *
        omega

theorem decimalAux_value : ∀ (fuel n : Nat), n < fuel →
    decValueFrom 0 (decimalAux fuel n []) = n
  | 0, n, h => by omega
  | fuel + 1, n, h => by
    unfold decimalAux
    by_cases h1 : n < 10
    · rw [if_pos h1]
      simp [decValueFrom]
    · rw [if_neg h1, decimalAux_append, decValueFrom_append,
        decimalAux_value fuel (n / 10) (by omega)]
      simp only [decValueFrom, List.foldl_cons, List.foldl_nil]
      omega

theorem decimalAux_ne_nil (fuel n : Nat) : decimalAux (fuel + 1) n [] ≠ [] := by
  unfold decimalAux
  by_cases h1 : n < 10
  · rw [if_pos h1]; simp
  · rw [if_neg h1, decimalAux_append]; simp

theorem stringToIntegerLoop_digits : ∀ (ds : List Byte) (r : Nat),
    (∀ c ∈ ds, 48 ≤ c ∧ c ≤ 57) → decValueFrom r ds < 2 ^ 64 →
    Utils.stringToIntegerLoop ds r = some (decValueFrom r ds)
  | [], r, _, _ => by simp [Utils.stringToIntegerLoop, decValueFrom]
  | c :: ds, r, hd, hv => by
    have hc := hd c (List.mem_cons_self _ _)
    have hge := decValueFrom_ge ds (r * 10 + (c - 48))
    have h64 := two_pow_64
    have hnp := npos_eq
    have hv2 : decValueFrom (r * 10 + (c - 48)) ds < 2 ^ 64 := by
      simpa [decValueFrom] using hv
    have ih := stringToIntegerLoop_digits ds (r * 10 + (c - 48))
      (fun x hx => hd x (List.mem_cons_of_mem _ hx)) hv2
    unfold Utils.stringToIntegerLoop
    have e1 : ¬ (c < 48 ∨ c > 57) := by
      simp only [Byte] at *
      omega
    have e2 : ¬ (npos / 10 < r) := by
      simp only [Byte] at *
      omega
    have e3 : ¬ (npos - (c - 48) < r * 10) := by
      simp only [Byte] at *
      omega
    rw [if_neg e1, if_neg e2, if_neg e3, ih]
    simp [decValueFrom]

theorem stringToInteger_decimal (n : Nat) (h : n < 2 ^ 64) :
    Utils.stringToInteger (decimal n) = some n := by
  have hd : ∀ c ∈ decimal n, 48 ≤ c ∧ c ≤ 57 := decimalAux_digits (n + 1) n
  have hv : decValueFrom 0 (decimal n) = n := decimalAux_value (n + 1) n (by omega)
  have hl := stringToIntegerLoop_digits (decimal n) 0 hd (by rw [hv]; exact h)
  rw [hv] at hl
  unfold Utils.stringToInteger
  split
  · rename_i rest heq
    have := hd 43 (by rw [heq]; exact List.mem_cons_self _ _)
    exact absurd this (by decide)
  · rename_i rest heq
    have := hd 45 (by rw [heq]; exact List.mem_cons_self _ _)
    exact absurd this (by decide)
  · exact hl

end Http

namespace Http

namespace MessageParser

theorem findCRLF_zero (s : List Byte) : findCRLF s 0 = firstCRLF s := by
  unfold findCRLF
  simp

theorem parseFirstLine_line (p : MessageParser) (L X : List Byte) (hL : firstCRLF L = none)
    (hb : p.mBuffer = L ++ crlf ++ X) :
    p.parseFirstLine =
      ({ p with mFirstLine := L, mBuffer := X }, [Event.onFirstLine L], L.length + 2) := by
  have e : L ++ crlf ++ X = L ++ 13 :: 10 :: X := by simp [crlf]
  have hf : findCRLF p.mBuffer 0 = some L.length := by
    rw [findCRLF_zero, hb, e]
    exact firstCRLF_line L X hL
  unfold parseFirstLine
  rw [hf]
  simp only [hb, e]
  simp

/-- The transfer encoding `headersFinished` works with: `Identity` when none
was given. -/
theorem headersFinished_some (p : MessageParser) (t : TransferEncodingParser)
    (hc : TransferEncodingParser.create
      (if p.mTransferEncoding.isEmpty then bytes "Identity" else p.mTransferEncoding)
      p.mContentLength = some t) :
    p.headersFinished =
      ({ p with
          mTransferEncoding :=
            if p.mTransferEncoding.isEmpty then bytes "Identity" else p.mTransferEncoding,
          mTransferEncodingParser := some t }, [Event.onHeadersFinished]) := by
  unfold headersFinished
  by_cases h : p.mTransferEncoding.isEmpty = true
  · rw [if_pos h] at hc
    simp only [h, if_true, hc]
  · rw [if_neg h] at hc
    simp only [h, if_false, hc]
    simp [hc]

theorem headersFinished_none (p : MessageParser)
    (hc : TransferEncodingParser.create
      (if p.mTransferEncoding.isEmpty then bytes "Identity" else p.mTransferEncoding)
      p.mContentLength = none) :
    p.headersFinished =
      ({ p with
          mTransferEncoding :=
            if p.mTransferEncoding.isEmpty then bytes "Identity" else p.mTransferEncoding,
          mTransferEncodingParser := none,
          mHasHadError := true },
        [Event.onHeadersFinished,
          Event.onError (bytes "Unknown transfer encoding: " ++ Utils.cstr
            (if p.mTransferEncoding.isEmpty then bytes "Identity"
              else p.mTransferEncoding))]) := by
  unfold headersFinished onError
  by_cases h : p.mTransferEncoding.isEmpty = true
  · rw [if_pos h] at hc
    simp only [h, if_true, hc]
    simp
  · rw [if_neg h] at hc
    simp only [h, if_false, hc]
    simp [hc]

theorem headersFinished_frame (p : MessageParser) :
    p.headersFinished.1.mBuffer = p.mBuffer ∧
    p.headersFinished.1.mFirstLine = p.mFirstLine ∧
    p.headersFinished.1.mEnvelopeParser = p.mEnvelopeParser ∧
    p.headersFinished.1.mIsFinished = p.mIsFinished := by
  cases hc : TransferEncodingParser.create
      (if p.mTransferEncoding.isEmpty then bytes "Identity" else p.mTransferEncoding)
      p.mContentLength with
  | none => rw [headersFinished_none p hc]; exact ⟨rfl, rfl, rfl, rfl⟩
  | some t => rw [headersFinished_some p t hc]; exact ⟨rfl, rfl, rfl, rfl⟩

/-- The one-call run on a message whose first line and header block are
complete: the callbacks for the first line and the headers, and then whatever
`headersFinished` and `parseBody` do on the rest. -/
theorem parse_head (L : List Byte) (hs : List Header) (rest : List Byte)
    (hL1 : L ≠ []) (hL2 : firstCRLF L = none) (hwf : ∀ h ∈ hs, h.Wf)
    (hlen : (L ++ crlf ++ encodeBlock hs ++ rest).length < npos) :
    MessageParser.new.parse (L ++ crlf ++ encodeBlock hs ++ rest) =
      ((((headState L hs rest).headersFinished).1.parseBody rest).1,
        Event.onFirstLine L :: (hdrEvents (hs.map Header.callback) ++
          ((headState L hs rest).headersFinished).2 ++
          (((headState L hs rest).headersFinished).1.parseBody rest).2.1),
        if (((headState L hs rest).headersFinished).1.parseBody rest).2.2 = npos then npos
        else sizeSub (sizeAdd (sizeAdd
          (((headState L hs rest).headersFinished).1.parseBody rest).2.2
          (encodeBlock hs).length) (L.length + 2)) 0) := by
  have hnp := npos_eq
  have h64 := two_pow_64
  have hb := EnvelopeParser.parse_block hs rest hwf (by
    simp only [List.length_append] at hlen ⊢
    omega)
  obtain ⟨hb1, hb2, hb3⟩ := hb
  have hfl := parseFirstLine_line
    { MessageParser.new with mBuffer := L ++ crlf ++ encodeBlock hs ++ rest } L
    (encodeBlock hs ++ rest) hL2 (by simp)
  have hbuf : (headersFinished (headState L hs rest)).1.mBuffer = rest :=
    (headersFinished_frame _).1
  unfold parse
  simp only [new, Bool.or_self, Bool.false_eq_true, if_false, List.isEmpty_nil, if_true,
    List.nil_append] at hfl ⊢
  rw [hfl]
  simp only []
  have hpe : parseEnvelope
      { mHasHadError := false, mIsFinished := false, mFirstLine := L,
        mBuffer := encodeBlock hs ++ rest, mEnvelopeParser := EnvelopeParser.new,
        mTransferEncodingParser := none, mTransferEncoding := [], mContentLength := 0 }
      (encodeBlock hs ++ rest) =
      ({ headState L hs rest with mBuffer := encodeBlock hs ++ rest },
        hdrEvents (hs.map Header.callback), (encodeBlock hs).length) := by
    unfold parseEnvelope
    simp only [onHeaderLines_eq, hb1, hb3, headState, Bool.false_or]
  have hle : ¬ (L.isEmpty = true) := by
    simpa using hL1
  have hne : ¬ ((encodeBlock hs).length = npos) := by
    simp only [List.length_append] at hlen
    omega
  have hdrop : List.drop (encodeBlock hs).length (encodeBlock hs ++ rest) = rest := by
    simp
  rw [hpe, if_neg hle]
  simp only [Bool.false_eq_true, if_false, hne, hdrop]
  simp only [headState] at hbuf hb2 ⊢
  simp only [hb2, Bool.not_false, if_true, hbuf]
  split <;> simp

end MessageParser

end Http

namespace Http

theorem Header.callback_fst (h : Header) : h.callback.1 = h.key := rfl

theorem Header.callback_snd (h : Header) : h.callback.2 = h.fullValue := rfl

theorem map_eq_singleton {α β : Type} (f : α → β) : ∀ (l : List α) (b : β),
    l.map f = [b] → ∃ a, l = [a] ∧ f a = b
  | [], b, h => by simp at h
  | [a], b, h => ⟨a, rfl, by simpa using h⟩
  | a :: c :: r, b, h => by simp at h

theorem te_ne_cl : ¬ bytes "transfer-encoding" = bytes "content-length" := by decide

theorem teAfter_map : ∀ (hs : List Header) (te v : List Byte),
    (∀ h ∈ hs, h.isTransferEncoding = true → h.fullValue = v) →
    teAfter te (hs.map Header.callback) = if hs.any Header.isTransferEncoding then v else te
  | [], te, v, _ => by simp [teAfter]
  | h :: hs, te, v, hv => by
    have hv2 : ∀ x ∈ hs, x.isTransferEncoding = true → x.fullValue = v :=
      fun x hx => hv x (List.mem_cons_of_mem _ hx)
    simp only [List.map_cons, teAfter, Header.callback_fst, Header.callback_snd,
      List.any_cons]
    rw [teAfter_map hs _ v hv2]
    by_cases h1 : Utils.strToLower h.key = bytes "transfer-encoding"
    · have h2 : h.isTransferEncoding = true := by simp [Header.isTransferEncoding, h1]
      have h3 := hv h (List.mem_cons_self _ _) h2
      have h4 : ¬ Utils.strToLower h.key = bytes "content-length" := by
        rw [h1]; exact te_ne_cl
      simp only [if_neg h4, if_pos h1, h2, h3, Bool.true_or, if_true]
      split <;> rfl
    · have h2 : h.isTransferEncoding = false := by simp [Header.isTransferEncoding, h1]
      simp only [h2, Bool.false_or, if_neg h1]
      split <;> simp

theorem clAfter_map : ∀ (hs : List Header) (cl n : Nat),
    (∀ h ∈ hs, h.isContentLength = true → Utils.stringToInteger h.fullValue = some n) →
    clAfter cl (hs.map Header.callback) = if hs.any Header.isContentLength then n else cl
  | [], cl, n, _ => by simp [clAfter]
  | h :: hs, cl, n, hv => by
    have hv2 : ∀ x ∈ hs, x.isContentLength = true →
        Utils.stringToInteger x.fullValue = some n :=
      fun x hx => hv x (List.mem_cons_of_mem _ hx)
    simp only [List.map_cons, clAfter, Header.callback_fst, Header.callback_snd,
      List.any_cons]
    rw [clAfter_map hs _ n hv2]
    by_cases h1 : Utils.strToLower h.key = bytes "content-length"
    · have h2 : h.isContentLength = true := by simp [Header.isContentLength, h1]
      have h3 := hv h (List.mem_cons_self _ _) h2
      simp only [if_pos h1, h2, h3, Bool.true_or, if_true]
      split <;> rfl
    · have h2 : h.isContentLength = false := by simp [Header.isContentLength, h1]
      simp only [h2, Bool.false_or, if_neg h1]

theorem hdr_ok : ∀ (hs : List Header),
    (∀ h ∈ hs, h.isContentLength = true → Utils.stringToInteger h.fullValue ≠ none) →
    hdrError (hs.map Header.callback) = false ∧
      hdrEvents (hs.map Header.callback) = hs.map Header.event
  | [], _ => by simp [hdrError, hdrEvents]
  | h :: hs, hv => by
    have hv2 : ∀ x ∈ hs, x.isContentLength = true →
        Utils.stringToInteger x.fullValue ≠ none :=
      fun x hx => hv x (List.mem_cons_of_mem _ hx)
    have ih := hdr_ok hs hv2
    simp only [List.map_cons, hdrError, hdrEvents, Header.callback_fst, Header.callback_snd]
    rw [ih.1, ih.2]
    by_cases h1 : Utils.strToLower h.key = bytes "content-length"
    · have h2 : h.isContentLength = true := by simp [Header.isContentLength, h1]
      have h3 := hv h (List.mem_cons_self _ _) h2
      cases h4 : Utils.stringToInteger h.fullValue with
      | none => exact absurd h4 h3
      | some n => simp [h1, Header.event]
    · simp [h1, Header.event]

theorem IdentityTEParser.parse_body (B R : List Byte) :
    IdentityTEParser.parse { mBytesLeft := B.length } (B ++ R) =
      ({ mBytesLeft := 0 },
        (if B = [] then [] else [TEEvent.onBodyData B]) ++ [TEEvent.onBodyFinished],
        R.length) := by
  unfold IdentityTEParser.parse
  have h1 : min (B ++ R).length B.length = B.length := by
    simp
  simp only [h1, List.take_left, Nat.sub_self, if_true, List.length_append,
    Nat.add_sub_cancel_left]
  cases B with
  | nil => simp
  | cons b B => simp

end Http

namespace Http

namespace MessageParser

theorem sizeSub_zero {a : Nat} (h : a < 2 ^ 64) : sizeSub a 0 = a := by
  unfold sizeSub
  rw [two_pow_64] at *
  omega

theorem identityFraming_fold (hs : List Header) (B : List Byte) (hfr : IdentityFraming hs B)
    (hB : B.length < 2 ^ 64) :
    teAfter [] (hs.map Header.callback) = [] ∧
    clAfter 0 (hs.map Header.callback) = B.length ∧
    hdrError (hs.map Header.callback) = false ∧
    hdrEvents (hs.map Header.callback) = hs.map Header.event := by
  obtain ⟨hte, hcl⟩ := hfr
  have h1 : teAfter [] (hs.map Header.callback) = [] := by
    rw [teAfter_map hs [] [] (fun h hh ht => by rw [hte h hh] at ht; cases ht)]
    split <;> rfl
  have h2 : ∀ h ∈ hs, h.isContentLength = true →
      Utils.stringToInteger h.fullValue = some B.length := by
    intro h hh hc
    rcases hcl with ⟨hnil, _⟩ | hmap
    · have : h ∈ hs.filter Header.isContentLength := List.mem_filter.mpr ⟨hh, hc⟩
      rw [hnil] at this
      cases this
    · obtain ⟨h0, hf, hval⟩ := map_eq_singleton _ _ _ hmap
      have : h ∈ hs.filter Header.isContentLength := List.mem_filter.mpr ⟨hh, hc⟩
      rw [hf, List.mem_singleton] at this
      rw [this, hval]
      exact stringToInteger_decimal _ hB
  have h3 : clAfter 0 (hs.map Header.callback) = B.length := by
    rw [clAfter_map hs 0 B.length h2]
    rcases hcl with ⟨hnil, hBnil⟩ | hmap
    · rw [hBnil]
      split <;> rfl
    · obtain ⟨h0, hf, _⟩ := map_eq_singleton _ _ _ hmap
      have hm : h0 ∈ hs.filter Header.isContentLength := by rw [hf]; exact List.mem_singleton_self _
      have hm2 := List.mem_filter.mp hm
      have : hs.any Header.isContentLength = true := List.any_eq_true.mpr ⟨h0, hm2.1, hm2.2⟩
      rw [this]
      rfl
  have h4 := hdr_ok hs (fun h hh hc => by rw [h2 h hh hc]; exact Option.some_ne_none _)
  exact ⟨h1, h3, h4.1, h4.2⟩

theorem create_identity (n : Nat) :
    TransferEncodingParser.create (bytes "Identity") n =
      some (TransferEncodingParser.identity { mBytesLeft := n }) := by
  have h1 : Utils.strToLower (bytes "Identity") = bytes "identity" := by decide
  have h2 : ¬ bytes "identity" = bytes "chunked" := by decide
  unfold TransferEncodingParser.create
  simp only [h1, if_neg h2, if_true]

theorem parseBody_identity (p : MessageParser) (B R : List Byte)
    (hte : p.mTransferEncodingParser =
      some (TransferEncodingParser.identity { mBytesLeft := B.length }))
    (hlen : (B ++ R).length < 2 ^ 64) :
    p.parseBody (B ++ R) =
      ({ p with
          mIsFinished := true,
          mTransferEncodingParser := some (TransferEncodingParser.identity { mBytesLeft := 0 }) },
        (if B = [] then [] else [Event.onBodyData B]) ++ [Event.onBodyFinished],
        B.length) := by
  unfold parseBody
  rw [hte]
  simp only [TransferEncodingParser.parse, IdentityTEParser.parse_body, onTEEvents_eq]
  have hs1 : sizeSub (B ++ R).length R.length = B.length := by
    rw [sizeSub_of_le (by simp) hlen]
    simp
  rw [hs1]
  by_cases hB : B = []
  · simp [hB, teError, teFinished, liftTE]
  · simp [hB, teError, teFinished, liftTE]

/-- The one-call run on a message with an identity body of the declared
length, followed by excess bytes `R`. -/
theorem parse_identity_message (L : List Byte) (hs : List Header) (B R : List Byte)
    (hL1 : L ≠ []) (hL2 : firstCRLF L = none) (hwf : ∀ h ∈ hs, h.Wf)
    (hfr : IdentityFraming hs B)
    (hlen : (encodeMessage L hs B ++ R).length < npos) :
    (MessageParser.new.parse (encodeMessage L hs B ++ R)).2 =
        (expectedEvents L hs B, (encodeMessage L hs B).length) ∧
      (MessageParser.new.parse (encodeMessage L hs B ++ R)).1.mIsFinished = true ∧
      (MessageParser.new.parse (encodeMessage L hs B ++ R)).1.mHasHadError = false := by
  have hnp := npos_eq
  have h64 := two_pow_64
  have e : encodeMessage L hs B ++ R = L ++ crlf ++ encodeBlock hs ++ (B ++ R) := by
    simp [encodeMessage]
  have hlen2 := hlen
  rw [e] at hlen2
  have hl3 : L.length + 2 + (encodeBlock hs).length + (B.length + R.length) < npos := by
    simp only [List.length_append, crlf, List.length_cons, List.length_nil] at hlen2
    omega
  obtain ⟨f1, f2, f3, f4⟩ := identityFraming_fold hs B hfr (by omega)
  have hst : headState L hs (B ++ R) =
      { mHasHadError := false, mIsFinished := false, mFirstLine := L, mBuffer := B ++ R,
        mEnvelopeParser := (EnvelopeParser.new.parse (encodeBlock hs ++ (B ++ R))).1,
        mTransferEncodingParser := none, mTransferEncoding := [],
        mContentLength := B.length } := by
    unfold headState
    rw [f1, f2, f3]
  have hhf := headersFinished_some (headState L hs (B ++ R))
    (TransferEncodingParser.identity { mBytesLeft := B.length }) (by
      rw [hst]
      simp only [List.isEmpty_nil, if_true]
      exact create_identity _)
  rw [hst] at hhf
  simp only [List.isEmpty_nil, if_true] at hhf
  have hpb := parseBody_identity
    (headState L hs (B ++ R)).headersFinished.1 B R (by rw [hst, hhf]) (by
      simp only [List.length_append]; omega)
  rw [hst, hhf] at hpb
  rw [e, parse_head L hs (B ++ R) hL1 hL2 hwf hlen2, hst, hhf]
  simp only [hpb]
  have hne : ¬ (B.length = npos) := by omega
  have ha1 : sizeAdd B.length (encodeBlock hs).length = B.length + (encodeBlock hs).length :=
    sizeAdd_of_lt (by omega)
  have ha2 : sizeAdd (B.length + (encodeBlock hs).length) (L.length + 2) =
      B.length + (encodeBlock hs).length + (L.length + 2) := sizeAdd_of_lt (by omega)
  rw [if_neg hne, ha1, ha2, sizeSub_zero (by omega)]
  refine ⟨?_, by first | rfl | trivial, by first | rfl | trivial⟩
  rw [f4]
  simp only [expectedEvents, encodeMessage, List.length_append, crlf, List.length_cons,
    List.length_nil, Prod.mk.injEq]
  constructor
  · simp
  · omega

end MessageParser

end Http

namespace Http

theorem teError_bodies : ∀ (ds : List (List Byte)) (rest : List TEEvent),
    teError (ds.map TEEvent.onBodyData ++ rest) = teError rest
  | [], rest => rfl
  | d :: ds, rest => by
    simp only [List.map_cons, List.cons_append, teError]
    exact teError_bodies ds rest

theorem teFinished_bodies : ∀ (ds : List (List Byte)) (rest : List TEEvent),
    teFinished (ds.map TEEvent.onBodyData ++ rest) = teFinished rest
  | [], rest => rfl
  | d :: ds, rest => by
    simp only [List.map_cons, List.cons_append, teFinished]
    exact teFinished_bodies ds rest

namespace MessageParser

theorem chunkedFraming_fold (hs : List Header) (hfr : ChunkedFraming hs) :
    (∃ v, teAfter [] (hs.map Header.callback) = v ∧ v ≠ [] ∧
      Utils.strToLower v = bytes "chunked") ∧
    hdrError (hs.map Header.callback) = false ∧
    hdrEvents (hs.map Header.callback) = hs.map Header.event := by
  obtain ⟨hmap, hcl⟩ := hfr
  obtain ⟨t, hf, hv⟩ := map_eq_singleton _ _ _ hmap
  have hm : t ∈ hs.filter Header.isTransferEncoding := by
    rw [hf]; exact List.mem_singleton_self _
  have hm2 := List.mem_filter.mp hm
  have hany : hs.any Header.isTransferEncoding = true := List.any_eq_true.mpr ⟨t, hm2.1, hm2.2⟩
  have h1 : teAfter [] (hs.map Header.callback) = t.fullValue := by
    rw [teAfter_map hs [] t.fullValue (fun h hh ht => by
      have : h ∈ hs.filter Header.isTransferEncoding := List.mem_filter.mpr ⟨hh, ht⟩
      rw [hf, List.mem_singleton] at this
      rw [this]), hany]
    rfl
  have h4 := hdr_ok hs hcl
  refine ⟨⟨t.fullValue, h1, ?_, hv⟩, h4.1, h4.2⟩
  intro hnil
  rw [hnil] at hv
  exact absurd hv (by decide)

theorem create_chunked (v : List Byte) (n : Nat) (hv : Utils.strToLower v = bytes "chunked") :
    TransferEncodingParser.create v n =
      some (TransferEncodingParser.chunked ChunkedTEParser.new) := by
  unfold TransferEncodingParser.create
  simp only [hv, if_true]

theorem create_unknown (v : List Byte) (n : Nat) (h1 : Utils.strToLower v ≠ bytes "chunked")
    (h2 : Utils.strToLower v ≠ bytes "identity") :
    TransferEncodingParser.create v n = none := by
  unfold TransferEncodingParser.create
  simp only [if_neg h1, if_neg h2]

theorem parseBody_chunked (p : MessageParser) (cs : List Chunk) (trailers : List Header)
    (R : List Byte)
    (hte : p.mTransferEncodingParser = some (TransferEncodingParser.chunked ChunkedTEParser.new))
    (hcs : ∀ c ∈ cs, c.Wf) (htr : ∀ h ∈ trailers, h.Wf)
    (hlen : (encodeChunked cs trailers ++ R).length < npos) :
    p.parseBody (encodeChunked cs trailers ++ R) =
      ({ p with
          mIsFinished := true,
          mTransferEncodingParser := some (TransferEncodingParser.chunked
            (ChunkedTEParser.new.parse (encodeChunked cs trailers ++ R)).1) },
        cs.map (fun c => Event.onBodyData c.data) ++ [Event.onBodyFinished],
        (encodeChunked cs trailers).length) := by
  have hnp := npos_eq
  have h64 := two_pow_64
  obtain ⟨h1, _⟩ := ChunkedTEParser.parse_chunked_body cs trailers R hcs htr hlen
  have h1a := congrArg Prod.fst h1
  have h1b := congrArg Prod.snd h1
  simp only [] at h1a h1b
  have hmap : cs.map (fun c => TEEvent.onBodyData c.data) =
      (cs.map Chunk.data).map TEEvent.onBodyData := by
    simp
  unfold parseBody
  rw [hte]
  simp only [TransferEncodingParser.parse, onTEEvents_eq, h1a, h1b]
  have hs1 : sizeSub (encodeChunked cs trailers ++ R).length R.length =
      (encodeChunked cs trailers).length := by
    rw [sizeSub_of_le (by simp) (by omega)]
    simp
  rw [hs1, hmap, teError_bodies, teFinished_bodies]
  simp [teError, teFinished, liftTE]

end MessageParser

end Http

namespace Http

namespace MessageParser

/-- The one-call run on a message with a chunked body, followed by excess
bytes `R`. -/
theorem parse_chunked_message (L : List Byte) (hs : List Header) (cs : List Chunk)
    (trailers : List Header) (R : List Byte)
    (hL1 : L ≠ []) (hL2 : firstCRLF L = none) (hwf : ∀ h ∈ hs, h.Wf)
    (hfr : ChunkedFraming hs) (hcs : ∀ c ∈ cs, c.Wf) (htr : ∀ h ∈ trailers, h.Wf)
    (hlen : (encodeMessage L hs (encodeChunked cs trailers) ++ R).length < npos) :
    (MessageParser.new.parse (encodeMessage L hs (encodeChunked cs trailers) ++ R)).2 =
        (Event.onFirstLine L :: (hs.map Header.event ++ Event.onHeadersFinished ::
          (cs.map (fun c => Event.onBodyData c.data) ++ [Event.onBodyFinished])),
          (encodeMessage L hs (encodeChunked cs trailers)).length) ∧
      (MessageParser.new.parse
        (encodeMessage L hs (encodeChunked cs trailers) ++ R)).1.mIsFinished = true ∧
      (MessageParser.new.parse
        (encodeMessage L hs (encodeChunked cs trailers) ++ R)).1.mHasHadError = false := by
  have hnp := npos_eq
  have h64 := two_pow_64
  have e : encodeMessage L hs (encodeChunked cs trailers) ++ R =
      L ++ crlf ++ encodeBlock hs ++ (encodeChunked cs trailers ++ R) := by
    simp [encodeMessage]
  have hlen2 := hlen
  rw [e] at hlen2
  have hl3 : L.length + 2 + (encodeBlock hs).length +
      ((encodeChunked cs trailers).length + R.length) < npos := by
    simp only [List.length_append, crlf, List.length_cons, List.length_nil] at hlen2
    omega
  obtain ⟨⟨v, f1, f1a, f1b⟩, f3, f4⟩ := chunkedFraming_fold hs hfr
  have hv : ¬ (v.isEmpty = true) := by simpa using f1a
  have hst : headState L hs (encodeChunked cs trailers ++ R) =
      { headState L hs (encodeChunked cs trailers ++ R) with
        mHasHadError := false, mTransferEncoding := v } := by
    unfold headState
    rw [f1, f3]
  have hhf := headersFinished_some (headState L hs (encodeChunked cs trailers ++ R))
    (TransferEncodingParser.chunked ChunkedTEParser.new) (by
      rw [hst]
      simp only [if_neg hv]
      exact create_chunked _ _ f1b)
  have hpb := parseBody_chunked
    (headState L hs (encodeChunked cs trailers ++ R)).headersFinished.1 cs trailers R
    (by rw [hhf]) hcs htr (by simp only [List.length_append]; omega)
  rw [e, parse_head L hs (encodeChunked cs trailers ++ R) hL1 hL2 hwf hlen2]
  simp only [hpb]
  rw [hhf]
  have hne : ¬ ((encodeChunked cs trailers).length = npos) := by omega
  have ha1 : sizeAdd (encodeChunked cs trailers).length (encodeBlock hs).length =
      (encodeChunked cs trailers).length + (encodeBlock hs).length :=
    sizeAdd_of_lt (by omega)
  have ha2 : sizeAdd ((encodeChunked cs trailers).length + (encodeBlock hs).length)
      (L.length + 2) =
      (encodeChunked cs trailers).length + (encodeBlock hs).length + (L.length + 2) :=
    sizeAdd_of_lt (by omega)
  rw [if_neg hne, ha1, ha2, sizeSub_zero (by omega)]
  refine ⟨?_, by first | rfl | trivial, ?_⟩
  · rw [f4]
    simp only [encodeMessage, List.length_append, crlf, List.length_cons,
      List.length_nil, Prod.mk.injEq]
    constructor
    · simp
    · omega
  · show (headState L hs (encodeChunked cs trailers ++ R)).mHasHadError = false
    exact f3

theorem parseBody_none (p : MessageParser) (d : List Byte)
    (hte : p.mTransferEncodingParser = none) :
    p.parseBody d =
      ({ p with mHasHadError := true },
        [Event.onError (bytes "No transfer encoding parser")], npos) := by
  unfold parseBody onError
  rw [hte]

/-- The one-call run on a message whose transfer encoding is not known: the
end of the headers reports the error and the call returns `npos`. -/
theorem parse_unknown_encoding (L : List Byte) (hs : List Header) (rest v : List Byte)
    (hL1 : L ≠ []) (hL2 : firstCRLF L = none) (hwf : ∀ h ∈ hs, h.Wf)
    (hte : (hs.filter Header.isTransferEncoding).map Header.fullValue = [v])
    (hv0 : v ≠ []) (hv1 : Utils.strToLower v ≠ bytes "chunked")
    (hv2 : Utils.strToLower v ≠ bytes "identity")
    (hlen : (L ++ crlf ++ encodeBlock hs ++ rest).length < npos) :
    Event.onError (bytes "Unknown transfer encoding" ++ (bytes ": " ++ Utils.cstr v)) ∈
        (MessageParser.new.parse (L ++ crlf ++ encodeBlock hs ++ rest)).2.1 ∧
      (MessageParser.new.parse (L ++ crlf ++ encodeBlock hs ++ rest)).2.2 = npos := by
  obtain ⟨t, hf, htv⟩ := map_eq_singleton _ _ _ hte
  have hm : t ∈ hs.filter Header.isTransferEncoding := by
    rw [hf]; exact List.mem_singleton_self _
  have hm2 := List.mem_filter.mp hm
  have hany : hs.any Header.isTransferEncoding = true := List.any_eq_true.mpr ⟨t, hm2.1, hm2.2⟩
  have h1 : teAfter [] (hs.map Header.callback) = v := by
    rw [teAfter_map hs [] v (fun h hh ht => by
      have : h ∈ hs.filter Header.isTransferEncoding := List.mem_filter.mpr ⟨hh, ht⟩
      rw [hf, List.mem_singleton] at this
      rw [this, htv]), hany]
    rfl
  have hv : ¬ (v.isEmpty = true) := by simpa using hv0
  have hst : (headState L hs rest).mTransferEncoding = v := h1
  have hhf := headersFinished_none (headState L hs rest) (by
    rw [hst, if_neg hv]
    exact create_unknown _ _ hv1 hv2)
  rw [hst, if_neg hv] at hhf
  have hpb := parseBody_none (headState L hs rest).headersFinished.1 rest (by rw [hhf])
  have hmsg : bytes "Unknown transfer encoding: " ++ Utils.cstr v =
      bytes "Unknown transfer encoding" ++ (bytes ": " ++ Utils.cstr v) := by
    rw [← List.append_assoc]
    rfl
  rw [parse_head L hs rest hL1 hL2 hwf hlen]
  simp only [hpb, if_true]
  rw [hhf, hmsg]
  refine ⟨?_, by first | rfl | trivial⟩
  simp

end MessageParser

end Http

namespace Http

/-! ## Lines the envelope parser refuses -/

theorem parseLineLoop_nocolon (p : EnvelopeParser) (line : List Byte) :
    ∀ (rest : List Byte) (i : Nat), 58 ∉ rest →
      (EnvelopeParser.parseLineLoop p line rest i).2 = false
  | [], i, _ => rfl
  | c :: rest, i, h => by
    have hc : c ≠ 58 := fun e => h (by simp [e])
    have hr : 58 ∉ rest := fun e => h (List.mem_cons_of_mem _ e)
    simp only [EnvelopeParser.parseLineLoop, hc, if_false]
    exact parseLineLoop_nocolon p line rest (i + 1) hr

theorem parseLine_nocolon (p : EnvelopeParser) (l : List Byte)
    (h1 : EnvelopeParser.leSpace (l.headD 0) = false) (h2 : 58 ∉ l) :
    (p.parseLine l).2.2 = false := by
  unfold EnvelopeParser.parseLine
  rw [h1]
  simp only [Bool.false_eq_true, if_false]
  exact parseLineLoop_nocolon _ l l 0 h2

theorem parseLine_nokey (p : EnvelopeParser) (l : List Byte)
    (h1 : EnvelopeParser.leSpace (l.headD 0) = true) (h2 : p.mLastKey = []) :
    (p.parseLine l).2.2 = false := by
  unfold EnvelopeParser.parseLine
  rw [h1, h2]
  simp

theorem EnvelopeParser.parse_first_line_refused (p : EnvelopeParser) (d : List Byte) (i : Nat)
    (hin : p.mIsInHeaders = true) (hinv : p.Inv)
    (hf : firstCRLF (p.mIncomingData ++ d) = some i) (hi : i ≠ 0)
    (hfail : (p.parseLine ((p.mIncomingData ++ d).take i)).2.2 = false) :
    (p.parse d).2.2 = npos ∧ (p.parse d).1.mIsInHeaders = false := by
  have hb := hinv hin
  have hle := firstCRLF_some_le _ _ hf
  have hne : (p.mIncomingData ++ d).take i ≠ [] := by
    intro h
    have := congrArg List.length h
    simp only [List.length_take, List.length_nil] at this
    omega
  have ho : (processLines p (splitLines (p.mIncomingData ++ d)).1 0).2.2 = Outcome.failed := by
    rw [splitLines_of_some _ _ hf]
    simp only [processLines, hne, if_false, hfail, Bool.not_false, if_true]
  rw [EnvelopeParser.parse_failed p d hin hb ho]
  exact ⟨rfl, rfl⟩

theorem processLines_headers_more (hs : List Header) (p : EnvelopeParser) (pos : Nat)
    (hwf : ∀ h ∈ hs, h.Wf) :
    (processLines p (hs.flatMap Header.lines) pos).2.2 = Outcome.more := by
  have h1 := processLines_headers hs [] p pos hwf
  have h2 := processLines_append (hs.flatMap Header.lines) [[]] p pos
  by_cases hm : (processLines p (hs.flatMap Header.lines) pos).2.2 = Outcome.more
  · exact hm
  · rw [if_neg hm] at h2
    rw [h2] at h1
    have h3 : (processLines p (hs.flatMap Header.lines) pos).2.2 =
        Outcome.done (pos + linesLen (hs.flatMap Header.lines)) := congrArg Prod.snd h1
    have := processLines_done_bound _ _ _ _ h3
    omega

theorem EnvelopeParser.parse_headers_then_refused (hs : List Header) (l rest : List Byte)
    (hwf : ∀ h ∈ hs, h.Wf) (hl : l ≠ []) (hcr : firstCRLF l = none)
    (hfail : ∀ q : EnvelopeParser, (q.parseLine l).2.2 = false) :
    (EnvelopeParser.new.parse (encodeHeaders hs ++ l ++ crlf ++ rest)).2.2 = npos ∧
      (EnvelopeParser.new.parse (encodeHeaders hs ++ l ++ crlf ++ rest)).1.mIsInHeaders =
        false := by
  have hsp : splitLines (EnvelopeParser.new.mIncomingData ++
      (encodeHeaders hs ++ l ++ crlf ++ rest)) =
      (hs.flatMap Header.lines ++ l :: (splitLines rest).1, (splitLines rest).2) := by
    have e : EnvelopeParser.new.mIncomingData ++ (encodeHeaders hs ++ l ++ crlf ++ rest) =
        encodeHeaders hs ++ (l ++ crlf ++ rest) := by
      simp [EnvelopeParser.new]
    rw [e, splitLines_headers hs _ hwf, splitLines_line l rest hcr]
  have ho : (processLines EnvelopeParser.new (splitLines (EnvelopeParser.new.mIncomingData ++
      (encodeHeaders hs ++ l ++ crlf ++ rest))).1 0).2.2 = Outcome.failed := by
    rw [hsp]
    simp only []
    rw [processLines_append, if_pos (processLines_headers_more hs _ 0 hwf)]
    simp only [processLines, hl, if_false, hfail, Bool.not_false, if_true]
  rw [EnvelopeParser.parse_failed EnvelopeParser.new _ rfl rfl ho]
  exact ⟨rfl, rfl⟩

/-! ## Bytes the chunked parser refuses -/

namespace ChunkedTEParser

theorem parseChunkLength_bad : ∀ (ds rest : List Byte) (c : Byte) (p : ChunkedTEParser)
    (i : Nat), (∀ d ∈ ds, isHexDigit d) → ¬ isHexDigit c → c ≠ 13 → c ≠ 59 →
    parseChunkLength p (ds ++ c :: rest) i =
      ({ p with
          mChunkDataLengthLeft := accumLength p.mChunkDataLengthLeft ds,
          mState := eState.psFinished },
        [TEEvent.onError
          (bytes "Invalid character in chunk length line: 0x" ++ Utils.hexOfChar c)], npos)
  | [], rest, c, p, i, _, hc, h13, h59 => by
    unfold isHexDigit at hc
    simp only [Byte] at hc
    have h1 : ¬ (48 ≤ c ∧ c ≤ 57) := fun h => hc (Or.inl h)
    have h2 : ¬ (97 ≤ c ∧ c ≤ 102) := fun h => hc (Or.inr (Or.inl h))
    have h3 : ¬ (65 ≤ c ∧ c ≤ 70) := fun h => hc (Or.inr (Or.inr h))
    simp [parseChunkLength, h1, h2, h3, h13, h59, error, accumLength]
  | d :: ds, rest, c, p, i, h, hc, h13, h59 => by
    have hd : isHexDigit d := h d (by simp)
    have hds : ∀ x ∈ ds, isHexDigit x := fun x hx => h x (List.mem_cons_of_mem _ hx)
    rw [List.cons_append]
    unfold isHexDigit at hd
    simp only [Byte] at hd
    by_cases h1 : 48 ≤ d ∧ d ≤ 57
    · simp only [parseChunkLength, h1, and_self, if_true]
      rw [parseChunkLength_bad ds rest c _ (i + 1) hds hc h13 h59]
      simp [accumLength, hexDigitValue, h1]
    · by_cases h2 : 97 ≤ d ∧ d ≤ 102
      · simp only [parseChunkLength, h1, h2, and_self, if_true, if_false]
        rw [parseChunkLength_bad ds rest c _ (i + 1) hds hc h13 h59]
        simp [accumLength, hexDigitValue, h1, h2]
      · have h3 : 65 ≤ d ∧ d ≤ 70 := by
          rcases hd with hd | hd | hd
          · exact absurd hd h1
          · exact absurd hd h2
          · exact hd
        simp only [parseChunkLength, h1, h2, h3, and_self, if_true, if_false]
        rw [parseChunkLength_bad ds rest c _ (i + 1) hds hc h13 h59]
        simp [accumLength, hexDigitValue, h1, h2]

/-- An offending byte met in one of the states that read a fixed byte or the
chunk length: the call reports one error, returns `npos` and the parser has
finished; it then ignores whatever it is given. -/
theorem parse_offending_byte (s : ChunkedTEParser) (ds : List Byte) (c : Byte)
    (rest later : List Byte)
    (hbad :
      (s.mState = eState.psChunkLength ∧ (∀ d ∈ ds, isHexDigit d) ∧ ¬ isHexDigit c ∧
        c ≠ 59 ∧ c ≠ 13) ∨
      (ds = [] ∧
        ((s.mState = eState.psChunkLengthLF ∧ c ≠ 10) ∨
          (s.mState = eState.psChunkDataLF ∧ c ≠ 10) ∨
          (s.mState = eState.psChunkDataCR ∧ c ≠ 13)))) :
    (s.parse (ds ++ c :: rest)).2.2 = npos ∧
    (∃ msg, (s.parse (ds ++ c :: rest)).2.1 = [TEEvent.onError msg]) ∧
    (s.parse (ds ++ c :: rest)).1.mState = eState.psFinished ∧
    (s.parse (ds ++ c :: rest)).1.parse later =
      ((s.parse (ds ++ c :: rest)).1, [], later.length) := by
  have hd : ds ++ c :: rest ≠ [] := by simp
  have key : ∀ (st : ChunkedTEParser) (msg : List Byte),
      s.mState ≠ eState.psFinished → st.mState = eState.psFinished →
      s.dispatch (ds ++ c :: rest) = (st, [TEEvent.onError msg], npos) →
      (s.parse (ds ++ c :: rest)).2.2 = npos ∧
      (∃ msg, (s.parse (ds ++ c :: rest)).2.1 = [TEEvent.onError msg]) ∧
      (s.parse (ds ++ c :: rest)).1.mState = eState.psFinished ∧
      (s.parse (ds ++ c :: rest)).1.parse later =
        ((s.parse (ds ++ c :: rest)).1, [], later.length) := by
    intro st msg hs hst hdis
    have hp := parse_step_err s (ds ++ c :: rest) hd hs (by rw [hdis])
    rw [hdis] at hp
    rw [hp]
    exact ⟨rfl, ⟨msg, rfl⟩, hst, parse_finished st later hst⟩
  rcases hbad with ⟨hs, hds, hc, h59, h13⟩ | ⟨hnil, h⟩
  · have hdis : s.dispatch (ds ++ c :: rest) =
        ({ s with
            mChunkDataLengthLeft := accumLength s.mChunkDataLengthLeft ds,
            mState := eState.psFinished },
          [TEEvent.onError
            (bytes "Invalid character in chunk length line: 0x" ++ Utils.hexOfChar c)],
          npos) := by
      unfold dispatch
      rw [hs]
      exact parseChunkLength_bad ds rest c s 0 hds hc h13 h59
    exact key _ _ (by rw [hs]; decide) rfl hdis
  · subst hnil
    rcases h with ⟨hs, hc⟩ | ⟨hs, hc⟩ | ⟨hs, hc⟩
    · have hdis : s.dispatch ([] ++ c :: rest) =
          ({ s with mState := eState.psFinished },
            [TEEvent.onError (bytes "Invalid character past chunk length's CR: 0x" ++
              Utils.hexOfChar c)], npos) := by
        unfold dispatch
        rw [hs]
        simp only [List.nil_append, parseChunkLengthLF, hc, if_false, error]
      exact key _ _ (by rw [hs]; decide) rfl hdis
    · have hdis : s.dispatch ([] ++ c :: rest) =
          ({ s with mState := eState.psFinished },
            [TEEvent.onError (bytes "Invalid character past chunk data's CR: 0x" ++
              Utils.hexOfChar c)], npos) := by
        unfold dispatch
        rw [hs]
        simp only [List.nil_append, parseChunkDataLF, hc, if_false, error]
      exact key _ _ (by rw [hs]; decide) rfl hdis
    · have hdis : s.dispatch ([] ++ c :: rest) =
          ({ s with mState := eState.psFinished },
            [TEEvent.onError (bytes "Invalid character past chunk data: 0x" ++
              Utils.hexOfChar c)], npos) := by
        unfold dispatch
        rw [hs]
        simp only [List.nil_append, parseChunkDataCR, hc, if_false, error]
      exact key _ _ (by rw [hs]; decide) rfl hdis

end ChunkedTEParser

end Http

namespace Http

/-! ## The map operations -/

theorem StringMap.find_set : ∀ (m : StringMap) (k v k' : List Byte),
    (m.set k v).find k' = if k' = k then some v else m.find k'
  | [], k, v, k' => by
    simp [StringMap.set, StringMap.find]
  | (a, b) :: rest, k, v, k' => by
    have ih := StringMap.find_set rest k v k'
    unfold StringMap.set
    by_cases h1 : k = a
    · subst h1
      simp only [if_true, StringMap.find]
      split <;> rfl
    · rw [if_neg h1]
      by_cases h2 : lexLt k a = true
      · rw [if_pos h2]
        simp only [StringMap.find]
      · rw [if_neg h2]
        simp only [StringMap.find]
        rw [ih]
        by_cases h3 : k' = a
        · have h4 : ¬ k' = k := fun e => h1 (e.symm.trans h3)
          simp [h3, h4, Ne.symm h1]
        · simp [h3]

theorem find_itemsMap : ∀ (items : List NVItem) (m : StringMap) (k : List Byte),
    (itemsMap m items).find k = ((lastValue items k).or (m.find k))
  | [], m, k => by simp [itemsMap, lastValue]
  | it :: items, m, k => by
    have ih := find_itemsMap items (m.set it.key it.value) k
    have e : itemsMap m (it :: items) = itemsMap (m.set it.key it.value) items := rfl
    rw [e, ih, StringMap.find_set]
    unfold lastValue
    simp only [List.reverse_cons, List.find?_append]
    cases hf : List.find? (fun it => decide (it.key = k)) items.reverse with
    | some x => simp
    | none =>
      by_cases hk : it.key = k
      · simp [hk]
      · have hk2 : ¬ k = it.key := fun e => hk e.symm
        simp [hk, hk2]

/-! ## The loops of `NameValueParser::parse` on the parts of an item -/

namespace NameValueParser

theorem leSpace_keyByte {c : Byte} (h : isKeyByte c) : leSpace c = false := by
  unfold isKeyByte at h
  unfold leSpace
  have d1 : decide (c ≤ 32) = false := decide_eq_false (by simp only [Byte] at *; omega)
  have d2 : decide (128 ≤ c) = false := decide_eq_false (by simp only [Byte] at *; omega)
  rw [d1, d2]
  rfl

theorem gtSpace_keyByte {c : Byte} (h : isKeyByte c) : gtSpace c = true := by
  unfold isKeyByte at h
  unfold gtSpace
  have d1 : decide (32 < c) = true := decide_eq_true (by simp only [Byte] at *; omega)
  have d2 : decide (c < 128) = true := decide_eq_true (by simp only [Byte] at *; omega)
  rw [d1, d2]
  rfl

theorem skipSpace_spaces : ∀ (n : Nat) (c : Byte) (r pend : List Byte), leSpace c = false →
    skipSpace (List.replicate n 32 ++ c :: r) pend = (c :: r, pend ++ List.replicate n 32)
  | 0, c, r, pend, h => by
    simp [skipSpace, h]
  | n + 1, c, r, pend, h => by
    have h32 : leSpace 32 = true := by decide
    rw [List.replicate_succ, List.cons_append]
    simp only [skipSpace, h32, if_true]
    rw [skipSpace_spaces n c r _ h]
    simp

theorem keyLoop_key (p : NameValueParser) : ∀ (k r pend : List Byte),
    (∀ c ∈ k, isKeyByte c) → keyLoop p (k ++ r) pend = keyLoop p r (pend ++ k)
  | [], r, pend, _ => by simp
  | c :: k, r, pend, h => by
    have hc := h c (by simp)
    have hk : ∀ x ∈ k, isKeyByte x := fun x hx => h x (List.mem_cons_of_mem _ hx)
    have hl := leSpace_keyByte hc
    unfold isKeyByte at hc
    rw [List.cons_append]
    have e1 : ¬ c = 61 := hc.2.2.1
    have e2 : ¬ c = 59 := hc.2.2.2.1
    have e3 : ¬ (c = 34 ∨ c = 39) := fun e => e.elim hc.2.2.2.2.1 hc.2.2.2.2.2
    simp only [keyLoop, e1, e2, e3, hl, if_false, Bool.false_eq_true]
    rw [keyLoop_key p k r _ hk]
    simp

theorem quotedLoop_body (q : Byte) (p : NameValueParser) : ∀ (v r pend : List Byte),
    q ∉ v → quotedLoop q p (v ++ r) pend = quotedLoop q p r (pend ++ v)
  | [], r, pend, _ => by simp
  | c :: v, r, pend, h => by
    have hc : ¬ c = q := fun e => h (by simp [e])
    have hv : q ∉ v := fun e => h (List.mem_cons_of_mem _ e)
    rw [List.cons_append]
    simp only [quotedLoop, hc, if_false]
    rw [quotedLoop_body q p v r _ hv]
    simp

theorem rawLoop_body (p : NameValueParser) : ∀ (v r pend : List Byte),
    59 ∉ v → rawLoop p (v ++ r) pend = rawLoop p r (pend ++ v)
  | [], r, pend, _ => by simp
  | c :: v, r, pend, h => by
    have hc : ¬ c = 59 := fun e => h (by simp [e])
    have hv : 59 ∉ v := fun e => h (List.mem_cons_of_mem _ e)
    rw [List.cons_append]
    simp only [rawLoop, hc, if_false]
    rw [rawLoop_body p v r _ hv]
    simp

theorem nv_parseLoop_nil (f : Nat) (p : NameValueParser) (pend : List Byte) :
    parseLoop f p [] pend = p := by
  cases f <;> simp [parseLoop]

theorem nv_parseLoop_turn (f : Nat) (p : NameValueParser) (rest pend : List Byte)
    (h : rest ≠ []) :
    parseLoop (f + 1) p rest pend =
      if (p.dispatch rest pend).returned then (p.dispatch rest pend).p
      else parseLoop f (p.dispatch rest pend).p (p.dispatch rest pend).rest
        (p.dispatch rest pend).pend := by
  rw [parseLoop]
  simp only [h, if_false]

end NameValueParser

end Http

namespace Http

namespace NameValueParser

/-! ## One turn of the loop in each state an item is read in -/

theorem turn_keySpace (f n : Nat) (a : Bool) (m : StringMap) (c : Byte) (r pend : List Byte)
    (hc : isKeyByte c) :
    parseLoop (f + 1) (NameValueParser.mk NVState.psKeySpace a [] [] m)
        (List.replicate n 32 ++ c :: r) pend =
      parseLoop f (NameValueParser.mk NVState.psKey a [] [] m) (c :: r) [] := by
  rw [nv_parseLoop_turn _ _ _ _ (by simp)]
  simp only [dispatch, caseKeySpace, skipSpace_spaces n c r pend (leSpace_keyByte hc),
    gtSpace_keyByte hc, if_true, Bool.false_eq_true, if_false]

theorem turn_key_equal (f : Nat) (a : Bool) (m : StringMap) (k r : List Byte)
    (hk : ∀ c ∈ k, isKeyByte c) :
    parseLoop (f + 1) (NameValueParser.mk NVState.psKey a [] [] m) (k ++ 61 :: r) [] =
      parseLoop f (NameValueParser.mk NVState.psEqual a k [] m) r [] := by
  rw [nv_parseLoop_turn _ _ _ _ (by simp)]
  simp only [dispatch, caseKey, keyLoop_key _ k _ _ hk, keyLoop, if_true, List.nil_append,
    Bool.false_eq_true, if_false]
  by_cases hr : r = []
  · subst hr
    simp [nv_parseLoop_nil]
  · simp [hr]

theorem turn_key_semicolon (f : Nat) (m : StringMap) (k r : List Byte)
    (hk : ∀ c ∈ k, isKeyByte c) :
    parseLoop (f + 1) (NameValueParser.mk NVState.psKey true [] [] m) (k ++ 59 :: r) [] =
      parseLoop f (NameValueParser.mk NVState.psKeySpace true [] [] (m.set k [])) r [] := by
  have h59 : leSpace 59 = false := by decide
  rw [nv_parseLoop_turn _ _ _ _ (by simp)]
  simp only [dispatch, caseKey, keyLoop_key _ k _ _ hk, keyLoop, List.nil_append, h59]
  by_cases hr : r = []
  · subst hr
    simp [nv_parseLoop_nil]
  · simp [hr]

theorem turn_key_end (f : Nat) (a : Bool) (m : StringMap) (k : List Byte)
    (hk : ∀ c ∈ k, isKeyByte c) (hne : k ≠ []) :
    parseLoop (f + 1) (NameValueParser.mk NVState.psKey a [] [] m) k [] =
      NameValueParser.mk NVState.psKey a k [] m := by
  rw [nv_parseLoop_turn _ _ _ _ hne]
  have e : keyLoop (NameValueParser.mk NVState.psKey a [] [] m) k [] =
      keyLoop (NameValueParser.mk NVState.psKey a [] [] m) [] ([] ++ k) := by
    have := keyLoop_key (NameValueParser.mk NVState.psKey a [] [] m) k [] [] hk
    rwa [List.append_nil] at this
  simp only [dispatch, caseKey, e, keyLoop, List.nil_append, Bool.false_eq_true, if_false,
    if_true]

theorem turn_equal_raw (f : Nat) (a : Bool) (m : StringMap) (k r : List Byte) (c : Byte)
    (h1 : c ≠ 59) (h2 : c ≠ 34) (h3 : c ≠ 39) :
    parseLoop (f + 1) (NameValueParser.mk NVState.psEqual a k [] m) (c :: r) [] =
      parseLoop f (NameValueParser.mk NVState.psValueRaw a k [c] m) r [] := by
  rw [nv_parseLoop_turn _ _ _ _ (by simp)]
  simp only [dispatch, caseEqual, h1, h2, h3, if_false, List.nil_append, Bool.false_eq_true]

theorem turn_equal_quote (f : Nat) (a : Bool) (m : StringMap) (k r : List Byte) :
    parseLoop (f + 1) (NameValueParser.mk NVState.psEqual a k [] m) (34 :: r) [] =
        parseLoop f (NameValueParser.mk NVState.psValueInDQuotes a k [] m) r [] ∧
      parseLoop (f + 1) (NameValueParser.mk NVState.psEqual a k [] m) (39 :: r) [] =
        parseLoop f (NameValueParser.mk NVState.psValueInSQuotes a k [] m) r [] := by
  constructor
  · rw [nv_parseLoop_turn _ _ _ _ (by simp)]
    simp [dispatch, caseEqual]
  · rw [nv_parseLoop_turn _ _ _ _ (by simp)]
    simp [dispatch, caseEqual]

theorem turn_raw_semicolon (f : Nat) (a : Bool) (m : StringMap) (k v0 v r : List Byte)
    (hv : 59 ∉ v) :
    parseLoop (f + 1) (NameValueParser.mk NVState.psValueRaw a k v0 m) (v ++ 59 :: r) [] =
      parseLoop f (NameValueParser.mk NVState.psKeySpace a [] [] (m.set k (v0 ++ v))) r [] := by
  rw [nv_parseLoop_turn _ _ _ _ (by simp)]
  simp only [dispatch, caseValueRaw, rawLoop_body _ v _ _ hv, rawLoop, if_true, List.nil_append,
    Bool.false_eq_true, if_false]
  by_cases hr : r = []
  · subst hr
    simp [nv_parseLoop_nil]
  · simp [hr]

theorem turn_raw_end (f : Nat) (a : Bool) (m : StringMap) (k v0 v : List Byte)
    (hv : 59 ∉ v) :
    parseLoop (f + 1) (NameValueParser.mk NVState.psValueRaw a k v0 m) v [] =
      NameValueParser.mk NVState.psValueRaw a k (v0 ++ v) m := by
  by_cases hne : v = []
  · subst hne
    simp [nv_parseLoop_nil]
  · rw [nv_parseLoop_turn _ _ _ _ hne]
    have e : rawLoop (NameValueParser.mk NVState.psValueRaw a k v0 m) v [] =
        rawLoop (NameValueParser.mk NVState.psValueRaw a k v0 m) [] ([] ++ v) := by
      have := rawLoop_body (NameValueParser.mk NVState.psValueRaw a k v0 m) v [] [] hv
      rwa [List.append_nil] at this
    simp only [dispatch, caseValueRaw, e, rawLoop, List.nil_append, Bool.false_eq_true,
      if_false, if_true]
    exact nv_parseLoop_nil _ _ _

theorem turn_dquoted (f : Nat) (a : Bool) (m : StringMap) (k v r : List Byte)
    (hv : 34 ∉ v) :
    parseLoop (f + 1) (NameValueParser.mk NVState.psValueInDQuotes a k [] m) (v ++ 34 :: r) [] =
      parseLoop f (NameValueParser.mk NVState.psAfterValue a [] [] (m.set k v)) r [] := by
  rw [nv_parseLoop_turn _ _ _ _ (by simp)]
  simp only [dispatch, caseValueInQuotes, quotedLoop_body _ _ v _ _ hv, quotedLoop, if_true,
    List.nil_append, Bool.false_eq_true, if_false]
  by_cases hr : r = []
  · subst hr
    simp [nv_parseLoop_nil]
  · simp [hr]

theorem turn_squoted (f : Nat) (a : Bool) (m : StringMap) (k v r : List Byte)
    (hv : 39 ∉ v) :
    parseLoop (f + 1) (NameValueParser.mk NVState.psValueInSQuotes a k [] m) (v ++ 39 :: r) [] =
      parseLoop f (NameValueParser.mk NVState.psAfterValue a [] [] (m.set k v)) r [] := by
  rw [nv_parseLoop_turn _ _ _ _ (by simp)]
  simp only [dispatch, caseValueInQuotes, quotedLoop_body _ _ v _ _ hv, quotedLoop, if_true,
    List.nil_append, Bool.false_eq_true, if_false]
  by_cases hr : r = []
  · subst hr
    simp [nv_parseLoop_nil]
  · simp [hr]

theorem turn_afterValue (f : Nat) (a : Bool) (m : StringMap) (r : List Byte) :
    parseLoop (f + 1) (NameValueParser.mk NVState.psAfterValue a [] [] m) (59 :: r) [] =
      parseLoop f (NameValueParser.mk NVState.psKeySpace a [] [] m) r [] := by
  rw [nv_parseLoop_turn _ _ _ _ (by simp)]
  simp [dispatch, afterValueLoop]

end NameValueParser

end Http

namespace Http

namespace NameValueParser

/-! ## A whole item, and a whole list of items -/

theorem item_mid (it : NVItem) (hwf : it.Wf) (n : Nat) (rest : List Byte) (m : StringMap)
    (pend : List Byte) :
    ∃ t, t ≤ (List.replicate n 32 ++ it.encode).length + 1 ∧
      ∀ f, parseLoop (f + t) (NameValueParser.mk NVState.psKeySpace true [] [] m)
          (List.replicate n 32 ++ it.encode ++ 59 :: rest) pend =
        parseLoop f (NameValueParser.mk NVState.psKeySpace true [] [] (m.set it.key it.value))
          rest [] := by
  obtain ⟨hne, hk, hv⟩ := hwf
  cases it with
  | keyOnly k =>
    simp only [NVItem.key] at hne hk
    obtain ⟨c, k', rfl⟩ := List.exists_cons_of_ne_nil hne
    refine ⟨2, by simp [NVItem.encode]; omega, fun f => ?_⟩
    have e : List.replicate n 32 ++ (NVItem.keyOnly (c :: k')).encode ++ 59 :: rest =
        List.replicate n 32 ++ c :: (k' ++ 59 :: rest) := by simp [NVItem.encode]
    rw [e, turn_keySpace (f + 1) n true m c _ pend (hk c (by simp))]
    exact turn_key_semicolon f m (c :: k') rest hk
  | raw k v =>
    simp only [NVItem.key] at hne hk
    simp only [NVItem.valueOk] at hv
    obtain ⟨c, k', rfl⟩ := List.exists_cons_of_ne_nil hne
    obtain ⟨d, v', rfl⟩ := List.exists_cons_of_ne_nil hv.1
    refine ⟨4, by simp [NVItem.encode]; omega, fun f => ?_⟩
    have e : List.replicate n 32 ++ (NVItem.raw (c :: k') (d :: v')).encode ++ 59 :: rest =
        List.replicate n 32 ++ c :: (k' ++ 61 :: d :: (v' ++ 59 :: rest)) := by
      simp [NVItem.encode]
    have hd : d ≠ 59 := fun h => hv.2.2.2 (by simp [h])
    have hv' : 59 ∉ v' := fun h => hv.2.2.2 (List.mem_cons_of_mem _ h)
    rw [e, turn_keySpace (f + 3) n true m c _ pend (hk c (by simp))]
    have := turn_key_equal (f + 2) true m (c :: k') (d :: (v' ++ 59 :: rest)) hk
    simp only [List.cons_append] at this
    rw [this, turn_equal_raw (f + 1) true m _ _ d hd hv.2.1 hv.2.2.1,
      turn_raw_semicolon f true m _ [d] v' rest hv']
    rfl
  | dquoted k v =>
    simp only [NVItem.key] at hne hk
    simp only [NVItem.valueOk] at hv
    obtain ⟨c, k', rfl⟩ := List.exists_cons_of_ne_nil hne
    refine ⟨5, by simp [NVItem.encode]; omega, fun f => ?_⟩
    have e : List.replicate n 32 ++ (NVItem.dquoted (c :: k') v).encode ++ 59 :: rest =
        List.replicate n 32 ++ c :: (k' ++ 61 :: 34 :: (v ++ 34 :: 59 :: rest)) := by
      simp [NVItem.encode]
    rw [e, turn_keySpace (f + 4) n true m c _ pend (hk c (by simp))]
    have := turn_key_equal (f + 3) true m (c :: k') (34 :: (v ++ 34 :: 59 :: rest)) hk
    simp only [List.cons_append] at this
    rw [this, (turn_equal_quote (f + 2) true m _ _).1, turn_dquoted (f + 1) true m _ v _ hv,
      turn_afterValue]
    rfl
  | squoted k v =>
    simp only [NVItem.key] at hne hk
    simp only [NVItem.valueOk] at hv
    obtain ⟨c, k', rfl⟩ := List.exists_cons_of_ne_nil hne
    refine ⟨5, by simp [NVItem.encode]; omega, fun f => ?_⟩
    have e : List.replicate n 32 ++ (NVItem.squoted (c :: k') v).encode ++ 59 :: rest =
        List.replicate n 32 ++ c :: (k' ++ 61 :: 39 :: (v ++ 39 :: 59 :: rest)) := by
      simp [NVItem.encode]
    rw [e, turn_keySpace (f + 4) n true m c _ pend (hk c (by simp))]
    have := turn_key_equal (f + 3) true m (c :: k') (39 :: (v ++ 39 :: 59 :: rest)) hk
    simp only [List.cons_append] at this
    rw [this, (turn_equal_quote (f + 2) true m _ _).2, turn_squoted (f + 1) true m _ v _ hv,
      turn_afterValue]
    rfl

theorem item_last (it : NVItem) (hwf : it.Wf) (n : Nat) (m : StringMap) (pend : List Byte) :
    ∃ t, t ≤ (List.replicate n 32 ++ it.encode).length + 1 ∧
      ∀ f, (parseLoop (f + t) (NameValueParser.mk NVState.psKeySpace true [] [] m)
          (List.replicate n 32 ++ it.encode) pend).finish =
        (NameValueParser.mk NVState.psFinished true
          (match it with
            | NVItem.keyOnly k => k
            | NVItem.raw k _ => k
            | _ => [])
          (match it with
            | NVItem.raw _ v => v
            | _ => [])
          (m.set it.key it.value), true) := by
  obtain ⟨hne, hk, hv⟩ := hwf
  cases it with
  | keyOnly k =>
    simp only [NVItem.key] at hne hk
    obtain ⟨c, k', rfl⟩ := List.exists_cons_of_ne_nil hne
    refine ⟨2, by simp [NVItem.encode]; omega, fun f => ?_⟩
    have e : List.replicate n 32 ++ (NVItem.keyOnly (c :: k')).encode =
        List.replicate n 32 ++ c :: k' := by simp [NVItem.encode]
    rw [e, turn_keySpace (f + 1) n true m c _ pend (hk c (by simp)),
      turn_key_end f true m (c :: k') hk (by simp)]
    simp [finish, NVItem.key, NVItem.value]
  | raw k v =>
    simp only [NVItem.key] at hne hk
    simp only [NVItem.valueOk] at hv
    obtain ⟨c, k', rfl⟩ := List.exists_cons_of_ne_nil hne
    obtain ⟨d, v', rfl⟩ := List.exists_cons_of_ne_nil hv.1
    refine ⟨4, by simp [NVItem.encode]; omega, fun f => ?_⟩
    have e : List.replicate n 32 ++ (NVItem.raw (c :: k') (d :: v')).encode =
        List.replicate n 32 ++ c :: (k' ++ 61 :: d :: v') := by
      simp [NVItem.encode]
    have hd : d ≠ 59 := fun h => hv.2.2.2 (by simp [h])
    have hv' : 59 ∉ v' := fun h => hv.2.2.2 (List.mem_cons_of_mem _ h)
    rw [e, turn_keySpace (f + 3) n true m c _ pend (hk c (by simp))]
    have := turn_key_equal (f + 2) true m (c :: k') (d :: v') hk
    simp only [List.cons_append] at this
    rw [this, turn_equal_raw (f + 1) true m _ _ d hd hv.2.1 hv.2.2.1,
      turn_raw_end f true m _ [d] v' hv']
    simp [finish, NVItem.key, NVItem.value]
  | dquoted k v =>
    simp only [NVItem.key] at hne hk
    simp only [NVItem.valueOk] at hv
    obtain ⟨c, k', rfl⟩ := List.exists_cons_of_ne_nil hne
    refine ⟨4, by simp [NVItem.encode]; omega, fun f => ?_⟩
    have e : List.replicate n 32 ++ (NVItem.dquoted (c :: k') v).encode =
        List.replicate n 32 ++ c :: (k' ++ 61 :: 34 :: (v ++ 34 :: [])) := by
      simp [NVItem.encode]
    rw [e, turn_keySpace (f + 3) n true m c _ pend (hk c (by simp))]
    have := turn_key_equal (f + 2) true m (c :: k') (34 :: (v ++ 34 :: [])) hk
    simp only [List.cons_append] at this
    rw [this, (turn_equal_quote (f + 1) true m _ _).1, turn_dquoted f true m _ v _ hv,
      nv_parseLoop_nil]
    simp [finish, NVItem.key, NVItem.value]
  | squoted k v =>
    simp only [NVItem.key] at hne hk
    simp only [NVItem.valueOk] at hv
    obtain ⟨c, k', rfl⟩ := List.exists_cons_of_ne_nil hne
    refine ⟨4, by simp [NVItem.encode]; omega, fun f => ?_⟩
    have e : List.replicate n 32 ++ (NVItem.squoted (c :: k') v).encode =
        List.replicate n 32 ++ c :: (k' ++ 61 :: 39 :: (v ++ 39 :: [])) := by
      simp [NVItem.encode]
    rw [e, turn_keySpace (f + 3) n true m c _ pend (hk c (by simp))]
    have := turn_key_equal (f + 2) true m (c :: k') (39 :: (v ++ 39 :: [])) hk
    simp only [List.cons_append] at this
    rw [this, (turn_equal_quote (f + 1) true m _ _).2, turn_squoted f true m _ v _ hv,
      nv_parseLoop_nil]
    simp [finish, NVItem.key, NVItem.value]

end NameValueParser

end Http

namespace Http

namespace NameValueParser

theorem run_items : ∀ (items : List (Nat × NVItem)) (m : StringMap) (pend : List Byte)
    (F : Nat), (∀ x ∈ items, x.2.Wf) → (serializeItems items).length + 1 ≤ F →
    ((parseLoop F (NameValueParser.mk NVState.psKeySpace true [] [] m)
        (serializeItems items) pend).finish).2 = true ∧
      ((parseLoop F (NameValueParser.mk NVState.psKeySpace true [] [] m)
        (serializeItems items) pend).finish).1.mMap = itemsMap m (items.map Prod.snd) ∧
      ((parseLoop F (NameValueParser.mk NVState.psKeySpace true [] [] m)
        (serializeItems items) pend).finish).1.mState = NVState.psFinished
  | [], m, pend, F, _, _ => by
    simp [serializeItems, nv_parseLoop_nil, finish, itemsMap]
  | [x], m, pend, F, hwf, hF => by
    obtain ⟨t, ht, h⟩ := item_last x.2 (hwf x (by simp)) x.1 m pend
    simp only [serializeItems] at hF ⊢
    have e : F = (F - t) + t := by omega
    rw [e, h (F - t)]
    simp [itemsMap]
  | x :: y :: rest, m, pend, F, hwf, hF => by
    obtain ⟨t, ht, h⟩ := item_mid x.2 (hwf x (by simp)) x.1 (serializeItems (y :: rest)) m pend
    simp only [serializeItems, List.length_append, List.length_cons] at hF
    have hF2 : (serializeItems (y :: rest)).length + 1 ≤ F - t := by
      simp only [List.length_append] at ht
      omega
    have ih := run_items (y :: rest) (m.set x.2.key x.2.value) [] (F - t)
      (fun z hz => hwf z (List.mem_cons_of_mem _ hz)) hF2
    have e : F = (F - t) + t := by
      simp only [List.length_append] at ht
      omega
    have e2 : serializeItems (x :: y :: rest) =
        List.replicate x.1 32 ++ x.2.encode ++ 59 :: serializeItems (y :: rest) := rfl
    rw [e2, e, h (F - t)]
    exact ih

/-- A list of well-formed items, joined with `;` and optional spaces, given to a
parser that allows keys alone and then finished: `finish` returns true and the
map is the one the items denote. -/
theorem parse_items (items : List (Nat × NVItem)) (hwf : ∀ x ∈ items, x.2.Wf) :
    (((NameValueParser.new true).parse (serializeItems items)).finish).2 = true ∧
      (((NameValueParser.new true).parse (serializeItems items)).finish).1.mMap =
        itemsMap [] (items.map Prod.snd) ∧
      (((NameValueParser.new true).parse (serializeItems items)).finish).1.mState =
        NVState.psFinished :=
  run_items items [] [] _ hwf (by omega)

end NameValueParser

end Http

namespace Http

namespace NameValueParser

/-! ## How an input that ends inside an item is finished -/

theorem turn_key_semicolon_refused (f : Nat) (m : StringMap) (k r : List Byte)
    (hk : ∀ c ∈ k, isKeyByte c) :
    parseLoop (f + 1) (NameValueParser.mk NVState.psKey false [] [] m) (k ++ 59 :: r) [] =
      NameValueParser.mk NVState.psInvalid false [] [] m := by
  have h59 : leSpace 59 = false := by decide
  rw [nv_parseLoop_turn _ _ _ _ (by simp)]
  simp [dispatch, caseKey, keyLoop_key _ k _ _ hk, keyLoop, h59]

theorem turn_key_space (f : Nat) (a : Bool) (m : StringMap) (k r : List Byte)
    (hk : ∀ c ∈ k, isKeyByte c) :
    parseLoop (f + 1) (NameValueParser.mk NVState.psKey a [] [] m) (k ++ 32 :: r) [] =
      parseLoop f (NameValueParser.mk NVState.psEqualSpace a k [] m) r [] := by
  have h32 : leSpace 32 = true := by decide
  rw [nv_parseLoop_turn _ _ _ _ (by simp)]
  simp only [dispatch, caseKey, keyLoop_key _ k _ _ hk, keyLoop, List.nil_append, h32]
  by_cases hr : r = []
  · subst hr
    simp [nv_parseLoop_nil]
  · simp [hr]

theorem equalSpaceLoop_spaces (p : NameValueParser) : ∀ (s : Nat) (r pend : List Byte),
    equalSpaceLoop p (List.replicate s 32 ++ r) pend =
      equalSpaceLoop p r (pend ++ List.replicate s 32)
  | 0, r, pend => by simp
  | s + 1, r, pend => by
    have h32 : gtSpace 32 = false := by decide
    rw [List.replicate_succ, List.cons_append]
    simp only [equalSpaceLoop, h32]
    rw [equalSpaceLoop_spaces p s r _]
    simp

theorem turn_equalSpace_semicolon (f : Nat) (a : Bool) (m : StringMap) (k r : List Byte)
    (s : Nat) :
    parseLoop (f + 1) (NameValueParser.mk NVState.psEqualSpace a k [] m)
        (List.replicate s 32 ++ 59 :: r) [] =
      if a = true then
        parseLoop f (NameValueParser.mk NVState.psKeySpace a [] [] (m.set k [])) r []
      else NameValueParser.mk NVState.psInvalid a k [] m := by
  rw [nv_parseLoop_turn _ _ _ _ (by simp)]
  simp only [dispatch, equalSpaceLoop_spaces, equalSpaceLoop]
  cases a <;> simp

theorem turn_equalSpace_end (f : Nat) (a : Bool) (m : StringMap) (k : List Byte) (s : Nat) :
    parseLoop (f + 1) (NameValueParser.mk NVState.psEqualSpace a k [] m)
        (List.replicate s 32) [] =
      NameValueParser.mk NVState.psEqualSpace a k [] m := by
  by_cases hs : List.replicate s 32 = ([] : List Byte)
  · rw [hs, nv_parseLoop_nil]
  · rw [nv_parseLoop_turn _ _ _ _ hs]
    have e := equalSpaceLoop_spaces (NameValueParser.mk NVState.psEqualSpace a k [] m) s [] []
    rw [List.append_nil] at e
    simp only [dispatch, e, equalSpaceLoop, Bool.false_eq_true, if_false]
    exact nv_parseLoop_nil _ _ _

/-- The parser between two items that meets a key, spaces and then the end of
the input or a `;`. -/
theorem parse_key_alone (a : Bool) (m : StringMap) (n s : Nat) (k rest : List Byte)
    (hne : k ≠ []) (hk : ∀ c ∈ k, isKeyByte c) :
    (NameValueParser.mk NVState.psKeySpace a [] [] m).parse
        (List.replicate n 32 ++ k ++ List.replicate s 32) =
      NameValueParser.mk (if s = 0 then NVState.psKey else NVState.psEqualSpace) a k [] m ∧
    (a = false →
      (NameValueParser.mk NVState.psKeySpace a [] [] m).parse
        (List.replicate n 32 ++ k ++ List.replicate s 32 ++ 59 :: rest) =
      NameValueParser.mk NVState.psInvalid a (if s = 0 then [] else k) [] m) ∧
    (a = true →
      (NameValueParser.mk NVState.psKeySpace a [] [] m).parse
        (List.replicate n 32 ++ k ++ List.replicate s 32 ++ [59]) =
      NameValueParser.mk NVState.psKeySpace a [] [] (m.set k [])) := by
  obtain ⟨c, k', rfl⟩ := List.exists_cons_of_ne_nil hne
  have hc := hk c (by simp)
  refine ⟨?_, fun ha => ?_, fun ha => ?_⟩
  · unfold parse
    cases s with
    | zero =>
      have e : List.replicate n 32 ++ (c :: k') ++ List.replicate 0 32 =
          List.replicate n 32 ++ c :: k' := by simp
      have ef : 2 * (List.replicate n 32 ++ c :: k').length + 1 =
          (2 * (List.replicate n 32 ++ c :: k').length - 1) + 1 + 1 := by
        simp only [List.length_append, List.length_cons]; omega
      rw [e, ef, turn_keySpace _ n a m c _ [] hc, turn_key_end _ a m (c :: k') hk (by simp)]
      rfl
    | succ s' =>
      have e : List.replicate n 32 ++ (c :: k') ++ List.replicate (s' + 1) 32 =
          List.replicate n 32 ++ c :: (k' ++ 32 :: List.replicate s' 32) := by
        simp [List.replicate_succ]
      have ef : 2 * (List.replicate n 32 ++ c :: (k' ++ 32 :: List.replicate s' 32)).length
          + 1 = (2 * (List.replicate n 32 ++
            c :: (k' ++ 32 :: List.replicate s' 32)).length - 2) + 1 + 1 + 1 := by
        simp only [List.length_append, List.length_cons]; omega
      rw [e, ef, turn_keySpace _ n a m c _ [] hc]
      have := turn_key_space (2 * (List.replicate n 32 ++
        c :: (k' ++ 32 :: List.replicate s' 32)).length - 2 + 1) a m (c :: k')
        (List.replicate s' 32) hk
      simp only [List.cons_append] at this
      rw [this, turn_equalSpace_end]
      rfl
  · subst ha
    unfold parse
    cases s with
    | zero =>
      have e : List.replicate n 32 ++ (c :: k') ++ List.replicate 0 32 ++ 59 :: rest =
          List.replicate n 32 ++ c :: (k' ++ 59 :: rest) := by simp
      have ef : 2 * (List.replicate n 32 ++ c :: (k' ++ 59 :: rest)).length + 1 =
          (2 * (List.replicate n 32 ++ c :: (k' ++ 59 :: rest)).length - 1) + 1 + 1 := by
        simp only [List.length_append, List.length_cons]; omega
      rw [e, ef, turn_keySpace _ n false m c _ [] hc]
      have := turn_key_semicolon_refused (2 * (List.replicate n 32 ++
        c :: (k' ++ 59 :: rest)).length - 1) m (c :: k') rest hk
      simp only [List.cons_append] at this
      rw [this]
      rfl
    | succ s' =>
      have e : List.replicate n 32 ++ (c :: k') ++ List.replicate (s' + 1) 32 ++ 59 :: rest =
          List.replicate n 32 ++ c :: (k' ++ 32 :: (List.replicate s' 32 ++ 59 :: rest)) := by
        simp [List.replicate_succ]
      have ef : 2 * (List.replicate n 32 ++
          c :: (k' ++ 32 :: (List.replicate s' 32 ++ 59 :: rest))).length + 1 =
          (2 * (List.replicate n 32 ++
            c :: (k' ++ 32 :: (List.replicate s' 32 ++ 59 :: rest))).length - 2) + 1 + 1 + 1 := by
        simp only [List.length_append, List.length_cons]; omega
      rw [e, ef, turn_keySpace _ n false m c _ [] hc]
      have := turn_key_space (2 * (List.replicate n 32 ++
        c :: (k' ++ 32 :: (List.replicate s' 32 ++ 59 :: rest))).length - 2 + 1) false m
        (c :: k') (List.replicate s' 32 ++ 59 :: rest) hk
      simp only [List.cons_append] at this
      rw [this, turn_equalSpace_semicolon]
      simp
  · subst ha
    unfold parse
    cases s with
    | zero =>
      have e : List.replicate n 32 ++ (c :: k') ++ List.replicate 0 32 ++ [59] =
          List.replicate n 32 ++ c :: (k' ++ 59 :: []) := by simp
      have ef : 2 * (List.replicate n 32 ++ c :: (k' ++ 59 :: [])).length + 1 =
          (2 * (List.replicate n 32 ++ c :: (k' ++ 59 :: [])).length - 1) + 1 + 1 := by
        simp only [List.length_append, List.length_cons]; omega
      rw [e, ef, turn_keySpace _ n true m c _ [] hc]
      have := turn_key_semicolon (2 * (List.replicate n 32 ++
        c :: (k' ++ 59 :: [])).length - 1) m (c :: k') [] hk
      simp only [List.cons_append] at this
      rw [this, nv_parseLoop_nil]
    | succ s' =>
      have e : List.replicate n 32 ++ (c :: k') ++ List.replicate (s' + 1) 32 ++ [59] =
          List.replicate n 32 ++ c :: (k' ++ 32 :: (List.replicate s' 32 ++ 59 :: [])) := by
        simp [List.replicate_succ]
      have ef : 2 * (List.replicate n 32 ++
          c :: (k' ++ 32 :: (List.replicate s' 32 ++ 59 :: []))).length + 1 =
          (2 * (List.replicate n 32 ++
            c :: (k' ++ 32 :: (List.replicate s' 32 ++ 59 :: []))).length - 2) + 1 + 1 + 1 := by
        simp only [List.length_append, List.length_cons]; omega
      rw [e, ef, turn_keySpace _ n true m c _ [] hc]
      have := turn_key_space (2 * (List.replicate n 32 ++
        c :: (k' ++ 32 :: (List.replicate s' 32 ++ 59 :: []))).length - 2 + 1) true m
        (c :: k') (List.replicate s' 32 ++ 59 :: []) hk
      simp only [List.cons_append] at this
      rw [this, turn_equalSpace_semicolon]
      simp [nv_parseLoop_nil]

theorem turn_quoted_end (f : Nat) (a : Bool) (m : StringMap) (k v0 v : List Byte) :
    (34 ∉ v →
      parseLoop (f + 1) (NameValueParser.mk NVState.psValueInDQuotes a k v0 m) v [] =
        NameValueParser.mk NVState.psValueInDQuotes a k (v0 ++ v) m) ∧
    (39 ∉ v →
      parseLoop (f + 1) (NameValueParser.mk NVState.psValueInSQuotes a k v0 m) v [] =
        NameValueParser.mk NVState.psValueInSQuotes a k (v0 ++ v) m) := by
  constructor
  · intro hv
    by_cases hne : v = []
    · subst hne
      simp [nv_parseLoop_nil]
    · rw [nv_parseLoop_turn _ _ _ _ hne]
      have e := quotedLoop_body 34 (NameValueParser.mk NVState.psValueInDQuotes a k v0 m)
        v [] [] hv
      rw [List.append_nil] at e
      simp only [dispatch, caseValueInQuotes, e, quotedLoop, List.nil_append,
        Bool.false_eq_true, if_false, if_true]
      exact nv_parseLoop_nil _ _ _
  · intro hv
    by_cases hne : v = []
    · subst hne
      simp [nv_parseLoop_nil]
    · rw [nv_parseLoop_turn _ _ _ _ hne]
      have e := quotedLoop_body 39 (NameValueParser.mk NVState.psValueInSQuotes a k v0 m)
        v [] [] hv
      rw [List.append_nil] at e
      simp only [dispatch, caseValueInQuotes, e, quotedLoop, List.nil_append,
        Bool.false_eq_true, if_false, if_true]
      exact nv_parseLoop_nil _ _ _

/-- The parser between two items that meets a key, `=` and a value that the
input ends in: a raw value, or a value that opens with a quote and does not
close. -/
theorem parse_open_value (a : Bool) (m : StringMap) (n : Nat) (k v : List Byte)
    (hne : k ≠ []) (hk : ∀ c ∈ k, isKeyByte c) :
    ((NVItem.raw k v).valueOk →
      (NameValueParser.mk NVState.psKeySpace a [] [] m).parse
          (List.replicate n 32 ++ k ++ 61 :: v) =
        NameValueParser.mk NVState.psValueRaw a k v m) ∧
    (34 ∉ v →
      (NameValueParser.mk NVState.psKeySpace a [] [] m).parse
          (List.replicate n 32 ++ k ++ 61 :: 34 :: v) =
        NameValueParser.mk NVState.psValueInDQuotes a k v m) ∧
    (39 ∉ v →
      (NameValueParser.mk NVState.psKeySpace a [] [] m).parse
          (List.replicate n 32 ++ k ++ 61 :: 39 :: v) =
        NameValueParser.mk NVState.psValueInSQuotes a k v m) := by
  obtain ⟨c, k', rfl⟩ := List.exists_cons_of_ne_nil hne
  have hc := hk c (by simp)
  refine ⟨fun hv => ?_, fun hv => ?_, fun hv => ?_⟩
  · simp only [NVItem.valueOk] at hv
    obtain ⟨d, v', rfl⟩ := List.exists_cons_of_ne_nil hv.1
    have hd : d ≠ 59 := fun h => hv.2.2.2 (by simp [h])
    have hv' : 59 ∉ v' := fun h => hv.2.2.2 (List.mem_cons_of_mem _ h)
    unfold parse
    have e : List.replicate n 32 ++ (c :: k') ++ 61 :: d :: v' =
        List.replicate n 32 ++ c :: (k' ++ 61 :: d :: v') := by simp
    have ef : 2 * (List.replicate n 32 ++ c :: (k' ++ 61 :: d :: v')).length + 1 =
        (2 * (List.replicate n 32 ++ c :: (k' ++ 61 :: d :: v')).length - 3) + 1 + 1 + 1 + 1 := by
      simp only [List.length_append, List.length_cons]; omega
    rw [e, ef, turn_keySpace _ n a m c _ [] hc]
    have := turn_key_equal (2 * (List.replicate n 32 ++
      c :: (k' ++ 61 :: d :: v')).length - 3 + 1 + 1) a m (c :: k') (d :: v') hk
    simp only [List.cons_append] at this
    rw [this, turn_equal_raw _ a m _ _ d hd hv.2.1 hv.2.2.1, turn_raw_end _ a m _ [d] v' hv']
    rfl
  · unfold parse
    have e : List.replicate n 32 ++ (c :: k') ++ 61 :: 34 :: v =
        List.replicate n 32 ++ c :: (k' ++ 61 :: 34 :: v) := by simp
    have ef : 2 * (List.replicate n 32 ++ c :: (k' ++ 61 :: 34 :: v)).length + 1 =
        (2 * (List.replicate n 32 ++ c :: (k' ++ 61 :: 34 :: v)).length - 3) + 1 + 1 + 1 + 1 := by
      simp only [List.length_append, List.length_cons]; omega
    rw [e, ef, turn_keySpace _ n a m c _ [] hc]
    have := turn_key_equal (2 * (List.replicate n 32 ++
      c :: (k' ++ 61 :: 34 :: v)).length - 3 + 1 + 1) a m (c :: k') (34 :: v) hk
    simp only [List.cons_append] at this
    rw [this, (turn_equal_quote _ a m _ _).1, (turn_quoted_end _ a m _ [] v).1 hv]
    rfl
  · unfold parse
    have e : List.replicate n 32 ++ (c :: k') ++ 61 :: 39 :: v =
        List.replicate n 32 ++ c :: (k' ++ 61 :: 39 :: v) := by simp
    have ef : 2 * (List.replicate n 32 ++ c :: (k' ++ 61 :: 39 :: v)).length + 1 =
        (2 * (List.replicate n 32 ++ c :: (k' ++ 61 :: 39 :: v)).length - 3) + 1 + 1 + 1 + 1 := by
      simp only [List.length_append, List.length_cons]; omega
    rw [e, ef, turn_keySpace _ n a m c _ [] hc]
    have := turn_key_equal (2 * (List.replicate n 32 ++
      c :: (k' ++ 61 :: 39 :: v)).length - 3 + 1 + 1) a m (c :: k') (39 :: v) hk
    simp only [List.cons_append] at this
    rw [this, (turn_equal_quote _ a m _ _).2, (turn_quoted_end _ a m _ [] v).2 hv]
    rfl

end NameValueParser

end Http

namespace Http

/-! ## Searching a string -/

theorem isPrefixOf_append (n t : List Byte) : n.isPrefixOf (n ++ t) = true := by
  rw [List.isPrefixOf_iff_prefix]
  exact List.prefix_append n t

theorem findSub_prefix (n t : List Byte) : findSub n (n ++ t) = some 0 := by
  cases h : n ++ t with
  | nil =>
    have hn : n = [] := (List.append_eq_nil.mp h).1
    simp [findSub, hn]
  | cons c r =>
    have := isPrefixOf_append n t
    rw [h] at this
    simp [findSub, this]

theorem findSub_some : ∀ (n s : List Byte) (i : Nat), findSub n s = some i →
    ∃ t, s.drop i = n ++ t
  | n, [], i, h => by
    unfold findSub at h
    split at h
    · rename_i hn
      simp only [Option.some.injEq] at h
      subst h
      exact ⟨[], by simp [hn]⟩
    · cases h
  | n, c :: r, i, h => by
    unfold findSub at h
    split at h
    · rename_i hp
      simp only [Option.some.injEq] at h
      subst h
      rw [List.isPrefixOf_iff_prefix] at hp
      obtain ⟨t, ht⟩ := hp
      exact ⟨t, by simp [ht]⟩
    · cases hf : findSub n r with
      | none => simp [hf] at h
      | some j =>
        simp only [hf, Option.map_some', Option.some.injEq] at h
        subst h
        obtain ⟨t, ht⟩ := findSub_some n r j hf
        exact ⟨t, by simpa using ht⟩

theorem findSub_le : ∀ (pre n t : List Byte), ∃ i, i ≤ pre.length ∧
    findSub n (pre ++ n ++ t) = some i
  | [], n, t => ⟨0, Nat.le_refl _, by simpa using findSub_prefix n t⟩
  | c :: pre, n, t => by
    obtain ⟨i, hi, hf⟩ := findSub_le pre n t
    simp only [List.cons_append, List.append_assoc] at hf ⊢
    unfold findSub
    by_cases hp : n.isPrefixOf (c :: (pre ++ (n ++ t))) = true
    · exact ⟨0, Nat.zero_le _, by simp [hp]⟩
    · refine ⟨i + 1, by simp only [List.length_cons]; omega, ?_⟩
      rw [if_neg hp, hf]
      rfl

theorem findSub_none_no_occurrence (n s pre t : List Byte) (h : findSub n s = none) :
    s ≠ pre ++ n ++ t := by
  intro e
  obtain ⟨i, _, hf⟩ := findSub_le pre n t
  rw [← e, h] at hf
  cases hf

theorem findSub_some_le (n s : List Byte) (i : Nat) (h : findSub n s = some i) :
    i + n.length ≤ s.length := by
  obtain ⟨t, ht⟩ := findSub_some n s i h
  have := congrArg List.length ht
  simp only [List.length_drop, List.length_append] at this
  by_cases hn : n.length = 0
  · have hle : i ≤ s.length := by
      by_contra hc
      have hd : s.drop i = [] := List.drop_eq_nil_of_le (by omega)
      rw [hd] at ht
      -- the index of a match is never past the end
      clear this
      revert h
      intro h
      have hgen : ∀ (s : List Byte) (i : Nat), findSub n s = some i → i ≤ s.length := by
        intro s
        induction s with
        | nil =>
          intro i h
          unfold findSub at h
          split at h
          · simp only [Option.some.injEq] at h; omega
          · cases h
        | cons c r ih =>
          intro i h
          unfold findSub at h
          split at h
          · simp only [Option.some.injEq] at h; omega
          · cases hf : findSub n r with
            | none => simp [hf] at h
            | some j =>
              simp only [hf, Option.map_some', Option.some.injEq] at h
              have := ih j hf
              simp only [List.length_cons]
              omega
      exact hc (hgen s i h)
    omega
  · omega

/-! ## `strncmp` -/

theorem strncmpEq_self : ∀ (b t : List Byte), strncmpEq (b ++ t) b b.length = true
  | [], t => rfl
  | c :: b, t => by
    simp only [List.cons_append, List.length_cons, strncmpEq, List.headD_cons, ne_eq,
      not_true_eq_false, if_false, List.tail_cons]
    split
    · rfl
    · exact strncmpEq_self b t

theorem strncmpEq_prefix : ∀ (b a : List Byte), 0 ∉ b → strncmpEq a b b.length = true →
    ∃ t, a = b ++ t
  | [], a, _, _ => ⟨a, rfl⟩
  | c :: b, a, h0, h => by
    have hc : c ≠ 0 := fun e => h0 (by simp [e])
    have hb : 0 ∉ b := fun e => h0 (List.mem_cons_of_mem _ e)
    cases a with
    | nil =>
      simp only [List.length_cons, strncmpEq, List.headD_nil, List.headD_cons, ne_eq] at h
      rw [if_pos (fun e => hc e.symm)] at h
      cases h
    | cons x a' =>
      simp only [List.length_cons, strncmpEq, List.headD_cons, ne_eq, List.tail_cons] at h
      by_cases hx : x = c
      · subst hx
        simp only [not_true_eq_false, if_false, hc] at h
        obtain ⟨t, ht⟩ := strncmpEq_prefix b a' hb h
        exact ⟨t, by simp [ht]⟩
      · rw [if_pos hx] at h
        cases h

end Http

namespace Http

namespace MultipartParser

/-! ## The loop of `MultipartParser::parse` does not run out of fuel -/

theorem findCRLF_bounds {s : List Byte} {pos le : Nat} (h : findCRLF s pos = some le) :
    pos ≤ le ∧ le + 2 ≤ s.length := by
  obtain ⟨i, hi, rfl⟩ := findCRLF_some h
  have := firstCRLF_some_le _ _ hi
  simp only [List.length_drop] at this
  omega

theorem candidateLine_shrink (p : MultipartParser) (h : (candidateLine p).2.2 = false) :
    (candidateLine p).1.mIncomingData.length < p.mIncomingData.length := by
  unfold candidateLine at h ⊢
  cases hl : findCRLF p.mIncomingData 4 with
  | none => simp [hl] at h
  | some le =>
    have hb := findCRLF_bounds hl
    simp only [hl] at h ⊢
    split
    · simp only [List.length_drop]; omega
    · split
      · split
        · simp only [List.length_nil]; omega
        · simp only [List.length_drop]; omega
      · simp only [List.length_drop]; omega

theorem boundaryStep_shrink (p : MultipartParser) (h : (boundaryStep p).2.2 = false) :
    (boundaryStep p).1.mIncomingData.length < p.mIncomingData.length := by
  unfold boundaryStep at h ⊢
  cases hf : findSub [13, 10, 45, 45] p.mIncomingData with
  | none => simp [hf] at h
  | some idx =>
    simp only [hf] at h ⊢
    have := candidateLine_shrink _ h
    by_cases hi : idx > 0
    · simp only [hi, if_true, List.length_drop] at this ⊢
      omega
    · simp only [hi, if_false] at this ⊢
      exact this

theorem envelopeStep_le (p : MultipartParser) (a : Nat) :
    (envelopeStep p a).1.mIncomingData.length ≤ p.mIncomingData.length := by
  unfold envelopeStep
  by_cases h1 : p.mEnvelopeParser.mIsInHeaders = true
  · simp only [h1, if_true]
    by_cases h2 : (p.mEnvelopeParser.parse p.mIncomingData).2.2 = npos
    · simp only [h2, if_true]
      exact Nat.le_refl _
    · simp only [h2, if_false]
      split
      · exact Nat.le_refl _
      · simp only [List.length_drop]; omega
  · simp only [h1]
    exact Nat.le_refl _

theorem mp_parseLoop_unfold (F : Nat) (p : MultipartParser) (a : Nat) :
    parseLoop (F + 1) p a =
      if (p.envelopeStep a).2.2 then ((p.envelopeStep a).1, (p.envelopeStep a).2.1)
      else if (p.envelopeStep a).1.boundaryStep.2.2 then
        ((p.envelopeStep a).1.boundaryStep.1,
          (p.envelopeStep a).2.1 ++ (p.envelopeStep a).1.boundaryStep.2.1)
      else
        ((parseLoop F (p.envelopeStep a).1.boundaryStep.1 a).1,
          (p.envelopeStep a).2.1 ++ (p.envelopeStep a).1.boundaryStep.2.1 ++
            (parseLoop F (p.envelopeStep a).1.boundaryStep.1 a).2) := by
  rw [parseLoop]

theorem mp_parseLoop_succ : ∀ (F : Nat) (p : MultipartParser) (a : Nat),
    p.mIncomingData.length < F → parseLoop (F + 1) p a = parseLoop F p a
  | 0, p, a, h => by omega
  | F + 1, p, a, h => by
    rw [mp_parseLoop_unfold (F + 1) p a, mp_parseLoop_unfold F p a]
    by_cases h1 : (p.envelopeStep a).2.2 = true
    · simp only [h1, if_true]
    · by_cases h2 : (p.envelopeStep a).1.boundaryStep.2.2 = true
      · simp only [h1, h2, if_true, if_false]
      · simp only [h1, h2, if_false]
        have hs := boundaryStep_shrink (p.envelopeStep a).1 (by simpa using h2)
        have hle := envelopeStep_le p a
        rw [mp_parseLoop_succ F (p.envelopeStep a).1.boundaryStep.1 a (by omega)]

theorem mp_parseLoop_add (k : Nat) : ∀ (F : Nat) (p : MultipartParser) (a : Nat),
    p.mIncomingData.length < F → parseLoop (F + k) p a = parseLoop F p a := by
  induction k with
  | zero => intro F p a _; rfl
  | succ k ih =>
    intro F p a h
    rw [← Nat.add_assoc, mp_parseLoop_succ (F + k) p a (by omega), ih F p a h]

theorem mp_parseLoop_fuel (F G : Nat) (p : MultipartParser) (a : Nat)
    (hF : p.mIncomingData.length < F) (hG : p.mIncomingData.length < G) :
    parseLoop F p a = parseLoop G p a := by
  by_cases h : F ≤ G
  · have e : G = F + (G - F) := by omega
    rw [e, mp_parseLoop_add _ F p a hF]
  · have e : F = G + (F - G) := by omega
    rw [e, mp_parseLoop_add _ G p a hG]

/-- One turn of the loop, with the fuel the rest of the loop is run with left
as it is. -/
theorem mp_parseLoop_step (F : Nat) (p : MultipartParser) (a : Nat)
    (hF : p.mIncomingData.length < F) :
    parseLoop F p a =
      if (p.envelopeStep a).2.2 then ((p.envelopeStep a).1, (p.envelopeStep a).2.1)
      else if (p.envelopeStep a).1.boundaryStep.2.2 then
        ((p.envelopeStep a).1.boundaryStep.1,
          (p.envelopeStep a).2.1 ++ (p.envelopeStep a).1.boundaryStep.2.1)
      else
        ((parseLoop F (p.envelopeStep a).1.boundaryStep.1 a).1,
          (p.envelopeStep a).2.1 ++ (p.envelopeStep a).1.boundaryStep.2.1 ++
            (parseLoop F (p.envelopeStep a).1.boundaryStep.1 a).2) := by
  obtain ⟨G, rfl⟩ : ∃ G, F = G + 1 := ⟨F - 1, by omega⟩
  rw [mp_parseLoop_unfold G p a]
  by_cases h1 : (p.envelopeStep a).2.2 = true
  · simp only [h1, if_true]
  · by_cases h2 : (p.envelopeStep a).1.boundaryStep.2.2 = true
    · simp only [h1, h2, if_true, if_false]
    · simp only [h1, h2, if_false]
      have hs := boundaryStep_shrink (p.envelopeStep a).1 (by simpa using h2)
      have hle := envelopeStep_le p a
      rw [mp_parseLoop_succ G (p.envelopeStep a).1.boundaryStep.1 a (by omega)]

end MultipartParser

end Http

namespace Http

theorem firstCRLF_occurrence (x Z : List Byte) :
    ∃ i, i ≤ x.length ∧ firstCRLF (x ++ 13 :: 10 :: Z) = some i := by
  cases h : firstCRLF x with
  | none => exact ⟨x.length, Nat.le_refl _, firstCRLF_line x Z h⟩
  | some i =>
    have := firstCRLF_some_le x i h
    exact ⟨i, by omega, firstCRLF_append_some x _ i h⟩

theorem findSub_none_suffix (n x y : List Byte) (h : findSub n (x ++ y) = none) :
    findSub n y = none := by
  cases hy : findSub n y with
  | none => rfl
  | some j =>
    exfalso
    obtain ⟨t, ht⟩ := findSub_some n y j hy
    refine findSub_none_no_occurrence n (x ++ y) (x ++ y.take j) t h ?_
    have : y = y.take j ++ (n ++ t) := by
      rw [← ht, List.take_append_drop]
    calc x ++ y = x ++ (y.take j ++ (n ++ t)) := by rw [← this]
      _ = x ++ y.take j ++ n ++ t := by simp

/-- An occurrence of `\r\n--` that starts inside `d` and is found in `d`
followed by `\r\n--` lies inside `d`. -/
theorem occurrence_inside (d Z : List Byte) (idx : Nat)
    (h : ∃ t, (d ++ 13 :: 10 :: 45 :: 45 :: Z).drop idx = 13 :: 10 :: 45 :: 45 :: t)
    (hlt : idx < d.length) : idx + 4 ≤ d.length := by
  obtain ⟨t, ht⟩ := h
  rw [List.drop_append_of_le_length (by omega)] at ht
  have hl : (d.drop idx).length = d.length - idx := List.length_drop idx d
  cases hd : d.drop idx with
  | nil => rw [hd] at hl; simp at hl; omega
  | cons x1 r1 =>
    rw [hd] at ht hl
    cases r1 with
    | nil => simp at ht
    | cons x2 r2 =>
      cases r2 with
      | nil => simp at ht
      | cons x3 r3 =>
        cases r3 with
        | nil => simp at ht
        | cons x4 r4 =>
          simp only [List.length_cons] at hl
          omega

theorem getD_after (pre : List Byte) (x : Byte) (t : List Byte) :
    (pre ++ x :: t).getD pre.length 0 = x := by
  induction pre with
  | nil => rfl
  | cons c pre ih => simpa using ih

theorem getD_after_one (pre : List Byte) (x y : Byte) (t : List Byte) :
    (pre ++ x :: y :: t).getD (pre.length + 1) 0 = y := by
  have := getD_after (pre ++ [x]) y t
  simpa using this

theorem boundaryMark_length (b : List Byte) : (boundaryMark b).length = 4 + b.length := by
  simp [boundaryMark]; omega

namespace MultipartParser

/-! ## The pieces of a multipart stream in the loop -/

theorem envelopeStep_out (p : MultipartParser) (a : Nat)
    (h : p.mEnvelopeParser.mIsInHeaders = false) : p.envelopeStep a = (p, [], false) := by
  unfold envelopeStep
  simp [h]

theorem boundaryStep_some (p : MultipartParser) (idx : Nat)
    (hf : findSub [13, 10, 45, 45] p.mIncomingData = some idx) :
    boundaryStep p =
      ((candidateLine { p with mIncomingData := p.mIncomingData.drop idx }).1,
        (if idx > 0 then [MPEvent.onPartData (p.mIncomingData.take idx)] else []) ++
          (candidateLine { p with mIncomingData := p.mIncomingData.drop idx }).2.1,
        (candidateLine { p with mIncomingData := p.mIncomingData.drop idx }).2.2) := by
  unfold boundaryStep
  simp only [hf]
  by_cases hi : idx > 0
  · simp only [hi, if_true]
  · have h0 : idx = 0 := by omega
    subst h0
    simp

theorem candidateLine_boundary (p : MultipartParser) (b R : List Byte)
    (hb : p.mBoundary = b) (hcr : noCRorLF b)
    (hbuf : p.mIncomingData = boundaryMark b ++ crlf ++ R) :
    candidateLine p =
      ({ p with mIncomingData := R, mEnvelopeParser := EnvelopeParser.new },
        [MPEvent.onPartEnd, MPEvent.onPartStart], false) := by
  have hfc := firstCRLF_of_noCRorLF b hcr
  have e1 : p.mIncomingData.drop 4 = b ++ 13 :: 10 :: R := by
    rw [hbuf]; simp [boundaryMark, crlf]
  have hle : findCRLF p.mIncomingData 4 = some (b.length + 4) := by
    unfold findCRLF
    rw [e1, firstCRLF_line b R hfc]
    rfl
  have hs : strncmpEq (p.mIncomingData.drop 4) b b.length = true := by
    rw [e1]; exact strncmpEq_self b _
  have hg : p.mIncomingData.getD (4 + b.length) 0 = 13 := by
    rw [hbuf, ← boundaryMark_length, List.append_assoc]
    exact getD_after _ _ _
  have hd : p.mIncomingData.drop (b.length + 4 + 2) = R := by
    rw [hbuf]
    have : (boundaryMark b ++ crlf).length = b.length + 4 + 2 := by
      simp [boundaryMark, crlf]
    rw [← this, List.append_assoc, ← List.append_assoc, List.drop_left]
  unfold candidateLine
  simp only [hle, hb, hs, hg, hd, EnvelopeParser.reset]
  simp

theorem candidateLine_last (p : MultipartParser) (b E : List Byte)
    (hb : p.mBoundary = b) (hcr : noCRorLF b)
    (hbuf : p.mIncomingData = boundaryMark b ++ 45 :: 45 :: crlf ++ E) :
    candidateLine p =
      ({ p with mIncomingData := [] },
        [MPEvent.onPartEnd, MPEvent.onPartData E], true) := by
  have hfc : firstCRLF (b ++ [45, 45]) = none :=
    firstCRLF_append_none b [45, 45] (firstCRLF_of_noCRorLF b hcr) (by decide) (by decide)
  have e1 : p.mIncomingData.drop 4 = (b ++ [45, 45]) ++ 13 :: 10 :: E := by
    rw [hbuf]; simp [boundaryMark, crlf]
  have hle : findCRLF p.mIncomingData 4 = some (b.length + 2 + 4) := by
    unfold findCRLF
    rw [e1, firstCRLF_line _ E hfc]
    simp
  have hs : strncmpEq (p.mIncomingData.drop 4) b b.length = true := by
    rw [e1, List.append_assoc]; exact strncmpEq_self b _
  have hg : p.mIncomingData.getD (4 + b.length) 0 = 45 ∧
      p.mIncomingData.getD (4 + b.length + 1) 0 = 45 := by
    rw [hbuf, ← boundaryMark_length, List.append_assoc, List.cons_append, List.cons_append]
    exact ⟨getD_after _ _ _, getD_after_one _ _ _ _⟩
  have hd : p.mIncomingData.drop (4 + b.length + 4) = E := by
    rw [hbuf]
    have : (boundaryMark b ++ 45 :: 45 :: crlf).length = 4 + b.length + 4 := by
      simp [boundaryMark, crlf]; omega
    rw [← this, List.drop_left]
  unfold candidateLine
  simp only [hle, hb, hs, hg, hd]
  simp

end MultipartParser

end Http

namespace Http

namespace MultipartParser

/-- A line of the body that starts with `\r\n--` and is not a boundary is
reported as data up to the next CR LF. -/
theorem candidateLine_data (p : MultipartParser) (b x Y : List Byte)
    (hb : p.mBoundary = b) (h0 : 0 ∉ b)
    (hno : findSub (boundaryMark b) (13 :: 10 :: 45 :: 45 :: x) = none)
    (hbuf : p.mIncomingData = 13 :: 10 :: 45 :: 45 :: x ++ boundaryMark b ++ Y) :
    ∃ le, 4 ≤ le ∧ le ≤ x.length + 4 ∧
      candidateLine p =
        ({ p with mIncomingData := (13 :: 10 :: 45 :: 45 :: x).drop le ++ boundaryMark b ++ Y },
          [MPEvent.onPartData ((13 :: 10 :: 45 :: 45 :: x).take le)], false) := by
  have e1 : p.mIncomingData.drop 4 = x ++ 13 :: 10 :: (45 :: 45 :: b ++ Y) := by
    rw [hbuf]; simp [boundaryMark]
  obtain ⟨i, hi, hfc⟩ := firstCRLF_occurrence x (45 :: 45 :: b ++ Y)
  have hle : findCRLF p.mIncomingData 4 = some (i + 4) := by
    unfold findCRLF
    rw [e1, hfc]
    rfl
  have htake : p.mIncomingData.take (i + 4) = (13 :: 10 :: 45 :: 45 :: x).take (i + 4) := by
    rw [hbuf, List.append_assoc]
    exact List.take_append_of_le_length (by simp only [List.length_cons]; omega)
  have hdrop : p.mIncomingData.drop (i + 4) =
      (13 :: 10 :: 45 :: 45 :: x).drop (i + 4) ++ boundaryMark b ++ Y := by
    rw [hbuf, List.append_assoc, List.append_assoc]
    exact List.drop_append_of_le_length (by simp only [List.length_cons]; omega)
  refine ⟨i + 4, by omega, by omega, ?_⟩
  have hs : (i = b.length ∨ i = b.length + 2) →
      strncmpEq (p.mIncomingData.drop 4) b b.length = false := by
    intro hib
    cases hsc : strncmpEq (p.mIncomingData.drop 4) b b.length with
    | false => rfl
    | true =>
      exfalso
      obtain ⟨t, ht⟩ := strncmpEq_prefix b _ h0 hsc
      rw [e1] at ht
      have hbx : b.length ≤ x.length := by omega
      have hx : x = b ++ x.drop b.length := by
        have h1 := congrArg (List.take b.length) ht
        rw [List.take_append_of_le_length hbx, List.take_left] at h1
        calc x = x.take b.length ++ x.drop b.length := (List.take_append_drop _ _).symm
          _ = b ++ x.drop b.length := by rw [h1]
      refine findSub_none_no_occurrence _ _ [] (x.drop b.length) hno ?_
      show 13 :: 10 :: 45 :: 45 :: x = [] ++ boundaryMark b ++ x.drop b.length
      simp only [boundaryMark, List.nil_append, List.cons_append]
      rw [← hx]
  unfold candidateLine
  simp only [hle, hb, Nat.add_sub_cancel, htake, hdrop]
  by_cases hc : i ≠ b.length ∧ i ≠ b.length + 2
  · rw [if_pos hc]
  · have hib : i = b.length ∨ i = b.length + 2 := by omega
    rw [if_neg hc, hs hib]
    rfl

/-- The search for `\r\n--` in a body followed by a boundary: it is found in the
body, four bytes or more before its end, or at the boundary. -/
theorem findSub_body (d Z : List Byte) :
    ∃ idx, findSub [13, 10, 45, 45] (d ++ 13 :: 10 :: 45 :: 45 :: Z) = some idx ∧
      (idx = d.length ∨ idx + 4 ≤ d.length) ∧
      (idx + 4 ≤ d.length → ∃ x, d.drop idx = 13 :: 10 :: 45 :: 45 :: x) := by
  obtain ⟨idx, hle, hf⟩ := findSub_le d [13, 10, 45, 45] Z
  have hf2 : findSub [13, 10, 45, 45] (d ++ 13 :: 10 :: 45 :: 45 :: Z) = some idx := by
    simpa using hf
  have hocc := findSub_some _ _ _ hf2
  refine ⟨idx, hf2, ?_, ?_⟩
  · by_cases he : idx = d.length
    · exact Or.inl he
    · exact Or.inr (occurrence_inside d Z idx (by simpa using hocc) (by omega))
  · intro h4
    obtain ⟨t, ht⟩ := hocc
    rw [List.drop_append_of_le_length (by omega)] at ht
    have hl : (d.drop idx).length = d.length - idx := List.length_drop idx d
    have e := congrArg (List.take 4) ht
    rw [List.take_append_of_le_length (by omega)] at e
    refine ⟨(d.drop idx).drop 4, ?_⟩
    calc d.drop idx = (d.drop idx).take 4 ++ (d.drop idx).drop 4 :=
          (List.take_append_drop _ _).symm
      _ = 13 :: 10 :: 45 :: 45 :: (d.drop idx).drop 4 := by rw [e]; rfl

end MultipartParser

end Http

namespace Http

namespace MultipartParser

/-! ## One turn of the loop on the pieces of a multipart stream -/

/-- A turn of the loop of a parser outside the headers. -/
theorem loop_out (F : Nat) (p : MultipartParser) (a : Nat)
    (hF : p.mIncomingData.length < F) (hout : p.mEnvelopeParser.mIsInHeaders = false) :
    parseLoop F p a =
      if p.boundaryStep.2.2 then (p.boundaryStep.1, p.boundaryStep.2.1)
      else ((parseLoop F p.boundaryStep.1 a).1,
        p.boundaryStep.2.1 ++ (parseLoop F p.boundaryStep.1 a).2) := by
  rw [mp_parseLoop_step F p a hF, envelopeStep_out p a hout]
  simp

/-- A turn of the loop in which the envelope parser leaves the headers: the rest
of the turn is a turn of the parser outside the headers. -/
theorem loop_envelope (F : Nat) (p : MultipartParser) (a : Nat)
    (hF : p.mIncomingData.length < F) (h1 : (p.envelopeStep a).2.2 = false)
    (h2 : (p.envelopeStep a).1.mEnvelopeParser.mIsInHeaders = false) :
    parseLoop F p a =
      ((parseLoop F (p.envelopeStep a).1 a).1,
        (p.envelopeStep a).2.1 ++ (parseLoop F (p.envelopeStep a).1 a).2) := by
  have hle := envelopeStep_le p a
  rw [mp_parseLoop_step F p a hF, loop_out F (p.envelopeStep a).1 a (by omega) h2]
  simp only [h1, Bool.false_eq_true, if_false]
  by_cases hb : (p.envelopeStep a).1.boundaryStep.2.2 = true
  · simp only [hb, if_true]
  · simp only [hb, Bool.false_eq_true, if_false, List.append_assoc]

theorem with_buffer (p : MultipartParser) (s : List Byte) (h : p.mIncomingData = s) :
    { p with mIncomingData := s } = p := by
  cases p
  simp only at h
  subst h
  rfl

/-- The data in front of a boundary mark found at `d.length` is reported, and the
turn goes on as on the buffer without the data. -/
theorem loop_prefix (F : Nat) (p : MultipartParser) (a : Nat) (d Z : List Byte)
    (hF : p.mIncomingData.length < F) (hout : p.mEnvelopeParser.mIsInHeaders = false)
    (hbuf : p.mIncomingData = d ++ 13 :: 10 :: 45 :: 45 :: Z) (hd : d ≠ [])
    (hf : findSub [13, 10, 45, 45] p.mIncomingData = some d.length) :
    parseLoop F p a =
      ((parseLoop F { p with mIncomingData := 13 :: 10 :: 45 :: 45 :: Z } a).1,
        MPEvent.onPartData d ::
          (parseLoop F { p with mIncomingData := 13 :: 10 :: 45 :: 45 :: Z } a).2) := by
  have hpos : d.length > 0 := List.length_pos.mpr hd
  have hlen : p.mIncomingData.length = d.length + (Z.length + 4) := by
    rw [hbuf]; simp
  have hdrop : p.mIncomingData.drop d.length = 13 :: 10 :: 45 :: 45 :: Z := by
    rw [hbuf, List.drop_left]
  have htake : p.mIncomingData.take d.length = d := by
    rw [hbuf, List.take_left]
  have hf0 : findSub [13, 10, 45, 45]
      ({ p with mIncomingData := 13 :: 10 :: 45 :: 45 :: Z } : MultipartParser).mIncomingData =
        some 0 := findSub_prefix [13, 10, 45, 45] Z
  have hb1 := boundaryStep_some p d.length hf
  have hb2 := boundaryStep_some { p with mIncomingData := 13 :: 10 :: 45 :: 45 :: Z } 0 hf0
  simp only [hdrop, htake, hpos, if_true] at hb1
  simp only [List.drop_zero, gt_iff_lt, Nat.lt_irrefl, if_false, List.nil_append] at hb2
  rw [loop_out F p a hF hout,
    loop_out F { p with mIncomingData := 13 :: 10 :: 45 :: 45 :: Z } a
      (by simp only [List.length_cons]; omega) hout, hb1, hb2]
  by_cases hc : (candidateLine { p with mIncomingData := 13 :: 10 :: 45 :: 45 :: Z }).2.2 = true
  · simp only [hc, if_true, List.singleton_append]
  · simp only [hc, Bool.false_eq_true, if_false, List.singleton_append, List.cons_append,
      List.nil_append]

/-- The turn on a boundary followed by CR LF: the part before it ends, the next
begins, and the envelope parser starts afresh on what follows. -/
theorem loop_boundary (F : Nat) (p : MultipartParser) (a : Nat) (b R : List Byte)
    (hF : p.mIncomingData.length < F) (hout : p.mEnvelopeParser.mIsInHeaders = false)
    (hb : p.mBoundary = b) (hcr : noCRorLF b)
    (hbuf : p.mIncomingData = boundaryMark b ++ crlf ++ R) :
    parseLoop F p a =
      ((parseLoop F { p with mIncomingData := R, mEnvelopeParser := EnvelopeParser.new } a).1,
        MPEvent.onPartEnd :: MPEvent.onPartStart ::
          (parseLoop F
            { p with mIncomingData := R, mEnvelopeParser := EnvelopeParser.new } a).2) := by
  have hf : findSub [13, 10, 45, 45] p.mIncomingData = some 0 := by
    rw [hbuf]
    exact findSub_prefix [13, 10, 45, 45] (b ++ crlf ++ R)
  have hb1 := boundaryStep_some p 0 hf
  simp only [List.drop_zero, gt_iff_lt, Nat.lt_irrefl, if_false, List.nil_append] at hb1
  rw [with_buffer p _ rfl, candidateLine_boundary p b R hb hcr hbuf] at hb1
  rw [loop_out F p a hF hout, hb1]
  simp

/-- The turn on the last boundary: the part before it ends, what follows the
boundary line is reported as data, and the function returns with an empty
buffer. -/
theorem loop_last (F : Nat) (p : MultipartParser) (a : Nat) (b E : List Byte)
    (hF : p.mIncomingData.length < F) (hout : p.mEnvelopeParser.mIsInHeaders = false)
    (hb : p.mBoundary = b) (hcr : noCRorLF b)
    (hbuf : p.mIncomingData = boundaryMark b ++ 45 :: 45 :: crlf ++ E) :
    parseLoop F p a =
      ({ p with mIncomingData := [] }, [MPEvent.onPartEnd, MPEvent.onPartData E]) := by
  have hf : findSub [13, 10, 45, 45] p.mIncomingData = some 0 := by
    rw [hbuf]
    exact findSub_prefix [13, 10, 45, 45] (b ++ 45 :: 45 :: crlf ++ E)
  have hb1 := boundaryStep_some p 0 hf
  simp only [List.drop_zero, gt_iff_lt, Nat.lt_irrefl, if_false, List.nil_append] at hb1
  rw [with_buffer p _ rfl, candidateLine_last p b E hb hcr hbuf] at hb1
  rw [loop_out F p a hF hout, hb1]
  simp

/-- The turn on a header block: a fresh envelope parser reports the headers and
leaves the headers, and the loop goes on with what follows the block. -/
theorem loop_headers (F : Nat) (p : MultipartParser) (a : Nat) (hs : List Header)
    (R : List Byte) (hF : p.mIncomingData.length < F)
    (henv : p.mEnvelopeParser = EnvelopeParser.new) (hwf : ∀ h ∈ hs, h.Wf)
    (hbuf : p.mIncomingData = encodeBlock hs ++ R)
    (hlen : p.mIncomingData.length + 1 < 2 ^ 64) :
    ∃ e : EnvelopeParser, e.mIsInHeaders = false ∧
      parseLoop F p a =
        ((parseLoop F { p with mIncomingData := R, mEnvelopeParser := e } a).1,
          hs.map (fun h => MPEvent.onPartHeader h.key h.fullValue) ++
            (parseLoop F { p with mIncomingData := R, mEnvelopeParser := e } a).2) := by
  rw [hbuf] at hlen
  obtain ⟨h1, h2, h3⟩ := EnvelopeParser.parse_block hs R hwf (by omega)
  have hnpos : (encodeBlock hs).length ≠ npos := by
    have hl2 := hlen
    simp only [List.length_append] at hl2
    have e64 : (2 : Nat) ^ 64 = 18446744073709551616 := by norm_num
    rw [e64] at hl2
    unfold npos
    rw [e64]
    omega
  have hes : p.envelopeStep a =
      ({ p with mIncomingData := R,
                mEnvelopeParser := (EnvelopeParser.new.parse (encodeBlock hs ++ R)).1 },
        hs.map (fun h => MPEvent.onPartHeader h.key h.fullValue), false) := by
    unfold envelopeStep
    have hin : p.mEnvelopeParser.mIsInHeaders = true := by rw [henv]; rfl
    simp only [hin, if_true, henv, hbuf, h1, h2, h3, hnpos, if_false, Bool.false_eq_true,
      and_false, List.drop_left, List.map_map]
    rfl
  refine ⟨(EnvelopeParser.new.parse (encodeBlock hs ++ R)).1, h2, ?_⟩
  have hl := loop_envelope F p a hF (by rw [hes]) (by rw [hes]; exact h2)
  rw [hes] at hl
  exact hl

end MultipartParser

end Http

namespace Http

namespace MultipartParser

/-- The body of a part in front of a boundary: the loop reports it in segments,
one for every stretch up to a `\r\n--` that is not a boundary and one for every
such line, and goes on at the boundary. -/
theorem loop_body (F a : Nat) (b Y : List Byte) (h0 : 0 ∉ b) :
    ∀ (n : Nat) (d : List Byte) (p : MultipartParser), d.length ≤ n →
      p.mEnvelopeParser.mIsInHeaders = false → p.mBoundary = b →
      findSub (boundaryMark b) d = none →
      p.mIncomingData = d ++ boundaryMark b ++ Y → p.mIncomingData.length < F →
      ∃ segs : List (List Byte), segs.flatten = d ∧
        parseLoop F p a =
          ((parseLoop F { p with mIncomingData := boundaryMark b ++ Y } a).1,
            segs.map MPEvent.onPartData ++
              (parseLoop F { p with mIncomingData := boundaryMark b ++ Y } a).2) := by
  intro n
  induction n with
  | zero =>
    intro d p hd _ _ _ hbuf _
    have hd0 : d = [] := List.length_eq_zero.mp (by omega)
    subst hd0
    refine ⟨[], rfl, ?_⟩
    rw [with_buffer p _ (by simpa using hbuf)]
    rfl
  | succ n ih =>
    intro d p hd hout hb hno hbuf hF
    by_cases hd0 : d = []
    · subst hd0
      refine ⟨[], rfl, ?_⟩
      rw [with_buffer p _ (by simpa using hbuf)]
      rfl
    · have hbuf2 : p.mIncomingData = d ++ 13 :: 10 :: 45 :: 45 :: (b ++ Y) := by
        rw [hbuf]; simp [boundaryMark]
      obtain ⟨idx, hf, hcase, hx⟩ := findSub_body d (b ++ Y)
      rw [← hbuf2] at hf
      rcases hcase with hidx | hidx
      · subst hidx
        exact ⟨[d], by simp, loop_prefix F p a d (b ++ Y) hF hout hbuf2 hd0 hf⟩
      · obtain ⟨x, hx⟩ := hx hidx
        have hdl : (d.drop idx).length = d.length - idx := List.length_drop idx d
        rw [hx] at hdl
        simp only [List.length_cons] at hdl
        have hdrop : p.mIncomingData.drop idx =
            13 :: 10 :: 45 :: 45 :: x ++ boundaryMark b ++ Y := by
          rw [hbuf, List.append_assoc, List.drop_append_of_le_length (by omega), hx,
            List.append_assoc]
        have htake : p.mIncomingData.take idx = d.take idx := by
          rw [hbuf, List.append_assoc, List.take_append_of_le_length (by omega)]
        have hno1 : findSub (boundaryMark b) (13 :: 10 :: 45 :: 45 :: x) = none := by
          rw [← hx]
          exact findSub_none_suffix _ (d.take idx) (d.drop idx)
            (by rw [List.take_append_drop]; exact hno)
        obtain ⟨le, hle4, hlex, hcl⟩ :=
          candidateLine_data { p with mIncomingData := p.mIncomingData.drop idx } b x Y hb h0
            hno1 hdrop
        have hno2 : findSub (boundaryMark b) ((13 :: 10 :: 45 :: 45 :: x).drop le) = none :=
          findSub_none_suffix _ ((13 :: 10 :: 45 :: 45 :: x).take le) _
            (by rw [List.take_append_drop]; exact hno1)
        have hbs := boundaryStep_some p idx hf
        rw [hcl, htake] at hbs
        have hlen : p.mIncomingData.length = d.length + (b.length + 4 + Y.length) := by
          rw [hbuf]; simp [boundaryMark]; omega
        have hl2 : ((13 :: 10 :: 45 :: 45 :: x).drop le).length = x.length + 4 - le := by
          simp
        obtain ⟨segs, hsegs, hrec⟩ := ih ((13 :: 10 :: 45 :: 45 :: x).drop le)
          { p with mIncomingData := (13 :: 10 :: 45 :: 45 :: x).drop le ++ boundaryMark b ++ Y }
          (by omega) hout hb hno2 rfl
          (by
            simp only [List.length_append, hl2, boundaryMark, List.length_cons]
            omega)
        refine ⟨(if idx > 0 then [d.take idx] else []) ++
          (13 :: 10 :: 45 :: 45 :: x).take le :: segs, ?_, ?_⟩
        · have e : d = d.take idx ++ ((13 :: 10 :: 45 :: 45 :: x).take le ++
              (13 :: 10 :: 45 :: 45 :: x).drop le) := by
            rw [List.take_append_drop, ← hx, List.take_append_drop]
          by_cases hi : idx > 0
          · simp only [hi, if_true, List.flatten_append, List.flatten_cons, List.flatten_nil,
              List.append_nil, hsegs]
            exact e.symm
          · have hi0 : idx = 0 := by omega
            subst hi0
            simp only [gt_iff_lt, Nat.lt_irrefl, if_false, List.nil_append, List.flatten_cons,
              hsegs]
            simpa using e.symm
        · rw [loop_out F p a hF hout, hbs]
          simp only [Bool.false_eq_true, if_false]
          rw [hrec]
          by_cases hi : idx > 0
          · simp [hi]
          · simp [hi]

end MultipartParser

end Http

namespace Http

theorem findSub_byte (c : Byte) : ∀ (pre t : List Byte), c ∉ pre →
    findSub [c] (pre ++ c :: t) = some pre.length
  | [], t, _ => by simp [findSub]
  | x :: pre, t, h => by
    have hx : c ≠ x := fun e => h (by simp [e])
    have hp : c ∉ pre := fun e => h (List.mem_cons_of_mem _ e)
    have ih := findSub_byte c pre t hp
    simp only [List.cons_append, findSub, List.isPrefixOf, List.length_cons]
    simp [hx, ih]

namespace MultipartParser

/-- The constructor on the content type `multipart/form-data; boundary=` followed
by a boundary: the parser is valid, holds the boundary, and its buffer holds the
CR LF it is seeded with. -/
theorem new_boundary (b : List Byte) (hb : BoundaryOk b) :
    MultipartParser.new (bytes "multipart/form-data; boundary=" ++ b) =
      { mIsValid := true,
        mEnvelopeParser := { EnvelopeParser.new with mIsInHeaders := false },
        mIncomingData := crlf, mBoundary := b, mHasHadData := false } := by
  obtain ⟨hne, hsc, hq1, hq2, _, _⟩ := hb
  have e : bytes "multipart/form-data; boundary=" ++ b =
      bytes "multipart/" ++ (bytes "form-data" ++ 59 :: (List.replicate 1 32 ++
        bytes "boundary" ++ 61 :: b)) := by
    have : bytes "multipart/form-data; boundary=" =
        bytes "multipart/" ++ (bytes "form-data" ++ 59 :: (List.replicate 1 32 ++
          bytes "boundary" ++ [61])) := by decide
    rw [this]
    simp
  have h1 : strncmpEq (bytes "multipart/form-data; boundary=" ++ b) (bytes "multipart/") 10 =
      true := by
    rw [e]
    exact strncmpEq_self (bytes "multipart/") _
  have h2 : findFrom [59] (bytes "multipart/form-data; boundary=" ++ b) 10 = some 19 := by
    unfold findFrom
    have hl : 10 ≤ (bytes "multipart/form-data; boundary=" ++ b).length := by
      rw [e]
      simp only [List.length_append]
      have : (bytes "multipart/").length = 10 := by decide
      omega
    have hd : (bytes "multipart/form-data; boundary=" ++ b).drop 10 =
        bytes "form-data" ++ 59 :: (List.replicate 1 32 ++ bytes "boundary" ++ 61 :: b) := by
      rw [e]
      exact List.drop_left (bytes "multipart/") _
    rw [if_pos hl, hd, findSub_byte 59 (bytes "form-data") _ (by decide)]
    rfl
  have h3 : (bytes "multipart/form-data; boundary=" ++ b).drop (19 + 1) =
      List.replicate 1 32 ++ bytes "boundary" ++ 61 :: b := by
    rw [e]
    have : (bytes "multipart/" ++ (bytes "form-data" ++ [59])).length = 19 + 1 := by decide
    rw [← this]
    have e2 : bytes "multipart/" ++ (bytes "form-data" ++ 59 :: (List.replicate 1 32 ++
        bytes "boundary" ++ 61 :: b)) =
        (bytes "multipart/" ++ (bytes "form-data" ++ [59])) ++ (List.replicate 1 32 ++
        bytes "boundary" ++ 61 :: b) := by simp
    rw [e2, List.drop_left]
  have h4 : NameValueParser.newParse (List.replicate 1 32 ++ bytes "boundary" ++ 61 :: b) true =
      NameValueParser.mk NVState.psValueRaw true (bytes "boundary") b [] :=
    (NameValueParser.parse_open_value true [] 1 (bytes "boundary") b (by decide)
      (by decide)).1 ⟨hne, hq1, hq2, hsc⟩
  have h5 : b.isEmpty = false := by
    cases b with
    | nil => exact absurd rfl hne
    | cons c r => rfl
  unfold MultipartParser.new
  simp only [h1, h2, h3, h4]
  simp [NameValueParser.finish, NameValueParser.isValid, StringMap.at, StringMap.find,
    StringMap.set, h5]

/-- The loop on a boundary followed by the rest of a stream of well-formed
parts: the part before the boundary ends; every part is reported with its
start, its headers, its body in segments and its end; the loop returns at the
last boundary after reporting the empty rest of the stream as data. -/
theorem loop_parts (F a : Nat) (b : List Byte) (h0 : 0 ∉ b) (hcr : noCRorLF b) :
    ∀ (parts : List Part) (p : MultipartParser),
      p.mEnvelopeParser.mIsInHeaders = false → p.mBoundary = b →
      (∀ part ∈ parts, part.Wf b) →
      p.mIncomingData = boundaryMark b ++ encodeParts b parts →
      p.mIncomingData.length < F → p.mIncomingData.length + 1 < 2 ^ 64 →
      ∃ segss : List (List (List Byte)),
        List.Forall₂ (fun (part : Part) segs => segs.flatten = part.data) parts segss ∧
          (parseLoop F p a).2 =
            MPEvent.onPartEnd :: (partsEvents parts segss ++ [MPEvent.onPartData []]) ∧
          (parseLoop F p a).1.mIncomingData = [] ∧
          (parseLoop F p a).1.mIsValid = p.mIsValid := by
  intro parts
  induction parts with
  | nil =>
    intro p hout hb _ hbuf hF _
    refine ⟨[], List.Forall₂.nil, ?_⟩
    rw [loop_last F p a b [] hF hout hb hcr (by rw [hbuf]; simp [encodeParts])]
    exact ⟨rfl, rfl, rfl⟩
  | cons part rest ih =>
    intro p hout hb hwf hbuf hF hlen
    have hpw := hwf part (by simp)
    have hbuf1 : p.mIncomingData = boundaryMark b ++ crlf ++
        (encodeBlock part.headers ++ (part.data ++ boundaryMark b ++ encodeParts b rest)) := by
      rw [hbuf]; simp [encodeParts]
    have hl1 : p.mIncomingData.length = (boundaryMark b).length + 2 +
        ((encodeBlock part.headers).length +
          (part.data.length + (boundaryMark b).length + (encodeParts b rest).length)) := by
      rw [hbuf1]; simp [crlf]; omega
    have s1 := loop_boundary F p a b _ hF hout hb hcr hbuf1
    obtain ⟨e, he, s2⟩ := loop_headers F
      { p with
          mIncomingData := encodeBlock part.headers ++
            (part.data ++ boundaryMark b ++ encodeParts b rest),
          mEnvelopeParser := EnvelopeParser.new } a part.headers
      (part.data ++ boundaryMark b ++ encodeParts b rest)
      (by simp only [List.length_append] at hl1 ⊢; omega) rfl hpw.1 rfl
      (by simp only [List.length_append] at hl1 ⊢; omega)
    obtain ⟨segs, hsegs, s3⟩ := loop_body F a b (encodeParts b rest) h0 part.data.length
      part.data
      { p with
          mIncomingData := part.data ++ boundaryMark b ++ encodeParts b rest,
          mEnvelopeParser := e }
      (Nat.le_refl _) he hb hpw.2 rfl
      (by simp only [List.length_append] at hl1 ⊢; omega)
    obtain ⟨segss, hsegss, s4, s5, s6⟩ := ih
      { p with mIncomingData := boundaryMark b ++ encodeParts b rest, mEnvelopeParser := e }
      he hb (fun q hq => hwf q (List.mem_cons_of_mem _ hq)) rfl
      (by simp only [List.length_append] at hl1 ⊢; omega)
      (by simp only [List.length_append] at hl1 ⊢; omega)
    refine ⟨segs :: segss, List.Forall₂.cons hsegs hsegss, ?_, ?_, ?_⟩
    · rw [s1]
      simp only
      rw [s2]
      simp only
      rw [s3]
      simp only
      rw [s4]
      simp [partsEvents, Part.events]
    · rw [s1]
      simp only
      rw [s2]
      simp only
      rw [s3]
      exact s5
    · rw [s1]
      simp only
      rw [s2]
      simp only
      rw [s3]
      exact s6

/-- A fresh parser for the boundary `b` on a whole stream of well-formed parts. -/
theorem parse_parts (b : List Byte) (parts : List Part) (hb : BoundaryOk b)
    (hwf : ∀ part ∈ parts, part.Wf b)
    (hlen : (encodeMultipart b parts).length + 3 < 2 ^ 64) :
    ∃ segss : List (List (List Byte)),
      List.Forall₂ (fun (part : Part) segs => segs.flatten = part.data) parts segss ∧
        ((MultipartParser.new (bytes "multipart/form-data; boundary=" ++ b)).parse
            (encodeMultipart b parts)).2 =
          MPEvent.onPartEnd :: (partsEvents parts segss ++ [MPEvent.onPartData []]) ∧
        ((MultipartParser.new (bytes "multipart/form-data; boundary=" ++ b)).parse
            (encodeMultipart b parts)).1.mIncomingData = [] ∧
        ((MultipartParser.new (bytes "multipart/form-data; boundary=" ++ b)).parse
            (encodeMultipart b parts)).1.mIsValid = true := by
  rw [new_boundary b hb]
  have hbuf : crlf ++ encodeMultipart b parts = boundaryMark b ++ encodeParts b parts := by
    simp [crlf, encodeMultipart, boundaryMark]
  have hl : (crlf ++ encodeMultipart b parts).length = (encodeMultipart b parts).length + 2 := by
    simp [crlf]
  unfold parse
  simp only [Bool.not_true, Bool.false_eq_true, if_false]
  exact loop_parts _ _ b hb.2.2.2.2.1 hb.2.2.2.2.2 parts _ rfl rfl hwf hbuf
    (by simp only [hl]; omega) (by simp only [hl]; omega)

end MultipartParser

end Http

namespace Http

/-! ## Merged callbacks of the message parser -/

theorem mergeEv_cons_congr (e : Event) {x y : List Event} (h : mergeEv x = mergeEv y) :
    mergeEv (e :: x) = mergeEv (e :: y) := by
  simp only [mergeEv, h]

theorem mergeEv_append_congr : ∀ (p : List Event) {x y : List Event},
    mergeEv x = mergeEv y → mergeEv (p ++ x) = mergeEv (p ++ y)
  | [], _, _, h => h
  | e :: p, _, _, h => mergeEv_cons_congr e (mergeEv_append_congr p h)

theorem mergeEv_liftTE : ∀ (l : List TEEvent),
    mergeEv (l.map liftTE) = (mergeTE l).map liftTE
  | [] => rfl
  | e :: rest => by
    simp only [List.map_cons, mergeEv, mergeTE, mergeEv_liftTE rest]
    cases e with
    | onError d =>
      cases mergeTE rest <;> rfl
    | onBodyFinished =>
      cases mergeTE rest <;> rfl
    | onBodyData a =>
      cases h : mergeTE rest with
      | nil => rfl
      | cons f r =>
        cases f <;> rfl

theorem mergeEv_of_mergeTE {x y : List TEEvent} (h : mergeTE x = mergeTE y) :
    mergeEv (x.map liftTE) = mergeEv (y.map liftTE) := by
  rw [mergeEv_liftTE, mergeEv_liftTE, h]

/-! ## Errors among the callbacks -/

theorem evError_append : ∀ (x y : List Event), evError (x ++ y) = (evError x || evError y)
  | [], y => by simp [evError]
  | e :: x, y => by
    cases e <;> simp [evError, evError_append x y]

theorem evError_pushEv (e : Event) (x : List Event) :
    evError (pushEv e x) = evError (e :: x) := by
  cases e with
  | onBodyData a =>
    cases x with
    | nil => rfl
    | cons f r => cases f <;> rfl
  | onError d => cases x <;> rfl
  | onFirstLine d => cases x <;> rfl
  | onHeaderLine k v => cases x <;> rfl
  | onHeadersFinished => cases x <;> rfl
  | onBodyFinished => cases x <;> rfl

theorem evError_mergeEv : ∀ (x : List Event), evError (mergeEv x) = evError x
  | [] => rfl
  | e :: x => by
    simp only [mergeEv]
    rw [evError_pushEv]
    cases e <;> simp [evError, evError_mergeEv x]

theorem evError_liftTE : ∀ (l : List TEEvent), evError (l.map liftTE) = teError l
  | [] => rfl
  | e :: l => by
    cases e <;> simp [evError, teError, liftTE, evError_liftTE l]

theorem evError_hdrEvents : ∀ (l : List HeaderLine), evError (hdrEvents l) = hdrError l
  | [] => rfl
  | h :: l => by
    have ih := evError_hdrEvents l
    by_cases h1 : Utils.strToLower h.1 = bytes "content-length"
    · cases hs : Utils.stringToInteger h.2 <;>
        simp [hdrEvents, hdrError, evError, evError_append, ih, h1, hs]
    · simp [hdrEvents, hdrError, evError, evError_append, ih, h1]

/-! ## The header callbacks of two calls -/

theorem hdrEvents_append : ∀ (x y : List HeaderLine),
    hdrEvents (x ++ y) = hdrEvents x ++ hdrEvents y
  | [], y => rfl
  | h :: x, y => by
    show hdrEvents (h :: (x ++ y)) = hdrEvents (h :: x) ++ hdrEvents y
    simp only [hdrEvents, hdrEvents_append x y, List.append_assoc]

theorem hdrError_append : ∀ (x y : List HeaderLine),
    hdrError (x ++ y) = (hdrError x || hdrError y)
  | [], y => by simp [hdrError]
  | h :: x, y => by
    show hdrError (h :: (x ++ y)) = (hdrError (h :: x) || hdrError y)
    simp only [hdrError, hdrError_append x y, Bool.or_assoc]

theorem clAfter_append : ∀ (x y : List HeaderLine) (cl : Nat),
    clAfter cl (x ++ y) = clAfter (clAfter cl x) y
  | [], y, cl => rfl
  | h :: x, y, cl => by
    show clAfter cl (h :: (x ++ y)) = clAfter (clAfter cl (h :: x)) y
    simp only [clAfter]
    exact clAfter_append x y _

theorem teAfter_append : ∀ (x y : List HeaderLine) (te : List Byte),
    teAfter te (x ++ y) = teAfter (teAfter te x) y
  | [], y, te => rfl
  | h :: x, y, te => by
    show teAfter te (h :: (x ++ y)) = teAfter (teAfter te (h :: x)) y
    simp only [teAfter]
    exact teAfter_append x y _

/-! ## Stopping of the transfer-encoding parsers -/

theorem teError_append : ∀ (x y : List TEEvent), teError (x ++ y) = (teError x || teError y)
  | [], y => by simp [teError]
  | e :: x, y => by
    cases e <;> simp [teError, teError_append x y]

theorem teFinished_append : ∀ (x y : List TEEvent),
    teFinished (x ++ y) = (teFinished x || teFinished y)
  | [], y => by simp [teFinished]
  | e :: x, y => by
    cases e <;> simp [teFinished, teFinished_append x y]

theorem teStopped_append (x y : List TEEvent) :
    teStopped (x ++ y) = (teStopped x || teStopped y) := by
  unfold teStopped
  rw [teError_append, teFinished_append]
  cases teError x <;> cases teError y <;> cases teFinished x <;> cases teFinished y <;> rfl

theorem teStopped_nil : teStopped [] = false := rfl

namespace ChunkedTEParser

theorem dispatch_stopped (s : ChunkedTEParser) (d : List Byte)
    (h : teStopped (s.dispatch d).2.1 = true) :
    (s.dispatch d).1.mState = eState.psFinished := by
  by_contra hne
  cases hst : s.mState with
  | psFinished =>
    unfold dispatch at hne
    rw [hst] at hne
    exact hne hst
  | psChunkLength =>
    unfold dispatch at h hne
    rw [hst] at h hne
    simp only at h hne
    rw [parseChunkLength_events d s 0 hne] at h
    cases h
  | psChunkLengthTrailer =>
    unfold dispatch at h hne
    rw [hst] at h hne
    simp only at h hne
    rw [parseChunkLengthTrailer_events d s 0 hne] at h
    cases h
  | psChunkLengthLF =>
    unfold dispatch at h hne
    rw [hst] at h hne
    simp only at h hne
    unfold parseChunkLengthLF at h hne
    cases d with
    | nil => cases h
    | cons c r =>
      simp only at h hne
      by_cases hc : c = 10
      · simp only [hc, if_true] at h hne
        split at h <;> cases h
      · simp [hc, error] at hne
  | psChunkData =>
    unfold dispatch at h
    rw [hst] at h
    simp only at h
    by_cases hq : s.mChunkDataLengthLeft - min d.length s.mChunkDataLengthLeft = 0
    · simp [parseChunkData, hq, teStopped, teError, teFinished] at h
    · simp [parseChunkData, hq, teStopped, teError, teFinished] at h
  | psChunkDataCR =>
    unfold dispatch at h hne
    rw [hst] at h hne
    simp only at h hne
    unfold parseChunkDataCR at h hne
    cases d with
    | nil => cases h
    | cons c r =>
      simp only at h hne
      by_cases hc : c = 13
      · simp only [hc, if_true] at h
        cases h
      · simp [hc, error] at hne
  | psChunkDataLF =>
    unfold dispatch at h hne
    rw [hst] at h hne
    simp only at h hne
    unfold parseChunkDataLF at h hne
    cases d with
    | nil => cases h
    | cons c r =>
      simp only at h hne
      by_cases hc : c = 10
      · simp only [hc, if_true] at h
        cases h
      · simp [hc, error] at hne
  | psTrailer =>
    unfold dispatch at h hne
    rw [hst] at h hne
    simp only at h hne
    unfold parseTrailer at h hne
    by_cases hn : (s.mTrailerParser.parse d).2.2 = npos
    · simp [hn, error] at hne
      split at hne <;> simp at hne
    · by_cases hc : (s.mTrailerParser.parse d).2.2 < d.length ∨
          (s.mTrailerParser.parse d).1.mIsInHeaders = false
      · simp [hn, hc] at hne
      · simp [hn, hc, teStopped, teError, teFinished] at h

theorem parseLoop_stopped : ∀ (fuel : Nat) (s : ChunkedTEParser) (d : List Byte),
    teStopped (parseLoop fuel s d).2.1 = true →
    (parseLoop fuel s d).1.mState = eState.psFinished
  | 0, s, d, h => by cases h
  | fuel + 1, s, d, h => by
    rw [parseLoop_unfold] at h ⊢
    by_cases hc : d.length > 0 ∧ s.mState ≠ eState.psFinished
    · rw [if_pos hc] at h ⊢
      by_cases hn : (s.dispatch d).2.2 = npos
      · rw [if_pos hn] at h ⊢
        exact dispatch_stopped s d h
      · rw [if_neg hn] at h ⊢
        simp only at h ⊢
        rw [teStopped_append] at h
        by_cases h1 : teStopped (s.dispatch d).2.1 = true
        · have hf := dispatch_stopped s d h1
          rw [parseLoop_finished _ _ _ hf]
          exact hf
        · have h2 : teStopped (parseLoop fuel (s.dispatch d).1
              (d.drop (s.dispatch d).2.2)).2.1 = true := by
            simpa [h1] using h
          exact parseLoop_stopped fuel _ _ h2
    · rw [if_neg hc] at h
      cases h

/-- A chunked parser that has reported an error or the end of the body has
finished. -/
theorem parse_stopped (s : ChunkedTEParser) (d : List Byte)
    (h : teStopped (s.parse d).2.1 = true) : (s.parse d).1.mState = eState.psFinished :=
  parseLoop_stopped _ s d h

end ChunkedTEParser

end Http

namespace Http

/-! ## The transfer-encoding parsers on a slice in two pieces -/

theorem IdentityTEParser.identity_parse_eq (n : Nat) (d : List Byte) :
    IdentityTEParser.parse { mBytesLeft := n } d =
      ({ mBytesLeft := n - min d.length n },
        (if min d.length n > 0 then [TEEvent.onBodyData (d.take (min d.length n))] else []) ++
          (if n - min d.length n = 0 then [TEEvent.onBodyFinished] else []),
        d.length - min d.length n) := rfl

theorem IdentityTEParser.identity_parse_append (n : Nat) (a b : List Byte) :
    mergeTE (IdentityTEParser.parse { mBytesLeft := n } (a ++ b)).2.1 =
      mergeTE ((IdentityTEParser.parse { mBytesLeft := n } a).2.1 ++
        (if teStopped (IdentityTEParser.parse { mBytesLeft := n } a).2.1 then []
         else ((IdentityTEParser.parse { mBytesLeft := n } a).1.parse b).2.1)) ∧
    (teStopped (IdentityTEParser.parse { mBytesLeft := n } a).2.1 = false →
      0 < (IdentityTEParser.parse { mBytesLeft := n } a).1.mBytesLeft) := by
  by_cases hn : n ≤ a.length
  · have h1 : min a.length n = n := by omega
    have h2 : min (a ++ b).length n = n := by simp only [List.length_append]; omega
    have h3 : (a ++ b).take n = a.take n := List.take_append_of_le_length hn
    rw [IdentityTEParser.identity_parse_eq n (a ++ b), IdentityTEParser.identity_parse_eq n a]
    simp only [h1, h2, h3, Nat.sub_self, if_true]
    have hst : teStopped ((if n > 0 then [TEEvent.onBodyData (a.take n)] else []) ++
        [TEEvent.onBodyFinished]) = true := by
      by_cases h0 : n > 0
      · simp [h0, teStopped, teError, teFinished]
      · simp [h0, teStopped, teError, teFinished]
    rw [hst]
    simp
  · have hlt : a.length < n := by omega
    have h1 : min a.length n = a.length := by omega
    have h2 : min (a ++ b).length n = a.length + min b.length (n - a.length) := by
      simp only [List.length_append]; omega
    have h3 : (a ++ b).take (a.length + min b.length (n - a.length)) =
        a ++ b.take (min b.length (n - a.length)) := List.take_append _
    have h4 : n - a.length ≠ 0 := by omega
    have h5 : n - (a.length + min b.length (n - a.length)) =
        n - a.length - min b.length (n - a.length) := by omega
    rw [IdentityTEParser.identity_parse_eq n (a ++ b), IdentityTEParser.identity_parse_eq n a]
    simp only [h1, h2, h3, h4, h5, List.take_length, if_false, List.append_nil]
    have hst : teStopped (if a.length > 0 then [TEEvent.onBodyData a] else []) = false := by
      by_cases h0 : a.length > 0
      · simp [h0, teStopped, teError, teFinished]
      · simp [h0, teStopped, teError, teFinished]
    rw [hst]
    simp only [Bool.false_eq_true, if_false, IdentityTEParser.identity_parse_eq]
    refine ⟨?_, fun _ => by omega⟩
    by_cases ha : a = []
    · subst ha
      simp
    · have hapos : a.length > 0 := List.length_pos.mpr ha
      by_cases hm : min b.length (n - a.length) > 0
      · have hm2 : a.length + min b.length (n - a.length) > 0 := by omega
        simp only [hapos, hm, hm2, if_true, List.singleton_append, List.cons_append,
          List.nil_append]
        exact (mergeTE_body_body _ _ _).symm
      · have hm0 : min b.length (n - a.length) = 0 := by omega
        simp [hapos, hm0]

namespace TransferEncodingParser

/-- Splitting a slice in two does not change what a transfer-encoding parser
reports, up to the cut of the body data, as long as the second piece is only
given to a parser that has not reported an error or the end of the body. -/
theorem te_parse_append (te : TransferEncodingParser) (a b : List Byte)
    (hok : te.Ok0 (a ++ b)) :
    mergeTE (te.parse (a ++ b)).2.1 =
      mergeTE ((te.parse a).2.1 ++
        (if teStopped (te.parse a).2.1 then [] else ((te.parse a).1.parse b).2.1)) ∧
    (teStopped (te.parse a).2.1 = false → (te.parse a).1.Ok b) := by
  cases te with
  | identity i =>
    cases i with
    | mk n =>
      have h := IdentityTEParser.identity_parse_append n a b
      simp only [parse, Ok]
      exact h
  | chunked c =>
    have h := ChunkedTEParser.chunked_parse_append c a b hok
    unfold ChunkedTEParser.AppendOk at h
    obtain ⟨a1, _, _, _, a5⟩ := h
    simp only [parse, Ok]
    refine ⟨?_, fun _ => a5⟩
    by_cases hst : teStopped (c.parse a).2.1 = true
    · have hf := ChunkedTEParser.parse_stopped c a hst
      rw [ChunkedTEParser.parse_finished _ b hf] at a1
      rw [hst]
      simpa using a1
    · have hst2 : teStopped (c.parse a).2.1 = false := by simpa using hst
      rw [hst2]
      simpa using a1

end TransferEncodingParser

end Http

namespace Http

namespace MessageParser

/-! ## The parts of `MessageParser::parse` -/

theorem parseEnvelope_eq (p : MessageParser) (d : List Byte) :
    p.parseEnvelope d =
      (p.afterHeaders (p.mEnvelopeParser.parse d).1 (p.mEnvelopeParser.parse d).2.1,
        hdrEvents (p.mEnvelopeParser.parse d).2.1, (p.mEnvelopeParser.parse d).2.2) := by
  unfold parseEnvelope
  simp only [onHeaderLines_eq]
  rfl

theorem parseBody_some (p : MessageParser) (te : TransferEncodingParser) (d : List Byte)
    (h : p.mTransferEncodingParser = some te) :
    p.parseBody d =
      ({ p with
          mTransferEncodingParser := some (te.parse d).1,
          mHasHadError := p.mHasHadError || teError (te.parse d).2.1,
          mIsFinished := p.mIsFinished || teFinished (te.parse d).2.1 },
        (te.parse d).2.1.map liftTE, sizeSub d.length (te.parse d).2.2) := by
  unfold parseBody
  rw [h]
  simp only [onTEEvents_eq]

theorem continueParse_eq (p : MessageParser) (d : List Byte) :
    p.continueParse d =
      if (p.mEnvelopeParser.parse d).2.2 = npos then
        ({ p.afterHeaders (p.mEnvelopeParser.parse d).1 (p.mEnvelopeParser.parse d).2.1 with
            mHasHadError := true },
          hdrEvents (p.mEnvelopeParser.parse d).2.1 ++
            [Event.onError (bytes "Failed to parse the envelope")])
      else if (p.mEnvelopeParser.parse d).1.mIsInHeaders = false then
        (((p.afterHeaders (p.mEnvelopeParser.parse d).1
            (p.mEnvelopeParser.parse d).2.1).bodyStart
              (d.drop (p.mEnvelopeParser.parse d).2.2)).1,
          hdrEvents (p.mEnvelopeParser.parse d).2.1 ++
            ((p.afterHeaders (p.mEnvelopeParser.parse d).1
              (p.mEnvelopeParser.parse d).2.1).bodyStart
                (d.drop (p.mEnvelopeParser.parse d).2.2)).2)
      else
        (p.afterHeaders (p.mEnvelopeParser.parse d).1 (p.mEnvelopeParser.parse d).2.1,
          hdrEvents (p.mEnvelopeParser.parse d).2.1) := by
  unfold continueParse
  simp only [parseEnvelope_eq]
  by_cases h1 : (p.mEnvelopeParser.parse d).2.2 = npos
  · simp only [h1, if_true]
  · simp only [h1, if_false]
    by_cases h2 : (p.mEnvelopeParser.parse d).1.mIsInHeaders = false
    · simp [h2, afterHeaders, bodyStart, List.append_assoc]
    · have h3 : (p.mEnvelopeParser.parse d).1.mIsInHeaders = true := by simpa using h2
      simp [h3, afterHeaders]

/-! ### The members the end of the headers and the body do not look at -/

theorem headersFinished_withEnv (p : MessageParser) (e : EnvelopeParser) (b : List Byte) :
    (p.withEnv e b).headersFinished =
      (p.headersFinished.1.withEnv e b, p.headersFinished.2) := by
  cases hc : TransferEncodingParser.create
      (if p.mTransferEncoding.isEmpty then bytes "Identity" else p.mTransferEncoding)
      p.mContentLength with
  | none =>
    rw [headersFinished_none p hc, headersFinished_none (p.withEnv e b) hc]
    rfl
  | some t =>
    rw [headersFinished_some p t hc, headersFinished_some (p.withEnv e b) t hc]
    rfl

theorem parseBody_withEnv (p : MessageParser) (e : EnvelopeParser) (b d : List Byte) :
    (p.withEnv e b).parseBody d =
      ((p.parseBody d).1.withEnv e b, (p.parseBody d).2.1, (p.parseBody d).2.2) := by
  cases h : p.mTransferEncodingParser with
  | none =>
    rw [parseBody_none p d h, parseBody_none (p.withEnv e b) d h]
    rfl
  | some te =>
    rw [parseBody_some p te d h, parseBody_some (p.withEnv e b) te d h]
    rfl

theorem bodyStart_withEnv (p : MessageParser) (e : EnvelopeParser) (b d : List Byte) :
    (p.withEnv e b).bodyStart d = ((p.bodyStart d).1.withEnv e b, (p.bodyStart d).2) := by
  unfold bodyStart
  rw [headersFinished_withEnv, parseBody_withEnv]

/-! ### The paths of `MessageParser::parse` -/

theorem parse_halted (p : MessageParser) (d : List Byte)
    (h : (p.mIsFinished || p.mHasHadError) = true) : p.parse d = (p, [], 0) := by
  unfold parse
  rw [if_pos h]

theorem parse_body_path (p : MessageParser) (d : List Byte)
    (h : (p.mIsFinished || p.mHasHadError) = false) (hl : p.mFirstLine ≠ [])
    (hin : p.mEnvelopeParser.mIsInHeaders = false) : p.parse d = p.parseBody d := by
  have hl2 : p.mFirstLine.isEmpty = false := by
    cases hp : p.mFirstLine with
    | nil => exact absurd hp hl
    | cons c r => rfl
  unfold parse
  simp [h, hl2, hin]

theorem parse_headers_path (p : MessageParser) (d : List Byte)
    (h : (p.mIsFinished || p.mHasHadError) = false) (hl : p.mFirstLine ≠ [])
    (hin : p.mEnvelopeParser.mIsInHeaders = true) :
    ((p.parse d).1, (p.parse d).2.1) = p.continueParse d := by
  have hl2 : p.mFirstLine.isEmpty = false := by
    cases hp : p.mFirstLine with
    | nil => exact absurd hp hl
    | cons c r => rfl
  unfold parse continueParse
  simp only [h, hl2, hin, Bool.false_eq_true, if_false, if_true]
  by_cases h1 : (p.parseEnvelope d).2.2 = npos
  · simp only [h1, if_true]
  · simp only [h1, if_false]
    by_cases h2 : (!(p.parseEnvelope d).1.mEnvelopeParser.mIsInHeaders) = true
    · simp only [h2, if_true]
      by_cases h3 : ((p.parseEnvelope d).1.headersFinished.1.parseBody
          (d.drop (p.parseEnvelope d).2.2)).2.2 = npos
      · simp only [h3, if_true]
      · simp only [h3, if_false]
    · simp only [h2, Bool.false_eq_true, if_false]

end MessageParser

end Http

namespace Http

namespace MessageParser

/-! ## The body on a slice in two pieces -/

theorem ok_of_body (q : MessageParser) (b : List Byte) (hb : b.length < npos)
    (hl : q.mFirstLine ≠ []) (hin : q.mEnvelopeParser.mIsInHeaders = false)
    (hte : q.mIsFinished = false → q.mHasHadError = false →
      ∃ te, q.mTransferEncodingParser = some te ∧ te.Ok b) : q.Ok b := by
  intro hs
  have h1 : q.mIsFinished = false := by
    cases hq : q.mIsFinished with
    | false => rfl
    | true => rw [hq] at hs; cases hs
  have h2 : q.mHasHadError = false := by
    cases hq : q.mHasHadError with
    | false => rfl
    | true => rw [hq, h1] at hs; cases hs
  refine ⟨hb, ?_, fun h => absurd h hl, fun _ h => ?_, fun _ _ => hte h1 h2⟩
  · intro h
    rw [hin] at h
    cases h
  · rw [hin] at h
    cases h

theorem parseBody_append (p : MessageParser) (te : TransferEncodingParser) (a b : List Byte)
    (hte : p.mTransferEncodingParser = some te) (hok : te.Ok0 (a ++ b))
    (hlen : (a ++ b).length < npos)
    (hfin : p.mIsFinished = false) (herr : p.mHasHadError = false)
    (hl : p.mFirstLine ≠ []) (hin : p.mEnvelopeParser.mIsInHeaders = false) :
    mergeEv (p.parseBody (a ++ b)).2.1 =
      mergeEv ((p.parseBody a).2.1 ++ ((p.parseBody a).1.parse b).2.1) ∧
    (p.parseBody a).1.Ok b := by
  have hb : b.length < npos := by
    simp only [List.length_append] at hlen
    omega
  obtain ⟨t1, t2⟩ := TransferEncodingParser.te_parse_append te a b hok
  have e2 := parseBody_some p te a hte
  have qfl : (p.parseBody a).1.mFirstLine ≠ [] := by rw [e2]; exact hl
  have qin : (p.parseBody a).1.mEnvelopeParser.mIsInHeaders = false := by rw [e2]; exact hin
  have qfin : (p.parseBody a).1.mIsFinished = teFinished (te.parse a).2.1 := by
    rw [e2]; simp [hfin]
  have qerr : (p.parseBody a).1.mHasHadError = teError (te.parse a).2.1 := by
    rw [e2]; simp [herr]
  have qte : (p.parseBody a).1.mTransferEncodingParser = some (te.parse a).1 := by rw [e2]
  have qev : (p.parseBody a).2.1 = (te.parse a).2.1.map liftTE := by rw [e2]
  have wev : (p.parseBody (a ++ b)).2.1 = (te.parse (a ++ b)).2.1.map liftTE := by
    rw [parseBody_some p te (a ++ b) hte]
  rw [wev, qev]
  by_cases hst : teStopped (te.parse a).2.1 = true
  · have hst2 : ((p.parseBody a).1.mIsFinished || (p.parseBody a).1.mHasHadError) = true := by
      rw [qfin, qerr, Bool.or_comm]
      exact hst
    constructor
    · rw [parse_halted (p.parseBody a).1 b hst2]
      rw [hst] at t1
      simp only [if_true, List.append_nil] at t1 ⊢
      exact mergeEv_of_mergeTE t1
    · refine ok_of_body (p.parseBody a).1 b hb qfl qin ?_
      intro h1 h2
      rw [h1, h2] at hst2
      cases hst2
  · have hst1 : teStopped (te.parse a).2.1 = false := by simpa using hst
    have hst2 : ((p.parseBody a).1.mIsFinished || (p.parseBody a).1.mHasHadError) = false := by
      rw [qfin, qerr, Bool.or_comm]
      exact hst1
    constructor
    · rw [parse_body_path (p.parseBody a).1 b hst2 qfl qin,
        parseBody_some (p.parseBody a).1 (te.parse a).1 b qte]
      rw [hst1] at t1
      simp only [Bool.false_eq_true, if_false] at t1
      simp only
      rw [← List.map_append]
      exact mergeEv_of_mergeTE t1
    · refine ok_of_body (p.parseBody a).1 b hb qfl qin ?_
      intro _ _
      exact ⟨(te.parse a).1, qte, t2 hst1⟩

theorem create_ok0 (v : List Byte) (n : Nat) (te : TransferEncodingParser) (d : List Byte)
    (h : TransferEncodingParser.create v n = some te) (hd : d.length < npos) : te.Ok0 d := by
  unfold TransferEncodingParser.create at h
  by_cases h1 : Utils.strToLower v = bytes "chunked"
  · simp only [h1, if_true, Option.some.injEq] at h
    subst h
    refine ⟨hd, fun _ => ⟨EnvelopeParser.new_inv, ?_⟩⟩
    simpa [ChunkedTEParser.new, EnvelopeParser.new] using hd
  · simp only [h1, if_false] at h
    by_cases h2 : Utils.strToLower v = bytes "identity"
    · simp only [h2, if_true, Option.some.injEq] at h
      subst h
      trivial
    · simp [h2] at h

/-- The end of the headers and the body on a slice in two pieces, when the run
on the whole slice reports no error. -/
theorem bodyStart_append (p : MessageParser) (a b : List Byte)
    (hlen : (a ++ b).length < npos)
    (hfin : p.mIsFinished = false) (herr : p.mHasHadError = false)
    (hl : p.mFirstLine ≠ []) (hin : p.mEnvelopeParser.mIsInHeaders = false)
    (hne : evError (p.bodyStart (a ++ b)).2 = false) :
    mergeEv (p.bodyStart (a ++ b)).2 =
      mergeEv ((p.bodyStart a).2 ++ ((p.bodyStart a).1.parse b).2.1) ∧
    (p.bodyStart a).1.Ok b := by
  cases hc : TransferEncodingParser.create
      (if p.mTransferEncoding.isEmpty then bytes "Identity" else p.mTransferEncoding)
      p.mContentLength with
  | none =>
    exfalso
    unfold bodyStart at hne
    rw [headersFinished_none p hc] at hne
    simp [evError, evError_append] at hne
  | some te =>
    have hok := create_ok0 _ _ te (a ++ b) hc hlen
    unfold bodyStart
    rw [headersFinished_some p te hc]
    simp only
    obtain ⟨h1, h2⟩ := parseBody_append
      { p with
          mTransferEncoding :=
            if p.mTransferEncoding.isEmpty then bytes "Identity" else p.mTransferEncoding,
          mTransferEncodingParser := some te } te a b rfl hok hlen hfin herr hl hin
    refine ⟨?_, h2⟩
    rw [List.append_assoc]
    exact mergeEv_append_congr _ h1

end MessageParser

end Http

namespace Http

namespace MessageParser

/-! ## The headers on a slice in two pieces -/

theorem afterHeaders_append (p : MessageParser) (e e1 : EnvelopeParser)
    (x y : List HeaderLine) :
    p.afterHeaders e (x ++ y) = ((p.afterHeaders e1 x).afterHeaders e y) := by
  unfold afterHeaders
  simp only [clAfter_append, teAfter_append, hdrError_append, Bool.or_assoc]

theorem afterHeaders_withEnv (p : MessageParser) (e e1 : EnvelopeParser) (l : List HeaderLine) :
    p.afterHeaders e l = (p.afterHeaders e1 l).withEnv e (p.afterHeaders e1 l).mBuffer := rfl

theorem afterHeaders_nil (p : MessageParser) (e : EnvelopeParser) :
    p.afterHeaders e [] = p.withEnv e p.mBuffer := by
  unfold afterHeaders withEnv
  simp [clAfter, teAfter, hdrError]

theorem continueParse_error (p : MessageParser) (d : List Byte)
    (hne : evError (p.continueParse d).2 = false) :
    (p.mEnvelopeParser.parse d).2.2 ≠ npos ∧ hdrError (p.mEnvelopeParser.parse d).2.1 = false := by
  rw [continueParse_eq] at hne
  by_cases h1 : (p.mEnvelopeParser.parse d).2.2 = npos
  · simp [h1, evError_append, evError] at hne
  · refine ⟨h1, ?_⟩
    simp only [h1, if_false] at hne
    by_cases h2 : (p.mEnvelopeParser.parse d).1.mIsInHeaders = false
    · simp only [h2, if_true, evError_append, evError_hdrEvents, Bool.or_eq_false_iff] at hne
      exact hne.1
    · rw [if_neg h2] at hne
      simp only [evError_hdrEvents] at hne
      exact hne

end MessageParser

end Http

namespace Http

namespace MessageParser

theorem continueParse_more (p : MessageParser) (d : List Byte)
    (h1 : (p.mEnvelopeParser.parse d).2.2 ≠ npos)
    (h2 : (p.mEnvelopeParser.parse d).1.mIsInHeaders = true) :
    p.continueParse d =
      (p.afterHeaders (p.mEnvelopeParser.parse d).1 (p.mEnvelopeParser.parse d).2.1,
        hdrEvents (p.mEnvelopeParser.parse d).2.1) := by
  rw [continueParse_eq, if_neg h1, if_neg (by rw [h2]; decide)]

theorem continueParse_done (p : MessageParser) (d : List Byte)
    (h1 : (p.mEnvelopeParser.parse d).2.2 ≠ npos)
    (h2 : (p.mEnvelopeParser.parse d).1.mIsInHeaders = false) :
    p.continueParse d =
      (((p.afterHeaders (p.mEnvelopeParser.parse d).1
          (p.mEnvelopeParser.parse d).2.1).bodyStart
            (d.drop (p.mEnvelopeParser.parse d).2.2)).1,
        hdrEvents (p.mEnvelopeParser.parse d).2.1 ++
          ((p.afterHeaders (p.mEnvelopeParser.parse d).1
            (p.mEnvelopeParser.parse d).2.1).bodyStart
              (d.drop (p.mEnvelopeParser.parse d).2.2)).2) := by
  rw [continueParse_eq, if_neg h1, if_pos h2]

/-- The run from the headers on, on a slice in two pieces, when the run on the
whole slice reports no error: the same callbacks up to the cut of the body data,
and the state after the first piece can be run on the second. -/
theorem continueParse_append (p : MessageParser) (a b : List Byte)
    (hinv : p.mEnvelopeParser.Inv)
    (hlen : p.mEnvelopeParser.mIncomingData.length + a.length + b.length < npos)
    (hfin : p.mIsFinished = false) (herr : p.mHasHadError = false) (hl : p.mFirstLine ≠ [])
    (hne : evError (p.continueParse (a ++ b)).2 = false) :
    mergeEv (p.continueParse (a ++ b)).2 =
      mergeEv ((p.continueParse a).2 ++ ((p.continueParse a).1.parse b).2.1) ∧
    (p.continueParse a).1.Ok b := by
  have hnp := npos_eq
  obtain ⟨e1, e2, e3, e4⟩ := EnvelopeParser.parse_append p.mEnvelopeParser a b hinv hlen
  obtain ⟨hW, hWe⟩ := continueParse_error p (a ++ b) hne
  have hA : (p.mEnvelopeParser.parse a).2.2 ≠ npos := fun h => hW (e3 h)
  have hB : ((p.mEnvelopeParser.parse a).1.parse b).2.2 ≠ npos :=
    fun h => hW ((e4 hA).1.mpr h)
  have hsum := (e4 hA).2 hB
  rw [e1, hdrError_append, Bool.or_eq_false_iff] at hWe
  obtain ⟨hAe, hBe⟩ := hWe
  obtain ⟨r1, r2, _⟩ := EnvelopeParser.parse_ret p.mEnvelopeParser a hinv (by omega)
  have hAle : (p.mEnvelopeParser.parse a).2.2 ≤ a.length := by
    rcases r2 with h | h
    · exact absurd h hA
    · exact h
  have hb : b.length < npos := by omega
  have tfl : (p.afterHeaders (p.mEnvelopeParser.parse a).1
      (p.mEnvelopeParser.parse a).2.1).mFirstLine ≠ [] := hl
  have tfin : (p.afterHeaders (p.mEnvelopeParser.parse a).1
      (p.mEnvelopeParser.parse a).2.1).mIsFinished = false := hfin
  have terr : (p.afterHeaders (p.mEnvelopeParser.parse a).1
      (p.mEnvelopeParser.parse a).2.1).mHasHadError = false := by
    simp [afterHeaders, herr, hAe]
  have tstop : ((p.afterHeaders (p.mEnvelopeParser.parse a).1
      (p.mEnvelopeParser.parse a).2.1).mIsFinished ||
      (p.afterHeaders (p.mEnvelopeParser.parse a).1
        (p.mEnvelopeParser.parse a).2.1).mHasHadError) = false := by
    rw [tfin, terr]; rfl
  by_cases hin : (p.mEnvelopeParser.parse a).1.mIsInHeaders = true
  · -- the first piece ends in the headers
    have hAlen := r1 hin
    have hpath := parse_headers_path (p.afterHeaders (p.mEnvelopeParser.parse a).1
      (p.mEnvelopeParser.parse a).2.1) b tstop tfl hin
    have hev2 := congrArg Prod.snd hpath
    simp only at hev2
    have hTW : p.afterHeaders (p.mEnvelopeParser.parse (a ++ b)).1
        (p.mEnvelopeParser.parse (a ++ b)).2.1 =
        ((p.afterHeaders (p.mEnvelopeParser.parse a).1
          (p.mEnvelopeParser.parse a).2.1).afterHeaders
            ((p.mEnvelopeParser.parse a).1.parse b).1
            ((p.mEnvelopeParser.parse a).1.parse b).2.1).withEnv
          (p.mEnvelopeParser.parse (a ++ b)).1 p.mBuffer := by
      rw [e1, afterHeaders_append p _ (p.mEnvelopeParser.parse a).1]
      rfl
    have hdrop : (a ++ b).drop (p.mEnvelopeParser.parse (a ++ b)).2.2 =
        b.drop ((p.mEnvelopeParser.parse a).1.parse b).2.2 := by
      rw [hsum, hAlen]
      exact List.drop_append _
    have hwhole : (p.continueParse (a ++ b)).2 =
        hdrEvents (p.mEnvelopeParser.parse a).2.1 ++
          ((p.afterHeaders (p.mEnvelopeParser.parse a).1
            (p.mEnvelopeParser.parse a).2.1).continueParse b).2 := by
      by_cases hBin : ((p.mEnvelopeParser.parse a).1.parse b).1.mIsInHeaders = true
      · have hWin : (p.mEnvelopeParser.parse (a ++ b)).1.mIsInHeaders = true := by
          rw [← e2.1]; exact hBin
        rw [continueParse_more p (a ++ b) hW hWin,
          continueParse_more (p.afterHeaders (p.mEnvelopeParser.parse a).1
            (p.mEnvelopeParser.parse a).2.1) b hB hBin]
        simp only
        rw [e1, hdrEvents_append]
        rfl
      · have hBout : ((p.mEnvelopeParser.parse a).1.parse b).1.mIsInHeaders = false := by
          simpa using hBin
        have hWout : (p.mEnvelopeParser.parse (a ++ b)).1.mIsInHeaders = false := by
          rw [← e2.1]; exact hBout
        rw [continueParse_done p (a ++ b) hW hWout,
          continueParse_done (p.afterHeaders (p.mEnvelopeParser.parse a).1
            (p.mEnvelopeParser.parse a).2.1) b hB hBout]
        simp only
        rw [hTW, bodyStart_withEnv, hdrop, e1, hdrEvents_append, List.append_assoc]
        rfl
    rw [continueParse_more p a hA hin]
    simp only
    rw [hev2, hwhole]
    refine ⟨rfl, fun _ => ⟨hb, EnvelopeParser.parse_inv _ a hinv, fun h => absurd h tfl,
      fun _ _ => ?_, fun _ hout => ?_⟩⟩
    · have := EnvelopeParser.parse_buf_len p.mEnvelopeParser a hinv
      show (p.mEnvelopeParser.parse a).1.mIncomingData.length + b.length < npos
      omega
    · have hout2 : (p.mEnvelopeParser.parse a).1.mIsInHeaders = false := hout
      rw [hin] at hout2
      cases hout2
  · -- the headers end in the first piece
    have hout : (p.mEnvelopeParser.parse a).1.mIsInHeaders = false := by simpa using hin
    have hBeq := EnvelopeParser.parse_out (p.mEnvelopeParser.parse a).1 b hout
    rw [hBeq] at e1 e2 hsum
    simp only [List.append_nil, Nat.add_zero] at e1 hsum
    have hWout : (p.mEnvelopeParser.parse (a ++ b)).1.mIsInHeaders = false := by
      rw [← e2.1]; exact hout
    have hTW : p.afterHeaders (p.mEnvelopeParser.parse (a ++ b)).1
        (p.mEnvelopeParser.parse (a ++ b)).2.1 =
        (p.afterHeaders (p.mEnvelopeParser.parse a).1
          (p.mEnvelopeParser.parse a).2.1).withEnv
          (p.mEnvelopeParser.parse (a ++ b)).1 p.mBuffer := by
      rw [e1]
      rfl
    have hdrop : (a ++ b).drop (p.mEnvelopeParser.parse (a ++ b)).2.2 =
        a.drop (p.mEnvelopeParser.parse a).2.2 ++ b := by
      rw [hsum]
      exact List.drop_append_of_le_length hAle
    have hwhole : (p.continueParse (a ++ b)).2 =
        hdrEvents (p.mEnvelopeParser.parse a).2.1 ++
          ((p.afterHeaders (p.mEnvelopeParser.parse a).1
            (p.mEnvelopeParser.parse a).2.1).bodyStart
              (a.drop (p.mEnvelopeParser.parse a).2.2 ++ b)).2 := by
      rw [continueParse_done p (a ++ b) hW hWout]
      simp only
      rw [hTW, bodyStart_withEnv, hdrop, e1]
    have hne2 : evError ((p.afterHeaders (p.mEnvelopeParser.parse a).1
        (p.mEnvelopeParser.parse a).2.1).bodyStart
          (a.drop (p.mEnvelopeParser.parse a).2.2 ++ b)).2 = false := by
      rw [hwhole, evError_append, Bool.or_eq_false_iff] at hne
      exact hne.2
    have hlen2 : (a.drop (p.mEnvelopeParser.parse a).2.2 ++ b).length < npos := by
      simp only [List.length_append, List.length_drop]
      omega
    obtain ⟨m1, m2⟩ := bodyStart_append (p.afterHeaders (p.mEnvelopeParser.parse a).1
      (p.mEnvelopeParser.parse a).2.1) (a.drop (p.mEnvelopeParser.parse a).2.2) b hlen2
      tfin terr tfl hout hne2
    rw [continueParse_done p a hA hout]
    simp only
    rw [hwhole, List.append_assoc]
    exact ⟨mergeEv_append_congr _ m1, m2⟩

end MessageParser

end Http

namespace Http

namespace MessageParser

/-! ## The buffer of the message parser after the first line -/

theorem parseBody_frame (p : MessageParser) (d : List Byte) :
    (p.parseBody d).1.mFirstLine = p.mFirstLine ∧
    (p.parseBody d).1.mEnvelopeParser = p.mEnvelopeParser := by
  cases h : p.mTransferEncodingParser with
  | none => rw [parseBody_none p d h]; exact ⟨rfl, rfl⟩
  | some te => rw [parseBody_some p te d h]; exact ⟨rfl, rfl⟩

theorem bodyStart_frame (p : MessageParser) (d : List Byte) :
    (p.bodyStart d).1.mFirstLine = p.mFirstLine ∧
    (p.bodyStart d).1.mEnvelopeParser = p.mEnvelopeParser := by
  unfold bodyStart
  have h1 := parseBody_frame p.headersFinished.1 d
  have h2 := headersFinished_frame p
  exact ⟨h1.1.trans h2.2.1, h1.2.trans h2.2.2.1⟩

theorem continueParse_firstLine (p : MessageParser) (d : List Byte) :
    (p.continueParse d).1.mFirstLine = p.mFirstLine := by
  rw [continueParse_eq]
  by_cases h1 : (p.mEnvelopeParser.parse d).2.2 = npos
  · rw [if_pos h1]; rfl
  · rw [if_neg h1]
    by_cases h2 : (p.mEnvelopeParser.parse d).1.mIsInHeaders = false
    · rw [if_pos h2]
      exact (bodyStart_frame _ _).1
    · rw [if_neg h2]; rfl

theorem continueParse_withEnv (p : MessageParser) (X d : List Byte) :
    (p.withEnv p.mEnvelopeParser X).continueParse d =
      ((p.continueParse d).1.withEnv (p.continueParse d).1.mEnvelopeParser X,
        (p.continueParse d).2) := by
  rw [continueParse_eq p d, continueParse_eq (p.withEnv p.mEnvelopeParser X) d]
  have he : (p.withEnv p.mEnvelopeParser X).mEnvelopeParser = p.mEnvelopeParser := rfl
  have ha : ∀ (e : EnvelopeParser) (l : List HeaderLine),
      (p.withEnv p.mEnvelopeParser X).afterHeaders e l = (p.afterHeaders e l).withEnv e X :=
    fun _ _ => rfl
  rw [he, ha]
  by_cases h1 : (p.mEnvelopeParser.parse d).2.2 = npos
  · rw [if_pos h1, if_pos h1]; rfl
  · rw [if_neg h1, if_neg h1]
    by_cases h2 : (p.mEnvelopeParser.parse d).1.mIsInHeaders = false
    · rw [if_pos h2, if_pos h2, bodyStart_withEnv]
      simp only
      rw [(bodyStart_frame _ _).2]
      rfl
    · rw [if_neg h2, if_neg h2]; rfl

theorem parse_withEnv (p : MessageParser) (X d : List Byte) (hl : p.mFirstLine ≠ []) :
    ((p.withEnv p.mEnvelopeParser X).parse d).2.1 = (p.parse d).2.1 ∧
    ((p.withEnv p.mEnvelopeParser X).parse d).1 =
      (p.parse d).1.withEnv (p.parse d).1.mEnvelopeParser X := by
  have hl2 : (p.withEnv p.mEnvelopeParser X).mFirstLine ≠ [] := hl
  by_cases hs : (p.mIsFinished || p.mHasHadError) = true
  · rw [parse_halted p d hs, parse_halted (p.withEnv p.mEnvelopeParser X) d hs]
    exact ⟨rfl, rfl⟩
  · have hs2 : (p.mIsFinished || p.mHasHadError) = false := by simpa using hs
    by_cases hin : p.mEnvelopeParser.mIsInHeaders = true
    · have h1 := parse_headers_path p d hs2 hl hin
      have h2 := parse_headers_path (p.withEnv p.mEnvelopeParser X) d hs2 hl2 hin
      rw [continueParse_withEnv, ← h1] at h2
      have h3 := congrArg Prod.fst h2
      have h4 := congrArg Prod.snd h2
      simp only at h3 h4
      exact ⟨h4, h3⟩
    · have hout : p.mEnvelopeParser.mIsInHeaders = false := by simpa using hin
      rw [parse_body_path p d hs2 hl hout,
        parse_body_path (p.withEnv p.mEnvelopeParser X) d hs2 hl2 hout, parseBody_withEnv]
      refine ⟨rfl, ?_⟩
      show (p.parseBody d).1.withEnv p.mEnvelopeParser X =
        (p.parseBody d).1.withEnv (p.parseBody d).1.mEnvelopeParser X
      rw [(parseBody_frame p d).2]

theorem ok_withEnv (p : MessageParser) (X d : List Byte) (hl : p.mFirstLine ≠ [])
    (hok : p.Ok d) : (p.withEnv p.mEnvelopeParser X).Ok d := by
  intro hs
  obtain ⟨h1, h2, _, h4, h5⟩ := hok hs
  exact ⟨h1, h2, fun h => absurd h hl, h4, h5⟩

end MessageParser

end Http

namespace Http

namespace MessageParser

/-! ## The path of `MessageParser::parse` before the first line is known -/

theorem parse_first_none (p : MessageParser) (d : List Byte)
    (hs : (p.mIsFinished || p.mHasHadError) = false) (hl : p.mFirstLine = [])
    (hf : firstCRLF (p.mBuffer ++ d) = none) :
    p.parse d = ({ p with mBuffer := p.mBuffer ++ d }, [], d.length) := by
  unfold parse parseFirstLine
  simp only [hs, hl, findCRLF_zero, hf, List.isEmpty_nil, Bool.false_eq_true, if_false, if_true]

theorem parseEnvelope_buffer (q : MessageParser) (d : List Byte) :
    (q.parseEnvelope d).1.mBuffer = q.mBuffer := by
  rw [parseEnvelope_eq]
  rfl

/-- The rest of the first path of `MessageParser::parse`, from the state `q`
the first line has been taken in: the callbacks are those of the run from the
headers on, given the buffer, and so is the state, but for its buffer. -/
theorem first_path_rest (q : MessageParser) :
    ∃ X, ((if (q.parseEnvelope q.mBuffer).2.2 = npos then
            ({ (q.parseEnvelope q.mBuffer).1 with mHasHadError := true },
              (q.parseEnvelope q.mBuffer).2.1 ++
                [Event.onError (bytes "Failed to parse the envelope")])
          else if (q.parseEnvelope q.mBuffer).1.mEnvelopeParser.mIsInHeaders = false then
            ((({ (q.parseEnvelope q.mBuffer).1 with
                  mBuffer := (q.parseEnvelope q.mBuffer).1.mBuffer.drop
                    (q.parseEnvelope q.mBuffer).2.2 } : MessageParser).headersFinished.1.parseBody
                ({ (q.parseEnvelope q.mBuffer).1 with
                  mBuffer := (q.parseEnvelope q.mBuffer).1.mBuffer.drop
                    (q.parseEnvelope q.mBuffer).2.2 } : MessageParser).headersFinished.1.mBuffer).1,
              (q.parseEnvelope q.mBuffer).2.1 ++
                ({ (q.parseEnvelope q.mBuffer).1 with
                  mBuffer := (q.parseEnvelope q.mBuffer).1.mBuffer.drop
                    (q.parseEnvelope q.mBuffer).2.2 } : MessageParser).headersFinished.2 ++
                (({ (q.parseEnvelope q.mBuffer).1 with
                  mBuffer := (q.parseEnvelope q.mBuffer).1.mBuffer.drop
                    (q.parseEnvelope q.mBuffer).2.2 } : MessageParser).headersFinished.1.parseBody
                ({ (q.parseEnvelope q.mBuffer).1 with
                  mBuffer := (q.parseEnvelope q.mBuffer).1.mBuffer.drop
                    (q.parseEnvelope q.mBuffer).2.2 } : MessageParser).headersFinished.1.mBuffer).2.1)
          else
            ({ (q.parseEnvelope q.mBuffer).1 with
                  mBuffer := (q.parseEnvelope q.mBuffer).1.mBuffer.drop
                    (q.parseEnvelope q.mBuffer).2.2 },
              (q.parseEnvelope q.mBuffer).2.1)) : MessageParser × List Event) =
      ((q.continueParse q.mBuffer).1.withEnv (q.continueParse q.mBuffer).1.mEnvelopeParser X,
        (q.continueParse q.mBuffer).2) := by
  unfold continueParse
  by_cases h1 : (q.parseEnvelope q.mBuffer).2.2 = npos
  · exact ⟨(q.parseEnvelope q.mBuffer).1.mBuffer, by rw [if_pos h1, if_pos h1]; rfl⟩
  · by_cases h2 : (q.parseEnvelope q.mBuffer).1.mEnvelopeParser.mIsInHeaders = false
    · refine ⟨q.mBuffer.drop (q.parseEnvelope q.mBuffer).2.2, ?_⟩
      have hw : ({ (q.parseEnvelope q.mBuffer).1 with
          mBuffer := (q.parseEnvelope q.mBuffer).1.mBuffer.drop
            (q.parseEnvelope q.mBuffer).2.2 } : MessageParser) =
          (q.parseEnvelope q.mBuffer).1.withEnv (q.parseEnvelope q.mBuffer).1.mEnvelopeParser
            (q.mBuffer.drop (q.parseEnvelope q.mBuffer).2.2) := by
        rw [parseEnvelope_buffer]
        rfl
      have h2b : (!(q.parseEnvelope q.mBuffer).1.mEnvelopeParser.mIsInHeaders) = true := by
        rw [h2]; rfl
      rw [if_neg h1, if_pos h2, if_neg h1, if_pos h2b, hw, headersFinished_withEnv]
      simp only
      rw [parseBody_withEnv]
      simp only [withEnv]
      have hf := (parseBody_frame (q.parseEnvelope q.mBuffer).1.headersFinished.1
        (q.mBuffer.drop (q.parseEnvelope q.mBuffer).2.2)).2
      have hf2 := (headersFinished_frame (q.parseEnvelope q.mBuffer).1).2.2.1
      rw [hf, hf2]
    · refine ⟨q.mBuffer.drop (q.parseEnvelope q.mBuffer).2.2, ?_⟩
      have h2b : ¬ (!(q.parseEnvelope q.mBuffer).1.mEnvelopeParser.mIsInHeaders) = true := by
        simpa using h2
      rw [if_neg h1, if_neg h2, if_neg h1, if_neg h2b, parseEnvelope_buffer]
      rfl

theorem parse_first_some (p : MessageParser) (d : List Byte) (i : Nat) (q1 : MessageParser)
    (hs : (p.mIsFinished || p.mHasHadError) = false) (hl : p.mFirstLine = [])
    (hf : firstCRLF (p.mBuffer ++ d) = some i) (hi : i ≠ 0)
    (hq : q1 = { p with mFirstLine := (p.mBuffer ++ d).take i,
                        mBuffer := (p.mBuffer ++ d).drop (i + 2) }) :
    (p.parse d).2.1 =
      Event.onFirstLine ((p.mBuffer ++ d).take i) :: (q1.continueParse q1.mBuffer).2 ∧
    ∃ X, (p.parse d).1 =
      (q1.continueParse q1.mBuffer).1.withEnv (q1.continueParse q1.mBuffer).1.mEnvelopeParser
        X := by
  have hle := firstCRLF_some_le _ _ hf
  have hr1 : parseFirstLine { p with mBuffer := p.mBuffer ++ d } =
      (q1, [Event.onFirstLine ((p.mBuffer ++ d).take i)], i + 2) := by
    rw [hq]
    unfold parseFirstLine
    simp only [findCRLF_zero, hf]
  have hne : q1.mFirstLine.isEmpty = false := by
    rw [hq]
    cases ht : (p.mBuffer ++ d).take i with
    | nil =>
      have := congrArg List.length ht
      simp only [List.length_take, List.length_nil] at this
      omega
    | cons c r => simp only [ht]; rfl
  have herr : q1.mHasHadError = false := by
    rw [hq]
    cases h : p.mHasHadError with
    | false => rfl
    | true => rw [h] at hs; simp at hs
  rw [hl] at hr1
  obtain ⟨X, hX⟩ := first_path_rest q1
  refine ⟨?_, X, ?_⟩
  · unfold parse
    simp only [hs, hl, List.isEmpty_nil, hr1, hne, herr, Bool.false_eq_true, if_false, if_true]
    by_cases h1 : (q1.parseEnvelope q1.mBuffer).2.2 = npos
    · simp only [h1, if_true] at hX ⊢
      have := congrArg Prod.snd hX
      simp only at this
      rw [← this]
      rfl
    · simp only [h1, if_false] at hX ⊢
      have hsnd := congrArg Prod.snd hX
      simp only at hsnd
      rw [← hsnd]
      by_cases h2 : (q1.parseEnvelope q1.mBuffer).1.mEnvelopeParser.mIsInHeaders = false
      · simp only [h2, if_true, Bool.not_false]
        split <;> simp only [List.singleton_append, List.cons_append, List.append_assoc,
          List.nil_append]
      · have h2b : (q1.parseEnvelope q1.mBuffer).1.mEnvelopeParser.mIsInHeaders = true := by
          simpa using h2
        simp only [h2b, Bool.not_true, Bool.false_eq_true, if_false]
        rfl
  · unfold parse
    simp only [hs, hl, List.isEmpty_nil, hr1, hne, herr, Bool.false_eq_true, if_false, if_true]
    by_cases h1 : (q1.parseEnvelope q1.mBuffer).2.2 = npos
    · simp only [h1, if_true] at hX ⊢
      have hfst := congrArg Prod.fst hX
      simp only at hfst
      rw [← hfst]
    · simp only [h1, if_false] at hX ⊢
      have hfst := congrArg Prod.fst hX
      simp only at hfst
      rw [← hfst]
      by_cases h2 : (q1.parseEnvelope q1.mBuffer).1.mEnvelopeParser.mIsInHeaders = false
      · simp only [h2, if_true, Bool.not_false]
        split <;> rfl
      · have h2b : (q1.parseEnvelope q1.mBuffer).1.mEnvelopeParser.mIsInHeaders = true := by
          simpa using h2
        simp only [h2b, Bool.not_true, Bool.false_eq_true, if_false]
        rfl

end MessageParser

end Http

namespace Http

namespace MessageParser

/-! ## The message parser on a slice in two pieces -/

theorem ok0_of_ok (te : TransferEncodingParser) (d : List Byte) (h : te.Ok d) : te.Ok0 d := by
  cases te with
  | chunked c => exact h
  | identity i => trivial

theorem not_stopped {p : MessageParser} (hs : (p.mIsFinished || p.mHasHadError) = false) :
    p.mIsFinished = false ∧ p.mHasHadError = false := by
  cases h1 : p.mIsFinished <;> cases h2 : p.mHasHadError <;> simp [h1, h2] at hs ⊢

/-- Splitting a slice in two does not change what the message parser reports, up
to the cut of the body data, when the run on the whole slice reports no error;
and the state after the first piece can be run on the second. -/
theorem message_parse_append (p : MessageParser) (a b : List Byte) (hok : p.Ok (a ++ b))
    (hne : evError (p.parse (a ++ b)).2.1 = false) :
    mergeEv (p.parse (a ++ b)).2.1 =
      mergeEv ((p.parse a).2.1 ++ ((p.parse a).1.parse b).2.1) ∧
    (p.parse a).1.Ok b := by
  have hnp := npos_eq
  by_cases hs : (p.mIsFinished || p.mHasHadError) = true
  · rw [parse_halted p (a ++ b) hs, parse_halted p a hs]
    simp only
    rw [parse_halted p b hs]
    exact ⟨rfl, fun h => by rw [hs] at h; cases h⟩
  · have hs2 : (p.mIsFinished || p.mHasHadError) = false := by simpa using hs
    obtain ⟨hfin, herr⟩ := not_stopped hs2
    obtain ⟨hlen, hinv, k1, k2, k3⟩ := hok hs2
    have hb : b.length < npos := by
      simp only [List.length_append] at hlen; omega
    by_cases hl : p.mFirstLine = []
    · obtain ⟨f1, f2, f3⟩ := k1 hl
      cases hfa : firstCRLF (p.mBuffer ++ a) with
      | none =>
        rw [parse_first_none p a hs2 hl hfa]
        simp only [List.nil_append]
        have hfq : ∀ r, firstCRLF (p.mBuffer ++ (a ++ b)) = r →
            firstCRLF (({ p with mBuffer := p.mBuffer ++ a } : MessageParser).mBuffer ++ b) = r := by
          intro r hr
          show firstCRLF ((p.mBuffer ++ a) ++ b) = r
          rw [List.append_assoc]; exact hr
        constructor
        · cases hfw : firstCRLF (p.mBuffer ++ (a ++ b)) with
          | none =>
            rw [parse_first_none p (a ++ b) hs2 hl hfw,
              parse_first_none { p with mBuffer := p.mBuffer ++ a } b hs2 hl (hfq _ hfw)]
          | some i =>
            have hi : i ≠ 0 := fun h => f2 (by rw [hfw, h])
            obtain ⟨w1, _⟩ := parse_first_some p (a ++ b) i _ hs2 hl hfw hi rfl
            obtain ⟨v1, _⟩ := parse_first_some { p with mBuffer := p.mBuffer ++ a } b i
              { p with mFirstLine := (p.mBuffer ++ (a ++ b)).take i,
                       mBuffer := (p.mBuffer ++ (a ++ b)).drop (i + 2) } hs2 hl (hfq _ hfw) hi
              (by simp only [List.append_assoc])
            rw [w1, v1]
            simp only [List.append_assoc]
        · intro _
          refine ⟨hb, hinv, fun _ => ⟨hfa, ?_, ?_⟩, fun h => absurd hl h, fun h => absurd hl h⟩
          · show firstCRLF ((p.mBuffer ++ a) ++ b) ≠ some 0
            rw [List.append_assoc]; exact f2
          · show (p.mBuffer ++ a).length + p.mEnvelopeParser.mIncomingData.length + b.length <
              npos
            simp only [List.length_append] at f3 ⊢
            omega
      | some i =>
        have hfw : firstCRLF (p.mBuffer ++ (a ++ b)) = some i := by
          rw [← List.append_assoc]
          exact firstCRLF_append_some _ _ _ hfa
        have hi : i ≠ 0 := fun h => f2 (by rw [hfw, h])
        have hle := firstCRLF_some_le _ _ hfa
        have htake : (p.mBuffer ++ (a ++ b)).take i = (p.mBuffer ++ a).take i := by
          rw [← List.append_assoc]
          exact List.take_append_of_le_length (by omega)
        have hdrop : (p.mBuffer ++ (a ++ b)).drop (i + 2) = (p.mBuffer ++ a).drop (i + 2) ++ b := by
          rw [← List.append_assoc]
          exact List.drop_append_of_le_length hle
        have hL : (p.mBuffer ++ a).take i ≠ [] := by
          intro h
          have := congrArg List.length h
          simp only [List.length_take, List.length_nil] at this
          omega
        obtain ⟨q1, hq1⟩ : ∃ q1 : MessageParser, q1 =
            { p with mFirstLine := (p.mBuffer ++ a).take i,
                     mBuffer := (p.mBuffer ++ a).drop (i + 2) } := ⟨_, rfl⟩
        have qbuf : q1.mBuffer = (p.mBuffer ++ a).drop (i + 2) := by rw [hq1]
        have qfl : q1.mFirstLine = (p.mBuffer ++ a).take i := by rw [hq1]
        have qenv : q1.mEnvelopeParser = p.mEnvelopeParser := by rw [hq1]
        have qfin : q1.mIsFinished = false := by rw [hq1]; exact hfin
        have qerr : q1.mHasHadError = false := by rw [hq1]; exact herr
        obtain ⟨v1, X, v2⟩ := parse_first_some p a i q1 hs2 hl hfa hi hq1
        obtain ⟨w1, _⟩ := parse_first_some p (a ++ b) i
          (q1.withEnv q1.mEnvelopeParser (q1.mBuffer ++ b)) hs2 hl hfw hi
          (by rw [htake, hdrop, hq1]; rfl)
        have hb2 : (q1.withEnv q1.mEnvelopeParser (q1.mBuffer ++ b)).mBuffer = q1.mBuffer ++ b :=
          rfl
        rw [hb2, continueParse_withEnv, htake] at w1
        simp only at w1
        have hne2 : evError (q1.continueParse (q1.mBuffer ++ b)).2 = false := by
          rw [w1] at hne
          exact hne
        have hbound : q1.mEnvelopeParser.mIncomingData.length + q1.mBuffer.length + b.length <
            npos := by
          rw [qenv, qbuf]
          simp only [List.length_append, List.length_drop] at f3 ⊢
          omega
        obtain ⟨m1, m2⟩ := continueParse_append q1 q1.mBuffer b (by rw [qenv]; exact hinv)
          hbound qfin qerr (by rw [qfl]; exact hL) hne2
        have hTfl : (q1.continueParse q1.mBuffer).1.mFirstLine ≠ [] := by
          rw [continueParse_firstLine, qfl]
          exact hL
        obtain ⟨s1, s2⟩ := parse_withEnv _ X b hTfl
        rw [w1, v1, v2]
        refine ⟨?_, ok_withEnv _ X b hTfl m2⟩
        rw [s1, List.cons_append]
        exact mergeEv_cons_congr _ m1
    · by_cases hin : p.mEnvelopeParser.mIsInHeaders = true
      · have h1 := parse_headers_path p (a ++ b) hs2 hl hin
        have h2 := parse_headers_path p a hs2 hl hin
        have hne2 : evError (p.continueParse (a ++ b)).2 = false := by
          rw [← h1]; exact hne
        have hbound := k2 hl hin
        obtain ⟨m1, m2⟩ := continueParse_append p a b hinv
          (by simp only [List.length_append] at hbound; omega) hfin herr hl hne2
        rw [← h1, ← h2] at m1
        rw [← h2] at m2
        exact ⟨m1, m2⟩
      · have hout : p.mEnvelopeParser.mIsInHeaders = false := by simpa using hin
        obtain ⟨te, hte, htok⟩ := k3 hl hout
        rw [parse_body_path p (a ++ b) hs2 hl hout, parse_body_path p a hs2 hl hout]
        exact parseBody_append p te a b hte (ok0_of_ok te _ htok) hlen hfin herr hl hout

end MessageParser

end Http

namespace Http

namespace MessageParser

/-! ## Feeding a list of slices to the message parser -/

theorem feed_merge : ∀ (rest : List (List Byte)) (s : List Byte) (p : MessageParser),
    p.Ok (s ++ rest.flatten) → evError (p.parse (s ++ rest.flatten)).2.1 = false →
    mergeEv (p.feed (s :: rest)).2.1 = mergeEv (p.parse (s ++ rest.flatten)).2.1
  | [], s, p, _, _ => by simp [feed]
  | t :: rest, s, p, hok, hne => by
    have hfl : (t :: rest).flatten = t ++ rest.flatten := rfl
    rw [hfl] at hok hne ⊢
    obtain ⟨m1, m2⟩ := message_parse_append p s (t ++ rest.flatten) hok hne
    have hne2 : evError ((p.parse s).1.parse (t ++ rest.flatten)).2.1 = false := by
      have h := congrArg evError m1
      rw [evError_mergeEv, evError_mergeEv, hne, evError_append] at h
      cases h2 : evError ((p.parse s).1.parse (t ++ rest.flatten)).2.1 with
      | false => rfl
      | true => rw [h2, Bool.or_true] at h; cases h
    have ih := feed_merge rest t (p.parse s).1 m2 hne2
    show mergeEv ((p.parse s).2.1 ++ ((p.parse s).1.feed (t :: rest)).2.1) = _
    rw [m1]
    exact mergeEv_append_congr _ ih

/-- Feeding the slices of a partition of `M` gives, up to the cut of the body
data, the callbacks of the one call on `M`, when that call reports no error. -/
theorem feed_slices (slices : List (List Byte)) (M : List Byte) (p : MessageParser)
    (hsl : slices.flatten = M) (hM : M ≠ []) (hok : p.Ok M)
    (hne : evError (p.parse M).2.1 = false) :
    mergeEv (p.feed slices).2.1 = mergeEv (p.parse M).2.1 := by
  cases slices with
  | nil => exact absurd hsl.symm hM
  | cons s rest =>
    have hfl : (s :: rest).flatten = s ++ rest.flatten := rfl
    rw [hfl] at hsl
    subst hsl
    exact feed_merge rest s p hok hne

theorem new_ok (M : List Byte) (hlen : M.length < npos) (hf : firstCRLF M ≠ some 0) :
    MessageParser.new.Ok M := by
  intro _
  refine ⟨hlen, EnvelopeParser.new_inv, fun _ => ⟨rfl, ?_, ?_⟩, fun h => absurd rfl h,
    fun h => absurd rfl h⟩
  · simpa [MessageParser.new] using hf
  · simpa [MessageParser.new, EnvelopeParser.new] using hlen

/-! ## The merged callbacks of a whole message -/

theorem mergeEv_headers (hs : List Header) (X : List Event) :
    mergeEv (hs.map Header.event ++ X) = hs.map Header.event ++ mergeEv X := by
  induction hs with
  | nil => rfl
  | cons h hs ih =>
    show mergeEv (h.event :: (hs.map Header.event ++ X)) =
      h.event :: (hs.map Header.event ++ mergeEv X)
    simp only [mergeEv, ih]
    cases hm : hs.map Header.event ++ mergeEv X <;> rfl

theorem mergeEv_message (L : List Byte) (hs : List Header) (X : List TEEvent) :
    mergeEv (Event.onFirstLine L :: (hs.map Header.event ++
      Event.onHeadersFinished :: X.map liftTE)) =
    Event.onFirstLine L :: (hs.map Header.event ++
      Event.onHeadersFinished :: (mergeTE X).map liftTE) := by
  have h1 : mergeEv (Event.onHeadersFinished :: X.map liftTE) =
      Event.onHeadersFinished :: (mergeTE X).map liftTE := by
    simp only [mergeEv, mergeEv_liftTE]
    cases (mergeTE X).map liftTE <;> rfl
  simp only [mergeEv]
  rw [mergeEv_headers, h1]
  cases hm : hs.map Header.event ++ Event.onHeadersFinished :: (mergeTE X).map liftTE <;> rfl

theorem mergeEv_expected (L : List Byte) (hs : List Header) (B : List Byte) :
    mergeEv (expectedEvents L hs B) = expectedEvents L hs B := by
  have e : expectedEvents L hs B = Event.onFirstLine L :: (hs.map Header.event ++
      Event.onHeadersFinished ::
        ((if B = [] then [] else [TEEvent.onBodyData B]) ++ [TEEvent.onBodyFinished]).map
          liftTE) := by
    unfold expectedEvents
    by_cases hB : B = []
    · simp [hB, liftTE]
    · simp [hB, liftTE]
  rw [e, mergeEv_message]
  by_cases hB : B = []
  · simp [hB, mergeTE, pushTE]
  · simp [hB, mergeTE, pushTE]

theorem chunksBody_eq_nil (cs : List Chunk) (hcs : ∀ c ∈ cs, c.Wf) :
    chunksBody cs = [] ↔ cs = [] := by
  constructor
  · intro h
    cases cs with
    | nil => rfl
    | cons c r =>
      exfalso
      have hc := (hcs c (by simp)).1
      simp only [chunksBody, List.map_cons, List.flatten_cons, List.append_eq_nil] at h
      exact hc h.1
  · intro h
    rw [h]
    rfl

theorem mergeEv_chunked (L : List Byte) (hs : List Header) (cs : List Chunk)
    (hcs : ∀ c ∈ cs, c.Wf) :
    mergeEv (Event.onFirstLine L :: (hs.map Header.event ++ Event.onHeadersFinished ::
      (cs.map (fun c => Event.onBodyData c.data) ++ [Event.onBodyFinished]))) =
    expectedEvents L hs (chunksBody cs) := by
  have e : cs.map (fun c => Event.onBodyData c.data) ++ [Event.onBodyFinished] =
      ((cs.map Chunk.data).map TEEvent.onBodyData ++ [TEEvent.onBodyFinished]).map liftTE := by
    simp [liftTE, List.map_map, Function.comp_def]
  rw [e, mergeEv_message]
  unfold expectedEvents
  by_cases hc : cs = []
  · subst hc
    simp [mergeTE, pushTE, chunksBody, liftTE]
  · have hd : cs.map Chunk.data ≠ [] := by simpa using hc
    have hb : chunksBody cs ≠ [] := fun h => hc ((chunksBody_eq_nil cs hcs).mp h)
    rw [ChunkedTEParser.mergeTE_bodies _ hd, if_neg hb]
    simp [liftTE, chunksBody]

/-- A fresh message parser fed a well-formed message, with an identity body of
the declared length or a chunked body, in the slices of any partition: up to
the cut of the body data, the callbacks are those of the one call on the
message, which are the callbacks expected for it. -/
theorem feed_message (L : List Byte) (hs : List Header) (wire B : List Byte)
    (slices : List (List Byte)) (hL1 : L ≠ []) (hL2 : firstCRLF L = none)
    (hwf : ∀ h ∈ hs, h.Wf)
    (hfr : (IdentityFraming hs B ∧ wire = B) ∨
      ∃ (cs : List Chunk) (trailers : List Header),
        ChunkedFraming hs ∧ (∀ c ∈ cs, c.Wf) ∧ (∀ h ∈ trailers, h.Wf) ∧
        wire = encodeChunked cs trailers ∧ B = chunksBody cs)
    (hlen : (encodeMessage L hs wire).length < npos)
    (hsl : slices.flatten = encodeMessage L hs wire) :
    mergeEv (MessageParser.new.feed slices).2.1 =
        mergeEv (MessageParser.new.parse (encodeMessage L hs wire)).2.1 ∧
      mergeEv (MessageParser.new.feed slices).2.1 = expectedEvents L hs B := by
  have hM : encodeMessage L hs wire ≠ [] := by
    intro h
    have := congrArg List.length h
    simp only [encodeMessage, List.length_append, List.length_nil] at this
    have := List.length_pos.mpr hL1
    omega
  have hfc : firstCRLF (encodeMessage L hs wire) ≠ some 0 := by
    have e : encodeMessage L hs wire = L ++ 13 :: 10 :: (encodeBlock hs ++ wire) := by
      simp [encodeMessage, crlf]
    rw [e, firstCRLF_line L _ hL2]
    intro h
    have := List.length_pos.mpr hL1
    simp only [Option.some.injEq] at h
    omega
  have hone : mergeEv (MessageParser.new.parse (encodeMessage L hs wire)).2.1 =
      expectedEvents L hs B := by
    rcases hfr with ⟨hid, hw⟩ | ⟨cs, trailers, hch, hcs, htr, hw, hB⟩
    · subst hw
      have h := (parse_identity_message L hs wire [] hL1 hL2 hwf hid
        (by simpa using hlen)).1
      rw [List.append_nil] at h
      rw [congrArg Prod.fst h]
      exact mergeEv_expected L hs wire
    · subst hw hB
      have h := (parse_chunked_message L hs cs trailers [] hL1 hL2 hwf hch hcs htr
        (by simpa using hlen)).1
      rw [List.append_nil] at h
      rw [congrArg Prod.fst h]
      exact mergeEv_chunked L hs cs hcs
  have hne : evError (MessageParser.new.parse (encodeMessage L hs wire)).2.1 = false := by
    rw [← evError_mergeEv, hone]
    unfold expectedEvents
    have hh : ∀ l : List Header, ∀ X, evError (l.map Header.event ++ X) = evError X := by
      intro l X
      induction l with
      | nil => rfl
      | cons h l ih => simpa [evError, Header.event] using ih
    simp only [evError, hh]
    by_cases hB : B = []
    · simp [hB, evError]
    · simp [hB, evError]
  have hfeed := feed_slices slices _ MessageParser.new hsl hM (new_ok _ hlen hfc) hne
  exact ⟨hfeed, hfeed.trans hone⟩

end MessageParser

end Http

namespace Http

/-! ## URL decoding -/

namespace Utils

/-- Shifting left and or-ing a number below the shift is multiplying and adding. -/
theorem shl_or (a b k : Nat) (hb : b < 2 ^ k) : a <<< k ||| b = a * 2 ^ k + b := by
  rw [Nat.shiftLeft_eq, Nat.mul_comm, Nat.mul_add_lt_is_or hb a]

theorem hexToDec_digit (h : Byte) (hh : isHexDigit h) :
    hexToDec h = hexDigitValue h ∧ hexDigitValue h < 16 := by
  unfold isHexDigit at hh
  simp only [Byte] at *
  rcases hh with ⟨h1, h2⟩ | ⟨h1, h2⟩ | ⟨h1, h2⟩ <;> interval_cases h <;>
    simp [hexToDec, hexDigitValue]

theorem hexToDec_ne (h : Byte) (hh : isHexDigit h) : ¬ hexToDec h = 255 := by
  have := hexToDec_digit h hh
  omega

theorem not_u_of_hex (h : Byte) (hh : isHexDigit h) : ¬ (h = 117 ∨ h = 85) := by
  unfold isHexDigit at hh
  simp only [Byte] at *
  omega

theorem urlDecodeLoop_plus (r res : List Byte) :
    urlDecodeLoop (43 :: r) res = urlDecodeLoop r (res ++ [32]) := by
  rw [urlDecodeLoop.eq_def]
  simp

theorem urlDecodeLoop_literal (c : Byte) (r res : List Byte) (h1 : c ≠ 43) (h2 : c ≠ 37) :
    urlDecodeLoop (c :: r) res = urlDecodeLoop r (res ++ [c]) := by
  rw [urlDecodeLoop.eq_def]
  simp [h1, h2]

theorem urlDecodeLoop_escape (h1 h2 : Byte) (r res : List Byte) (hh1 : isHexDigit h1)
    (hh2 : isHexDigit h2) :
    urlDecodeLoop (37 :: h1 :: h2 :: r) res =
      urlDecodeLoop r (res ++ [hexDigitValue h1 * 16 + hexDigitValue h2]) := by
  have d1 := hexToDec_digit h1 hh1
  have d2 := hexToDec_digit h2 hh2
  have e : (hexToDec h1 <<< 4 ||| hexToDec h2) % 256 =
      hexDigitValue h1 * 16 + hexDigitValue h2 := by
    rw [d1.1, d2.1, shl_or _ _ 4 d2.2]
    omega
  rw [urlDecodeLoop.eq_def]
  simp only [if_neg (not_u_of_hex h1 hh1), e]
  simp [hexToDec_ne h1 hh1, hexToDec_ne h2 hh2]

/-- The code point the four hex digits of an escape denote. -/
theorem codePoint_eq (h1 h2 h3 h4 : Byte) (hh1 : isHexDigit h1) (hh2 : isHexDigit h2)
    (hh3 : isHexDigit h3) (hh4 : isHexDigit h4) :
    (hexToDec h1 <<< 12) ||| (hexToDec h2 <<< 8) ||| (hexToDec h3 <<< 4) ||| hexToDec h4 =
      hexValue [h1, h2, h3, h4] := by
  have d1 := hexToDec_digit h1 hh1
  have d2 := hexToDec_digit h2 hh2
  have d3 := hexToDec_digit h3 hh3
  have d4 := hexToDec_digit h4 hh4
  rw [d1.1, d2.1, d3.1, d4.1]
  simp only [Nat.or_assoc]
  rw [shl_or _ _ 4 d4.2, shl_or _ _ 8 (by omega), shl_or _ _ 12 (by omega)]
  simp [hexValue, hexValueFrom]
  omega

theorem urlDecodeLoop_unicode (u h1 h2 h3 h4 : Byte) (r res : List Byte)
    (hu : u = 117 ∨ u = 85) (hh1 : isHexDigit h1) (hh2 : isHexDigit h2)
    (hh3 : isHexDigit h3) (hh4 : isHexDigit h4) :
    urlDecodeLoop (37 :: u :: 48 :: h1 :: h2 :: h3 :: h4 :: r) res =
      urlDecodeLoop r (res ++ UnicodeCharToUtf8 (hexValue [h1, h2, h3, h4])) := by
  rw [urlDecodeLoop.eq_def]
  simp only [if_pos hu, codePoint_eq h1 h2 h3 h4 hh1 hh2 hh3 hh4]
  simp [hexToDec_ne h1 hh1, hexToDec_ne h2 hh2, hexToDec_ne h3 hh3, hexToDec_ne h4 hh4]

theorem urlDecodeLoop_unicode_short (u : Byte) (r res : List Byte)
    (hu : u = 117 ∨ u = 85) (hr : r.length < 5) :
    urlDecodeLoop (37 :: u :: r) res = (false, []) := by
  rw [urlDecodeLoop.eq_def]
  simp only [if_pos hu]
  match r, hr with
  | [], _ => simp
  | [_], _ => simp
  | [_, _], _ => simp
  | [_, _, _], _ => simp
  | [_, _, _, _], _ => simp
  | _ :: _ :: _ :: _ :: _ :: _, h => simp at h; omega

/-- The loop on an encoded text followed by `rest`. -/
theorem urlDecodeLoop_tokens : ∀ (ts : List UrlToken) (rest res : List Byte),
    (∀ t ∈ ts, t.Wf) →
    urlDecodeLoop (urlEncode ts ++ rest) res = urlDecodeLoop rest (res ++ urlDecoded ts)
  | [], rest, res, _ => by simp [urlEncode, urlDecoded]
  | t :: ts, rest, res, h => by
    have ih := fun res => urlDecodeLoop_tokens ts rest res (fun t ht => h t (by simp [ht]))
    have ht := h t (by simp)
    cases t with
    | literal c =>
      have e : urlEncode (UrlToken.literal c :: ts) ++ rest = c :: (urlEncode ts ++ rest) := by
        simp [urlEncode, UrlToken.encode]
      rw [e, urlDecodeLoop_literal c _ _ ht.1 ht.2, ih]
      simp [urlDecoded, UrlToken.byte]
    | plus =>
      have e : urlEncode (UrlToken.plus :: ts) ++ rest = 43 :: (urlEncode ts ++ rest) := by
        simp [urlEncode, UrlToken.encode]
      rw [e, urlDecodeLoop_plus, ih]
      simp [urlDecoded, UrlToken.byte]
    | escape h1 h2 =>
      have e : urlEncode (UrlToken.escape h1 h2 :: ts) ++ rest =
          37 :: h1 :: h2 :: (urlEncode ts ++ rest) := by
        simp [urlEncode, UrlToken.encode]
      rw [e, urlDecodeLoop_escape h1 h2 _ _ ht.1 ht.2, ih]
      simp [urlDecoded, UrlToken.byte]

theorem urlDecode_tokens (ts : List UrlToken) (h : ∀ t ∈ ts, t.Wf) :
    urlDecode (urlEncode ts) = (true, urlDecoded ts) := by
  have := urlDecodeLoop_tokens ts [] [] h
  simp only [List.append_nil, List.nil_append] at this
  unfold urlDecode
  rw [this]
  rfl

end Utils

end Http

namespace Http

namespace Utils

/-- Or-ing a number below `2 ^ i` to a multiple of `2 ^ i` is adding it. -/
theorem or_low (i a b : Nat) (hb : b < 2 ^ i) : 2 ^ i * a ||| b = 2 ^ i * a + b :=
  (Nat.mul_add_lt_is_or hb a).symm

theorem and_63 (x : Nat) : x &&& 63 = x % 64 := Nat.and_pow_two_sub_one_eq_mod x 6

theorem cont_byte (x : Nat) : 128 ||| (x &&& 63) = 128 + x % 64 := by
  rw [and_63]
  have := or_low 7 1 (x % 64) (by have := Nat.mod_lt x (show 0 < 64 by decide); omega)
  simpa using this

/-- On a code point below 0x110000 `UnicodeCharToUtf8` gives nothing for a
surrogate and the UTF-8 encoding for any other code point. -/
theorem UnicodeCharToUtf8_eq (cp : Nat) (h : cp < 0x110000) :
    UnicodeCharToUtf8 cp = if 0xD800 ≤ cp ∧ cp < 0xE000 then [] else utf8 cp := by
  unfold UnicodeCharToUtf8 utf8
  by_cases h1 : cp < 0x80
  · have : ¬ (0xD800 ≤ cp ∧ cp < 0xE000) := by omega
    rw [if_pos h1, if_neg this, if_pos h1, Nat.mod_eq_of_lt (by omega)]
  rw [if_neg h1]
  by_cases h2 : cp < 0x800
  · have : ¬ (0xD800 ≤ cp ∧ cp < 0xE000) := by omega
    rw [if_pos h2, if_neg this, if_neg h1, if_pos h2, cont_byte, Nat.shiftRight_eq_div_pow]
    have e := or_low 6 3 (cp / 2 ^ 6) (by omega)
    simp only [Nat.reducePow, Nat.reduceMul] at e
    simp only [Nat.reducePow]
    rw [e]
    congr 1
    · exact Nat.mod_eq_of_lt (by omega)
    · congr 1
      exact Nat.mod_eq_of_lt (by omega)
  rw [if_neg h2]
  by_cases h3 : 0xD800 ≤ cp ∧ cp < 0xE000
  · rw [if_pos h3, if_pos (by omega)]
  rw [if_neg h3, if_neg (by omega), if_neg h1, if_neg h2]
  by_cases h4 : cp < 0x10000
  · rw [if_pos h4, if_pos h4, cont_byte, cont_byte, Nat.shiftRight_eq_div_pow,
      Nat.shiftRight_eq_div_pow]
    have e := or_low 5 7 (cp / 2 ^ 12) (by omega)
    simp only [Nat.reducePow, Nat.reduceMul] at e
    simp only [Nat.reducePow]
    rw [e]
    congr 1
    · exact Nat.mod_eq_of_lt (by omega)
    · congr 1
      · exact Nat.mod_eq_of_lt (by omega)
      · congr 1
        exact Nat.mod_eq_of_lt (by omega)
  · rw [if_neg h4, if_neg h4, if_pos h, cont_byte, cont_byte, cont_byte,
      Nat.shiftRight_eq_div_pow, Nat.shiftRight_eq_div_pow, Nat.shiftRight_eq_div_pow]
    have e := or_low 4 15 (cp / 2 ^ 18) (by omega)
    simp only [Nat.reducePow, Nat.reduceMul] at e
    simp only [Nat.reducePow]
    rw [e]
    congr 1
    · exact Nat.mod_eq_of_lt (by omega)
    · congr 1
      · exact Nat.mod_eq_of_lt (by omega)
      · congr 1
        · exact Nat.mod_eq_of_lt (by omega)
        · congr 1
          exact Nat.mod_eq_of_lt (by omega)

theorem hexValue_four (h1 h2 h3 h4 : Byte) (hh1 : isHexDigit h1) (hh2 : isHexDigit h2)
    (hh3 : isHexDigit h3) (hh4 : isHexDigit h4) : hexValue [h1, h2, h3, h4] < 0x10000 := by
  have d1 := hexToDec_digit h1 hh1
  have d2 := hexToDec_digit h2 hh2
  have d3 := hexToDec_digit h3 hh3
  have d4 := hexToDec_digit h4 hh4
  simp [hexValue, hexValueFrom]
  omega

/-- The escape `%u0XXXX` between two encoded texts. -/
theorem urlDecode_unicode (pre post : List UrlToken) (u h1 h2 h3 h4 : Byte)
    (hpre : ∀ t ∈ pre, t.Wf) (hpost : ∀ t ∈ post, t.Wf) (hu : u = 117 ∨ u = 85)
    (hh1 : isHexDigit h1) (hh2 : isHexDigit h2) (hh3 : isHexDigit h3) (hh4 : isHexDigit h4) :
    urlDecode (urlEncode pre ++ [37, u, 48, h1, h2, h3, h4] ++ urlEncode post) =
      (true, urlDecoded pre ++
        (if 0xD800 ≤ hexValue [h1, h2, h3, h4] ∧ hexValue [h1, h2, h3, h4] < 0xE000 then []
          else utf8 (hexValue [h1, h2, h3, h4])) ++ urlDecoded post) := by
  unfold urlDecode
  have e : urlEncode pre ++ [37, u, 48, h1, h2, h3, h4] ++ urlEncode post =
      urlEncode pre ++ (37 :: u :: 48 :: h1 :: h2 :: h3 :: h4 :: (urlEncode post ++ [])) := by
    simp
  rw [e, urlDecodeLoop_tokens pre _ _ hpre, urlDecodeLoop_unicode u h1 h2 h3 h4 _ _ hu hh1 hh2
    hh3 hh4, urlDecodeLoop_tokens post _ _ hpost,
    UnicodeCharToUtf8_eq _ (by have := hexValue_four h1 h2 h3 h4 hh1 hh2 hh3 hh4; omega)]
  simp [urlDecodeLoop]

/-- The escape `%uXXXX` of six chars at the end of a text. -/
theorem urlDecode_unicode_end (pre : List UrlToken) (u : Byte) (r : List Byte)
    (hpre : ∀ t ∈ pre, t.Wf) (hu : u = 117 ∨ u = 85) (hr : r.length < 5) :
    urlDecode (urlEncode pre ++ 37 :: u :: r) = (false, []) := by
  unfold urlDecode
  rw [urlDecodeLoop_tokens pre _ _ hpre, urlDecodeLoop_unicode_short u r _ hu hr]

end Utils

end Http

namespace Http

/-! ## Base64 decoding -/

namespace Utils

theorem UnBase64_char (n : Nat) (h : n < 64) : UnBase64 (base64Char n) = (n : Int) := by
  interval_cases n <;> rfl

theorem UnBase64_other (c : Byte) (h : isBase64Char c = false) : UnBase64 c = -2 := by
  unfold isBase64Char at h
  simp only [Bool.or_eq_false_iff, Bool.and_eq_false_iff, decide_eq_false_iff_not] at h
  unfold UnBase64
  simp only [Byte] at *
  obtain ⟨⟨⟨⟨⟨h1, h2⟩, h3⟩, h4⟩, h5⟩, h6⟩ := h
  rw [if_neg (by omega), if_neg (by omega), if_neg (by omega), if_neg h4, if_neg h5, if_neg h6]

theorem loop_char (n : Nat) (h : n < 64) (rest : List Byte) (o : Nat) (res : List Byte) :
    base64DecodeLoop (base64Char n :: rest) o res =
      base64DecodeLoop rest (sizeAdd o 6) (base64Store res o n) := by
  rw [base64DecodeLoop]
  simp only [UnBase64_char n h]
  have h0 : (0 : Int) ≤ (n : Int) := Int.ofNat_nonneg n
  have h1 : ¬ ((n : Int) = -1) := by omega
  rw [if_pos h0, if_pos h0, if_neg h1]
  rfl

theorem loop_pad (rest : List Byte) (o : Nat) (res : List Byte) :
    base64DecodeLoop (61 :: rest) o res = resize res (o >>> 3) := by
  rw [base64DecodeLoop]
  rfl

theorem loop_other (c : Byte) (h : isBase64Char c = false) (rest : List Byte) (o : Nat)
    (res : List Byte) :
    base64DecodeLoop (c :: rest) o res = base64DecodeLoop rest o res := by
  rw [base64DecodeLoop]
  simp only [UnBase64_other c h]
  rfl

/-- The chars outside the Base64 text do not change the result. -/
theorem loop_filter : ∀ (T : List Byte) (o : Nat) (res : List Byte),
    base64DecodeLoop T o res = base64DecodeLoop (T.filter isBase64Char) o res
  | [], _, _ => rfl
  | c :: T, o, res => by
    cases h : isBase64Char c with
    | false =>
      rw [loop_other c h, List.filter_cons_of_neg (by simp [h])]
      exact loop_filter T o res
    | true =>
      rw [List.filter_cons_of_pos h, base64DecodeLoop, base64DecodeLoop]
      split
      · rfl
      · exact loop_filter T _ _

theorem and_7 (x : Nat) : x &&& 7 = x % 8 := Nat.and_pow_two_sub_one_eq_mod x 3

theorem shr_3 (x : Nat) : x >>> 3 = x / 8 := Nat.shiftRight_eq_div_pow x 3

theorem orAt_append (D : List Byte) (x : Byte) (t : List Byte) (v : Nat) :
    orAt (D ++ x :: t) D.length v = D ++ ((x ||| v) % 256) :: t := by
  unfold orAt
  rw [List.getD_append_right _ _ _ _ (Nat.le_refl _)]
  simp [List.set_append]

theorem orAt_append_succ (D : List Byte) (x y : Byte) (t : List Byte) (v : Nat) :
    orAt (D ++ x :: y :: t) (D.length + 1) v = D ++ x :: ((y ||| v) % 256) :: t := by
  have := orAt_append (D ++ [x]) y t v
  simpa using this

/-- The store of the first six bits of a group. -/
theorem store_0 (D t : List Byte) (s : Nat) (hs : s < 64) :
    base64Store (D ++ 0 :: t) (8 * D.length) s = D ++ (4 * s) :: t := by
  have e : (8 * D.length) &&& 7 = 0 := by rw [and_7]; omega
  have e2 : (8 * D.length) >>> 3 = D.length := by rw [shr_3]; omega
  unfold base64Store
  rw [e]
  simp only [e2, orAt_append, Nat.zero_or, Nat.shiftLeft_eq]
  congr 2
  simp only [Byte] at *
  omega

/-- The store of the second six bits of a group. -/
theorem store_1 (D t : List Byte) (q s : Nat) (hq : q < 64) (hs : s < 64) :
    base64Store (D ++ (4 * q) :: 0 :: t) (8 * D.length + 6) s =
      D ++ (4 * q + s / 16) :: (s % 16 * 16) :: t := by
  have e : (8 * D.length + 6) &&& 7 = 6 := by rw [and_7]; omega
  have e2 : (8 * D.length + 6) >>> 3 = D.length := by rw [shr_3]; omega
  have e3 : 4 * q ||| s >>> 4 = 4 * q + s / 16 := by
    rw [Nat.shiftRight_eq_div_pow]
    exact or_low 2 q (s / 2 ^ 4) (by simp only [Nat.reducePow]; omega)
  unfold base64Store
  rw [e]
  simp only [e2, orAt_append, orAt_append_succ, Nat.zero_or, Nat.shiftLeft_eq, e3]
  congr 2
  · simp only [Byte] at *
    omega
  · congr 1
    simp only [Byte] at *
    omega

/-- The store of the third six bits of a group. -/
theorem store_2 (D t : List Byte) (q s : Nat) (hq : q < 16) (hs : s < 64) :
    base64Store (D ++ (16 * q) :: 0 :: t) (8 * D.length + 4) s =
      D ++ (16 * q + s / 4) :: (s % 4 * 64) :: t := by
  have e : (8 * D.length + 4) &&& 7 = 4 := by rw [and_7]; omega
  have e2 : (8 * D.length + 4) >>> 3 = D.length := by rw [shr_3]; omega
  have e3 : 16 * q ||| s >>> 2 = 16 * q + s / 4 := by
    rw [Nat.shiftRight_eq_div_pow]
    exact or_low 4 q (s / 2 ^ 2) (by simp only [Nat.reducePow]; omega)
  unfold base64Store
  rw [e]
  simp only [e2, orAt_append, orAt_append_succ, Nat.zero_or, Nat.shiftLeft_eq, e3]
  congr 2
  · simp only [Byte] at *
    omega
  · congr 1
    simp only [Byte] at *
    omega

/-- The store of the last six bits of a group. -/
theorem store_3 (D t : List Byte) (q s : Nat) (hq : q < 4) (hs : s < 64) :
    base64Store (D ++ (64 * q) :: t) (8 * D.length + 2) s = D ++ (64 * q + s) :: t := by
  have e : (8 * D.length + 2) &&& 7 = 2 := by rw [and_7]; omega
  have e2 : (8 * D.length + 2) >>> 3 = D.length := by rw [shr_3]; omega
  have e3 : 64 * q ||| s = 64 * q + s := or_low 6 q s (by simp only [Nat.reducePow]; omega)
  unfold base64Store
  rw [e]
  simp only [e2, orAt_append, e3]
  congr 2
  simp only [Byte] at *
  omega

end Utils

end Http

namespace Http

namespace Utils

theorem sizeAdd_small (a b : Nat) (h : a + b < 2 ^ 64) : sizeAdd a b = a + b := by
  unfold sizeAdd
  exact Nat.mod_eq_of_lt h

/-- The first two chars of a group give the first byte. -/
theorem loop_two (a x : Nat) (ha : a < 256) (hx : x < 16) (D z rest : List Byte)
    (ho : 8 * D.length + 12 < 2 ^ 64) :
    base64DecodeLoop (base64Char (a / 4) :: base64Char (a % 4 * 16 + x) :: rest) (8 * D.length)
        (D ++ 0 :: 0 :: z) =
      base64DecodeLoop rest (8 * D.length + 12) (D ++ a :: (16 * x) :: z) := by
  rw [loop_char _ (by omega), store_0 D _ _ (by omega), sizeAdd_small _ _ (by omega),
    loop_char _ (by omega), store_1 D z (a / 4) _ (by omega) (by omega),
    sizeAdd_small _ _ (by omega)]
  have e1 : 4 * (a / 4) + (a % 4 * 16 + x) / 16 = a := by omega
  have e2 : (a % 4 * 16 + x) % 16 * 16 = 16 * x := by omega
  rw [e1, e2]

/-- The third char of a group gives the second byte. -/
theorem loop_third (a b y : Nat) (hb : b < 256) (hy : y < 4) (D z rest : List Byte)
    (ho : 8 * D.length + 18 < 2 ^ 64) :
    base64DecodeLoop (base64Char (b % 16 * 4 + y) :: rest) (8 * D.length + 12)
        (D ++ a :: (16 * (b / 16)) :: 0 :: z) =
      base64DecodeLoop rest (8 * D.length + 18) (D ++ a :: b :: (64 * y) :: z) := by
  have s := store_2 (D ++ [a]) z (b / 16) (b % 16 * 4 + y) (by omega) (by omega)
  simp only [List.length_append, List.length_singleton, List.append_assoc,
    List.singleton_append] at s
  have eo : 8 * D.length + 12 = 8 * (D.length + 1) + 4 := by omega
  rw [loop_char _ (by omega), sizeAdd_small _ _ (by omega), eo, s]
  have e1 : 16 * (b / 16) + (b % 16 * 4 + y) / 4 = b := by omega
  have e2 : (b % 16 * 4 + y) % 4 * 64 = 64 * y := by omega
  have e3 : 8 * (D.length + 1) + 4 + 6 = 8 * D.length + 18 := by omega
  rw [e1, e2, e3]

/-- The fourth char of a group gives the third byte. -/
theorem loop_fourth (a b c : Nat) (hc : c < 256) (D z rest : List Byte)
    (ho : 8 * D.length + 24 < 2 ^ 64) :
    base64DecodeLoop (base64Char (c % 64) :: rest) (8 * D.length + 18)
        (D ++ a :: b :: (64 * (c / 64)) :: z) =
      base64DecodeLoop rest (8 * D.length + 24) (D ++ a :: b :: c :: z) := by
  have s := store_3 (D ++ [a, b]) z (c / 64) (c % 64) (by omega) (by omega)
  simp only [List.length_append, List.length_cons, List.length_singleton, List.length_nil,
    List.append_assoc, List.cons_append, List.nil_append] at s
  have eo : 8 * D.length + 18 = 8 * (D.length + (0 + 1 + 1)) + 2 := by omega
  rw [loop_char _ (by omega), sizeAdd_small _ _ (by omega), eo, s]
  have e1 : 64 * (c / 64) + c % 64 = c := by omega
  have e3 : 8 * (D.length + (0 + 1 + 1)) + 2 + 6 = 8 * D.length + 24 := by omega
  rw [e1, e3]

theorem resize_take (D t : List Byte) (n : Nat) (h : n ≤ t.length) :
    resize (D ++ t) (D.length + n) = D ++ t.take n := by
  unfold resize
  rw [List.take_append]
  simp
  omega

theorem replicate_succ_zero (m : Nat) : List.replicate (m + 1) (0 : Byte) =
    0 :: List.replicate m 0 := rfl

/-- The loop on the encoding of `B`, from a byte boundary and a result that is
zero from there on. -/
theorem loop_encode : ∀ (B D : List Byte) (m : Nat),
    (∀ x ∈ B, x < 256) → 8 * (D.length + B.length) + 24 < 2 ^ 64 →
    base64DecodeLoop (base64Encode B) (8 * D.length)
      (D ++ List.replicate (B.length + 3 + m) 0) = D ++ B
  | [], D, m, _, _ => by
    rw [base64Encode, base64DecodeLoop, shr_3]
    have := resize_take D (List.replicate (3 + m) 0) 0 (by simp)
    simpa using this
  | [a], D, m, hB, ho => by
    have ha : @LT.lt Nat _ a 256 := hB a (by simp)
    simp only [List.length_singleton] at ho
    have e : List.replicate ([a].length + 3 + m) (0 : Byte) =
        0 :: 0 :: List.replicate (2 + m) 0 := by
      simp only [List.length_singleton, show 1 + 3 + m = (2 + m) + 1 + 1 by omega,
        replicate_succ_zero]
    have l := loop_two a 0 ha (by omega) D (List.replicate (2 + m) 0) [61, 61] (by omega)
    simp only [Nat.add_zero] at l
    rw [base64Encode, e, l, loop_pad, shr_3]
    have r := resize_take D (a :: (16 * 0) :: List.replicate (2 + m) 0) 1 (by simp)
    have eo : (8 * D.length + 12) / 8 = D.length + 1 := by omega
    rw [eo, r]
    rfl
  | [a, b], D, m, hB, ho => by
    have ha : @LT.lt Nat _ a 256 := hB a (by simp)
    have hb : @LT.lt Nat _ b 256 := hB b (by simp)
    simp only [List.length_cons, List.length_singleton, List.length_nil] at ho
    have e : List.replicate ([a, b].length + 3 + m) (0 : Byte) =
        0 :: 0 :: 0 :: List.replicate (2 + m) 0 := by
      simp only [List.length_cons, List.length_singleton, List.length_nil,
        show 0 + 1 + 1 + 3 + m = (2 + m) + 1 + 1 + 1 by omega, replicate_succ_zero]
    have l := loop_two a (b / 16) ha (by omega) D (0 :: List.replicate (2 + m) 0)
      [base64Char (b % 16 * 4), 61] (by omega)
    have l3 := loop_third a b 0 hb (by omega) D (List.replicate (2 + m) 0) [61] (by omega)
    simp only [Nat.add_zero] at l3
    rw [base64Encode, e, l, l3, loop_pad, shr_3]
    have r := resize_take D (a :: b :: (64 * 0) :: List.replicate (2 + m) 0) 2 (by simp)
    have eo : (8 * D.length + 18) / 8 = D.length + 2 := by omega
    rw [eo, r]
    rfl
  | a :: b :: c :: rest, D, m, hB, ho => by
    have ha : @LT.lt Nat _ a 256 := hB a (by simp)
    have hb : @LT.lt Nat _ b 256 := hB b (by simp)
    have hc : @LT.lt Nat _ c 256 := hB c (by simp)
    simp only [List.length_cons] at ho
    have e : List.replicate ((a :: b :: c :: rest).length + 3 + m) (0 : Byte) =
        0 :: 0 :: 0 :: List.replicate (rest.length + 3 + m) 0 := by
      simp only [List.length_cons,
        show rest.length + 1 + 1 + 1 + 3 + m = (rest.length + 3 + m) + 1 + 1 + 1 by omega,
        replicate_succ_zero]
    have l := loop_two a (b / 16) ha (by omega) D (0 :: List.replicate (rest.length + 3 + m) 0)
      (base64Char (b % 16 * 4 + c / 64) :: base64Char (c % 64) :: base64Encode rest) (by omega)
    have l3 := loop_third a b (c / 64) hb (by omega) D (List.replicate (rest.length + 3 + m) 0)
      (base64Char (c % 64) :: base64Encode rest) (by omega)
    have l4 := loop_fourth a b c hc D (List.replicate (rest.length + 3 + m) 0)
      (base64Encode rest) (by omega)
    have ih := loop_encode rest (D ++ [a, b, c]) m (fun x hx => hB x (by simp [hx]))
      (by simp only [List.length_append, List.length_cons, List.length_nil]; omega)
    simp only [List.length_append, List.length_cons, List.length_nil, List.append_assoc,
      List.cons_append, List.nil_append] at ih
    have eo : 8 * D.length + 24 = 8 * (D.length + (0 + 1 + 1 + 1)) := by omega
    rw [base64Encode, e, l, l3, l4, eo, ih]

theorem length_base64Encode : ∀ (B : List Byte), B.length ≤ (base64Encode B).length
  | [] => by simp [base64Encode]
  | [_] => by simp [base64Encode]
  | [_, _] => by simp [base64Encode]
  | _ :: _ :: _ :: rest => by
    have := length_base64Encode rest
    simp only [base64Encode, List.length_cons]
    omega

/-- The decoding of a text whose Base64 chars are the encoding of `B`. -/
theorem base64Decode_text (B T : List Byte) (hB : ∀ x ∈ B, x < 256)
    (hT : T.filter isBase64Char = base64Encode B) (hl : T.length < 2 ^ 60) :
    base64Decode T = B := by
  have h1 : B.length ≤ T.length := by
    have a := length_base64Encode B
    have b := List.length_filter_le isBase64Char T
    rw [hT] at b
    omega
  have h2 : sizeAdd (sizeMul T.length 4 / 3) 5 = T.length * 4 / 3 + 5 := by
    unfold sizeMul
    rw [Nat.mod_eq_of_lt (by omega), sizeAdd_small _ _ (by omega)]
  have h3 : T.length * 4 / 3 + 5 = B.length + 3 + (T.length * 4 / 3 + 2 - B.length) := by omega
  unfold base64Decode
  rw [loop_filter, hT, h2, h3]
  have := loop_encode B [] (T.length * 4 / 3 + 2 - B.length) hB (by simp; omega)
  simpa [resize] using this

end Utils

end Http

namespace Http

/-! ## The header map of a message -/

theorem StringMap.mem_set : ∀ (m : StringMap) (k v : List Byte) (x : List Byte × List Byte),
    x ∈ m.set k v → x = (k, v) ∨ x ∈ m
  | [], k, v, x, h => by
    simp only [StringMap.set, List.mem_singleton] at h
    exact Or.inl h
  | (a, b) :: rest, k, v, x, h => by
    unfold StringMap.set at h
    by_cases h1 : k = a
    · rw [if_pos h1] at h
      rcases List.mem_cons.1 h with h | h
      · exact Or.inl h
      · exact Or.inr (List.mem_cons_of_mem _ h)
    · rw [if_neg h1] at h
      by_cases h2 : lexLt k a = true
      · rw [if_pos h2] at h
        rcases List.mem_cons.1 h with h | h
        · exact Or.inl h
        · exact Or.inr h
      · rw [if_neg h2] at h
        rcases List.mem_cons.1 h with h | h
        · exact Or.inr (h ▸ List.mem_cons_self _ _)
        · rcases StringMap.mem_set rest k v x h with h | h
          · exact Or.inl h
          · exact Or.inr (List.mem_cons_of_mem _ h)

theorem StringMap.set_set : ∀ (m : StringMap) (k v w : List Byte),
    (m.set k v).set k w = m.set k w
  | [], k, v, w => by simp [StringMap.set]
  | (a, b) :: rest, k, v, w => by
    by_cases h1 : k = a
    · simp [StringMap.set, h1]
    · by_cases h2 : lexLt k a = true
      · simp [StringMap.set, h1, h2]
      · simp [StringMap.set, h1, h2, StringMap.set_set rest k v w]

theorem StringMap.at_set (m : StringMap) (k v : List Byte) : (m.set k v).at k = v := by
  simp [StringMap.at, StringMap.find_set]

namespace Utils

theorem toLower_toLower (c : Byte) : toLower (toLower c) = toLower c := by
  unfold toLower
  simp only [Byte] at *
  split_ifs <;> omega

theorem strToLower_strToLower (s : List Byte) : strToLower (strToLower s) = strToLower s := by
  unfold strToLower
  rw [List.map_map]
  exact List.map_congr_left (fun c _ => toLower_toLower c)

end Utils

namespace Message

/-- The header map after `addHeader`. -/
theorem addHeader_headers (m : Message) (aKey aValue : List Byte) :
    (m.addHeader aKey aValue).mHeaders =
      match m.mHeaders.find (Utils.strToLower aKey) with
      | none => m.mHeaders.set (Utils.strToLower aKey) aValue
      | some v => m.mHeaders.set (Utils.strToLower aKey) (v ++ bytes ", " ++ aValue) := by
  cases hf : m.mHeaders.find (Utils.strToLower aKey) <;> simp only [addHeader, hf] <;>
    split_ifs <;> (try split) <;> rfl

theorem addHeaders_cons (m : Message) (h : List Byte × List Byte)
    (hs : List (List Byte × List Byte)) :
    m.addHeaders (h :: hs) = (m.addHeader h.1 h.2).addHeaders hs := rfl

/-- The headers with other keys are left as they are. -/
theorem addHeaders_other (K K' : List Byte) (hne : K' ≠ K) :
    ∀ (hs : List (List Byte × List Byte)) (m : Message),
    (∀ x ∈ hs, Utils.strToLower x.1 = K) →
    (m.addHeaders hs).mHeaders.find K' = m.mHeaders.find K'
  | [], m, _ => rfl
  | h :: hs, m, hk => by
    rw [addHeaders_cons, addHeaders_other K K' hne hs _ (fun x hx => hk x (by simp [hx])),
      addHeader_headers, hk h (by simp)]
    cases m.mHeaders.find K <;> simp [StringMap.find_set, hne]

/-- The value of the key after further additions. -/
theorem addHeaders_some (K : List Byte) :
    ∀ (hs : List (List Byte × List Byte)) (m : Message) (old : List Byte),
    (∀ x ∈ hs, Utils.strToLower x.1 = K) → m.mHeaders.find K = some old →
    (m.addHeaders hs).mHeaders.find K = some (joinValues (old :: hs.map Prod.snd))
  | [], m, old, _, ho => by simpa [addHeaders, joinValues] using ho
  | h :: hs, m, old, hk, ho => by
    have e : (m.addHeader h.1 h.2).mHeaders.find K = some (old ++ bytes ", " ++ h.2) := by
      rw [addHeader_headers, hk h (by simp), ho]
      simp [StringMap.find_set]
    rw [addHeaders_cons, addHeaders_some K hs _ _ (fun x hx => hk x (by simp [hx])) e]
    cases hs with
    | nil => simp [joinValues]
    | cons a hs => simp [joinValues, List.append_assoc]

theorem addHeaders_none (K : List Byte) (h : List Byte × List Byte)
    (hs : List (List Byte × List Byte)) (m : Message)
    (hk : ∀ x ∈ h :: hs, Utils.strToLower x.1 = K) (ho : m.mHeaders.find K = none) :
    (m.addHeaders (h :: hs)).mHeaders.find K = some (joinValues ((h :: hs).map Prod.snd)) := by
  have e : (m.addHeader h.1 h.2).mHeaders.find K = some h.2 := by
    rw [addHeader_headers, hk h (by simp), ho]
    simp [StringMap.find_set]
  rw [addHeaders_cons, addHeaders_some K hs _ _ (fun x hx => hk x (by simp [hx])) e]
  rfl

/-- The whole map when the key is the only one. -/
theorem addHeaders_single (K : List Byte) :
    ∀ (hs : List (List Byte × List Byte)) (m : Message) (old : List Byte),
    (∀ x ∈ hs, Utils.strToLower x.1 = K) → m.mHeaders = [(K, old)] →
    (m.addHeaders hs).mHeaders = [(K, joinValues (old :: hs.map Prod.snd))]
  | [], m, old, _, ho => by simpa [addHeaders, joinValues] using ho
  | h :: hs, m, old, hk, ho => by
    have e : (m.addHeader h.1 h.2).mHeaders = [(K, old ++ bytes ", " ++ h.2)] := by
      rw [addHeader_headers, hk h (by simp), ho]
      simp [StringMap.find, StringMap.set]
    rw [addHeaders_cons, addHeaders_single K hs _ _ (fun x hx => hk x (by simp [hx])) e]
    cases hs with
    | nil => simp [joinValues]
    | cons a hs => simp [joinValues, List.append_assoc]

theorem addHeaders_new (K : List Byte) (kind : Message.Kind) (h : List Byte × List Byte)
    (hs : List (List Byte × List Byte)) (hk : ∀ x ∈ h :: hs, Utils.strToLower x.1 = K) :
    ((Message.new kind).addHeaders (h :: hs)).mHeaders =
      [(K, joinValues ((h :: hs).map Prod.snd))] := by
  have e : ((Message.new kind).addHeader h.1 h.2).mHeaders = [(K, h.2)] := by
    rw [addHeader_headers, hk h (by simp)]
    simp [Message.new, StringMap.find, StringMap.set]
  rw [addHeaders_cons, addHeaders_single K hs _ _ (fun x hx => hk x (by simp [hx])) e]
  rfl

theorem lower_set (m : StringMap) (k v : List Byte)
    (hm : ∀ x ∈ m, Utils.strToLower x.1 = x.1) (hk : Utils.strToLower k = k) :
    ∀ x ∈ m.set k v, Utils.strToLower x.1 = x.1 := by
  intro x hx
  rcases StringMap.mem_set m k v x hx with h | h
  · rw [h]
    exact hk
  · exact hm x h

theorem lower_apply (m : Message) (op : MessageOp)
    (hm : ∀ x ∈ m.mHeaders, Utils.strToLower x.1 = x.1) :
    ∀ x ∈ (m.apply op).mHeaders, Utils.strToLower x.1 = x.1 := by
  cases op with
  | addHeader k v =>
    simp only [Message.apply]
    rw [addHeader_headers]
    cases m.mHeaders.find (Utils.strToLower k) <;>
      exact lower_set _ _ _ hm (Utils.strToLower_strToLower k)
  | setContentType t => exact lower_set _ _ _ hm (by decide)
  | setContentLength n => exact lower_set _ _ _ hm (by decide)

theorem lower_applyAll : ∀ (ops : List MessageOp) (m : Message),
    (∀ x ∈ m.mHeaders, Utils.strToLower x.1 = x.1) →
    ∀ x ∈ (m.applyAll ops).mHeaders, Utils.strToLower x.1 = x.1
  | [], _, hm => hm
  | op :: ops, m, hm => lower_applyAll ops (m.apply op) (lower_apply m op hm)

theorem headerToValue_variant (m : Message) (N N' d : List Byte)
    (h : Utils.strToLower N = Utils.strToLower N') :
    m.headerToValue N d = m.headerToValue N' d := by
  unfold headerToValue
  rw [h]

end Message

end Http

namespace Http

namespace Utils

theorem isBase64Char_char (n : Nat) (h : n < 64) : isBase64Char (base64Char n) = true := by
  interval_cases n <;> rfl

/-- Every char of an encoding is a char of Base64 text. -/
theorem filter_base64Encode : ∀ (B : List Byte), (∀ x ∈ B, x < 256) →
    (base64Encode B).filter isBase64Char = base64Encode B
  | [], _ => rfl
  | [a], hB => by
    have ha : @LT.lt Nat _ a 256 := hB a (by simp)
    have e : isBase64Char 61 = true := rfl
    simp [base64Encode, List.filter, isBase64Char_char (a / 4) (by omega),
      isBase64Char_char (a % 4 * 16) (by omega), e]
  | [a, b], hB => by
    have ha : @LT.lt Nat _ a 256 := hB a (by simp)
    have hb : @LT.lt Nat _ b 256 := hB b (by simp)
    have e : isBase64Char 61 = true := rfl
    simp [base64Encode, List.filter, isBase64Char_char (a / 4) (by omega),
      isBase64Char_char (a % 4 * 16 + b / 16) (by omega),
      isBase64Char_char (b % 16 * 4) (by omega), e]
  | a :: b :: c :: rest, hB => by
    have ha : @LT.lt Nat _ a 256 := hB a (by simp)
    have hb : @LT.lt Nat _ b 256 := hB b (by simp)
    have hc : @LT.lt Nat _ c 256 := hB c (by simp)
    have ih := filter_base64Encode rest (fun x hx => hB x (by simp [hx]))
    simp [base64Encode, List.filter, isBase64Char_char (a / 4) (by omega),
      isBase64Char_char (a % 4 * 16 + b / 16) (by omega),
      isBase64Char_char (b % 16 * 4 + c / 64) (by omega),
      isBase64Char_char (c % 64) (by omega), ih]

theorem base64Decode_encode (B : List Byte) (hB : ∀ x ∈ B, x < 256)
    (hl : (base64Encode B).length < 2 ^ 60) : base64Decode (base64Encode B) = B :=
  base64Decode_text B _ hB (filter_base64Encode B hB) hl

end Utils

theorem findSub_byte_none (c : Byte) : ∀ (s : List Byte), c ∉ s → findSub [c] s = none
  | [], _ => by simp [findSub]
  | x :: s, h => by
    have hx : c ≠ x := fun e => h (by simp [e])
    have ih := findSub_byte_none c s (fun e => h (List.mem_cons_of_mem _ e))
    simp only [findSub, List.isPrefixOf]
    simp [hx, ih]

namespace IncomingRequest

/-- The auth members after `addHeader` with an `Authorization` header of the
`Basic` kind, by the place of the colon in the decoded text. -/
theorem addHeader_basic (r : IncomingRequest) (k X : List Byte)
    (hk : Utils.strToLower k = bytes "authorization") :
    ((r.addHeader k (bytes "Basic " ++ X)).mHasAuth,
        (r.addHeader k (bytes "Basic " ++ X)).mAuthUsername,
        (r.addHeader k (bytes "Basic " ++ X)).mAuthPassword) =
      match findSub [58] (Utils.base64Decode X) with
      | some idxCol =>
        (true, (Utils.base64Decode X).take idxCol, (Utils.base64Decode X).drop (idxCol + 1))
      | none => (r.mHasAuth, r.mAuthUsername, r.mAuthPassword) := by
  have h1 : Utils.noCaseCompare k (bytes "Authorization") = 0 := by
    unfold Utils.noCaseCompare
    rw [hk, if_pos (by decide)]
  have h2 : strncmpEq (bytes "Basic " ++ X) (bytes "Basic ") 6 = true :=
    strncmpEq_self (bytes "Basic ") X
  have h3 : (bytes "Basic " ++ X).drop 6 = X := List.drop_left (bytes "Basic ") X
  unfold addHeader
  simp only [h1, h2, and_self, if_true, h3]
  cases findSub [58] (Utils.base64Decode X) <;> simp only [] <;> split_ifs <;> rfl

end IncomingRequest

end Http

namespace Http

/-! ## Forms sent URL-encoded -/

namespace Utils

theorem stringSplitLoop_segment (sep : List Byte) : ∀ (seg rest cur : List Byte),
    (∀ c ∈ seg, c ∉ sep) →
    stringSplitLoop sep (seg ++ rest) cur = stringSplitLoop sep rest (cur ++ seg)
  | [], rest, cur, _ => by simp
  | c :: seg, rest, cur, h => by
    have hc : c ∉ sep := h c (by simp)
    have ih := stringSplitLoop_segment sep seg rest (cur ++ [c]) (fun x hx => h x (by simp [hx]))
    show stringSplitLoop sep (c :: (seg ++ rest)) cur = _
    rw [stringSplitLoop, if_neg hc, ih]
    simp

theorem stringSplitLoop_last (sep seg cur : List Byte) (h : ∀ c ∈ seg, c ∉ sep) :
    stringSplitLoop sep seg cur = if cur ++ seg ≠ [] then [cur ++ seg] else [] := by
  have := stringSplitLoop_segment sep seg [] cur h
  rw [List.append_nil] at this
  rw [this]
  simp [stringSplitLoop]

theorem stringSplitLoop_sep (sep : List Byte) (c : Byte) (hc : c ∈ sep) (seg rest cur : List Byte)
    (h : ∀ c ∈ seg, c ∉ sep) :
    stringSplitLoop sep (seg ++ c :: rest) cur = (cur ++ seg) :: stringSplitLoop sep rest [] := by
  rw [stringSplitLoop_segment sep seg _ cur h]
  simp [stringSplitLoop, hc]

end Utils

theorem hex_ne (h : Byte) (hh : isHexDigit h) : h ≠ 38 ∧ h ≠ 61 ∧ h ≠ 43 := by
  unfold isHexDigit at hh
  simp only [Byte] at *
  omega

/-- The encoded text of form units holds no `&` and no `=`. -/
theorem urlEncode_form (ts : List UrlToken) (h : ∀ t ∈ ts, t.FormWf) :
    ∀ c ∈ urlEncode ts, c ≠ 38 ∧ c ≠ 61 := by
  intro c hc
  simp only [urlEncode, List.mem_flatten, List.mem_map] at hc
  obtain ⟨l, ⟨t, ht, rfl⟩, hcl⟩ := hc
  obtain ⟨hw, h38, h61⟩ := h t ht
  cases t with
  | literal x =>
    simp only [UrlToken.encode, List.mem_singleton] at hcl
    subst hcl
    exact ⟨fun e => h38 (by rw [e]), fun e => h61 (by rw [e])⟩
  | plus =>
    simp only [UrlToken.encode, List.mem_singleton] at hcl
    subst hcl
    decide
  | escape h1 h2 =>
    simp only [UrlToken.encode, List.mem_cons, List.mem_singleton, List.not_mem_nil,
      or_false] at hcl
    have a1 := hex_ne h1 hw.1
    have a2 := hex_ne h2 hw.2
    rcases hcl with e | e | e
    · subst e; decide
    · subst e; exact ⟨a1.1, a1.2.1⟩
    · subst e; exact ⟨a2.1, a2.2.1⟩

theorem urlEncode_eq_nil (ts : List UrlToken) (h : urlEncode ts = []) : ts = [] := by
  cases ts with
  | nil => rfl
  | cons t ts => cases t <;> simp [urlEncode, UrlToken.encode] at h

/-- The line of a pair in the body of a form. -/
theorem encodeForm_cons (x : List UrlToken × List UrlToken)
    (rest : List (List UrlToken × List UrlToken)) :
    encodeForm (x :: rest) =
      (urlEncode x.1 ++ 61 :: urlEncode x.2) ++
        (if rest = [] then [] else 38 :: encodeForm rest) := by
  cases rest with
  | nil => simp [encodeForm]
  | cons y rest => simp [encodeForm]

theorem line_no_amp (x : List UrlToken × List UrlToken)
    (h : (∀ t ∈ x.1, t.FormWf) ∧ ∀ t ∈ x.2, t.FormWf) :
    ∀ c ∈ urlEncode x.1 ++ 61 :: urlEncode x.2, c ∉ [38] := by
  intro c hc
  simp only [List.mem_append, List.mem_cons] at hc
  simp only [List.mem_singleton]
  rcases hc with hc | hc | hc
  · exact (urlEncode_form x.1 h.1 c hc).1
  · rw [hc]; decide
  · exact (urlEncode_form x.2 h.2 c hc).1

/-- Splitting the body of a form at `&` gives the lines of the pairs. -/
theorem split_form : ∀ (pairs : List (List UrlToken × List UrlToken)),
    (∀ x ∈ pairs, (∀ t ∈ x.1, t.FormWf) ∧ ∀ t ∈ x.2, t.FormWf) →
    Utils.stringSplitLoop [38] (encodeForm pairs) [] =
      pairs.map (fun x => urlEncode x.1 ++ 61 :: urlEncode x.2)
  | [], _ => by simp [encodeForm, Utils.stringSplitLoop]
  | [x], h => by
    have hx := line_no_amp x (h x (by simp))
    simp only [encodeForm, List.map_cons, List.map_nil]
    rw [Utils.stringSplitLoop_last [38] _ [] hx]
    simp
  | x :: y :: rest, h => by
    have hx := line_no_amp x (h x (by simp))
    have ih := split_form (y :: rest) (fun z hz => h z (by simp [hz]))
    simp only [encodeForm, List.map_cons] at ih ⊢
    rw [Utils.stringSplitLoop_sep [38] 38 (by simp) _ _ [] hx, ih]
    simp

/-- Splitting the line of a pair at `=` gives the name and the value, or the name
alone when the value is empty. -/
theorem split_line (n v : List Byte) (hn : ∀ c ∈ n, c ≠ 61) (hv : ∀ c ∈ v, c ≠ 61) :
    Utils.stringSplit (n ++ 61 :: v) (bytes "=") = if v = [] then [n] else [n, v] := by
  have e : bytes "=" = [61] := by decide
  unfold Utils.stringSplit
  rw [e, Utils.stringSplitLoop_sep [61] 61 (by simp) n v [] (by simpa using hn),
    Utils.stringSplitLoop_last [61] v [] (by simpa using hv)]
  by_cases h : v = [] <;> simp [h]

namespace Utils

/-- Decoding a name in which `+` has been replaced by a space. -/
theorem urlDecodeLoop_spaced : ∀ (ts : List UrlToken) (rest res : List Byte),
    (∀ t ∈ ts, t.Wf) →
    urlDecodeLoop (replaceAllCharOccurrences (urlEncode ts) 43 32 ++ rest) res =
      urlDecodeLoop rest (res ++ urlDecoded ts)
  | [], rest, res, _ => by simp [urlEncode, urlDecoded, replaceAllCharOccurrences]
  | t :: ts, rest, res, h => by
    have ih := fun res => urlDecodeLoop_spaced ts rest res (fun t ht => h t (by simp [ht]))
    have ht := h t (by simp)
    cases t with
    | literal c =>
      have e : replaceAllCharOccurrences (urlEncode (UrlToken.literal c :: ts)) 43 32 ++ rest =
          c :: (replaceAllCharOccurrences (urlEncode ts) 43 32 ++ rest) := by
        simp [urlEncode, UrlToken.encode, replaceAllCharOccurrences, ht.1]
      rw [e, urlDecodeLoop_literal c _ _ ht.1 ht.2, ih]
      simp [urlDecoded, UrlToken.byte]
    | plus =>
      have e : replaceAllCharOccurrences (urlEncode (UrlToken.plus :: ts)) 43 32 ++ rest =
          32 :: (replaceAllCharOccurrences (urlEncode ts) 43 32 ++ rest) := by
        simp [urlEncode, UrlToken.encode, replaceAllCharOccurrences]
      rw [e, urlDecodeLoop_literal 32 _ _ (by decide) (by decide), ih]
      simp [urlDecoded, UrlToken.byte]
    | escape h1 h2 =>
      have a1 := (hex_ne h1 ht.1).2.2
      have a2 := (hex_ne h2 ht.2).2.2
      have e : replaceAllCharOccurrences (urlEncode (UrlToken.escape h1 h2 :: ts)) 43 32 ++ rest =
          37 :: h1 :: h2 :: (replaceAllCharOccurrences (urlEncode ts) 43 32 ++ rest) := by
        simp [urlEncode, UrlToken.encode, replaceAllCharOccurrences, a1, a2]
      rw [e, urlDecodeLoop_escape h1 h2 _ _ ht.1 ht.2, ih]
      simp [urlDecoded, UrlToken.byte]

theorem urlDecode_spaced (ts : List UrlToken) (h : ∀ t ∈ ts, t.Wf) :
    urlDecode (replaceAllCharOccurrences (urlEncode ts) 43 32) = (true, urlDecoded ts) := by
  have := urlDecodeLoop_spaced ts [] [] h
  simp only [List.append_nil, List.nil_append] at this
  unfold urlDecode
  rw [this]
  rfl

end Utils

namespace FormParser

/-- The loop of `parseFormUrlEncoded` on the line of a pair. -/
theorem parseLines_pair (p : FormParser) (x : List UrlToken × List UrlToken)
    (rest : List (List Byte)) (h : (∀ t ∈ x.1, t.FormWf) ∧ ∀ t ∈ x.2, t.FormWf) :
    p.parseLines ((urlEncode x.1 ++ 61 :: urlEncode x.2) :: rest) =
      parseLines { p with mMap := p.mMap.set (urlDecoded x.1) (urlDecoded x.2) } rest := by
  have hs := split_line (urlEncode x.1) (urlEncode x.2)
    (fun c hc => (urlEncode_form x.1 h.1 c hc).2) (fun c hc => (urlEncode_form x.2 h.2 c hc).2)
  have w1 : ∀ t ∈ x.1, t.Wf := fun t ht => (h.1 t ht).1
  have w2 : ∀ t ∈ x.2, t.Wf := fun t ht => (h.2 t ht).1
  rw [parseLines]
  by_cases hv : urlEncode x.2 = []
  · rw [if_pos hv] at hs
    have e2 : x.2 = [] := urlEncode_eq_nil _ hv
    simp only [hs, Utils.urlDecode_spaced x.1 w1, if_true]
    rw [e2]
    rfl
  · rw [if_neg hv] at hs
    simp only [hs, Utils.urlDecode_tokens x.1 w1, Utils.urlDecode_tokens x.2 w2, Bool.and_self,
      if_true]

/-- The loop of `parseFormUrlEncoded` on the lines of a list of pairs. -/
theorem parseLines_pairs : ∀ (pairs : List (List UrlToken × List UrlToken)) (p : FormParser),
    (∀ x ∈ pairs, (∀ t ∈ x.1, t.FormWf) ∧ ∀ t ∈ x.2, t.FormWf) →
    p.parseLines (pairs.map (fun x => urlEncode x.1 ++ 61 :: urlEncode x.2)) =
      ({ p with mMap := formMapFrom p.mMap pairs }, false)
  | [], p, _ => by simp [parseLines, formMapFrom]
  | x :: pairs, p, h => by
    rw [List.map_cons, parseLines_pair p x _ (h x (by simp)),
      parseLines_pairs pairs _ (fun z hz => h z (by simp [hz]))]
    rfl

/-- The function `parseFormUrlEncoded` on the body of a form. -/
theorem parseFormUrlEncoded_form (p : FormParser)
    (pairs : List (List UrlToken × List UrlToken))
    (h : ∀ x ∈ pairs, (∀ t ∈ x.1, t.FormWf) ∧ ∀ t ∈ x.2, t.FormWf)
    (hd : p.mIncomingData = encodeForm pairs) :
    p.parseFormUrlEncoded =
      { p with
        mMap := formMapFrom p.mMap pairs
        mIncomingData := [] } := by
  have e : bytes "&" = [38] := by decide
  unfold parseFormUrlEncoded
  simp only [Utils.stringSplit, hd, e, split_form pairs h, parseLines_pairs pairs p h]
  rfl

/-- The function `finish` on the body of a form. -/
theorem finish_form (p : FormParser) (pairs : List (List UrlToken × List UrlToken))
    (h : ∀ x ∈ pairs, (∀ t ∈ x.1, t.FormWf) ∧ ∀ t ∈ x.2, t.FormWf)
    (hd : p.mIncomingData = encodeForm pairs) (hk : p.mKind ≠ Kind.fpkMultipart)
    (hv : p.mIsValid = true) :
    p.finish =
      ({ p with
        mMap := formMapFrom p.mMap pairs
        mIncomingData := [] }, true) := by
  have e := parseFormUrlEncoded_form p pairs h hd
  unfold finish
  cases hkk : p.mKind with
  | fpkMultipart => exact absurd hkk hk
  | fpkURL => simp only [e, hv, hkk]; rfl
  | fpkFormUrlEncoded => simp only [e, hv, hkk]; rfl

/-- The buffer of a form sent URL-encoded after the slices have been given. -/
theorem feed_buffer : ∀ (slices : List (List Byte)) (p : FormParser),
    p.mKind ≠ Kind.fpkMultipart → p.mIsValid = true →
    p.feed slices = ({ p with mIncomingData := p.mIncomingData ++ slices.flatten }, [])
  | [], p, _, _ => by simp [feed]
  | s :: slices, p, hk, hv => by
    have e : p.parse s = ({ p with mIncomingData := p.mIncomingData ++ s }, []) := by
      unfold parse
      cases hkk : p.mKind with
      | fpkMultipart => exact absurd hkk hk
      | fpkURL => simp [hv]
      | fpkFormUrlEncoded => simp [hv]
    have ih := feed_buffer slices { p with mIncomingData := p.mIncomingData ++ s } hk hv
    simp only [feed, e, ih]
    simp

/-- The slices of the body of a form, then `finish`. -/
theorem feed_finish (p : FormParser) (pairs : List (List UrlToken × List UrlToken))
    (slices : List (List Byte))
    (h : ∀ x ∈ pairs, (∀ t ∈ x.1, t.FormWf) ∧ ∀ t ∈ x.2, t.FormWf)
    (hk : p.mKind ≠ Kind.fpkMultipart) (hv : p.mIsValid = true)
    (hd : p.mIncomingData ++ slices.flatten = encodeForm pairs) :
    (p.feed slices).1.finish =
      ({ p with
        mMap := formMapFrom p.mMap pairs
        mIncomingData := [] }, true) := by
  rw [feed_buffer slices p hk hv]
  exact finish_form { p with mIncomingData := p.mIncomingData ++ slices.flatten } pairs h hd hk hv

/-- A parser that is not valid stays so in `parseFormUrlEncoded`. -/
theorem parseLines_invalid : ∀ (ls : List (List Byte)) (p : FormParser),
    p.mIsValid = false → (p.parseLines ls).1.mIsValid = false
  | [], p, h => h
  | l :: ls, p, h => by
    rw [parseLines]
    split
    · apply parseLines_invalid
      split <;> exact h
    · apply parseLines_invalid
      split <;> exact h
    · rfl

theorem finish_invalid (p : FormParser) (h : p.mIsValid = false) : p.finish.2 = false := by
  have a := parseLines_invalid (Utils.stringSplit p.mIncomingData (bytes "&")) p h
  have b : p.parseFormUrlEncoded.mIsValid = false := by
    unfold parseFormUrlEncoded
    simp only []
    split
    · exact a
    · exact a
  unfold finish
  cases p.mKind <;> simp [h, b]

theorem parse_invalid (p : FormParser) (d : List Byte) (h : p.mIsValid = false) :
    p.parse d = (p, []) := by
  simp [parse, h]

end FormParser

end Http

namespace Http

/-! ## The constructor of the form parser -/

namespace FormParser

theorem strncmp_urlencoded (ct : List Byte) :
    strncmpEq ct (bytes "application/x-www-form-urlencoded") 33 = true ↔
      ∃ t, ct = bytes "application/x-www-form-urlencoded" ++ t := by
  constructor
  · intro h
    exact strncmpEq_prefix (bytes "application/x-www-form-urlencoded") ct (by decide) h
  · rintro ⟨t, rfl⟩
    exact strncmpEq_self (bytes "application/x-www-form-urlencoded") t

theorem strncmp_multipart (ct : List Byte) :
    strncmpEq ct (bytes "multipart/form-data") 19 = true ↔
      ∃ t, ct = bytes "multipart/form-data" ++ t := by
  constructor
  · intro h
    exact strncmpEq_prefix (bytes "multipart/form-data") ct (by decide) h
  · rintro ⟨t, rfl⟩
    exact strncmpEq_self (bytes "multipart/form-data") t

theorem not_both (ct : List Byte) (h1 : ∃ t, ct = bytes "application/x-www-form-urlencoded" ++ t)
    (h2 : ∃ t, ct = bytes "multipart/form-data" ++ t) : False := by
  obtain ⟨t, rfl⟩ := h1
  obtain ⟨u, hu⟩ := h2
  have e1 : bytes "application/x-www-form-urlencoded" =
      97 :: (bytes "application/x-www-form-urlencoded").tail := by decide
  have e2 : bytes "multipart/form-data" = 109 :: (bytes "multipart/form-data").tail := by decide
  rw [e1, e2] at hu
  simp at hu

theorem new_get (r : IncomingRequest) (kind0 : Kind) (hm : r.mMethod = bytes "GET") :
    FormParser.new r kind0 =
      match findSub [63] r.mURL with
      | some idxQM => { init Kind.fpkURL with mIncomingData := r.mURL.drop (idxQM + 1) }
      | none => init Kind.fpkURL := by
  unfold FormParser.new
  rw [if_pos hm]
  cases findSub [63] r.mURL <;> rfl

theorem new_urlencoded (r : IncomingRequest) (kind0 : Kind)
    (hm : r.mMethod = bytes "POST" ∨ r.mMethod = bytes "PUT")
    (hct : ∃ t, r.mContentType = bytes "application/x-www-form-urlencoded" ++ t) :
    FormParser.new r kind0 = init Kind.fpkFormUrlEncoded := by
  have hg : ¬ r.mMethod = bytes "GET" := by
    rcases hm with h | h <;> rw [h] <;> decide
  unfold FormParser.new
  rw [if_neg hg, if_pos ⟨hm, (strncmp_urlencoded _).2 hct⟩]

theorem new_multipart (r : IncomingRequest) (kind0 : Kind)
    (hm : r.mMethod = bytes "POST" ∨ r.mMethod = bytes "PUT")
    (hct : ∃ t, r.mContentType = bytes "multipart/form-data" ++ t) :
    FormParser.new r kind0 =
      { init Kind.fpkMultipart with
        mMultipartParser := some (MultipartParser.new r.mContentType) } := by
  have hg : ¬ r.mMethod = bytes "GET" := by
    rcases hm with h | h <;> rw [h] <;> decide
  have hu : ¬ ((r.mMethod = bytes "POST" ∨ r.mMethod = bytes "PUT") ∧
      strncmpEq r.mContentType (bytes "application/x-www-form-urlencoded") 33 = true) :=
    fun h => not_both _ ((strncmp_urlencoded _).1 h.2) hct
  unfold FormParser.new
  rw [if_neg hg, if_neg hu, if_pos ⟨hm, (strncmp_multipart _).2 hct⟩]

theorem new_other (r : IncomingRequest) (kind0 : Kind) (hg : ¬ r.mMethod = bytes "GET")
    (h : ¬ ((r.mMethod = bytes "POST" ∨ r.mMethod = bytes "PUT") ∧
      ((∃ t, r.mContentType = bytes "application/x-www-form-urlencoded" ++ t) ∨
        ∃ t, r.mContentType = bytes "multipart/form-data" ++ t))) :
    FormParser.new r kind0 = { init kind0 with mIsValid := false } := by
  have hu : ¬ ((r.mMethod = bytes "POST" ∨ r.mMethod = bytes "PUT") ∧
      strncmpEq r.mContentType (bytes "application/x-www-form-urlencoded") 33 = true) :=
    fun x => h ⟨x.1, Or.inl ((strncmp_urlencoded _).1 x.2)⟩
  have hp : ¬ ((r.mMethod = bytes "POST" ∨ r.mMethod = bytes "PUT") ∧
      strncmpEq r.mContentType (bytes "multipart/form-data") 19 = true) :=
    fun x => h ⟨x.1, Or.inr ((strncmp_multipart _).1 x.2)⟩
  unfold FormParser.new
  rw [if_neg hg, if_neg hu, if_neg hp]

/-- The validity and the kind of a parser made from a request. -/
theorem new_valid (r : IncomingRequest) (kind0 : Kind) :
    ((FormParser.new r kind0).mIsValid = true ↔
      (r.mMethod = bytes "GET" ∨
        ((r.mMethod = bytes "POST" ∨ r.mMethod = bytes "PUT") ∧
          ((∃ t, r.mContentType = bytes "application/x-www-form-urlencoded" ++ t) ∨
            ∃ t, r.mContentType = bytes "multipart/form-data" ++ t)))) := by
  by_cases hg : r.mMethod = bytes "GET"
  · rw [new_get r kind0 hg]
    cases findSub [63] r.mURL <;> simp [hg, init]
  · by_cases h : (r.mMethod = bytes "POST" ∨ r.mMethod = bytes "PUT") ∧
        ((∃ t, r.mContentType = bytes "application/x-www-form-urlencoded" ++ t) ∨
          ∃ t, r.mContentType = bytes "multipart/form-data" ++ t)
    · have : (FormParser.new r kind0).mIsValid = true := by
        rcases h.2 with hc | hc
        · rw [new_urlencoded r kind0 h.1 hc]; rfl
        · rw [new_multipart r kind0 h.1 hc]; rfl
      simp only [this, true_iff]
      exact Or.inr h
    · rw [new_other r kind0 hg h]
      simp only [Bool.false_eq_true, false_iff, not_or]
      exact ⟨hg, h⟩

end FormParser

end Http

namespace Http

/-! ## The `Content-Disposition` header of a part of a form -/

namespace NameValueParser

theorem turn_keySpace_semicolon (f : Nat) (m : StringMap) (r pend : List Byte) :
    parseLoop (f + 1) (NameValueParser.mk NVState.psKeySpace true [] [] m) (59 :: r) pend =
      parseLoop f (NameValueParser.mk NVState.psKey true [] [] m) (59 :: r) [] := by
  have h1 : leSpace 59 = false := by decide
  have h2 : gtSpace 59 = true := by decide
  have h3 := skipSpace_spaces 0 59 r pend h1
  simp only [List.replicate_zero, List.nil_append, List.append_nil] at h3
  rw [nv_parseLoop_turn _ _ _ _ (by simp)]
  simp only [dispatch, caseKeySpace, h3, h2, if_true, Bool.false_eq_true, if_false]

/-- A list of items after a semicolon: the semicolon is taken for the end of an
empty key, which is given the empty value. -/
theorem parse_semicolon_items (items : List (Nat × NVItem)) (hwf : ∀ x ∈ items, x.2.Wf) :
    (((NameValueParser.newParse (59 :: serializeItems items) true).finish).1.mMap =
        itemsMap [([], [])] (items.map Prod.snd)) ∧
      ((NameValueParser.newParse (59 :: serializeItems items) true).finish).1.isValid = true := by
  have e : NameValueParser.newParse (59 :: serializeItems items) true =
      parseLoop (2 * (serializeItems items).length + 1)
        (NameValueParser.mk NVState.psKeySpace true [] [] [([], [])]) (serializeItems items) [] := by
    unfold newParse parse
    have f : 2 * (59 :: serializeItems items).length + 1 =
        (2 * (serializeItems items).length + 1) + 1 + 1 := by
      simp only [List.length_cons]
      omega
    have t := turn_key_semicolon (2 * (serializeItems items).length + 1) [] []
      (serializeItems items) (by simp)
    simp only [List.nil_append] at t
    rw [f]
    show parseLoop _ (NameValueParser.mk NVState.psKeySpace true [] [] []) _ _ = _
    rw [turn_keySpace_semicolon, t]
    rfl
  obtain ⟨_, h2, h3⟩ := run_items items [([], [])] [] (2 * (serializeItems items).length + 1)
    hwf (by omega)
  rw [e]
  refine ⟨h2, ?_⟩
  unfold isValid
  rw [h3]
  rfl

end NameValueParser

theorem disposition_eq (x : FormPart) :
    x.disposition = bytes "form-data" ++ 59 :: serializeItems x.items := by
  have e1 : bytes "form-data; name=" = bytes "form-data" ++ 59 :: 32 :: (bytes "name" ++ [61]) := by
    decide
  have e2 : bytes "; filename=" = 59 :: 32 :: (bytes "filename" ++ [61]) := by decide
  unfold FormPart.disposition FormPart.items
  cases x.fileName with
  | none => simp [e1, serializeItems, NVItem.encode]
  | some f => simp [e1, e2, serializeItems, NVItem.encode]

theorem items_wf (x : FormPart) (hq : 34 ∉ x.name) (hf : x.fileNameOk) :
    ∀ y ∈ x.items, y.2.Wf := by
  have k1 : ∀ c ∈ bytes "name", isKeyByte c := by decide
  have k2 : ∀ c ∈ bytes "filename", isKeyByte c := by decide
  have j1 : bytes "name" ≠ [] := by decide
  have j2 : bytes "filename" ≠ [] := by decide
  unfold FormPart.fileNameOk at hf
  unfold FormPart.items
  cases hx : x.fileName with
  | none =>
    intro y hy
    simp only [List.mem_singleton] at hy
    subst hy
    exact ⟨j1, k1, hq⟩
  | some f =>
    rw [hx] at hf
    intro y hy
    simp only [List.mem_cons, List.mem_singleton, List.not_mem_nil, or_false] at hy
    rcases hy with hy | hy
    · subst hy
      exact ⟨j1, k1, hq⟩
    · subst hy
      exact ⟨j2, k2, hf.2.1⟩

/-- The values of `name` and `filename` in the map of the parameters. -/
theorem items_map (x : FormPart) :
    (itemsMap [([], [])] (x.items.map Prod.snd)).at (bytes "name") = x.name ∧
      (itemsMap [([], [])] (x.items.map Prod.snd)).at (bytes "filename") =
        x.fileName.getD [] := by
  have n1 : ¬ bytes "name" = bytes "filename" := by decide
  have n2 : ¬ bytes "filename" = bytes "name" := by decide
  have n3 : ¬ bytes "filename" = [] := by decide
  have n4 : ¬ bytes "name" = [] := by decide
  unfold FormPart.items
  cases x.fileName with
  | none =>
    simp [itemsMap, StringMap.at, StringMap.find_set, NVItem.key, NVItem.value, n2,
      StringMap.find, n3, n4]
  | some f =>
    simp [itemsMap, StringMap.at, StringMap.find_set, NVItem.key, NVItem.value, n1, n4]

namespace FormParser

/-- The callback `onPartHeader` for the `Content-Disposition` header of a part. -/
theorem onPartHeader_disposition (p : FormParser) (x : FormPart) (hn : x.name ≠ [])
    (hq : 34 ∉ x.name) (hf : x.fileNameOk) :
    p.onPartHeader (bytes "Content-Disposition") x.disposition =
      { p with
        mCurrentPartName := x.name
        mCurrentPartFileName := x.fileName.getD [] } := by
  have h1 : Utils.noCaseCompare (bytes "Content-Disposition") (bytes "Content-Disposition") =
      0 := by
    unfold Utils.noCaseCompare
    rw [if_pos rfl]
  have h2 : firstAboveSpace (bytes "form-data" ++ 59 :: serializeItems x.items) = some 0 := by
    have : bytes "form-data" = 102 :: (bytes "form-data").tail := by decide
    rw [this]
    simp only [List.cons_append, firstAboveSpace]
    rfl
  have h3 : strncmpEq ((bytes "form-data" ++ 59 :: serializeItems x.items).drop 0)
      (bytes "form-data") 9 = true := strncmpEq_self (bytes "form-data") _
  have h4 : findFrom [59] (bytes "form-data" ++ 59 :: serializeItems x.items) (0 + 9) =
      some 9 := by
    have l : (bytes "form-data").length = 9 := by decide
    have d : (bytes "form-data" ++ 59 :: serializeItems x.items).drop 9 =
        59 :: serializeItems x.items := List.drop_left (bytes "form-data") _
    unfold findFrom
    rw [if_pos (by simp only [List.length_append, l]; omega)]
    simp only [Nat.zero_add, d, findSub, List.isPrefixOf]
    simp
  have h5 : (bytes "form-data" ++ 59 :: serializeItems x.items).drop 9 =
      59 :: serializeItems x.items := List.drop_left (bytes "form-data") _
  obtain ⟨m1, m2⟩ := NameValueParser.parse_semicolon_items x.items (items_wf x hq hf)
  obtain ⟨a1, a2⟩ := items_map x
  have hne : x.name.isEmpty = false := by
    cases hx : x.name with
    | nil => exact absurd hx hn
    | cons _ _ => rfl
  rw [disposition_eq]
  unfold onPartHeader
  simp only [h1, if_true, h2, h3, Bool.not_true, Bool.false_eq_true, if_false, h4, h5, m1, m2,
    a1, a2, hne, Bool.or_self]

end FormParser

end Http

namespace Http

/-! ## The callbacks of the parts of a form -/

theorem isEmpty_false {l : List Byte} (h : l ≠ []) : l.isEmpty = false := by
  cases l with
  | nil => exact absurd rfl h
  | cons _ _ => rfl

namespace FormParser

theorem onMPEvents_append : ∀ (a b : List MPEvent) (p : FormParser),
    p.onMPEvents (a ++ b) =
      (((p.onMPEvents a).1.onMPEvents b).1, (p.onMPEvents a).2 ++ ((p.onMPEvents a).1.onMPEvents b).2)
  | [], b, p => by simp [onMPEvents]
  | e :: a, b, p => by
    have ih := onMPEvents_append a b (p.onMPEvent e).1
    show onMPEvents p (e :: (a ++ b)) = _
    simp only [onMPEvents, ih, List.append_assoc]

/-- The data of a field: every segment is appended to the entry of the name. -/
theorem onMPEvents_field (N : List Byte) (hN : N ≠ []) :
    ∀ (segs : List (List Byte)) (s : FormParser) (m0 : StringMap) (v : List Byte),
    s.mCurrentPartName = N → s.mCurrentPartFileName = [] → s.mMap = m0.set N v →
    s.onMPEvents (segs.map MPEvent.onPartData) =
      ({ s with mMap := m0.set N (v ++ segs.flatten) }, [])
  | [], s, m0, v, _, _, hm => by
    simp only [List.map_nil, onMPEvents, List.flatten_nil, List.append_nil, ← hm]
  | seg :: segs, s, m0, v, hn, hf, hm => by
    have e : s.onPartData seg = ({ s with mMap := m0.set N (v ++ seg) }, []) := by
      obtain ⟨a1, a2, a3, a4, a5, a6, a7, a8, a9⟩ := s
      simp only [] at hn hf hm
      subst hn hf hm
      unfold onPartData
      simp [isEmpty_false hN, StringMap.find_set, StringMap.set_set]
    have ih := onMPEvents_field N hN segs { s with mMap := m0.set N (v ++ seg) } m0 (v ++ seg)
      hn hf rfl
    simp only [List.map_cons, onMPEvents, onMPEvent, e, ih, List.flatten_cons,
      List.append_assoc, List.nil_append]

/-- The data of a file that has been announced. -/
theorem onMPEvents_file (N F : List Byte) (hN : N ≠ []) (hF : F ≠ []) :
    ∀ (segs : List (List Byte)) (s : FormParser),
    s.mCurrentPartName = N → s.mCurrentPartFileName = F → s.mFileHasBeenAnnounced = true →
    s.onMPEvents (segs.map MPEvent.onPartData) = (s, segs.map FormEvent.onFileData)
  | [], s, _, _, _ => rfl
  | seg :: segs, s, hn, hf, ha => by
    have e : s.onPartData seg = (s, [FormEvent.onFileData seg]) := by
      obtain ⟨a1, a2, a3, a4, a5, a6, a7, a8, a9⟩ := s
      simp only [] at hn hf ha
      subst hn hf ha
      unfold onPartData
      simp [isEmpty_false hN, isEmpty_false hF]
    have ih := onMPEvents_file N F hN hF segs s hn hf ha
    simp only [List.map_cons, onMPEvents, onMPEvent, e, ih, List.singleton_append]

theorem onMPEvents_field_mk (N : List Byte) (hN : N ≠ []) (segs : List (List Byte))
    (m0 : StringMap) (v : List Byte) (k : Kind) (d : List Byte) (valid : Bool)
    (mp : Option MultipartParser) (cf ann : Bool) :
    onMPEvents (FormParser.mk (m0.set N v) k d valid mp N cf [] ann)
        (segs.map MPEvent.onPartData) =
      (FormParser.mk (m0.set N (v ++ segs.flatten)) k d valid mp N cf [] ann, []) :=
  onMPEvents_field N hN segs _ m0 v rfl rfl rfl

theorem onMPEvents_file_mk (N F : List Byte) (hN : N ≠ []) (hF : F ≠ [])
    (segs : List (List Byte)) (m : StringMap) (k : Kind) (d : List Byte) (valid : Bool)
    (mp : Option MultipartParser) (cf : Bool) :
    onMPEvents (FormParser.mk m k d valid mp N cf F true) (segs.map MPEvent.onPartData) =
      (FormParser.mk m k d valid mp N cf F true, segs.map FormEvent.onFileData) :=
  onMPEvents_file N F hN hF segs _ rfl rfl rfl

end FormParser

end Http

namespace Http

namespace FormParser

theorem onMPEvents_cons (p : FormParser) (e : MPEvent) (rest : List MPEvent) :
    p.onMPEvents (e :: rest) =
      (((p.onMPEvent e).1.onMPEvents rest).1,
        (p.onMPEvent e).2 ++ ((p.onMPEvent e).1.onMPEvents rest).2) := rfl

theorem events_toPart (x : FormPart) (segs : List (List Byte)) :
    x.toPart.events segs =
      MPEvent.onPartStart :: MPEvent.onPartHeader (bytes "Content-Disposition") x.disposition ::
        (segs.map MPEvent.onPartData ++ [MPEvent.onPartEnd]) := by
  simp [Part.events, FormPart.toPart, Header.fullValue]

/-- The callbacks of a part that is a field. -/
theorem onMPEvents_field_part (p : FormParser) (x : FormPart) (b : List Byte)
    (segs : List (List Byte)) (hwf : x.Wf b) (hs : segs.flatten = x.content)
    (hfind : p.mMap.find x.name = none) (hx : x.fileName = none) :
    p.onMPEvents (x.toPart.events segs) =
      ({ p with
          mMap := p.mMap.set x.name x.content
          mCurrentPartName := []
          mCurrentPartFileName := []
          mIsCurrentPartFile := false
          mFileHasBeenAnnounced := false }, []) := by
  obtain ⟨hn, hq, _, hf, hc, _⟩ := hwf
  have hh := fun q => onPartHeader_disposition q x hn hq hf
  obtain ⟨a1, a2, a3, a4, a5, a6, a7, a8, a9⟩ := p
  simp only [] at hfind
  cases segs with
  | nil => exact absurd hs.symm hc
  | cons seg segs =>
    rw [events_toPart, onMPEvents_cons, onMPEvents_cons]
    simp only [onMPEvent, hh, hx, Option.getD_none, List.map_cons, List.cons_append,
      onPartStart]
    rw [onMPEvents_cons]
    simp only [onMPEvent, onPartData, isEmpty_false hn, hfind, List.isEmpty_nil,
      Bool.false_eq_true, if_false, if_true]
    rw [onMPEvents_append, onMPEvents_field_mk x.name hn segs a1 seg]
    simp only [onMPEvents, onMPEvent, onPartEnd, List.append_nil, Bool.false_eq_true, if_false]
    rw [← hs]
    rfl

/-- The callbacks of a part that is a file. -/
theorem onMPEvents_file_part (p : FormParser) (x : FormPart) (b : List Byte)
    (segs : List (List Byte)) (hwf : x.Wf b) (hs : segs.flatten = x.content)
    (f : List Byte) (hx : x.fileName = some f) :
    p.onMPEvents (x.toPart.events segs) =
      ({ p with
          mCurrentPartName := []
          mCurrentPartFileName := []
          mIsCurrentPartFile := false
          mFileHasBeenAnnounced := true },
        FormEvent.onFileStart f :: (segs.map FormEvent.onFileData ++ [FormEvent.onFileEnd])) := by
  obtain ⟨hn, hq, _, hf, hc, _⟩ := hwf
  have hh := fun q => onPartHeader_disposition q x hn hq hf
  have hfn : f ≠ [] := by
    unfold FormPart.fileNameOk at hf
    rw [hx] at hf
    exact hf.1
  obtain ⟨a1, a2, a3, a4, a5, a6, a7, a8, a9⟩ := p
  cases segs with
  | nil => exact absurd hs.symm hc
  | cons seg segs =>
    rw [events_toPart, onMPEvents_cons, onMPEvents_cons]
    simp only [onMPEvent, hh, hx, Option.getD_some, List.map_cons, List.cons_append,
      onPartStart]
    rw [onMPEvents_cons]
    simp only [onMPEvent, onPartData, isEmpty_false hn, isEmpty_false hfn, Bool.not_false,
      Bool.false_eq_true, if_false, if_true]
    rw [onMPEvents_append, onMPEvents_file_mk x.name f hn hfn segs]
    simp only [onMPEvents, onMPEvent, onPartEnd, List.append_nil, if_true,
      List.nil_append, List.cons_append]

end FormParser

end Http

namespace Http

theorem fieldMapFrom_cons (m : StringMap) (x : FormPart) (xs : List FormPart) :
    fieldMapFrom m (x :: xs) =
      fieldMapFrom (match x.fileName with
        | none => m.set x.name x.content
        | some _ => m) xs := rfl

theorem find_fieldMapFrom_other : ∀ (parts : List FormPart) (m : StringMap) (k : List Byte),
    k ∉ parts.map FormPart.name → (fieldMapFrom m parts).find k = m.find k
  | [], _, _, _ => rfl
  | x :: xs, m, k, h => by
    have h1 : k ≠ x.name := fun e => h (by simp [e])
    have h2 : k ∉ xs.map FormPart.name := fun e => h (by simp at e ⊢; exact Or.inr e)
    rw [fieldMapFrom_cons, find_fieldMapFrom_other xs _ k h2]
    cases x.fileName with
    | none => simp [StringMap.find_set, h1]
    | some f => rfl

theorem find_fieldMapFrom_part : ∀ (parts : List FormPart) (m : StringMap) (x : FormPart),
    x ∈ parts → (parts.map FormPart.name).Nodup →
    (fieldMapFrom m parts).find x.name =
      match x.fileName with
      | none => some x.content
      | some _ => m.find x.name
  | [], _, _, h, _ => by simp at h
  | y :: ys, m, x, h, hnd => by
    rw [List.map_cons, List.nodup_cons] at hnd
    rw [fieldMapFrom_cons]
    rcases List.mem_cons.1 h with h | h
    · subst h
      rw [find_fieldMapFrom_other ys _ x.name hnd.1]
      cases x.fileName with
      | none => simp [StringMap.find_set]
      | some f => rfl
    · have hne : x.name ≠ y.name := by
        intro e
        apply hnd.1
        rw [← e]
        exact List.mem_map_of_mem _ h
      rw [find_fieldMapFrom_part ys _ x h hnd.2]
      cases x.fileName with
      | none => rfl
      | some f =>
        cases y.fileName with
        | none => simp [StringMap.find_set, hne]
        | some g => rfl

theorem noCRorLF_disposition (x : FormPart) (hn : noCRorLF x.name) (hf : x.fileNameOk) :
    noCRorLF x.disposition := by
  have c1 : noCRorLF (bytes "form-data; name=") := by decide
  have c2 : noCRorLF (bytes "; filename=") := by decide
  have c3 : (34 : Byte) ≠ 13 ∧ (34 : Byte) ≠ 10 := by decide
  unfold FormPart.fileNameOk at hf
  unfold FormPart.disposition
  cases hx : x.fileName with
  | none =>
    intro c hc
    simp only [List.mem_append, List.mem_cons, List.mem_singleton, List.not_mem_nil,
      or_false] at hc
    rcases hc with hc | hc | hc | hc
    · exact c1 c hc
    · rw [hc]; exact c3
    · exact hn c hc
    · rw [hc]; exact c3
  | some f =>
    rw [hx] at hf
    intro c hc
    simp only [List.mem_append, List.mem_cons, List.mem_singleton, List.not_mem_nil,
      or_false] at hc
    rcases hc with ((hc | hc | hc | hc) | hc) | hc | hc | hc
    · exact c1 c hc
    · rw [hc]; exact c3
    · exact hn c hc
    · rw [hc]; exact c3
    · exact c2 c hc
    · rw [hc]; exact c3
    · exact hf.2.2 c hc
    · rw [hc]; exact c3

theorem toPart_wf (b : List Byte) (x : FormPart) (h : x.Wf b) : x.toPart.Wf b := by
  obtain ⟨_, _, hn, hf, _, hc⟩ := h
  have k1 : bytes "Content-Disposition" ≠ [] := by decide
  have k2 : 33 ≤ (bytes "Content-Disposition").headD 0 := by decide
  have k3 : (bytes "Content-Disposition").headD 0 ≤ 126 := by decide
  have k4 : 58 ∉ bytes "Content-Disposition" := by decide
  have k5 : firstCRLF (bytes "Content-Disposition") = none := by decide
  refine ⟨?_, hc⟩
  intro hd hh
  simp only [FormPart.toPart, List.mem_singleton] at hh
  subst hh
  exact ⟨⟨k1, k2, k3, k4, noCRorLF_disposition x hn hf, by simp⟩, k5⟩

namespace FormParser

/-- The callbacks of the parts of a form. -/
theorem onMPEvents_parts (b : List Byte) : ∀ (parts : List FormPart)
    (segss : List (List (List Byte))) (p : FormParser),
    List.Forall₂ (fun (x : FormPart) segs => segs.flatten = x.content) parts segss →
    (∀ x ∈ parts, x.Wf b) → (parts.map FormPart.name).Nodup →
    (∀ x ∈ parts, p.mMap.find x.name = none) →
    p.mCurrentPartName = [] → p.mCurrentPartFileName = [] →
    ∃ q : FormParser,
      p.onMPEvents (partsEvents (parts.map FormPart.toPart) segss) =
          (q, fileEvents parts segss) ∧
        q.mMap = fieldMapFrom p.mMap parts ∧ q.mIsValid = p.mIsValid ∧
        q.mIncomingData = p.mIncomingData ∧ q.mKind = p.mKind ∧ q.mCurrentPartName = []
  | [], segss, p, _, _, _, _, hn, _ => by
    refine ⟨p, ?_, rfl, rfl, rfl, rfl, hn⟩
    cases segss <;> rfl
  | x :: xs, [], p, h, _, _, _, _, _ => by cases h
  | x :: xs, segs :: segss, p, h, hwf, hnd, hfind, hn, hf => by
    rw [List.forall₂_cons] at h
    rw [List.map_cons, List.nodup_cons] at hnd
    have hx := hwf x (by simp)
    have hxs : ∀ y ∈ xs, y.name ≠ x.name := by
      intro y hy e
      apply hnd.1
      rw [← e]
      exact List.mem_map_of_mem _ hy
    cases hfx : x.fileName with
    | none =>
      have e := onMPEvents_field_part p x b segs hx h.1 (hfind x (by simp)) hfx
      obtain ⟨q, hq, q1, q2, q3, q4, q5⟩ := onMPEvents_parts b xs segss
        { p with
          mMap := p.mMap.set x.name x.content
          mCurrentPartName := []
          mCurrentPartFileName := []
          mIsCurrentPartFile := false
          mFileHasBeenAnnounced := false }
        h.2 (fun y hy => hwf y (by simp [hy])) hnd.2
        (fun y hy => by
          simp only [StringMap.find_set, if_neg (hxs y hy)]
          exact hfind y (by simp [hy]))
        rfl rfl
      refine ⟨q, ?_, ?_, q2, q3, q4, q5⟩
      · show p.onMPEvents (x.toPart.events segs ++ partsEvents (xs.map FormPart.toPart) segss) = _
        rw [onMPEvents_append, e]
        simp only [hq, fileEvents, hfx, List.nil_append]
      · rw [q1, fieldMapFrom_cons, hfx]
    | some f =>
      have e := onMPEvents_file_part p x b segs hx h.1 f hfx
      obtain ⟨q, hq, q1, q2, q3, q4, q5⟩ := onMPEvents_parts b xs segss
        { p with
          mCurrentPartName := []
          mCurrentPartFileName := []
          mIsCurrentPartFile := false
          mFileHasBeenAnnounced := true }
        h.2 (fun y hy => hwf y (by simp [hy])) hnd.2
        (fun y hy => hfind y (by simp [hy])) rfl rfl
      refine ⟨q, ?_, ?_, q2, q3, q4, q5⟩
      · show p.onMPEvents (x.toPart.events segs ++ partsEvents (xs.map FormPart.toPart) segss) = _
        rw [onMPEvents_append, e]
        simp only [hq, fileEvents, hfx, List.cons_append, List.append_assoc,
          List.singleton_append, List.nil_append]
      · rw [q1, fieldMapFrom_cons, hfx]

/-- A multipart form given in one call to the parser of a request. -/
theorem parse_multipart (b : List Byte) (parts : List FormPart) (r : IncomingRequest)
    (kind0 : Kind) (hm : r.mMethod = bytes "POST" ∨ r.mMethod = bytes "PUT")
    (hct : r.mContentType = bytes "multipart/form-data; boundary=" ++ b)
    (hb : BoundaryOk b) (hwf : ∀ x ∈ parts, x.Wf b)
    (hnd : (parts.map FormPart.name).Nodup)
    (hlen : (encodeMultipart b (parts.map FormPart.toPart)).length + 3 < 2 ^ 64) :
    ∃ segss : List (List (List Byte)),
      List.Forall₂ (fun (x : FormPart) segs => segs.flatten = x.content) parts segss ∧
        ((FormParser.new r kind0).parse
            (encodeMultipart b (parts.map FormPart.toPart))).2 = fileEvents parts segss ∧
        ((FormParser.new r kind0).parse
            (encodeMultipart b (parts.map FormPart.toPart))).1.mMap = fieldMap parts ∧
        (((FormParser.new r kind0).parse
            (encodeMultipart b (parts.map FormPart.toPart))).1.finish).2 = true := by
  have hct2 : ∃ t, r.mContentType = bytes "multipart/form-data" ++ t := by
    refine ⟨bytes "; boundary=" ++ b, ?_⟩
    rw [hct, ← List.append_assoc]
    congr 1
  obtain ⟨segss, hseg, hev, _, _⟩ := MultipartParser.parse_parts b (parts.map FormPart.toPart) hb
    (fun part hp => by
      obtain ⟨x, hx, rfl⟩ := List.mem_map.1 hp
      exact toPart_wf b x (hwf x hx)) hlen
  have hseg2 : List.Forall₂ (fun (x : FormPart) segs => segs.flatten = x.content) parts
      segss := by
    rw [List.forall₂_map_left_iff] at hseg
    exact hseg
  obtain ⟨p1, hp1⟩ : ∃ p1 : FormParser, p1 =
      { init Kind.fpkMultipart with
        mMultipartParser := some ((MultipartParser.new r.mContentType).parse
          (encodeMultipart b (parts.map FormPart.toPart))).1 } := ⟨_, rfl⟩
  obtain ⟨q, hq, q1, q2, q3, q4, q5⟩ := onMPEvents_parts b parts segss p1 hseg2 hwf hnd
    (fun x _ => by rw [hp1]; rfl) (by rw [hp1]; rfl) (by rw [hp1]; rfl)
  have e : (FormParser.new r kind0).parse (encodeMultipart b (parts.map FormPart.toPart)) =
      (q, fileEvents parts segss) := by
    rw [new_multipart r kind0 hm hct2]
    unfold parse
    simp only [init, Bool.not_true, Bool.false_eq_true, if_false]
    rw [hct, hev, onMPEvents_cons]
    have e0 : onMPEvent p1 MPEvent.onPartEnd = (p1, []) := by
      rw [hp1]
      rfl
    rw [hct, init] at hp1
    rw [← hp1, e0, onMPEvents_append, hq]
    simp only [onMPEvents, onMPEvent, onPartData, q5, List.isEmpty_nil, if_true,
      List.nil_append, List.append_nil]
  rw [e]
  refine ⟨segss, hseg2, rfl, ?_, ?_⟩
  · rw [q1, hp1]
    rfl
  · unfold finish
    rw [q4, hp1]
    simp only [init, q2, q3, hp1]
    rfl

end FormParser

end Http

namespace Http

/-! ## Serialization of responses -/

namespace Utils

theorem printf_some (formatted : List Byte) (h : formatted.length < 2 ^ 31) :
    printf formatted = some formatted := by
  unfold printf appendVPrintf
  rw [if_neg (by omega)]
  by_cases h2 : formatted.length < 2048
  · rw [if_pos h2, List.take_take, List.take_of_length_le (by omega)]
    rfl
  · rw [if_neg h2, List.take_of_length_le (by omega)]
    rfl

theorem cstr_eq (s : List Byte) (h : 0 ∉ s) : cstr s = s := by
  unfold cstr
  rw [List.takeWhile_eq_self_iff]
  intro x hx
  simp only [ne_eq, decide_eq_true_eq]
  intro e
  exact h (e ▸ hx)

theorem decOfInt_eq (n : Int) : decOfInt n = decimalInt n := by
  unfold decOfInt decimalInt decOfNat decimal
  by_cases h : n < 0
  · rw [if_pos h, if_pos h]
  · rw [if_neg h, if_neg h]
    have : n.toNat = n.natAbs := by omega
    rw [this]

end Utils

theorem statusFormat_eq (c : Int) (r : List Byte) (hr : 0 ∉ r) :
    statusFormat c r = statusLine c r ++ crlf := by
  unfold statusFormat statusLine
  rw [Utils.decOfInt_eq, Utils.cstr_eq r hr]
  simp

theorem outgoing_appendHeaders : ∀ (h : StringMap) (res : List Byte),
    OutgoingResponse.appendHeaders res h = res ++ headerLines h
  | [], res => by simp [OutgoingResponse.appendHeaders, headerLines]
  | x :: h, res => by
    have e1 : bytes ": " = [58, 32] := by decide
    have e2 : bytes "\r\n" = crlf := by decide
    rw [OutgoingResponse.appendHeaders, outgoing_appendHeaders h, e1, e2]
    simp [headerLines]

theorem simple_appendHeaders : ∀ (h : StringMap) (res : List Byte),
    (∀ x ∈ h, 0 ∉ x.1 ∧ 0 ∉ x.2 ∧ x.1.length + x.2.length + 4 < 2 ^ 31) →
    SimpleOutgoingResponse.appendHeaders res h = some (res ++ headerLines h)
  | [], res, _ => by simp [SimpleOutgoingResponse.appendHeaders, headerLines]
  | x :: h, res, hh => by
    have e1 : bytes ": " = [58, 32] := by decide
    have e2 : bytes "\r\n" = crlf := by decide
    obtain ⟨h1, h2, h3⟩ := hh x (by simp)
    have hp := Utils.printf_some (x.1 ++ [58, 32] ++ x.2 ++ crlf)
      (by simp [crlf]; omega)
    rw [SimpleOutgoingResponse.appendHeaders, Utils.cstr_eq _ h1, Utils.cstr_eq _ h2, e1, e2, hp]
    simp only []
    rw [simple_appendHeaders h _ (fun y hy => hh y (by simp [hy]))]
    simp [headerLines]

/-- The function `SimpleOutgoingResponse::serialize` with a map of headers. -/
theorem simple_serialize (c : Int) (r : List Byte) (h : StringMap) (body : List Byte)
    (hr : 0 ∉ r) (hlen : (statusLine c r).length + 2 < 2 ^ 31)
    (hh : ∀ x ∈ h, 0 ∉ x.1 ∧ 0 ∉ x.2 ∧ x.1.length + x.2.length + 4 < 2 ^ 31) :
    SimpleOutgoingResponse.serialize c r h body =
      some (statusLine c r ++ crlf ++ headerLines h ++ crlf ++ body) := by
  have e2 : bytes "\r\n" = crlf := by decide
  unfold SimpleOutgoingResponse.serialize
  rw [statusFormat_eq c r hr, Utils.printf_some _ (by simp [crlf]; omega)]
  simp only []
  rw [simple_appendHeaders h _ hh, e2]

theorem outgoing_serialize (m : Message) (c : Int) (r : List Byte) (hr : 0 ∉ r)
    (hlen : (statusLine c r).length + 2 < 2 ^ 31) :
    OutgoingResponse.serialize m c r =
      some (statusLine c r ++ crlf ++ headerLines m.mHeaders ++ crlf) := by
  have e2 : bytes "\r\n" = crlf := by decide
  unfold OutgoingResponse.serialize
  rw [statusFormat_eq c r hr, Utils.printf_some _ (by simp [crlf]; omega)]
  simp only []
  rw [outgoing_appendHeaders, e2]

theorem decimal_length (n : Nat) (h : n < 2 ^ 64) : (decimal n).length ≤ 20 := by
  have key : ∀ (fuel n : Nat) (acc : List Byte) (k : Nat), n < 10 ^ k → 0 < k →
      (decimalAux fuel n acc).length ≤ acc.length + k := by
    intro fuel
    induction fuel with
    | zero => intro n acc k _ _; simp [decimalAux]
    | succ f ih =>
      intro n acc k hn hk
      unfold decimalAux
      by_cases h1 : n < 10
      · rw [if_pos h1]
        simp only [List.length_cons]
        omega
      · rw [if_neg h1]
        obtain ⟨j, rfl⟩ : ∃ j, k = j + 1 := ⟨k - 1, by omega⟩
        have hj : 0 < j := by
          rcases Nat.eq_zero_or_pos j with e | e
          · subst e
            simp at hn
            omega
          · exact e
        have := ih (n / 10) ((48 + n % 10) :: acc) j
          (by rw [Nat.div_lt_iff_lt_mul (by decide)]; rw [pow_succ] at hn; exact hn) hj
        simp only [List.length_cons] at this
        omega
  have := key (n + 1) n [] 20 (by norm_num at h ⊢; omega) (by decide)
  simpa [decimal] using this

theorem decimal_no_nul (n : Nat) : 0 ∉ decimal n := by
  intro h
  have := (decimalAux_digits (n + 1) n 0 h).1
  simp only [Byte] at this
  omega

end Http

namespace Http

theorem noCRorLF_decimal (n : Nat) : noCRorLF (decimal n) := by
  intro c hc
  have := decimalAux_digits (n + 1) n c hc
  simp only [Byte] at *
  omega

theorem noCRorLF_statusLine (c : Int) (r : List Byte) (hr : noCRorLF r) :
    noCRorLF (statusLine c r) := by
  have c1 : noCRorLF (bytes "HTTP/1.1 ") := by decide
  have c2 : (45 : Byte) ≠ 13 ∧ (45 : Byte) ≠ 10 := by decide
  have c3 : (32 : Byte) ≠ 13 ∧ (32 : Byte) ≠ 10 := by decide
  intro x hx
  unfold statusLine decimalInt at hx
  simp only [List.mem_append, List.mem_cons] at hx
  rcases hx with (hx | hx) | hx | hx
  · exact c1 x hx
  · split at hx
    · rcases List.mem_cons.1 hx with e | e
      · rw [e]; exact c2
      · exact noCRorLF_decimal _ x e
    · exact noCRorLF_decimal _ x hx
  · rw [hx]; exact c3
  · exact hr x hx

theorem statusLine_ne_nil (c : Int) (r : List Byte) : statusLine c r ≠ [] := by
  have : bytes "HTTP/1.1 " = 72 :: (bytes "HTTP/1.1 ").tail := by decide
  unfold statusLine
  rw [this]
  simp

/-- The response with the `Content-Length` header only is the message of the
status line, the header and the body. -/
theorem serializeBody_eq (c : Int) (r B : List Byte) (hr : 0 ∉ r)
    (hlen : (statusLine c r).length + 2 < 2 ^ 31) (hB : B.length < 2 ^ 64) :
    SimpleOutgoingResponse.serializeBody c r B =
      some (encodeMessage (statusLine c r)
        [Header.mk (bytes "Content-Length") (decimal B.length) []] B) := by
  have k0 : 0 ∉ bytes "Content-Length" := by decide
  have kl : (bytes "Content-Length").length = 14 := by decide
  have dl := decimal_length B.length hB
  unfold SimpleOutgoingResponse.serializeBody
  rw [simple_serialize c r _ B hr hlen (by
    intro x hx
    simp only [StringMap.set, List.mem_singleton] at hx
    subst hx
    refine ⟨k0, decimal_no_nul _, ?_⟩
    show (bytes "Content-Length").length + (decimal B.length).length + 4 < 2 ^ 31
    rw [kl]
    omega)]
  simp [encodeMessage, encodeBlock, encodeHeaders, Header.encode, headerLines, StringMap.set,
    Utils.decOfNat, decimal]

/-- The response with the two headers. -/
theorem serializeType_eq (c : Int) (r ct B : List Byte) (hr : 0 ∉ r) (hct : 0 ∉ ct)
    (hlen : (statusLine c r).length + 2 < 2 ^ 31) (hlen2 : ct.length + 16 < 2 ^ 31)
    (hB : B.length < 2 ^ 64) :
    SimpleOutgoingResponse.serializeType c r ct B =
      some (statusLine c r ++ crlf ++ (bytes "Content-Length: " ++ decimal B.length ++ crlf) ++
        (bytes "Content-Type: " ++ ct ++ crlf) ++ crlf ++ B) := by
  have k0 : 0 ∉ bytes "Content-Length" := by decide
  have k1 : 0 ∉ bytes "Content-Type" := by decide
  have kl : (bytes "Content-Length").length = 14 := by decide
  have kt : (bytes "Content-Type").length = 12 := by decide
  have ne : ¬ bytes "Content-Length" = bytes "Content-Type" := by decide
  have lt : lexLt (bytes "Content-Length") (bytes "Content-Type") = true := by decide
  have e1 : bytes "Content-Length: " = bytes "Content-Length" ++ [58, 32] := by decide
  have e2 : bytes "Content-Type: " = bytes "Content-Type" ++ [58, 32] := by decide
  have dl := decimal_length B.length hB
  have hm : (StringMap.set [] (bytes "Content-Type") ct).set (bytes "Content-Length")
      (Utils.decOfNat B.length) =
      [(bytes "Content-Length", decimal B.length), (bytes "Content-Type", ct)] := by
    simp only [StringMap.set, if_neg ne, lt, if_true]
    rfl
  unfold SimpleOutgoingResponse.serializeType
  rw [hm, simple_serialize c r _ B hr hlen (by
    intro x hx
    simp only [List.mem_cons, List.mem_singleton, List.not_mem_nil, or_false] at hx
    rcases hx with hx | hx
    · subst hx
      refine ⟨k0, decimal_no_nul _, ?_⟩
      show (bytes "Content-Length").length + (decimal B.length).length + 4 < 2 ^ 31
      rw [kl]
      omega
    · subst hx
      refine ⟨k1, hct, ?_⟩
      show (bytes "Content-Type").length + ct.length + 4 < 2 ^ 31
      rw [kt]
      omega)]
  simp [headerLines, e1, e2]

/-- The message parser on the response with the `Content-Length` header. -/
theorem parse_serialized (c : Int) (r B : List Byte) (hr : noCRorLF r)
    (hlen : (encodeMessage (statusLine c r)
      [Header.mk (bytes "Content-Length") (decimal B.length) []] B).length < npos) :
    (MessageParser.new.parse (encodeMessage (statusLine c r)
        [Header.mk (bytes "Content-Length") (decimal B.length) []] B)).2 =
        (Event.onFirstLine (statusLine c r) ::
          Event.onHeaderLine (bytes "Content-Length") (decimal B.length) ::
          Event.onHeadersFinished ::
            ((if B = [] then [] else [Event.onBodyData B]) ++ [Event.onBodyFinished]),
          (encodeMessage (statusLine c r)
            [Header.mk (bytes "Content-Length") (decimal B.length) []] B).length) ∧
      (MessageParser.new.parse (encodeMessage (statusLine c r)
        [Header.mk (bytes "Content-Length") (decimal B.length) []] B)).1.mHasHadError =
        false := by
  have k1 : bytes "Content-Length" ≠ [] := by decide
  have k2 : 33 ≤ (bytes "Content-Length").headD 0 := by decide
  have k3 : (bytes "Content-Length").headD 0 ≤ 126 := by decide
  have k4 : 58 ∉ bytes "Content-Length" := by decide
  have k5 : firstCRLF (bytes "Content-Length") = none := by decide
  have k6 : Utils.strToLower (bytes "Content-Length") = bytes "content-length" := by decide
  have k7 : ¬ Utils.strToLower (bytes "Content-Length") = bytes "transfer-encoding" := by decide
  have hwf : ∀ h ∈ [Header.mk (bytes "Content-Length") (decimal B.length) []], h.Wf := by
    intro h hh
    simp only [List.mem_singleton] at hh
    subst hh
    exact ⟨⟨k1, k2, k3, k4, noCRorLF_decimal _, by simp⟩, k5⟩
  have hfr : IdentityFraming [Header.mk (bytes "Content-Length") (decimal B.length) []] B := by
    refine ⟨?_, Or.inr ?_⟩
    · intro h hh
      simp only [List.mem_singleton] at hh
      subst hh
      simp [Header.isTransferEncoding, k7]
    · simp [Header.isContentLength, k6, Header.fullValue]
  have h := MessageParser.parse_identity_message (statusLine c r)
    [Header.mk (bytes "Content-Length") (decimal B.length) []] B [] (statusLine_ne_nil c r)
    (firstCRLF_of_noCRorLF _ (noCRorLF_statusLine c r hr)) hwf hfr
    (by simpa using hlen)
  simp only [List.append_nil] at h
  refine ⟨?_, h.2.2⟩
  rw [h.1]
  simp [expectedEvents, Header.event, Header.fullValue]

end Http

namespace Http

/-- What `stringToIntegerLoop` accepts is a string of digits whose value fits. -/
theorem stringToIntegerLoop_some : ∀ (ds : List Byte) (r n : Nat), r < 2 ^ 64 →
    Utils.stringToIntegerLoop ds r = some n →
    (∀ c ∈ ds, 48 ≤ c ∧ c ≤ 57) ∧ decValueFrom r ds = n ∧ n < 2 ^ 64
  | [], r, n, hr, h => by
    simp only [Utils.stringToIntegerLoop, Option.some.injEq] at h
    subst h
    exact ⟨by simp, by simp [decValueFrom], hr⟩
  | c :: ds, r, n, hr, h => by
    have h64 := two_pow_64
    have hnp := npos_eq
    unfold Utils.stringToIntegerLoop at h
    split_ifs at h with e1 e2 e3
    have hr2 : r * 10 + (c - 48) < 2 ^ 64 := by
      simp only [Byte] at *
      omega
    obtain ⟨i1, i2, i3⟩ := stringToIntegerLoop_some ds (r * 10 + (c - 48)) n hr2 h
    refine ⟨?_, ?_, i3⟩
    · intro x hx
      rcases List.mem_cons.1 hx with e | e
      · subst e
        simp only [Byte] at *
        omega
      · exact i1 x e
    · simpa [decValueFrom] using i2

/-- The strings `stringToInteger` accepts. -/
theorem stringToInteger_some_iff (s : List Byte) (n : Nat) :
    Utils.stringToInteger s = some n ↔
      ∃ ds, (s = ds ∨ s = 43 :: ds) ∧ (∀ c ∈ ds, 48 ≤ c ∧ c ≤ 57) ∧
        decValueFrom 0 ds = n ∧ n < 2 ^ 64 := by
  constructor
  · intro h
    unfold Utils.stringToInteger at h
    split at h
    · rename_i rest
      exact ⟨rest, Or.inr rfl, stringToIntegerLoop_some rest 0 n (by norm_num) h⟩
    · exact absurd h (by simp)
    · exact ⟨s, Or.inl rfl, stringToIntegerLoop_some s 0 n (by norm_num) h⟩
  · rintro ⟨ds, hs, hd, hv, hn⟩
    have hl := stringToIntegerLoop_digits ds 0 hd (by rw [hv]; exact hn)
    rw [hv] at hl
    rcases hs with hs | hs
    · subst hs
      unfold Utils.stringToInteger
      split
      · rename_i rest
        have := hd 43 (List.mem_cons_self _ _)
        exact absurd this (by decide)
      · rename_i rest
        have := hd 45 (List.mem_cons_self _ _)
        exact absurd this (by decide)
      · exact hl
    · subst hs
      exact hl

end Http

namespace Http

theorem orderRun_headers_map : ∀ (hs : List Header) (rest : List MPEvent),
    orderRun PartPhase.headers
        (hs.map (fun h => MPEvent.onPartHeader h.key h.fullValue) ++ rest) =
      orderRun PartPhase.headers rest
  | [], rest => rfl
  | h :: hs, rest => by
    simp only [List.map_cons, List.cons_append, orderRun, orderStep]
    exact orderRun_headers_map hs rest

theorem orderRun_data_map : ∀ (segs : List (List Byte)) (rest : List MPEvent),
    orderRun PartPhase.data (segs.map MPEvent.onPartData ++ rest) =
      orderRun PartPhase.data rest
  | [], rest => rfl
  | s :: segs, rest => by
    simp only [List.map_cons, List.cons_append, orderRun, orderStep]
    exact orderRun_data_map segs rest

/-- The callbacks of one part are in order. -/
theorem orderRun_part (p : Part) (segs : List (List Byte)) (rest : List MPEvent) :
    orderRun PartPhase.outside (p.events segs ++ rest) = orderRun PartPhase.outside rest := by
  unfold Part.events
  simp only [List.cons_append, List.append_assoc, orderRun, orderStep, List.append_eq]
  rw [orderRun_headers_map]
  cases segs with
  | nil =>
    simp only [List.map_nil, List.nil_append, List.cons_append, orderRun, orderStep,
      List.append_eq]
  | cons s segs =>
    simp only [List.map_cons, List.cons_append, orderRun, orderStep, List.append_eq]
    rw [orderRun_data_map]
    simp only [List.cons_append, List.nil_append, orderRun, orderStep, List.append_eq]

/-- The callbacks of a list of parts are in order. -/
theorem orderRun_partsEvents : ∀ (ps : List Part) (segss : List (List (List Byte)))
    (rest : List MPEvent),
    orderRun PartPhase.outside (partsEvents ps segss ++ rest) =
      orderRun PartPhase.outside rest
  | [], _, rest => by simp [partsEvents]
  | _ :: _, [], rest => by simp [partsEvents]
  | p :: ps, segs :: segss, rest => by
    simp only [partsEvents, List.append_assoc]
    rw [orderRun_part, orderRun_partsEvents ps segss rest]

theorem countPartStart_append : ∀ (a b : List MPEvent),
    countPartStart (a ++ b) = countPartStart a + countPartStart b
  | [], b => by simp [countPartStart]
  | e :: a, b => by
    have ih := countPartStart_append a b
    cases e <;> simp only [List.cons_append, countPartStart, List.append_eq, ih]
    omega

theorem countPartStart_headers_map : ∀ (hs : List Header),
    countPartStart (hs.map (fun h => MPEvent.onPartHeader h.key h.fullValue)) = 0
  | [] => rfl
  | h :: hs => by
    simp only [List.map_cons, countPartStart]
    exact countPartStart_headers_map hs

theorem countPartStart_data_map : ∀ (segs : List (List Byte)),
    countPartStart (segs.map MPEvent.onPartData) = 0
  | [] => rfl
  | s :: segs => by
    simp only [List.map_cons, countPartStart]
    exact countPartStart_data_map segs

theorem countPartStart_part (p : Part) (segs : List (List Byte)) :
    countPartStart (p.events segs) = 1 := by
  unfold Part.events
  simp only [countPartStart, countPartStart_append, countPartStart_headers_map,
    countPartStart_data_map, List.append_eq]

/-- One `onPartStart` for each part. -/
theorem countPartStart_partsEvents {R : Part → List (List Byte) → Prop} :
    ∀ (ps : List Part) (segss : List (List (List Byte))), List.Forall₂ R ps segss →
    countPartStart (partsEvents ps segss) = ps.length
  | [], _, _ => by simp [partsEvents, countPartStart]
  | p :: ps, [], h => by cases h
  | p :: ps, segs :: segss, h => by
    cases h with
    | cons _ h2 =>
      have ih := countPartStart_partsEvents ps segss h2
      simp only [partsEvents, countPartStart_append, countPartStart_part, List.length_cons, ih]
      omega

namespace IncomingRequest

/-- A value that does not start with the six chars `Basic ` leaves the auth
members as they were. -/
theorem addHeader_other_scheme (r : IncomingRequest) (k v : List Byte)
    (hv : v.take 6 ≠ bytes "Basic ") :
    (r.addHeader k v).mHasAuth = r.mHasAuth ∧
      (r.addHeader k v).mAuthUsername = r.mAuthUsername ∧
      (r.addHeader k v).mAuthPassword = r.mAuthPassword := by
  have h0 : 0 ∉ bytes "Basic " := by decide
  have hl : (bytes "Basic ").length = 6 := by decide
  have hc : ¬ (Utils.noCaseCompare k (bytes "Authorization") = 0 ∧
      strncmpEq v (bytes "Basic ") 6 = true) := by
    rintro ⟨-, h⟩
    obtain ⟨t, ht⟩ := strncmpEq_prefix (bytes "Basic ") v h0 (by rw [hl]; exact h)
    apply hv
    rw [ht, ← hl, List.take_left]
  unfold addHeader
  simp only [if_neg hc]
  split_ifs <;> exact ⟨rfl, rfl, rfl⟩

end IncomingRequest

end Http

namespace Http

/-! ## Searching a prefix of a string -/

theorem findSub_append_some : ∀ (n x y : List Byte) (i : Nat), findSub n x = some i →
    findSub n (x ++ y) = some i
  | n, [], y, i, h => by
    unfold findSub at h
    split at h
    · rename_i hn
      simp only [Option.some.injEq] at h
      subst h
      subst hn
      exact findSub_prefix [] y
    · cases h
  | n, c :: r, y, i, h => by
    have hle := findSub_some_le n (c :: r) i h
    unfold findSub at h
    simp only [List.cons_append]
    unfold findSub
    by_cases hp : n.isPrefixOf (c :: r) = true
    · rw [if_pos hp] at h
      have hp2 : n.isPrefixOf (c :: (r ++ y)) = true := by
        rw [List.isPrefixOf_iff_prefix] at hp ⊢
        exact hp.trans (by simp)
      rw [if_pos hp2]
      exact h
    · rw [if_neg hp] at h
      have hp2 : ¬ n.isPrefixOf (c :: (r ++ y)) = true := by
        intro hq
        apply hp
        rw [List.isPrefixOf_iff_prefix] at hq ⊢
        exact List.prefix_of_prefix_length_le hq (by simp) (by omega)
      rw [if_neg hp2]
      cases hf : findSub n r with
      | none => simp [hf] at h
      | some j =>
        simp only [hf, Option.map_some', Option.some.injEq] at h
        rw [findSub_append_some n r y j hf]
        simpa using h

theorem drop_append_ge (x y : List Byte) (m : Nat) (h : x.length ≤ m) :
    (x ++ y).drop m = y.drop (m - x.length) := by
  rw [List.drop_append_eq_append_drop, List.drop_of_length_le h, List.nil_append]

theorem take_append_ge (x y : List Byte) (m : Nat) (h : x.length ≤ m) :
    (x ++ y).take m = x ++ y.take (m - x.length) := by
  rw [List.take_append_eq_append_take, List.take_of_length_le h]

theorem take_three (pre n t : List Byte) (k : Nat) (h : pre.length + n.length ≤ k) :
    (pre ++ (n ++ t)).take k = pre ++ n ++ t.take (k - pre.length - n.length) := by
  rw [← List.append_assoc, List.take_append_eq_append_take,
    List.take_of_length_le (by simp only [List.length_append]; omega)]
  simp only [List.length_append]
  congr 2
  omega

theorem findSub_take_some (n s : List Byte) (k i : Nat) (h : findSub n (s.take k) = some i) :
    findSub n s = some i := by
  have := findSub_append_some n (s.take k) (s.drop k) i h
  rwa [List.take_append_drop] at this

theorem findSub_take (n s : List Byte) (k i : Nat) (h : findSub n s = some i)
    (hk : i + n.length ≤ k) : findSub n (s.take k) = some i := by
  cases hf : findSub n (s.take k) with
  | some j =>
    have := findSub_take_some n s k j hf
    rw [h] at this
    exact this.symm
  | none =>
    exfalso
    obtain ⟨t, ht⟩ := findSub_some n s i h
    have hle := findSub_some_le n s i h
    refine findSub_none_no_occurrence n (s.take k) (s.take i) (t.take (k - i - n.length)) hf ?_
    have e : s = s.take i ++ (n ++ t) := by
      rw [← ht, List.take_append_drop]
    have hi : (s.take i).length = i := by
      rw [List.length_take]; omega
    conv_lhs => rw [e]
    rw [take_three _ _ _ _ (by omega), hi]

theorem findSub_take_none (n s : List Byte) (k i : Nat) (h : findSub n s = some i)
    (hk : k < i + n.length) : findSub n (s.take k) = none := by
  cases hf : findSub n (s.take k) with
  | none => rfl
  | some j =>
    exfalso
    have h1 := findSub_take_some n s k j hf
    have h2 := findSub_some_le n _ j hf
    rw [h] at h1
    simp only [Option.some.injEq] at h1
    subst h1
    rw [List.length_take] at h2
    omega

theorem firstCRLF_take_some (s : List Byte) (k i : Nat) (h : firstCRLF (s.take k) = some i) :
    firstCRLF s = some i := by
  have := firstCRLF_append_some (s.take k) (s.drop k) i h
  rwa [List.take_append_drop] at this

theorem firstCRLF_take (s : List Byte) (k i : Nat) (h : firstCRLF s = some i)
    (hk : i + 2 ≤ k) : firstCRLF (s.take k) = some i := by
  cases hf : firstCRLF (s.take k) with
  | some j =>
    have := firstCRLF_take_some s k j hf
    rw [h] at this
    exact this.symm
  | none =>
    exfalso
    have hle := firstCRLF_some_le s i h
    have h2 := firstCRLF_append_none_le (s.take k) (s.drop k) i hf
      (by rw [List.take_append_drop]; exact h)
    rw [List.length_take] at h2
    omega

theorem firstCRLF_take_none (s : List Byte) (k i : Nat) (h : firstCRLF s = some i)
    (hk : k < i + 2) : firstCRLF (s.take k) = none := by
  cases hf : firstCRLF (s.take k) with
  | none => rfl
  | some j =>
    exfalso
    have h1 := firstCRLF_take_some s k j hf
    have h2 := firstCRLF_some_le _ j hf
    rw [h] at h1
    simp only [Option.some.injEq] at h1
    subst h1
    rw [List.length_take] at h2
    omega

theorem findCRLF_take (s : List Byte) (k pos le : Nat) (h : findCRLF s pos = some le)
    (hk : le + 2 ≤ k) : findCRLF (s.take k) pos = some le := by
  obtain ⟨i, hi, rfl⟩ := findCRLF_some h
  unfold findCRLF
  rw [List.drop_take, firstCRLF_take _ _ i hi (by omega)]
  rfl

theorem findCRLF_take_none (s : List Byte) (k pos le : Nat) (h : findCRLF s pos = some le)
    (hk : k < le + 2) : findCRLF (s.take k) pos = none := by
  obtain ⟨i, hi, rfl⟩ := findCRLF_some h
  unfold findCRLF
  rw [List.drop_take, firstCRLF_take_none _ _ i hi (by omega)]
  rfl

end Http

namespace Http

namespace StreamPos

/-! ## The places of a multipart stream -/

theorem Trans.stay (b : List Byte) (c : StreamPos) (n : Nat) : Trans b c n c n [] :=
  ⟨⟨rfl, fun _ => rfl, Nat.le_refl _⟩, fun _ h => h⟩

theorem Trans.comp {b : List Byte} {c1 c2 c3 : StreamPos} {n1 n2 n3 : Nat}
    {e1 e2 : List MPEvent} (h1 : Trans b c1 n1 c2 n2 e1) (h2 : Trans b c2 n2 c3 n3 e2) :
    Trans b c1 n1 c3 n3 (e1 ++ e2) := by
  refine ⟨⟨h2.1.1.trans h1.1.1, fun x => (h2.1.2.1 x).trans (h1.1.2.1 x),
    Nat.le_trans h2.1.2.2 h1.1.2.2⟩, ?_⟩
  intro evs h
  rw [List.append_assoc]
  exact h1.2 _ (h2.2 _ h)

theorem Step.of_holds {b : List Byte} {c : StreamPos} {n : Nat} {p : MultipartParser}
    (h : Holds b c n p) : Step b c n p [] :=
  ⟨c, n, h, Trans.stay b c n⟩

theorem Step.of_trans {b : List Byte} {c c1 : StreamPos} {n n1 : Nat} {p : MultipartParser}
    {e0 e1 : List MPEvent} (h1 : Trans b c n c1 n1 e0) (h2 : Step b c1 n1 p e1) :
    Step b c n p (e0 ++ e1) := by
  obtain ⟨c2, n2, hh, ht⟩ := h2
  exact ⟨c2, n2, hh, h1.comp ht⟩

/-- A stretch of the body is reported. -/
theorem trans_data (b d : List Byte) (ps : List Part) (m k : Nat) (hk : k ≤ d.length)
    (hm : k ≤ m) (hpos : 0 < k) :
    Trans b (data d ps) m (data (d.drop k) ps) (m - k) [MPEvent.onPartData (d.take k)] := by
  refine ⟨⟨?_, ?_, by simp [rest, encodeParts, crlf]; try omega⟩, ?_⟩
  · have e : d ++ boundaryMark b ++ encodeParts b ps =
        d.take k ++ (d.drop k ++ boundaryMark b ++ encodeParts b ps) := by
      simp only [← List.append_assoc, List.take_append_drop]
    have hl : (d.take k).length = k := by rw [List.length_take]; omega
    simp only [rest]
    rw [e, drop_append_ge (d.take k) _ m (by omega), hl]
  · intro x
    have hl : (d.drop k).length = d.length - k := List.length_drop k d
    have e1 : (d.length - k + (boundaryMark b).length ≤ m - k + x) ↔
        (d.length + (boundaryMark b).length ≤ m + x) := by omega
    have e2 : m - k + x - (d.length - k + (boundaryMark b).length) =
        m + x - (d.length + (boundaryMark b).length) := by omega
    simp only [headerCut, hl, e1, e2]
  · rintro evs ⟨segs, segss, h1, h2, h3, h4⟩
    refine ⟨d.take k :: segs, segss, ?_, ?_, h3, ?_⟩
    · simp only [List.flatten_cons, h1, List.take_append_drop]
    · intro s hs
      rcases List.mem_cons.1 hs with e | e
      · rw [e]
        intro hnil
        have := congrArg List.length hnil
        rw [List.length_take] at this
        simp only [List.length_nil] at this
        omega
      · exact h2 s e
    · rw [h4]
      rfl

/-- A boundary line that is followed by a part. -/
theorem trans_boundary (b : List Byte) (q : Part) (ps : List Part) (m : Nat)
    (hm : (boundaryMark b).length + 2 ≤ m) :
    Trans b (data [] (q :: ps)) m (headers q ps) (m - ((boundaryMark b).length + 2))
      [MPEvent.onPartEnd, MPEvent.onPartStart] := by
  refine ⟨⟨?_, ?_, by simp [rest, encodeParts, crlf]; try omega⟩, ?_⟩
  · have e : [] ++ boundaryMark b ++ encodeParts b (q :: ps) =
        (boundaryMark b ++ crlf) ++
          (encodeBlock q.headers ++ (q.data ++ boundaryMark b ++ encodeParts b ps)) := by
      simp [encodeParts]
    have hl : (boundaryMark b ++ crlf).length = (boundaryMark b).length + 2 := by
      simp [crlf]
    simp only [rest]
    rw [e, drop_append_ge (boundaryMark b ++ crlf) _ m (by omega), hl]
  · intro x
    have e0 : (([] : List Byte).length + (boundaryMark b).length ≤ m + x) = True := by
      simp only [List.length_nil, eq_iff_iff, iff_true]; omega
    have e1 : (0 < m - ((boundaryMark b).length + 2) + x) ↔
        (2 < m + x - (([] : List Byte).length + (boundaryMark b).length)) := by
      simp only [List.length_nil]; omega
    have e2 : (m - ((boundaryMark b).length + 2) + x < (encodeBlock q.headers).length) ↔
        (m + x - (([] : List Byte).length + (boundaryMark b).length) <
          2 + (encodeBlock q.headers).length) := by
      simp only [List.length_nil]; omega
    have e3 : ((encodeBlock q.headers).length + q.data.length + (boundaryMark b).length ≤
        m - ((boundaryMark b).length + 2) + x) ↔
        (2 + (encodeBlock q.headers).length + q.data.length + (boundaryMark b).length ≤
          m + x - (([] : List Byte).length + (boundaryMark b).length)) := by
      simp only [List.length_nil]; omega
    have e4 : m - ((boundaryMark b).length + 2) + x -
        ((encodeBlock q.headers).length + q.data.length + (boundaryMark b).length) =
        m + x - (([] : List Byte).length + (boundaryMark b).length) -
          (2 + (encodeBlock q.headers).length + q.data.length + (boundaryMark b).length) := by
      simp only [List.length_nil]; omega
    simp only [headerCut, Http.headerCut, e0, e1, e2, e3, e4, decide_True, Bool.true_and]
  · rintro evs ⟨segs, segss, h1, h3, h4⟩
    refine ⟨[], segs :: segss, rfl, by simp, List.Forall₂.cons h1 h3, ?_⟩
    rw [h4]
    simp [partsEvents, Part.events]

/-- The header block of a part. -/
theorem trans_headers (b : List Byte) (q : Part) (ps : List Part) (m : Nat)
    (hm : (encodeBlock q.headers).length ≤ m) :
    Trans b (headers q ps) m (data q.data ps) (m - (encodeBlock q.headers).length)
      (q.headers.map (fun h => MPEvent.onPartHeader h.key h.fullValue)) := by
  refine ⟨⟨?_, ?_, by simp [rest, encodeParts, crlf]; try omega⟩, ?_⟩
  · simp only [rest]
    rw [drop_append_ge (encodeBlock q.headers) _ m hm]
  · intro x
    have e1 : ¬ (m + x < (encodeBlock q.headers).length) := by omega
    have e3 : (q.data.length + (boundaryMark b).length ≤
        m - (encodeBlock q.headers).length + x) ↔
        ((encodeBlock q.headers).length + q.data.length + (boundaryMark b).length ≤ m + x) := by
      omega
    have e4 : m - (encodeBlock q.headers).length + x -
        (q.data.length + (boundaryMark b).length) =
        m + x - ((encodeBlock q.headers).length + q.data.length + (boundaryMark b).length) := by
      omega
    simp only [headerCut, e1, e3, e4, decide_False, Bool.and_false, Bool.false_or]
  · rintro evs ⟨segs, segss, h1, -, h3, h4⟩
    exact ⟨segs, segss, h1, h3, by rw [h4]⟩

/-- The last boundary line. -/
theorem trans_last (b : List Byte) :
    Trans b (data [] []) ((boundaryMark b).length + 4) finished 0
      [MPEvent.onPartEnd, MPEvent.onPartData []] := by
  refine ⟨⟨?_, ?_, by simp [rest, encodeParts, crlf]; try omega⟩, ?_⟩
  · simp only [rest, encodeParts, List.drop_zero]
    rw [List.drop_of_length_le (by simp [crlf])]
  · intro x
    simp [headerCut, Http.headerCut]
  · intro evs h
    simp only [Expect] at h
    subst h
    exact ⟨[], [], rfl, by simp, List.Forall₂.nil, by simp [partsEvents]⟩

end StreamPos

end Http

namespace Http

namespace MultipartParser

/-! ## The steps of the loop on a buffer that holds a prefix of the stream -/

/-- The report of the data in front of the margin, for a buffer that holds the
first `m` bytes of `d ++ Z` and whose part in front of the margin lies in `d`. -/
theorem flushMargin_take (p : MultipartParser) (d Z : List Byte) (m : Nat)
    (hm : m ≤ (d ++ Z).length) (hbuf : p.mIncomingData = (d ++ Z).take m)
    (hk : m - p.mBoundary.length - 8 ≤ d.length) :
    flushMargin p =
      if m > p.mBoundary.length + 8 then
        ({ p with
            mIncomingData := (d.drop (m - p.mBoundary.length - 8) ++ Z).take
              (m - (m - p.mBoundary.length - 8)) },
          [MPEvent.onPartData (d.take (m - p.mBoundary.length - 8))])
      else (p, []) := by
  have hl : p.mIncomingData.length = m := by
    rw [hbuf, List.length_take]; omega
  unfold flushMargin
  rw [hl]
  by_cases hc : m > p.mBoundary.length + 8
  · rw [if_pos hc, if_pos hc]
    have e1 : p.mIncomingData.take (m - p.mBoundary.length - 8) =
        d.take (m - p.mBoundary.length - 8) := by
      rw [hbuf, List.take_take, Nat.min_eq_left (by omega),
        List.take_append_of_le_length hk]
    have e2 : p.mIncomingData.drop (m - p.mBoundary.length - 8) =
        (d.drop (m - p.mBoundary.length - 8) ++ Z).take
          (m - (m - p.mBoundary.length - 8)) := by
      rw [hbuf, List.drop_take, List.drop_append_of_le_length hk]
    simp only [e1, e2]
  · rw [if_neg hc, if_neg hc]

theorem boundaryStep_none (p : MultipartParser)
    (hf : findSub [13, 10, 45, 45] p.mIncomingData = none) :
    boundaryStep p = ((flushMargin p).1, (flushMargin p).2, true) := by
  unfold boundaryStep
  simp only [hf]

theorem candidateLine_none (p : MultipartParser) (hf : findCRLF p.mIncomingData 4 = none) :
    candidateLine p = ((flushMargin p).1, (flushMargin p).2, true) := by
  unfold candidateLine
  simp only [hf]

/-- A complete line that is not a boundary line is reported as data. -/
theorem candidateLine_line (p : MultipartParser) (le : Nat)
    (hf : findCRLF p.mIncomingData 4 = some le)
    (hn : strncmpEq (p.mIncomingData.drop 4) p.mBoundary p.mBoundary.length = true →
      le - 4 ≠ p.mBoundary.length ∧ le - 4 ≠ p.mBoundary.length + 2) :
    candidateLine p =
      ({ p with mIncomingData := p.mIncomingData.drop le },
        [MPEvent.onPartData (p.mIncomingData.take le)], false) := by
  unfold candidateLine
  simp only [hf]
  by_cases hc : le - 4 ≠ p.mBoundary.length ∧ le - 4 ≠ p.mBoundary.length + 2
  · rw [if_pos hc]
  · rw [if_neg hc]
    cases hs : strncmpEq (p.mIncomingData.drop 4) p.mBoundary p.mBoundary.length with
    | false => simp
    | true => exact absurd (hn hs) hc

/-- A turn of the loop that returns in the search for the boundary. -/
theorem loop_return (F : Nat) (p : MultipartParser) (a : Nat)
    (hF : p.mIncomingData.length < F) (hout : p.mEnvelopeParser.mIsInHeaders = false)
    (hb : p.boundaryStep.2.2 = true) :
    parseLoop F p a = (p.boundaryStep.1, p.boundaryStep.2.1) := by
  rw [loop_out F p a hF hout, if_pos hb]

/-- A turn of the loop that goes on after the search for the boundary. -/
theorem loop_go_on (F : Nat) (p : MultipartParser) (a : Nat)
    (hF : p.mIncomingData.length < F) (hout : p.mEnvelopeParser.mIsInHeaders = false)
    (hb : p.boundaryStep.2.2 = false) :
    parseLoop F p a =
      ((parseLoop F p.boundaryStep.1 a).1,
        p.boundaryStep.2.1 ++ (parseLoop F p.boundaryStep.1 a).2) := by
  rw [loop_out F p a hF hout, hb]
  simp

/-- The loop of a parser with a fresh envelope parser and an empty buffer: it
returns at once. -/
theorem loop_empty_headers (F : Nat) (p : MultipartParser) (a : Nat) (hF : 0 < F)
    (henv : p.mEnvelopeParser = EnvelopeParser.new) (hbuf : p.mIncomingData = []) :
    parseLoop F p a = (p, []) := by
  obtain ⟨G, rfl⟩ : ∃ G, F = G + 1 := ⟨F - 1, by omega⟩
  have he : EnvelopeParser.new.parse [] = (EnvelopeParser.new, [], 0) := by decide
  have hin : EnvelopeParser.new.mIsInHeaders = true := rfl
  have hn : ¬ ((0 : Nat) = npos) := by decide
  obtain ⟨v, e, buf, bd, hd⟩ := p
  simp only at henv hbuf
  subst henv
  subst hbuf
  rw [mp_parseLoop_unfold]
  by_cases ha : a = 0
  · subst ha
    simp only [envelopeStep, he, hin, hn, if_true, if_false, and_self, List.map_nil]
  · have ha2 : ¬ (0 = a) := fun h => ha h.symm
    simp only [envelopeStep, he, hin, hn, ha2, if_true, if_false, false_and, List.map_nil,
      boundaryStep, findSub, flushMargin, List.drop_nil, List.length_nil, List.nil_append,
      Bool.false_eq_true]
    simp

end MultipartParser

end Http

namespace Http

namespace StreamPos

/-! ## The loop on a body of which the buffer holds a prefix -/

theorem rest_data (b d : List Byte) (ps : List Part) :
    (data d ps).rest b = d ++ 13 :: 10 :: 45 :: 45 :: (b ++ encodeParts b ps) := by
  simp [rest, boundaryMark]

theorem rest_data_length (b d : List Byte) (ps : List Part) :
    ((data d ps).rest b).length = d.length + (4 + b.length + (encodeParts b ps).length) := by
  rw [rest_data]
  simp only [List.length_append, List.length_cons]
  omega

/-- The report of the data in front of the margin, when it lies in the body,
leaves the parser at a place of the stream. -/
theorem step_flush (b d : List Byte) (ps : List Part) (m : Nat) (p : MultipartParser)
    (hv : p.mIsValid = true) (hb : p.mBoundary = b)
    (hout : p.mEnvelopeParser.mIsInHeaders = false) (hwf : (data d ps).Wf b)
    (hm : m < ((data d ps).rest b).length)
    (hbuf : p.mIncomingData = ((data d ps).rest b).take m)
    (hk : m - b.length - 8 ≤ d.length) :
    Step b (data d ps) m (MultipartParser.flushMargin p).1
      (MultipartParser.flushMargin p).2 := by
  obtain ⟨v, e, buf, bd, hd⟩ := p
  simp only at hv hb hout hbuf
  subst hv
  have hb2 := hb.symm
  subst hb2
  have hrl := rest_data_length b d ps
  have hfl := MultipartParser.flushMargin_take (MultipartParser.mk true e buf b hd) d
    (boundaryMark b ++ encodeParts b ps) m
    (by rw [← List.append_assoc]; exact Nat.le_of_lt hm)
    (by rw [hbuf, rest, List.append_assoc]) (by simp only; omega)
  rw [hfl]
  simp only
  by_cases hc : m > b.length + 8
  · rw [if_pos hc]
    have ht := trans_data b d ps m (m - b.length - 8) hk (by omega) (by omega)
    have hh : Holds b (data (d.drop (m - b.length - 8)) ps) (m - (m - b.length - 8))
        (MultipartParser.mk true e ((d.drop (m - b.length - 8) ++
            (boundaryMark b ++ encodeParts b ps)).take (m - (m - b.length - 8))) b hd) := by
      have hl2 := rest_data_length b (d.drop (m - b.length - 8)) ps
      rw [List.length_drop] at hl2
      refine ⟨rfl, rfl, by omega, ?_, ⟨?_, hwf.2⟩, hout, by omega⟩
      · simp only [rest, List.append_assoc]
      · exact findSub_none_suffix _ (d.take (m - b.length - 8)) _
          (by rw [List.take_append_drop]; exact hwf.1)
    have := Step.of_trans ht (Step.of_holds hh)
    simpa using this
  · rw [if_neg hc]
    exact Step.of_holds ⟨rfl, rfl, Nat.le_of_lt hm, hbuf, hwf, hout, hm⟩

/-- The buffer holds less than the start of a boundary line: what lies in front
of the margin is reported, and the function returns. -/
theorem loopSpec_none (b : List Byte) (F a : Nat) (d : List Byte) (ps : List Part) (m : Nat)
    (hf : findSub [13, 10, 45, 45] (((data d ps).rest b).take m) = none) :
    LoopSpec b F a d ps m := by
  intro p hv hb hout hwf hm hbuf hcut hF hlen
  have hrl := rest_data_length b d ps
  obtain ⟨idxL, hfL, hcase, -⟩ := MultipartParser.findSub_body d (b ++ encodeParts b ps)
  rw [← rest_data] at hfL
  have hml : m < d.length + 4 := by
    by_contra hc
    have := findSub_take _ _ m idxL hfL (by simp only [List.length_cons, List.length_nil]; omega)
    rw [hf] at this
    cases this
  have hbl : p.mIncomingData.length = m := by
    rw [hbuf, List.length_take]; omega
  have hbs := MultipartParser.boundaryStep_none p (by rw [hbuf]; exact hf)
  rw [MultipartParser.loop_return F p a (by omega) hout (by rw [hbs]), hbs]
  exact step_flush b d ps m p hv hb hout hwf (by omega) hbuf (by omega)

/-- After the report of the first `k` bytes of the body, the loop goes on with
the rest of the body. -/
theorem loopSpec_advance (b : List Byte) (F a : Nat) (d : List Byte) (ps : List Part)
    (m k : Nat) (hk : k ≤ d.length) (hkm : k ≤ m) (hpos : 0 < k)
    (ih : LoopSpec b F a (d.drop k) ps (m - k)) (hwf : (data d ps).Wf b)
    (hm : m ≤ ((data d ps).rest b).length) (hcut : (data d ps).headerCut b m = false)
    (hF : m < F) (hlen : ((data d ps).rest b).length + 1 < 2 ^ 64)
    (p1 : MultipartParser) (hv : p1.mIsValid = true) (hb : p1.mBoundary = b)
    (hout : p1.mEnvelopeParser.mIsInHeaders = false)
    (hbuf : p1.mIncomingData = (((data d ps).rest b).take m).drop k) :
    Step b (data d ps) m (p1.parseLoop F a).1
      (MPEvent.onPartData (d.take k) :: (p1.parseLoop F a).2) := by
  have ht := trans_data b d ps m k hk hkm hpos
  have hl1 := rest_data_length b d ps
  have hl2 := rest_data_length b (d.drop k) ps
  rw [List.length_drop] at hl2
  have hdrop : ((data d ps).rest b).drop k = (data (d.drop k) ps).rest b := by
    simp only [rest, List.append_assoc]
    rw [List.drop_append_of_le_length hk]
  have hs := ih p1 hv hb hout
    ⟨findSub_none_suffix _ (d.take k) _ (by rw [List.take_append_drop]; exact hwf.1), hwf.2⟩
    (by omega) (by rw [hbuf, List.drop_take, hdrop])
    (by
      have := ht.1.2.1 0
      simp only [Nat.add_zero] at this
      rw [this]
      exact hcut)
    (by omega) (by omega)
  exact Step.of_trans ht hs

/-- The buffer holds `\r\n--` after a stretch of the body: the stretch is
reported and the loop goes on at the `\r\n--`. -/
theorem loopSpec_prefix (b : List Byte) (F a : Nat) (d : List Byte) (ps : List Part)
    (m idx : Nat) (hf : findSub [13, 10, 45, 45] (((data d ps).rest b).take m) = some idx)
    (hpos : 0 < idx) (ih : ∀ m2, m2 < m → ∀ d2 ps2, LoopSpec b F a d2 ps2 m2) :
    LoopSpec b F a d ps m := by
  intro p hv hb hout hwf hm hbuf hcut hF hlen
  have hrl := rest_data_length b d ps
  have hfL := findSub_take_some _ _ _ _ hf
  obtain ⟨idxL, hfL2, hcase, -⟩ := MultipartParser.findSub_body d (b ++ encodeParts b ps)
  rw [← rest_data, hfL] at hfL2
  simp only [Option.some.injEq] at hfL2
  subst hfL2
  have hle := findSub_some_le _ _ _ hf
  rw [List.length_take] at hle
  simp only [List.length_cons, List.length_nil] at hle
  have hid : idx ≤ d.length := by omega
  obtain ⟨t, ht⟩ := findSub_some _ _ _ hf
  have htk : (((data d ps).rest b).take m).take idx = d.take idx := by
    rw [List.take_take, Nat.min_eq_left (by omega), rest, List.append_assoc,
      List.take_append_of_le_length hid]
  have hbuf2 : p.mIncomingData = d.take idx ++ 13 :: 10 :: 45 :: 45 :: t := by
    rw [hbuf]
    conv_lhs => rw [← List.take_append_drop idx (((data d ps).rest b).take m)]
    rw [htk, ht]
    rfl
  have hdl : (d.take idx).length = idx := by
    rw [List.length_take]; omega
  have hne : d.take idx ≠ [] := by
    intro h
    rw [h] at hdl
    simp only [List.length_nil] at hdl
    omega
  have hbl : p.mIncomingData.length = m := by
    rw [hbuf, List.length_take]; omega
  have hlp := MultipartParser.loop_prefix F p a (d.take idx) t (by omega) hout hbuf2 hne
    (by rw [hdl, hbuf]; exact hf)
  rw [hlp]
  exact loopSpec_advance b F a d ps m idx hid (by omega) hpos (ih (m - idx) (by omega) _ _)
    hwf hm hcut hF hlen _ hv hb hout (by simp only; rw [ht]; rfl)

/-- The buffer starts with a line of the body that starts with `--`: when the
line is complete it is reported and the loop goes on after it, otherwise what
lies in front of the margin is reported and the function returns. -/
theorem loopSpec_line (b : List Byte) (h0 : 0 ∉ b) (F a : Nat) (x : List Byte)
    (ps : List Part) (m : Nat) (hm4 : 4 ≤ m)
    (ih : ∀ m2, m2 < m → ∀ d2 ps2, LoopSpec b F a d2 ps2 m2) :
    LoopSpec b F a (13 :: 10 :: 45 :: 45 :: x) ps m := by
  intro p hv hb hout hwf hm hbuf hcut hF hlen
  have hrl := rest_data_length b (13 :: 10 :: 45 :: 45 :: x) ps
  simp only [List.length_cons] at hrl
  have hr : (data (13 :: 10 :: 45 :: 45 :: x) ps).rest b =
      13 :: 10 :: 45 :: 45 :: (x ++ 13 :: 10 :: (45 :: 45 :: b ++ encodeParts b ps)) := by
    simp [rest, boundaryMark]
  obtain ⟨i, hi, hfc⟩ := firstCRLF_occurrence x (45 :: 45 :: b ++ encodeParts b ps)
  have hfL : findCRLF ((data (13 :: 10 :: 45 :: 45 :: x) ps).rest b) 4 = some (i + 4) := by
    unfold findCRLF
    rw [hr]
    simp only [List.drop_succ_cons, List.drop_zero, hfc]
    rfl
  have hbl : p.mIncomingData.length = m := by
    rw [hbuf, List.length_take]; omega
  have hf0 : findSub [13, 10, 45, 45] p.mIncomingData = some 0 := by
    obtain ⟨m4, rfl⟩ : ∃ m4, m = m4 + 4 := ⟨m - 4, by omega⟩
    rw [hbuf, hr]
    exact findSub_prefix [13, 10, 45, 45] _
  have hbs := MultipartParser.boundaryStep_some p 0 hf0
  simp only [List.drop_zero, gt_iff_lt, Nat.lt_irrefl, if_false, List.nil_append] at hbs
  rw [MultipartParser.with_buffer p _ rfl] at hbs
  by_cases hc : m < i + 4 + 2
  · have hfn : findCRLF p.mIncomingData 4 = none := by
      rw [hbuf]
      exact findCRLF_take_none _ _ _ _ hfL hc
    rw [MultipartParser.candidateLine_none p hfn] at hbs
    rw [MultipartParser.loop_return F p a (by omega) hout (by rw [hbs]), hbs]
    exact step_flush b _ ps m p hv hb hout hwf (by omega) hbuf
      (by simp only [List.length_cons]; omega)
  · have hfs : findCRLF p.mIncomingData 4 = some (i + 4) := by
      rw [hbuf]
      exact findCRLF_take _ _ _ _ hfL (by omega)
    have hd4 : p.mIncomingData.drop 4 =
        (x ++ 13 :: 10 :: (45 :: 45 :: b ++ encodeParts b ps)).take (m - 4) := by
      rw [hbuf, hr, List.drop_take]
      rfl
    have hn : strncmpEq (p.mIncomingData.drop 4) p.mBoundary p.mBoundary.length = true →
        i + 4 - 4 ≠ p.mBoundary.length ∧ i + 4 - 4 ≠ p.mBoundary.length + 2 := by
      intro hs
      rw [hb] at hs ⊢
      by_contra hcon
      have hib : b.length ≤ i := by omega
      obtain ⟨t, ht⟩ := strncmpEq_prefix b _ h0 hs
      rw [hd4] at ht
      have h1 := congrArg (List.take b.length) ht
      rw [List.take_left, List.take_take, Nat.min_eq_left (by omega),
        List.take_append_of_le_length (by omega)] at h1
      have hx : x = b ++ x.drop b.length := by
        conv_lhs => rw [← List.take_append_drop b.length x, h1]
      refine findSub_none_no_occurrence _ _ [] (x.drop b.length) hwf.1 ?_
      show 13 :: 10 :: 45 :: 45 :: x = [] ++ boundaryMark b ++ x.drop b.length
      simp only [boundaryMark, List.nil_append, List.cons_append]
      rw [← hx]
    rw [MultipartParser.candidateLine_line p (i + 4) hfs hn] at hbs
    rw [MultipartParser.loop_go_on F p a (by omega) hout (by rw [hbs]), hbs]
    have htk : p.mIncomingData.take (i + 4) = (13 :: 10 :: 45 :: 45 :: x).take (i + 4) := by
      rw [hbuf, List.take_take, Nat.min_eq_left (by omega), rest, List.append_assoc,
        List.take_append_of_le_length (by simp only [List.length_cons]; omega)]
    simp only [List.singleton_append, htk]
    exact loopSpec_advance b F a _ ps m (i + 4) (by simp only [List.length_cons]; omega)
      (by omega) (by omega) (ih (m - (i + 4)) (by omega) _ _) hwf hm hcut hF hlen _ hv hb hout
      (by simp only; rw [hbuf])

end StreamPos

end Http

namespace Http

namespace StreamPos

/-! ## The loop at a boundary line of which the buffer holds a prefix -/

/-- The buffer starts with a boundary line that is not complete: the function
returns and reports nothing. -/
theorem step_incomplete (b : List Byte) (F a : Nat) (ps : List Part) (m le : Nat)
    (p : MultipartParser) (hv : p.mIsValid = true) (hb : p.mBoundary = b)
    (hout : p.mEnvelopeParser.mIsInHeaders = false) (hwf : (data [] ps).Wf b)
    (hm : m ≤ ((data [] ps).rest b).length)
    (hbuf : p.mIncomingData = ((data [] ps).rest b).take m) (hF : m < F) (hm4 : 4 ≤ m)
    (hfL : findCRLF ((data [] ps).rest b) 4 = some le) (hle : m < le + 2)
    (hle6 : le ≤ b.length + 6) :
    Step b (data [] ps) m (p.parseLoop F a).1 (p.parseLoop F a).2 := by
  have hrl := rest_data_length b [] ps
  have hbd := MultipartParser.findCRLF_bounds hfL
  have hbl : p.mIncomingData.length = m := by
    rw [hbuf, List.length_take]; omega
  have hf0 : findSub [13, 10, 45, 45] p.mIncomingData = some 0 := by
    obtain ⟨m4, rfl⟩ : ∃ m4, m = m4 + 4 := ⟨m - 4, by omega⟩
    rw [hbuf, rest_data]
    exact findSub_prefix [13, 10, 45, 45] _
  have hbs := MultipartParser.boundaryStep_some p 0 hf0
  simp only [List.drop_zero, gt_iff_lt, Nat.lt_irrefl, if_false, List.nil_append] at hbs
  rw [MultipartParser.with_buffer p _ rfl] at hbs
  have hfn : findCRLF p.mIncomingData 4 = none := by
    rw [hbuf]
    exact findCRLF_take_none _ _ _ _ hfL hle
  rw [MultipartParser.candidateLine_none p hfn] at hbs
  rw [MultipartParser.loop_return F p a (by omega) hout (by rw [hbs]), hbs]
  exact step_flush b [] ps m p hv hb hout hwf (by omega) hbuf
    (by simp only [List.length_nil] at hrl ⊢; omega)

/-- The last boundary line. -/
theorem loopSpec_last (b : List Byte) (hcr : noCRorLF b) (F a m : Nat) (hm4 : 4 ≤ m) :
    LoopSpec b F a [] [] m := by
  intro p hv hb hout hwf hm hbuf hcut hF hlen
  have hrl := rest_data_length b [] []
  simp only [List.length_nil, encodeParts, List.length_cons, crlf] at hrl
  have hr : (data [] []).rest b = boundaryMark b ++ 45 :: 45 :: crlf ++ [] := by
    simp [rest, encodeParts]
  by_cases hc : m = b.length + 8
  · have hbuf2 : p.mIncomingData = boundaryMark b ++ 45 :: 45 :: crlf ++ [] := by
      rw [hbuf, ← hr, List.take_of_length_le (by omega)]
    rw [MultipartParser.loop_last F p a b [] (by rw [hbuf2, ← hr]; omega) hout hb hcr hbuf2]
    have ht := trans_last b
    rw [boundaryMark_length] at ht
    have e : 4 + b.length + 4 = m := by omega
    rw [e] at ht
    have hh : Holds b finished 0 { p with mIncomingData := [] } :=
      ⟨hv, hb, Nat.le_refl _, rfl, trivial, hout⟩
    have := Step.of_trans ht (Step.of_holds hh)
    simpa using this
  · have hfL : findCRLF ((data [] []).rest b) 4 = some (b.length + 2 + 4) := by
      have hfc : firstCRLF (b ++ [45, 45]) = none :=
        firstCRLF_append_none b [45, 45] (firstCRLF_of_noCRorLF b hcr) (by decide) (by decide)
      have e1 : ((data [] []).rest b).drop 4 = (b ++ [45, 45]) ++ 13 :: 10 :: [] := by
        rw [hr]; simp [boundaryMark, crlf]
      unfold findCRLF
      rw [e1, firstCRLF_line _ [] hfc]
      simp
    exact step_incomplete b F a [] m _ p hv hb hout hwf hm hbuf hF hm4 hfL (by omega)
      (by omega)

/-- A boundary line that a part follows: the part before it ends, and when the
buffer holds the header block of the part the loop goes on with the body. -/
theorem loopSpec_boundary (b : List Byte) (hcr : noCRorLF b) (F a : Nat) (q : Part)
    (ps : List Part) (m : Nat) (hm4 : 4 ≤ m)
    (ih : ∀ m2, m2 < m → ∀ d2 ps2, LoopSpec b F a d2 ps2 m2) :
    LoopSpec b F a [] (q :: ps) m := by
  intro p hv hb hout hwf hm hbuf hcut hF hlen
  have hrl := rest_data_length b [] (q :: ps)
  simp only [List.length_nil] at hrl
  have hml := boundaryMark_length b
  have hr : (data [] (q :: ps)).rest b =
      boundaryMark b ++ crlf ++
        (encodeBlock q.headers ++ (q.data ++ boundaryMark b ++ encodeParts b ps)) := by
    simp [rest, encodeParts]
  have hqw : q.Wf b := hwf.2 q (List.mem_cons_self _ _)
  have hpw : ∀ q2 ∈ ps, q2.Wf b := fun q2 h2 => hwf.2 q2 (List.mem_cons_of_mem _ h2)
  by_cases hc : m < b.length + 4 + 2
  · have hfL : findCRLF ((data [] (q :: ps)).rest b) 4 = some (b.length + 4) := by
      have e1 : ((data [] (q :: ps)).rest b).drop 4 =
          b ++ 13 :: 10 ::
            (encodeBlock q.headers ++ (q.data ++ boundaryMark b ++ encodeParts b ps)) := by
        rw [hr]; simp [boundaryMark, crlf]
      unfold findCRLF
      rw [e1, firstCRLF_line b _ (firstCRLF_of_noCRorLF b hcr)]
      rfl
    exact step_incomplete b F a (q :: ps) m _ p hv hb hout hwf hm hbuf hF hm4 hfL hc
      (by omega)
  · have hl6 : (boundaryMark b ++ crlf).length = b.length + 6 := by
      simp [boundaryMark, crlf]
    have hbuf2 : p.mIncomingData = boundaryMark b ++ crlf ++
        (encodeBlock q.headers ++ (q.data ++ boundaryMark b ++ encodeParts b ps)).take
          (m - ((boundaryMark b).length + 2)) := by
      rw [hbuf, hr, take_append_ge _ _ m (by omega), hl6, hml]
      congr 2
      omega
    have hbl : p.mIncomingData.length = m := by
      rw [hbuf, List.length_take]; omega
    rw [MultipartParser.loop_boundary F p a b _ (by omega) hout hb hcr hbuf2]
    have ht := trans_boundary b q ps m (by omega)
    have hcut2 : (headers q ps).headerCut b (m - ((boundaryMark b).length + 2)) = false := by
      have := ht.1.2.1 0
      simp only [Nat.add_zero] at this
      rw [this]
      exact hcut
    have hr2 : ((headers q ps).rest b).length + (b.length + 6) =
        ((data [] (q :: ps)).rest b).length := by
      rw [hr, List.length_append, hl6]
      simp only [rest]
      omega
    by_cases hz : m - ((boundaryMark b).length + 2) = 0
    · rw [hz, List.take_zero]
      rw [hz] at ht
      rw [MultipartParser.loop_empty_headers F _ a (by omega) rfl rfl]
      have hh : Holds b (headers q ps) 0
          { p with mIncomingData := [], mEnvelopeParser := EnvelopeParser.new } :=
        ⟨hv, hb, Nat.zero_le _, by simp, ⟨hqw, hpw⟩, rfl, rfl⟩
      have := Step.of_trans ht (Step.of_holds hh)
      simpa using this
    · have hge : (encodeBlock q.headers).length ≤ m - ((boundaryMark b).length + 2) := by
        simp only [headerCut, Bool.or_eq_false_iff, Bool.and_eq_false_iff,
          decide_eq_false_iff_not] at hcut2
        rcases hcut2.1 with h | h <;> omega
      have hbuf3 : (encodeBlock q.headers ++
          (q.data ++ boundaryMark b ++ encodeParts b ps)).take
            (m - ((boundaryMark b).length + 2)) =
          encodeBlock q.headers ++ (q.data ++ boundaryMark b ++ encodeParts b ps).take
            (m - ((boundaryMark b).length + 2) - (encodeBlock q.headers).length) :=
        take_append_ge _ _ _ hge
      rw [hbuf3]
      have hll : (encodeBlock q.headers ++ (q.data ++ boundaryMark b ++ encodeParts b ps).take
          (m - ((boundaryMark b).length + 2) - (encodeBlock q.headers).length)).length ≤ m := by
        rw [← hbuf3, List.length_take]
        omega
      obtain ⟨e, he, hlh⟩ := MultipartParser.loop_headers F
        { p with
            mIncomingData := encodeBlock q.headers ++
              (q.data ++ boundaryMark b ++ encodeParts b ps).take
                (m - ((boundaryMark b).length + 2) - (encodeBlock q.headers).length),
            mEnvelopeParser := EnvelopeParser.new } a q.headers
        ((q.data ++ boundaryMark b ++ encodeParts b ps).take
          (m - ((boundaryMark b).length + 2) - (encodeBlock q.headers).length))
        (by simp only; omega) rfl hqw.1 rfl (by simp only; omega)
      rw [hlh]
      have ht2 := trans_headers b q ps (m - ((boundaryMark b).length + 2)) hge
      have hl3 := rest_data_length b q.data ps
      have hl4 : ((headers q ps).rest b).length =
          (encodeBlock q.headers).length + ((data q.data ps).rest b).length := by
        simp only [rest, List.length_append]
      have hs := ih (m - ((boundaryMark b).length + 2) - (encodeBlock q.headers).length)
        (by omega) q.data ps
        { p with
            mIncomingData := (q.data ++ boundaryMark b ++ encodeParts b ps).take
              (m - ((boundaryMark b).length + 2) - (encodeBlock q.headers).length),
            mEnvelopeParser := e }
        hv hb he ⟨hqw.2, hpw⟩ (by omega) rfl
        (by
          have := ht2.1.2.1 0
          simp only [Nat.add_zero] at this
          rw [this]
          exact hcut2)
        (by omega) (by omega)
      have := Step.of_trans (ht.comp ht2) hs
      simpa using this

end StreamPos

end Http

namespace Http

namespace StreamPos

/-! ## A multipart stream fed in slices -/

/-- The loop of `MultipartParser::parse` on a parser that stands in a body. -/
theorem loopSpec (b : List Byte) (h0 : 0 ∉ b) (hcr : noCRorLF b) (F a : Nat) :
    ∀ (m : Nat) (d : List Byte) (ps : List Part), LoopSpec b F a d ps m := by
  intro m
  induction m using Nat.strong_induction_on with
  | _ m ih =>
    intro d ps
    cases hf : findSub [13, 10, 45, 45] (((data d ps).rest b).take m) with
    | none => exact loopSpec_none b F a d ps m hf
    | some idx =>
      by_cases hpos : 0 < idx
      · exact loopSpec_prefix b F a d ps m idx hf hpos ih
      · have hi0 : idx = 0 := by omega
        subst hi0
        have hle := findSub_some_le _ _ _ hf
        rw [List.length_take] at hle
        simp only [List.length_cons, List.length_nil] at hle
        have hm4 : 4 ≤ m := by omega
        cases d with
        | nil =>
          cases ps with
          | nil => exact loopSpec_last b hcr F a m hm4
          | cons q ps => exact loopSpec_boundary b hcr F a q ps m hm4 ih
        | cons c r =>
          have hfL := findSub_take_some _ _ _ _ hf
          obtain ⟨idxL, hfL2, hcase, hx⟩ :=
            MultipartParser.findSub_body (c :: r) (b ++ encodeParts b ps)
          rw [← rest_data, hfL] at hfL2
          simp only [Option.some.injEq] at hfL2
          subst hfL2
          have h4 : 0 + 4 ≤ (c :: r).length := by
            rcases hcase with h | h
            · simp only [List.length_cons] at h
              omega
            · exact h
          obtain ⟨x, hx⟩ := hx h4
          rw [List.drop_zero] at hx
          rw [hx]
          exact loopSpec_line b h0 F a x ps m hm4 ih

theorem encodeBlock_length (hs : List Header) : 2 ≤ (encodeBlock hs).length := by
  simp [encodeBlock, crlf]

/-- One call of `MultipartParser::parse` with a slice that ends outside the
header blocks. -/
theorem parse_slice (b : List Byte) (h0 : 0 ∉ b) (hcr : noCRorLF b) (c : StreamPos) (n : Nat)
    (p : MultipartParser) (s : List Byte) (hh : Holds b c n p)
    (hs : n + s.length ≤ (c.rest b).length) (hsl : s = ((c.rest b).drop n).take s.length)
    (hcut : c.headerCut b (n + s.length) = false) (hlen : (c.rest b).length + 1 < 2 ^ 64) :
    Step b c (n + s.length) (p.parse s).1 (p.parse s).2 := by
  obtain ⟨hv, hb, hn, hbuf, hwf, henv⟩ := hh
  obtain ⟨v, e, buf, bd, hd⟩ := p
  simp only at hv hb hbuf henv
  subst hv
  have hb2 := hb.symm
  subst hb2
  have hbuf2 : buf ++ s = (c.rest b).take (n + s.length) := by
    rw [List.take_add, ← hsl, hbuf]
  have hbl : (buf ++ s).length = n + s.length := by
    rw [hbuf2, List.length_take]; omega
  unfold MultipartParser.parse
  simp only [Bool.not_true, Bool.false_eq_true, if_false]
  cases c with
  | data d ps =>
    exact loopSpec b h0 hcr ((buf ++ s).length + 1) s.length (n + s.length) d ps
      (MultipartParser.mk true e (buf ++ s) b hd) rfl rfl henv.1 hwf hs hbuf2 hcut
      (by omega) hlen
  | headers q ps =>
    obtain ⟨he, hn0⟩ := henv
    subst hn0
    subst he
    simp only [Nat.zero_add] at hs hcut hbuf2 hbl ⊢
    by_cases hz : s.length = 0
    · have hs0 : s = [] := List.length_eq_zero.mp hz
      subst hs0
      have hb0 : buf = [] := by rw [hbuf]; rfl
      subst hb0
      rw [MultipartParser.loop_empty_headers _ _ _ (by omega) rfl rfl]
      exact Step.of_holds ⟨rfl, rfl, Nat.zero_le _, by simp, hwf, rfl, rfl⟩
    · have hge : (encodeBlock q.headers).length ≤ s.length := by
        simp only [headerCut, Bool.or_eq_false_iff, Bool.and_eq_false_iff,
          decide_eq_false_iff_not] at hcut
        rcases hcut.1 with h | h <;> omega
      have hbuf3 : buf ++ s =
          encodeBlock q.headers ++ (q.data ++ boundaryMark b ++ encodeParts b ps).take
            (s.length - (encodeBlock q.headers).length) := by
        rw [hbuf2]
        exact take_append_ge _ _ _ hge
      have hl4 : ((headers q ps).rest b).length =
          (encodeBlock q.headers).length + ((data q.data ps).rest b).length := by
        simp only [rest, List.length_append]
      obtain ⟨e2, hee, hlh⟩ := MultipartParser.loop_headers ((buf ++ s).length + 1)
        (MultipartParser.mk true EnvelopeParser.new (buf ++ s) b hd) s.length q.headers
        ((q.data ++ boundaryMark b ++ encodeParts b ps).take
          (s.length - (encodeBlock q.headers).length))
        (by simp only; omega) rfl hwf.1.1 hbuf3 (by simp only; omega)
      rw [hlh]
      have ht2 := trans_headers b q ps s.length hge
      have hst := loopSpec b h0 hcr ((buf ++ s).length + 1) s.length
        (s.length - (encodeBlock q.headers).length) q.data ps
        (MultipartParser.mk true e2 ((q.data ++ boundaryMark b ++ encodeParts b ps).take
              (s.length - (encodeBlock q.headers).length)) b hd)
        rfl rfl hee ⟨hwf.1.2, hwf.2⟩ (by omega) rfl
        (by
          have := ht2.1.2.1 0
          simp only [Nat.add_zero] at this
          rw [this]
          exact hcut)
        (by omega) (by omega)
      exact Step.of_trans ht2 hst
  | finished =>
    have hs0 : s = [] := by
      apply List.length_eq_zero.mp
      simp only [rest, List.length_nil] at hs
      omega
    subst hs0
    have hn0 : n = 0 := by
      simp only [rest, List.length_nil] at hn
      omega
    subst hn0
    have hb0 : buf = [] := by rw [hbuf]; rfl
    subst hb0
    have hbs : MultipartParser.boundaryStep (MultipartParser.mk true e ([] ++ []) b hd) =
        (MultipartParser.mk true e ([] ++ []) b hd, [], true) := by
      rw [MultipartParser.boundaryStep_none _ (by rfl)]
      simp [MultipartParser.flushMargin]
    rw [MultipartParser.loop_return _ _ _ (by simp) henv (by rw [hbs]), hbs]
    exact Step.of_holds ⟨rfl, rfl, Nat.zero_le _, by simp [rest], trivial, henv⟩

theorem cuts_same (b : List Byte) (c1 c2 : StreamPos) (n1 n2 : Nat)
    (h : ∀ x, c2.headerCut b (n2 + x) = c1.headerCut b (n1 + x)) :
    ∀ (slices : List (List Byte)) (y : Nat), cuts b c1 (n1 + y) slices →
      cuts b c2 (n2 + y) slices
  | [], _, _ => trivial
  | s :: rest, y, hc => by
    obtain ⟨h1, h2⟩ := hc
    refine ⟨?_, ?_⟩
    · rw [Nat.add_assoc, h, ← Nat.add_assoc]
      exact h1
    · rw [Nat.add_assoc] at h2 ⊢
      exact cuts_same b c1 c2 n1 n2 h rest (y + s.length) h2

/-- The callbacks of a parser that is fed the rest of the stream in slices that
end outside the header blocks. -/
theorem feed_expect (b : List Byte) (h0 : 0 ∉ b) (hcr : noCRorLF b) :
    ∀ (slices : List (List Byte)) (c : StreamPos) (n : Nat) (p : MultipartParser),
      Holds b c n p → slices.flatten = (c.rest b).drop n → cuts b c n slices →
      (c.rest b).length + 1 < 2 ^ 64 → c.Expect (p.feed slices).2
  | [], c, n, p, hh, hfl, _, _ => by
    obtain ⟨hv, hb, hn, hbuf, hwf, henv⟩ := hh
    have hl := congrArg List.length hfl
    simp only [List.flatten_nil, List.length_nil, List.length_drop] at hl
    cases c with
    | data d ps =>
      have := henv.2
      omega
    | headers q ps =>
      have h2 := encodeBlock_length q.headers
      have hn0 := henv.2
      subst hn0
      simp only [rest, List.length_append] at hl
      omega
    | finished => rfl
  | s :: slices, c, n, p, hh, hfl, hc, hlen => by
    have hn := hh.2.2.1
    have hl := congrArg List.length hfl
    simp only [List.flatten_cons, List.length_append, List.length_drop] at hl
    have hsl : s = ((c.rest b).drop n).take s.length := by
      rw [← hfl, List.flatten_cons, List.take_left]
    have hrest : slices.flatten = (c.rest b).drop (n + s.length) := by
      rw [← List.drop_drop, ← hfl, List.flatten_cons, List.drop_left]
    obtain ⟨c2, n2, hh2, ⟨hs1, hs2, hs3⟩, hexp⟩ :=
      parse_slice b h0 hcr c n p s hh (by omega) hsl hc.1 hlen
    have hc2 := cuts_same b c c2 (n + s.length) n2 hs2 slices 0 hc.2
    have ih := feed_expect b h0 hcr slices c2 n2 (p.parse s).1 hh2 (by rw [hs1]; exact hrest)
      hc2 (by omega)
    exact hexp _ ih

end StreamPos

end Http

namespace Http

namespace StreamPos

theorem headerCut_small (b : List Byte) (ps : List Part) (k : Nat) (hk : k ≤ 2) :
    Http.headerCut b ps k = false := by
  cases ps with
  | nil => rfl
  | cons q ps =>
    have hm := boundaryMark_length b
    have e1 : ¬ (2 < k) := by omega
    have e2 : ¬ (2 + (encodeBlock q.headers).length + q.data.length + (boundaryMark b).length ≤
        k) := by omega
    simp only [Http.headerCut, e1, e2, decide_False, Bool.false_and, Bool.or_false]

theorem headerCut_start (b : List Byte) (parts : List Part) (k : Nat) :
    (data [] parts).headerCut b (2 + k) = Http.headerCut b parts (k - (2 + b.length)) := by
  have hm := boundaryMark_length b
  by_cases h : 4 + b.length ≤ 2 + k
  · have e1 : ([] : List Byte).length + (boundaryMark b).length ≤ 2 + k := by
      simp only [List.length_nil]; omega
    have e2 : 2 + k - (([] : List Byte).length + (boundaryMark b).length) =
        k - (2 + b.length) := by
      simp only [List.length_nil]; omega
    simp only [headerCut, e1, e2, decide_True, Bool.true_and]
  · have e1 : ¬ (([] : List Byte).length + (boundaryMark b).length ≤ 2 + k) := by
      simp only [List.length_nil]; omega
    rw [headerCut_small b parts _ (by omega)]
    simp only [headerCut, e1, decide_False, Bool.false_and]

theorem cuts_of_cutsOk (b : List Byte) (parts : List Part) :
    ∀ (slices : List (List Byte)) (pos : Nat), cutsOk b parts pos slices = true →
      cuts b (data [] parts) (2 + pos) slices
  | [], _, _ => trivial
  | s :: slices, pos, h => by
    simp only [cutsOk, Bool.and_eq_true, Bool.not_eq_true'] at h
    refine ⟨?_, ?_⟩
    · rw [Nat.add_assoc, headerCut_start]
      exact h.1
    · rw [Nat.add_assoc]
      exact cuts_of_cutsOk b parts slices (pos + s.length) h.2

/-- A fresh parser for the boundary `b` fed a stream of well-formed parts in
slices that end outside the header blocks. -/
theorem feed_parts (b : List Byte) (parts : List Part) (slices : List (List Byte))
    (hb : BoundaryOk b) (hwf : ∀ part ∈ parts, part.Wf b)
    (hlen : (encodeMultipart b parts).length + 3 < 2 ^ 64)
    (hs : slices.flatten = encodeMultipart b parts) (hc : cutsOk b parts 0 slices = true) :
    ∃ segss : List (List (List Byte)),
      List.Forall₂ (fun (part : Part) segs => segs.flatten = part.data) parts segss ∧
        ((MultipartParser.new (bytes "multipart/form-data; boundary=" ++ b)).feed slices).2 =
          MPEvent.onPartEnd :: (partsEvents parts segss ++ [MPEvent.onPartData []]) := by
  rw [MultipartParser.new_boundary b hb]
  have hr : (data [] parts).rest b = crlf ++ encodeMultipart b parts := by
    simp [rest, crlf, encodeMultipart, boundaryMark]
  have hrl : ((data [] parts).rest b).length = (encodeMultipart b parts).length + 2 := by
    rw [hr]; simp [crlf]
  have hh : Holds b (data [] parts) 2
      { mIsValid := true,
        mEnvelopeParser := { EnvelopeParser.new with mIsInHeaders := false },
        mIncomingData := crlf, mBoundary := b, mHasHadData := false } := by
    refine ⟨rfl, rfl, by omega, ?_, ⟨rfl, hwf⟩, rfl, ?_⟩
    · rw [hr]
      rfl
    · have : 2 ≤ (encodeMultipart b parts).length := by
        simp [encodeMultipart]
      omega
  have hex := feed_expect b hb.2.2.2.2.1 hb.2.2.2.2.2 slices (data [] parts) 2 _ hh
    (by rw [hr, hs]; rfl) (cuts_of_cutsOk b parts slices 0 hc) (by omega)
  obtain ⟨segs, segss, h1, h2, h3, h4⟩ := hex
  have hnil : segs = [] := by
    cases segs with
    | nil => rfl
    | cons s r =>
      exfalso
      simp only [List.flatten_cons, List.append_eq_nil] at h1
      exact h2 s (List.mem_cons_self _ _) h1.1
  subst hnil
  exact ⟨segss, h3, by rw [h4]; rfl⟩

end StreamPos

end Http

namespace Http

open EnvelopeParser

/-! ## C1 and C2: the envelope parser -/

/-- C1, as stated, fails: the header `A\r\nB: x` meets every condition the claim
puts on a header (a non-empty key that starts with a byte in 0x21..0x7E and has no
colon, a value without CR or LF), yet the parser fed its block returns `npos`,
not the length of the block, and reports no header. -/
theorem envelope_one_shot_counterexample :
    (∀ h ∈ [Header.mk (bytes "A\r\nB") (bytes "x") []], h.WfStated) ∧
    (EnvelopeParser.new.parse
      (encodeBlock [Header.mk (bytes "A\r\nB") (bytes "x") []] ++ [])).2.2 = npos ∧
    (EnvelopeParser.new.parse
      (encodeBlock [Header.mk (bytes "A\r\nB") (bytes "x") []] ++ [])).2.2 ≠
        (encodeBlock [Header.mk (bytes "A\r\nB") (bytes "x") []]).length ∧
    (EnvelopeParser.new.parse
      (encodeBlock [Header.mk (bytes "A\r\nB") (bytes "x") []] ++ [])).2.1 ≠
        [Header.mk (bytes "A\r\nB") (bytes "x") []].map Header.callback := by
  decide

/-- C1 (amended): for every block of well-formed headers whose keys, besides
what the claim asks, hold no CR LF pair, closed by an empty line and followed by
any bytes `R`, a fresh envelope parser fed block and `R` in one call returns the
length of the block, leaves in-headers false, and calls `onHeaderLine` once per
header, in order, with the key as sent and the value followed by its
continuation lines verbatim. -/
theorem envelope_one_shot (hs : List Header) (R : List Byte) (hwf : ∀ h ∈ hs, h.Wf)
    (hlen : (encodeBlock hs ++ R).length < 2 ^ 64) :
    (EnvelopeParser.new.parse (encodeBlock hs ++ R)).2.2 = (encodeBlock hs).length ∧
    (EnvelopeParser.new.parse (encodeBlock hs ++ R)).1.mIsInHeaders = false ∧
    (EnvelopeParser.new.parse (encodeBlock hs ++ R)).2.1 = hs.map Header.callback :=
  EnvelopeParser.parse_block hs R hwf hlen

/-- Witness of `envelope_one_shot`: two headers, one folded, followed by a body. -/
theorem envelope_one_shot_witness :
    (EnvelopeParser.new.parse
      (encodeBlock [Header.mk (bytes "Host") (bytes "x") [],
        Header.mk (bytes "A") (bytes "one") [bytes " two"]] ++ bytes "BODY")).2.2 =
      (encodeBlock [Header.mk (bytes "Host") (bytes "x") [],
        Header.mk (bytes "A") (bytes "one") [bytes " two"]]).length ∧
    (EnvelopeParser.new.parse
      (encodeBlock [Header.mk (bytes "Host") (bytes "x") [],
        Header.mk (bytes "A") (bytes "one") [bytes " two"]] ++ bytes "BODY")).1.mIsInHeaders
      = false ∧
    (EnvelopeParser.new.parse
      (encodeBlock [Header.mk (bytes "Host") (bytes "x") [],
        Header.mk (bytes "A") (bytes "one") [bytes " two"]] ++ bytes "BODY")).2.1 =
      [Header.mk (bytes "Host") (bytes "x") [],
        Header.mk (bytes "A") (bytes "one") [bytes " two"]].map Header.callback :=
  envelope_one_shot _ _ (by decide) (by decide)

/-- C2: for every byte string `S` (shorter than `npos`, as every string is) and
every partition of `S` into consecutive slices, feeding the slices in order to a
fresh envelope parser makes the same `onHeaderLine` callbacks, ends with the same
in-headers flag and the same error or no-error outcome as feeding `S` in one
call, and when there is no error the returned counts add up to the count the
one-call parse returns. -/
theorem envelope_chunk_splitting_invariance (S : List Byte) (slices : List (List Byte))
    (hS : slices.flatten = S) (hlen : S.length < npos) :
    (EnvelopeParser.new.feed slices).2.1 = (EnvelopeParser.new.parse S).2.1 ∧
    (EnvelopeParser.new.feed slices).1.mIsInHeaders =
      (EnvelopeParser.new.parse S).1.mIsInHeaders ∧
    (npos ∈ (EnvelopeParser.new.feed slices).2.2 ↔ (EnvelopeParser.new.parse S).2.2 = npos) ∧
    ((EnvelopeParser.new.parse S).2.2 ≠ npos →
      (EnvelopeParser.new.feed slices).2.2.sum = (EnvelopeParser.new.parse S).2.2) := by
  subst hS
  have h := feed_eq_parse slices EnvelopeParser.new new_inv
    (by simpa [EnvelopeParser.new] using hlen)
  exact ⟨h.1, h.2.1.1, h.2.2.1, h.2.2.2⟩

/-- Witness of `envelope_chunk_splitting_invariance`: a header block cut so that
a CR ends one slice and its LF starts the next. -/
theorem envelope_chunk_splitting_invariance_witness :
    (EnvelopeParser.new.feed [bytes "A: 1\r", bytes "\nB: 2\r\n\r", bytes "\nrest"]).2.1 =
      (EnvelopeParser.new.parse (bytes "A: 1\r\nB: 2\r\n\r\nrest")).2.1 ∧
    (EnvelopeParser.new.feed [bytes "A: 1\r", bytes "\nB: 2\r\n\r", bytes "\nrest"]).1.mIsInHeaders =
      (EnvelopeParser.new.parse (bytes "A: 1\r\nB: 2\r\n\r\nrest")).1.mIsInHeaders ∧
    (npos ∈ (EnvelopeParser.new.feed [bytes "A: 1\r", bytes "\nB: 2\r\n\r", bytes "\nrest"]).2.2 ↔
      (EnvelopeParser.new.parse (bytes "A: 1\r\nB: 2\r\n\r\nrest")).2.2 = npos) ∧
    ((EnvelopeParser.new.parse (bytes "A: 1\r\nB: 2\r\n\r\nrest")).2.2 ≠ npos →
      (EnvelopeParser.new.feed [bytes "A: 1\r", bytes "\nB: 2\r\n\r", bytes "\nrest"]).2.2.sum =
        (EnvelopeParser.new.parse (bytes "A: 1\r\nB: 2\r\n\r\nrest")).2.2) :=
  envelope_chunk_splitting_invariance (bytes "A: 1\r\nB: 2\r\n\r\nrest")
    [bytes "A: 1\r", bytes "\nB: 2\r\n\r", bytes "\nrest"] (by decide) (by decide)

end Http

namespace Http

/-! ## C3: chunked decoding under any slicing -/

/-- C3: for every list of well-formed chunks without extension (non-empty data,
size line in hexadecimal digits of either case with any leading zeros), followed
by the last-chunk line, well-formed trailer lines and the closing empty line,
then any excess bytes `R`, and for every partition of that byte string into
slices fed in order to a fresh chunked parser: the callbacks are body segments
that concatenate to the data of the chunks, followed by exactly one
`onBodyFinished` (so `onError` is never called), no call returns `npos`, and
the unconsumed counts the calls return add up to the length of `R`. -/
theorem chunked_round_trip_under_slicing (cs : List Chunk) (trailers : List Header)
    (R : List Byte) (slices : List (List Byte)) (hcs : ∀ c ∈ cs, c.Wf)
    (htr : ∀ h ∈ trailers, h.Wf) (hsl : slices.flatten = encodeChunked cs trailers ++ R)
    (hlen : (encodeChunked cs trailers ++ R).length < npos) :
    (∃ segs : List (List Byte),
      (ChunkedTEParser.new.feed slices).2.1 =
        segs.map TEEvent.onBodyData ++ [TEEvent.onBodyFinished] ∧
      segs.flatten = chunksBody cs) ∧
    npos ∉ (ChunkedTEParser.new.feed slices).2.2 ∧
    (ChunkedTEParser.new.feed slices).2.2.sum = R.length := by
  have hnp := npos_eq
  have hok : ChunkedTEParser.new.Ok slices.flatten := by
    rw [hsl]
    exact ChunkedTEParser.ok_of_new_trailer _ _ rfl hlen
  have hfeed := ChunkedTEParser.chunked_feed_eq_parse slices ChunkedTEParser.new hok
  rw [hsl] at hfeed
  have hone := ChunkedTEParser.parse_chunked_body cs trailers R hcs htr hlen
  obtain ⟨f1, _, f3, f4⟩ := hfeed
  have hev : (ChunkedTEParser.new.parse (encodeChunked cs trailers ++ R)).2.1 =
      cs.map (fun c => TEEvent.onBodyData c.data) ++ [TEEvent.onBodyFinished] := by
    rw [hone.1]
  have hret : (ChunkedTEParser.new.parse (encodeChunked cs trailers ++ R)).2.2 = R.length := by
    rw [hone.1]
  have hRl : R.length < npos := by
    simp only [List.length_append] at hlen; omega
  rw [hev] at f1
  rw [hret] at f3 f4
  refine ⟨?_, fun h => ?_, f4 (by omega)⟩
  · have hmap : cs.map (fun c => TEEvent.onBodyData c.data) =
        (cs.map Chunk.data).map TEEvent.onBodyData := by
      rw [List.map_map]; rfl
    rw [hmap] at f1
    by_cases hc : cs.map Chunk.data = []
    · rw [hc] at f1
      have := (mergeTE_shape _).1 (by simpa [mergeTE, pushTE] using f1)
      exact ⟨[], by simpa using this, by simp [chunksBody, hc]⟩
    · rw [ChunkedTEParser.mergeTE_bodies _ hc] at f1
      exact (mergeTE_shape _).2 _ f1
  · have := f3.mp h
    omega

/-- Witness of `chunked_round_trip_under_slicing`: two chunks, one trailer line
and two excess bytes, cut inside the data and between CR and LF. -/
theorem chunked_round_trip_under_slicing_witness :
    (∃ segs : List (List Byte),
      (ChunkedTEParser.new.feed
        [bytes "5\r\nhel", bytes "lo\r", bytes "\n0A\r\n0123456789\r\n0\r\nA: b\r",
          bytes "\n\r", bytes "\nXY"]).2.1 =
        segs.map TEEvent.onBodyData ++ [TEEvent.onBodyFinished] ∧
      segs.flatten =
        chunksBody [Chunk.mk (bytes "5") (bytes "hello"),
          Chunk.mk (bytes "0A") (bytes "0123456789")]) ∧
    npos ∉ (ChunkedTEParser.new.feed
        [bytes "5\r\nhel", bytes "lo\r", bytes "\n0A\r\n0123456789\r\n0\r\nA: b\r",
          bytes "\n\r", bytes "\nXY"]).2.2 ∧
    (ChunkedTEParser.new.feed
        [bytes "5\r\nhel", bytes "lo\r", bytes "\n0A\r\n0123456789\r\n0\r\nA: b\r",
          bytes "\n\r", bytes "\nXY"]).2.2.sum = (bytes "XY").length :=
  chunked_round_trip_under_slicing
    [Chunk.mk (bytes "5") (bytes "hello"), Chunk.mk (bytes "0A") (bytes "0123456789")]
    [Header.mk (bytes "A") (bytes "b") []] (bytes "XY")
    [bytes "5\r\nhel", bytes "lo\r", bytes "\n0A\r\n0123456789\r\n0\r\nA: b\r",
      bytes "\n\r", bytes "\nXY"]
    (by decide) (by decide) (by decide) (by decide)

end Http

namespace Http

/-! ## C5 and C10: the message parser fed a whole message in one call -/

/-- C5: for every message `M` made of a non-empty first line `L` without CR LF,
CR LF, a block of well-formed headers (keys without CR LF pair, as a header line
must be) closed by an empty line, and a body `B`, where no header is a
Transfer-Encoding and either no header is a Content-Length and `B` is empty or
exactly one is and its value is the decimal of the length of `B`, and for every
excess byte string `R`, a fresh message parser fed `M ++ R` in one call makes
exactly the callbacks `onFirstLine L`, `onHeaderLine` for each header in order,
`onHeadersFinished`, `onBodyData B` when `B` is not empty, `onBodyFinished`; it
returns the length of `M`, and `isFinished` is true afterwards. -/
theorem message_one_shot (L : List Byte) (hs : List Header) (B R : List Byte)
    (hL1 : L ≠ []) (hL2 : firstCRLF L = none) (hwf : ∀ h ∈ hs, h.Wf)
    (hfr : IdentityFraming hs B)
    (hlen : (encodeMessage L hs B ++ R).length < npos) :
    (MessageParser.new.parse (encodeMessage L hs B ++ R)).2 =
        (Event.onFirstLine L :: (hs.map (fun h => Event.onHeaderLine h.key h.fullValue) ++
          Event.onHeadersFinished ::
            ((if B = [] then [] else [Event.onBodyData B]) ++ [Event.onBodyFinished])),
          (encodeMessage L hs B).length) ∧
      (MessageParser.new.parse (encodeMessage L hs B ++ R)).1.isFinished = true :=
  ⟨(MessageParser.parse_identity_message L hs B R hL1 hL2 hwf hfr hlen).1,
    (MessageParser.parse_identity_message L hs B R hL1 hL2 hwf hfr hlen).2.1⟩

/-- Witness of `message_one_shot`: a request with two headers and a body of
three bytes, followed by the first bytes of the next request. -/
theorem message_one_shot_witness :
    (MessageParser.new.parse
      (encodeMessage (bytes "POST /a HTTP/1.1")
        [Header.mk (bytes "Host") (bytes "x") [],
          Header.mk (bytes "Content-Length") (bytes "3") []] (bytes "abc") ++
        bytes "GET")).2 =
      (Event.onFirstLine (bytes "POST /a HTTP/1.1") ::
        ([Header.mk (bytes "Host") (bytes "x") [],
          Header.mk (bytes "Content-Length") (bytes "3") []].map
            (fun h => Event.onHeaderLine h.key h.fullValue) ++
          Event.onHeadersFinished ::
            ((if bytes "abc" = [] then [] else [Event.onBodyData (bytes "abc")]) ++
              [Event.onBodyFinished])),
        (encodeMessage (bytes "POST /a HTTP/1.1")
          [Header.mk (bytes "Host") (bytes "x") [],
            Header.mk (bytes "Content-Length") (bytes "3") []] (bytes "abc")).length) ∧
    (MessageParser.new.parse
      (encodeMessage (bytes "POST /a HTTP/1.1")
        [Header.mk (bytes "Host") (bytes "x") [],
          Header.mk (bytes "Content-Length") (bytes "3") []] (bytes "abc") ++
        bytes "GET")).1.isFinished = true :=
  message_one_shot (bytes "POST /a HTTP/1.1")
    [Header.mk (bytes "Host") (bytes "x") [],
      Header.mk (bytes "Content-Length") (bytes "3") []] (bytes "abc") (bytes "GET")
    (by decide) (by decide) (by decide) (by decide) (by decide)

/-- C10, as stated, fails: the message `G`, CR LF, `Transfer-Encoding: `, CR LF,
CR LF has one Transfer-Encoding header whose value, the empty string, lowercases
neither to `chunked` nor to `identity`; yet the parser makes no `onError`
callback and returns 26, not `npos`: an empty transfer encoding is taken for
`Identity`. -/
theorem empty_transfer_encoding_counterexample :
    ([Header.mk (bytes "Transfer-Encoding") [] []].filter Header.isTransferEncoding).map
        Header.fullValue = [[]] ∧
    Utils.strToLower [] ≠ bytes "chunked" ∧
    Utils.strToLower [] ≠ bytes "identity" ∧
    bytes "G" ++ crlf ++ encodeBlock [Header.mk (bytes "Transfer-Encoding") [] []] ++ [] =
      bytes "G\r\nTransfer-Encoding: \r\n\r\n" ∧
    (MessageParser.new.parse
      (bytes "G" ++ crlf ++ encodeBlock [Header.mk (bytes "Transfer-Encoding") [] []] ++
        [])).2 =
      ([Event.onFirstLine (bytes "G"), Event.onHeaderLine (bytes "Transfer-Encoding") [],
        Event.onHeadersFinished, Event.onBodyFinished], 26) ∧
    26 ≠ npos := by
  decide

/-- C10 (amended): `create` returns a chunked parser exactly when the name
lowercases to `chunked`, an identity parser with the given content length exactly
when it lowercases to `identity`, and no parser exactly when it lowercases to
neither. A message whose one Transfer-Encoding header has a value that is not
empty and lowercases to neither makes a fresh parser, fed the message in one
call, call `onError` with a description that begins `Unknown transfer encoding`
and return `npos`. A message whose one Transfer-Encoding header lowercases to
`chunked`, whatever Content-Length headers with a numeric value it carries, is
decoded as chunked: one `onBodyData` per chunk, then `onBodyFinished`, and the
call returns the length of the message. -/
theorem transfer_encoding_selection :
    (∀ (name : List Byte) (cl : Nat),
      (TransferEncodingParser.create name cl =
          some (TransferEncodingParser.chunked ChunkedTEParser.new) ↔
        Utils.strToLower name = bytes "chunked") ∧
      (TransferEncodingParser.create name cl =
          some (TransferEncodingParser.identity (IdentityTEParser.mk cl)) ↔
        Utils.strToLower name = bytes "identity") ∧
      (TransferEncodingParser.create name cl = none ↔
        (Utils.strToLower name ≠ bytes "chunked" ∧
          Utils.strToLower name ≠ bytes "identity"))) ∧
    (∀ (L : List Byte) (hs : List Header) (rest v : List Byte),
      L ≠ [] → firstCRLF L = none → (∀ h ∈ hs, h.Wf) →
      (hs.filter Header.isTransferEncoding).map Header.fullValue = [v] →
      v ≠ [] → Utils.strToLower v ≠ bytes "chunked" →
      Utils.strToLower v ≠ bytes "identity" →
      (L ++ crlf ++ encodeBlock hs ++ rest).length < npos →
      Event.onError (bytes "Unknown transfer encoding" ++ (bytes ": " ++ Utils.cstr v)) ∈
          (MessageParser.new.parse (L ++ crlf ++ encodeBlock hs ++ rest)).2.1 ∧
        (MessageParser.new.parse (L ++ crlf ++ encodeBlock hs ++ rest)).2.2 = npos) ∧
    (∀ (L : List Byte) (hs : List Header) (cs : List Chunk) (trailers : List Header)
      (R : List Byte),
      L ≠ [] → firstCRLF L = none → (∀ h ∈ hs, h.Wf) → ChunkedFraming hs →
      (∀ c ∈ cs, c.Wf) → (∀ h ∈ trailers, h.Wf) →
      (encodeMessage L hs (encodeChunked cs trailers) ++ R).length < npos →
      (MessageParser.new.parse (encodeMessage L hs (encodeChunked cs trailers) ++ R)).2 =
          (Event.onFirstLine L ::
            (hs.map (fun h => Event.onHeaderLine h.key h.fullValue) ++
              Event.onHeadersFinished ::
                (cs.map (fun c => Event.onBodyData c.data) ++ [Event.onBodyFinished])),
            (encodeMessage L hs (encodeChunked cs trailers)).length) ∧
        (MessageParser.new.parse
          (encodeMessage L hs (encodeChunked cs trailers) ++ R)).1.isFinished = true) := by
  have hic : ¬ bytes "identity" = bytes "chunked" := by decide
  have hci : ¬ bytes "chunked" = bytes "identity" := by decide
  refine ⟨fun name cl => ?_,
    fun L hs rest v h1 h2 h3 h4 h5 h6 h7 h8 =>
      MessageParser.parse_unknown_encoding L hs rest v h1 h2 h3 h4 h5 h6 h7 h8,
    fun L hs cs trailers R h1 h2 h3 h4 h5 h6 h7 =>
      ⟨(MessageParser.parse_chunked_message L hs cs trailers R h1 h2 h3 h4 h5 h6 h7).1,
        (MessageParser.parse_chunked_message L hs cs trailers R h1 h2 h3 h4 h5 h6 h7).2.1⟩⟩
  unfold TransferEncodingParser.create
  by_cases hc : Utils.strToLower name = bytes "chunked"
  · simp [hc, hci]
  · by_cases hi : Utils.strToLower name = bytes "identity"
    · simp [hi, hic]
    · simp [hc, hi]

/-- Witness of `transfer_encoding_selection`: a message with the transfer
encoding `gzip`, and a message with `Content-Length: 100` and
`Transfer-Encoding: Chunked` whose body is one chunk of five bytes. -/
theorem transfer_encoding_selection_witness :
    (Event.onError (bytes "Unknown transfer encoding" ++ (bytes ": " ++ Utils.cstr (bytes "gzip"))) ∈
        (MessageParser.new.parse
          (bytes "G" ++ crlf ++
            encodeBlock [Header.mk (bytes "Transfer-Encoding") (bytes "gzip") []] ++
            bytes "abc")).2.1 ∧
      (MessageParser.new.parse
          (bytes "G" ++ crlf ++
            encodeBlock [Header.mk (bytes "Transfer-Encoding") (bytes "gzip") []] ++
            bytes "abc")).2.2 = npos) ∧
    ((MessageParser.new.parse
        (encodeMessage (bytes "G")
          [Header.mk (bytes "Content-Length") (bytes "100") [],
            Header.mk (bytes "Transfer-Encoding") (bytes "Chunked") []]
          (encodeChunked [Chunk.mk (bytes "5") (bytes "hello")] []) ++ bytes "XY")).2 =
        (Event.onFirstLine (bytes "G") ::
          ([Header.mk (bytes "Content-Length") (bytes "100") [],
            Header.mk (bytes "Transfer-Encoding") (bytes "Chunked") []].map
              (fun h => Event.onHeaderLine h.key h.fullValue) ++
            Event.onHeadersFinished ::
              ([Chunk.mk (bytes "5") (bytes "hello")].map
                (fun c => Event.onBodyData c.data) ++ [Event.onBodyFinished])),
          (encodeMessage (bytes "G")
            [Header.mk (bytes "Content-Length") (bytes "100") [],
              Header.mk (bytes "Transfer-Encoding") (bytes "Chunked") []]
            (encodeChunked [Chunk.mk (bytes "5") (bytes "hello")] [])).length) ∧
      (MessageParser.new.parse
        (encodeMessage (bytes "G")
          [Header.mk (bytes "Content-Length") (bytes "100") [],
            Header.mk (bytes "Transfer-Encoding") (bytes "Chunked") []]
          (encodeChunked [Chunk.mk (bytes "5") (bytes "hello")] []) ++
          bytes "XY")).1.isFinished = true) :=
  ⟨transfer_encoding_selection.2.1 (bytes "G")
      [Header.mk (bytes "Transfer-Encoding") (bytes "gzip") []] (bytes "abc") (bytes "gzip")
      (by decide) (by decide) (by decide) (by decide) (by decide) (by decide) (by decide)
      (by decide),
    transfer_encoding_selection.2.2 (bytes "G")
      [Header.mk (bytes "Content-Length") (bytes "100") [],
        Header.mk (bytes "Transfer-Encoding") (bytes "Chunked") []]
      [Chunk.mk (bytes "5") (bytes "hello")] [] (bytes "XY")
      (by decide) (by decide) (by decide) (by decide) (by decide) (by decide) (by decide)⟩

end Http

namespace Http

/-! ## C7: the message parser under any slicing -/

/-- C7: for every well-formed message `M` (a non-empty first line without CR LF,
well-formed headers, and as body `wire` either an identity body `B` of the
declared Content-Length, or the chunks of `B` without extensions, the
last-chunk line and well-formed trailer lines) and every partition of `M` into
slices, feeding the slices in order to a fresh message parser makes, once
adjacent `onBodyData` callbacks are merged, the callbacks of the one call on
`M`: `onFirstLine` once, `onHeaderLine` for each header in order,
`onHeadersFinished` once, `onBodyData` with the whole body `B` if it is not
empty, `onBodyFinished` once, and no `onError`. -/
theorem message_chunk_splitting_invariance (L : List Byte) (hs : List Header)
    (wire B : List Byte) (slices : List (List Byte))
    (hL1 : L ≠ []) (hL2 : firstCRLF L = none) (hwf : ∀ h ∈ hs, h.Wf)
    (hfr : (IdentityFraming hs B ∧ wire = B) ∨
      ∃ (cs : List Chunk) (trailers : List Header),
        ChunkedFraming hs ∧ (∀ c ∈ cs, c.Wf) ∧ (∀ h ∈ trailers, h.Wf) ∧
        wire = encodeChunked cs trailers ∧ B = chunksBody cs)
    (hlen : (encodeMessage L hs wire).length < npos)
    (hsl : slices.flatten = encodeMessage L hs wire) :
    mergeEv (MessageParser.new.feed slices).2.1 =
        mergeEv (MessageParser.new.parse (encodeMessage L hs wire)).2.1 ∧
      mergeEv (MessageParser.new.feed slices).2.1 = expectedEvents L hs B :=
  MessageParser.feed_message L hs wire B slices hL1 hL2 hwf hfr hlen hsl

/-- Witness of `message_chunk_splitting_invariance`: a request with an identity
body of three bytes cut inside the first line, inside a header line, between
the CR and the LF of the empty line and inside the body; and a request with a
chunked body of two chunks cut inside the size line, inside the data and
inside the last-chunk line. -/
theorem message_chunk_splitting_invariance_witness :
    (mergeEv (MessageParser.new.feed
        [bytes "POST /a HT", bytes "TP/1.1\r\nHost: x\r\nContent-Le",
          bytes "ngth: 3\r\n\r", bytes "\nab", bytes "c"]).2.1 =
        mergeEv (MessageParser.new.parse
          (encodeMessage (bytes "POST /a HTTP/1.1")
            [Header.mk (bytes "Host") (bytes "x") [],
              Header.mk (bytes "Content-Length") (bytes "3") []] (bytes "abc"))).2.1 ∧
      mergeEv (MessageParser.new.feed
        [bytes "POST /a HT", bytes "TP/1.1\r\nHost: x\r\nContent-Le",
          bytes "ngth: 3\r\n\r", bytes "\nab", bytes "c"]).2.1 =
        expectedEvents (bytes "POST /a HTTP/1.1")
          [Header.mk (bytes "Host") (bytes "x") [],
            Header.mk (bytes "Content-Length") (bytes "3") []] (bytes "abc")) ∧
    (mergeEv (MessageParser.new.feed
        [bytes "PUT /b HTTP/1.1\r\nTransfer-Encoding: chunked\r\n\r\n0",
          bytes "3\r\nab", bytes "c\r\n2\r\nde\r\n0\r", bytes "\n\r\n"]).2.1 =
        mergeEv (MessageParser.new.parse
          (encodeMessage (bytes "PUT /b HTTP/1.1")
            [Header.mk (bytes "Transfer-Encoding") (bytes "chunked") []]
            (encodeChunked [Chunk.mk (bytes "03") (bytes "abc"),
              Chunk.mk (bytes "2") (bytes "de")] []))).2.1 ∧
      mergeEv (MessageParser.new.feed
        [bytes "PUT /b HTTP/1.1\r\nTransfer-Encoding: chunked\r\n\r\n0",
          bytes "3\r\nab", bytes "c\r\n2\r\nde\r\n0\r", bytes "\n\r\n"]).2.1 =
        expectedEvents (bytes "PUT /b HTTP/1.1")
          [Header.mk (bytes "Transfer-Encoding") (bytes "chunked") []] (bytes "abcde")) :=
  ⟨message_chunk_splitting_invariance (bytes "POST /a HTTP/1.1")
      [Header.mk (bytes "Host") (bytes "x") [],
        Header.mk (bytes "Content-Length") (bytes "3") []] (bytes "abc") (bytes "abc")
      [bytes "POST /a HT", bytes "TP/1.1\r\nHost: x\r\nContent-Le",
        bytes "ngth: 3\r\n\r", bytes "\nab", bytes "c"]
      (by decide) (by decide) (by decide) (Or.inl ⟨by decide, rfl⟩) (by decide) (by decide),
    message_chunk_splitting_invariance (bytes "PUT /b HTTP/1.1")
      [Header.mk (bytes "Transfer-Encoding") (bytes "chunked") []]
      (encodeChunked [Chunk.mk (bytes "03") (bytes "abc"), Chunk.mk (bytes "2") (bytes "de")] [])
      (bytes "abcde")
      [bytes "PUT /b HTTP/1.1\r\nTransfer-Encoding: chunked\r\n\r\n0",
        bytes "3\r\nab", bytes "c\r\n2\r\nde\r\n0\r", bytes "\n\r\n"]
      (by decide) (by decide) (by decide)
      (Or.inr ⟨[Chunk.mk (bytes "03") (bytes "abc"), Chunk.mk (bytes "2") (bytes "de")], [],
        by decide, by decide, by decide, rfl, by decide⟩)
      (by decide) (by decide)⟩

end Http

namespace Http

/-! ## C11 to C16: `finish`, the ends of the body, and failures -/

/-- C11: `IdentityTEParser::finish` calls `onError` once, with the text
`IdentityTransferEncoding: body was truncated`, when the remaining-byte counter
is positive, and makes no callback when it is zero; so a parser created for a
content length `L` and given fewer than `L` bytes reports the truncation.
`ChunkedTEParser::finish` calls `onError` once when the state is not finished,
makes no callback when it is, and leaves the parser in the finished state. -/
theorem finish_reports_truncation :
    (∀ p : IdentityTEParser,
      (0 < p.mBytesLeft →
        p.finish =
          (p, [TEEvent.onError (bytes "IdentityTransferEncoding: body was truncated")])) ∧
      (p.mBytesLeft = 0 → p.finish = (p, []))) ∧
    (∀ (L : Nat) (d : List Byte), d.length < L →
      ((IdentityTEParser.mk L).parse d).1.finish.2 =
        [TEEvent.onError (bytes "IdentityTransferEncoding: body was truncated")]) ∧
    (∀ p : ChunkedTEParser,
      (p.mState ≠ eState.psFinished →
        p.finish.2 =
          [TEEvent.onError
            (bytes "ChunkedTransferEncoding: Finish signal received before the data stream ended (state: " ++
              Utils.decOfNat p.mState.toNat ++ bytes ")")]) ∧
      (p.mState = eState.psFinished → p.finish.2 = []) ∧
      p.finish.1.mState = eState.psFinished) := by
  refine ⟨fun p => ⟨fun h => ?_, fun h => ?_⟩, fun L d h => ?_, fun p => ⟨fun h => ?_, fun h => ?_, ?_⟩⟩
  · unfold IdentityTEParser.finish
    rw [if_pos h]
  · unfold IdentityTEParser.finish
    rw [if_neg (by omega)]
  · unfold IdentityTEParser.finish IdentityTEParser.parse
    have h1 : min d.length L = d.length := by omega
    simp only [h1]
    rw [if_pos (by omega)]
  · unfold ChunkedTEParser.finish ChunkedTEParser.error
    simp only [if_pos h]
  · unfold ChunkedTEParser.finish
    simp [h]
  · unfold ChunkedTEParser.finish
    rfl

/-- Witness of `finish_reports_truncation`: content length 10 with 7 body bytes
supplied, and a chunked parser stopped inside the data of a chunk. -/
theorem finish_reports_truncation_witness :
    ((IdentityTEParser.mk 10).parse (bytes "1234567")).1.finish.2 =
        [TEEvent.onError (bytes "IdentityTransferEncoding: body was truncated")] ∧
      (ChunkedTEParser.new.parse (bytes "3\r\nab")).1.finish.2 =
        [TEEvent.onError
          (bytes "ChunkedTransferEncoding: Finish signal received before the data stream ended (state: " ++
            Utils.decOfNat (ChunkedTEParser.new.parse (bytes "3\r\nab")).1.mState.toNat ++
            bytes ")")] :=
  ⟨finish_reports_truncation.2.1 10 (bytes "1234567") (by decide),
    (finish_reports_truncation.2.2 (ChunkedTEParser.new.parse (bytes "3\r\nab")).1).1
      (by decide)⟩

/-- C12 fails on the code: an identity parser for a body of three bytes, given
`abc` and then `d`, calls `onBodyFinished` in the first call, where the counter
reaches zero, and again in the second call; a parser for an empty body calls it
in every call. -/
theorem identity_body_finished_repeats :
    ((IdentityTEParser.mk 3).feed [bytes "abc", bytes "d"]).2.1 =
        [[TEEvent.onBodyData (bytes "abc"), TEEvent.onBodyFinished],
          [TEEvent.onBodyFinished]] ∧
      countFinished ((IdentityTEParser.mk 3).feed [bytes "abc", bytes "d"]).2.1.flatten = 2 ∧
      ((IdentityTEParser.mk 0).feed [[], bytes "d"]).2.1 =
        [[TEEvent.onBodyFinished], [TEEvent.onBodyFinished]] := by
  decide

/-- C13 fails on the code: a chunked body whose trailer holds the line `bad`,
which has no colon, makes the parser call `onError` and, in the same call that
returns `npos`, `onBodyFinished`. -/
theorem chunked_trailer_error_reports_finished :
    ChunkedTEParser.new.parse (bytes "0\r\nbad\r\n\r\n") =
      ({ mState := eState.psFinished, mChunkDataLengthLeft := 0,
         mTrailerParser :=
          (EnvelopeParser.new.parse (bytes "bad\r\n\r\n")).1 },
        [TEEvent.onError (bytes "Error while parsing the trailer"), TEEvent.onBodyFinished],
        npos) ∧
      (EnvelopeParser.new.parse (bytes "bad\r\n\r\n")).2.2 = npos := by
  decide

/-- C14: a chunked parser in the state chunk-length that reads hexadecimal
digits and then a byte that is neither a hexadecimal digit nor `;` nor CR, and a
parser in the state chunk-length-LF or chunk-data-LF that reads a byte other
than LF, or in the state chunk-data-CR that reads a byte other than CR, returns
`npos` from `parse`, makes exactly one callback, an `onError`, and is in the
finished state; every later `parse` call makes no callback, keeps the state and
returns the length of its input as not consumed. -/
theorem chunked_error_handling (s : ChunkedTEParser) (ds : List Byte) (c : Byte)
    (rest later : List Byte)
    (hbad :
      (s.mState = eState.psChunkLength ∧ (∀ d ∈ ds, isHexDigit d) ∧ ¬ isHexDigit c ∧
        c ≠ 59 ∧ c ≠ 13) ∨
      (ds = [] ∧
        ((s.mState = eState.psChunkLengthLF ∧ c ≠ 10) ∨
          (s.mState = eState.psChunkDataLF ∧ c ≠ 10) ∨
          (s.mState = eState.psChunkDataCR ∧ c ≠ 13)))) :
    (s.parse (ds ++ c :: rest)).2.2 = npos ∧
    (∃ msg, (s.parse (ds ++ c :: rest)).2.1 = [TEEvent.onError msg]) ∧
    (s.parse (ds ++ c :: rest)).1.mState = eState.psFinished ∧
    (s.parse (ds ++ c :: rest)).1.parse later =
      ((s.parse (ds ++ c :: rest)).1, [], later.length) :=
  ChunkedTEParser.parse_offending_byte s ds c rest later hbad

/-- Witness of `chunked_error_handling`: a fresh parser given `1g`. -/
theorem chunked_error_handling_witness :
    (ChunkedTEParser.new.parse (bytes "1" ++ 103 :: bytes "\r\n")).2.2 = npos ∧
    (∃ msg, (ChunkedTEParser.new.parse (bytes "1" ++ 103 :: bytes "\r\n")).2.1 =
      [TEEvent.onError msg]) ∧
    (ChunkedTEParser.new.parse (bytes "1" ++ 103 :: bytes "\r\n")).1.mState =
      eState.psFinished ∧
    (ChunkedTEParser.new.parse (bytes "1" ++ 103 :: bytes "\r\n")).1.parse (bytes "0\r\n\r\n") =
      ((ChunkedTEParser.new.parse (bytes "1" ++ 103 :: bytes "\r\n")).1, [],
        (bytes "0\r\n\r\n").length) :=
  chunked_error_handling ChunkedTEParser.new (bytes "1") 103 (bytes "\r\n") (bytes "0\r\n\r\n")
    (Or.inl ⟨rfl, by decide, by decide, by decide, by decide⟩)

/-- C15 does not hold on the code: the byte 0xC3 is greater than 0x20, and the
complete line made of 0xC3 and `xx` holds no colon, so `parse` is to return
`npos`; yet a parser that has read the header line `A: b` takes the line for a
continuation line, appends it to the value and returns 13. `parseLine` tests
`aData[0] <= ' '` on a plain `char`, which is signed here, so that a byte from
0x80 on passes for the whitespace that starts a continuation line. -/
theorem envelope_high_byte_line_is_continuation :
    32 < 195 ∧ 58 ∉ (195 :: bytes "xx") ∧
    (EnvelopeParser.new.parse (bytes "A: b\r\n" ++ 195 :: bytes "xx\r\n\r\n")).2 =
      ([(bytes "A", bytes "b" ++ 195 :: bytes "xx")], 13) ∧
    13 ≠ npos := by
  decide

/-- The failures and the termination of the envelope parser as the code has
them: `parse` returns `npos`, and leaves the headers, when the first complete
line starts with a byte in 0x21..0x7F and holds no colon, also when that line
follows a block of well-formed header lines in the same call; and when the
first complete line is not empty, starts with a byte that the code takes for
whitespace (at most 0x20, or from 0x80 on, as the evaluation above shows), and
no header key is pending. Once in-headers is false, every `parse` call returns
0, makes no callback and leaves the state as it is. -/
theorem envelope_failure_and_termination :
    (∀ (p : EnvelopeParser) (d : List Byte) (i : Nat),
      p.mIsInHeaders = true → p.Inv → firstCRLF (p.mIncomingData ++ d) = some i →
      33 ≤ (p.mIncomingData ++ d).headD 0 → (p.mIncomingData ++ d).headD 0 ≤ 127 →
      58 ∉ (p.mIncomingData ++ d).take i →
      (p.parse d).2.2 = npos ∧ (p.parse d).1.mIsInHeaders = false) ∧
    (∀ (hs : List Header) (l rest : List Byte),
      (∀ h ∈ hs, h.Wf) → firstCRLF l = none →
      33 ≤ l.headD 0 → l.headD 0 ≤ 127 → 58 ∉ l →
      (EnvelopeParser.new.parse (encodeHeaders hs ++ l ++ crlf ++ rest)).2.2 = npos ∧
        (EnvelopeParser.new.parse (encodeHeaders hs ++ l ++ crlf ++ rest)).1.mIsInHeaders =
          false) ∧
    (∀ (p : EnvelopeParser) (d : List Byte) (i : Nat),
      p.mIsInHeaders = true → p.Inv → firstCRLF (p.mIncomingData ++ d) = some i →
      i ≠ 0 →
      ((p.mIncomingData ++ d).headD 0 ≤ 32 ∨ 128 ≤ (p.mIncomingData ++ d).headD 0) →
      p.mLastKey = [] →
      (p.parse d).2.2 = npos ∧ (p.parse d).1.mIsInHeaders = false) ∧
    (∀ (p : EnvelopeParser) (d : List Byte),
      p.mIsInHeaders = false → p.parse d = (p, [], 0)) := by
  have hls : ∀ c : Byte, 33 ≤ c → c ≤ 127 → EnvelopeParser.leSpace c = false := by
    intro c h1 h2
    unfold EnvelopeParser.leSpace
    have d1 : decide (c ≤ 32) = false := decide_eq_false (by simp only [Byte] at *; omega)
    have d2 : decide (128 ≤ c) = false := decide_eq_false (by simp only [Byte] at *; omega)
    rw [d1, d2]
    rfl
  have hhead : ∀ (s : List Byte) (i : Nat), i ≠ 0 → (s.take i).headD 0 = s.headD 0 := by
    intro s i hi
    cases s with
    | nil => simp
    | cons a r =>
      cases i with
      | zero => exact absurd rfl hi
      | succ n => rfl
  refine ⟨fun p d i hin hinv hf h33 h127 hc => ?_, fun hs l rest hwf hcr h33 h127 hc => ?_,
    fun p d i hin hinv hf hi hle hk => ?_, fun p d hout => EnvelopeParser.parse_out p d hout⟩
  · have hi : i ≠ 0 := by
      intro h0
      subst h0
      cases hs : p.mIncomingData ++ d with
      | nil => rw [hs] at hf; simp [firstCRLF] at hf
      | cons a r =>
        rw [hs] at hf h33
        cases r with
        | nil => simp [firstCRLF] at hf
        | cons b r2 =>
          rw [firstCRLF_cons_cons] at hf
          split at hf
          · rename_i hab
            simp only [List.headD_cons] at h33
            simp only [Byte] at *
            omega
          · cases hx : firstCRLF (b :: r2) <;> simp [hx] at hf
    refine EnvelopeParser.parse_first_line_refused p d i hin hinv hf hi ?_
    exact parseLine_nocolon p _ (by rw [hhead _ _ hi]; exact hls _ h33 h127) hc
  · have hl : l ≠ [] := by
      intro h
      subst h
      simp only [List.headD_nil] at h33
      simp only [Byte] at *
      omega
    exact EnvelopeParser.parse_headers_then_refused hs l rest hwf hl hcr
      (fun q => parseLine_nocolon q l (hls _ h33 h127) hc)
  · refine EnvelopeParser.parse_first_line_refused p d i hin hinv hf hi ?_
    refine parseLine_nokey p _ ?_ hk
    rw [hhead _ _ hi]
    unfold EnvelopeParser.leSpace
    rcases hle with h | h
    · rw [decide_eq_true h]
      rfl
    · rw [decide_eq_true h]
      exact Bool.or_true _

/-- Examples of `envelope_failure_and_termination`: the line `no colon` after the
header `A: b`, and a folded line at the very start. -/
theorem envelope_failure_and_termination_witness :
    ((EnvelopeParser.new.parse
        (encodeHeaders [Header.mk (bytes "A") (bytes "b") []] ++ bytes "no colon" ++ crlf ++
          bytes "rest")).2.2 = npos ∧
      (EnvelopeParser.new.parse
        (encodeHeaders [Header.mk (bytes "A") (bytes "b") []] ++ bytes "no colon" ++ crlf ++
          bytes "rest")).1.mIsInHeaders = false) ∧
    ((EnvelopeParser.new.parse (bytes " folded\r\n")).2.2 = npos ∧
      (EnvelopeParser.new.parse (bytes " folded\r\n")).1.mIsInHeaders = false) :=
  ⟨envelope_failure_and_termination.2.1 [Header.mk (bytes "A") (bytes "b") []]
      (bytes "no colon") (bytes "rest") (by decide) (by decide) (by decide) (by decide)
      (by decide),
    envelope_failure_and_termination.2.2.1 EnvelopeParser.new (bytes " folded\r\n") 7 rfl
      (fun _ => rfl) (by decide) (by decide) (by decide) rfl⟩

/-- C16, as stated, fails: for the input of scenario 1 the parser reports the
keys as they were sent, `Host` and `X-A`, not in lower case, and returns 19, the
length of the header block with its empty line, not 21. -/
theorem envelope_scenario_counterexample :
    (EnvelopeParser.new.parse (bytes "Host: x\r\nX-A: 1\r\n\r\nBODY")).2.1 ≠
        [(bytes "host", bytes "x"), (bytes "x-a", bytes "1")] ∧
      (EnvelopeParser.new.parse (bytes "Host: x\r\nX-A: 1\r\n\r\nBODY")).2.2 ≠ 21 := by
  decide

/-- C16 (amended): for the input `Host: x`, CR LF, `X-A: 1`, CR LF, CR LF, `BODY`
fed in one call to a fresh envelope parser, the header callbacks are
(`Host`, `x`) followed by (`X-A`, `1`), `parse` returns 19, and in-headers is
false afterwards. -/
theorem envelope_scenario :
    (EnvelopeParser.new.parse (bytes "Host: x\r\nX-A: 1\r\n\r\nBODY")).2 =
        ([(bytes "Host", bytes "x"), (bytes "X-A", bytes "1")], 19) ∧
      (EnvelopeParser.new.parse (bytes "Host: x\r\nX-A: 1\r\n\r\nBODY")).1.mIsInHeaders =
        false ∧
      (bytes "Host: x\r\nX-A: 1\r\n\r\n").length = 19 := by
  decide

end Http

namespace Http

/-! ## C17: a multipart stream given in one call -/

/-- C17 fails for the boundary `a;b`: the constructor reads the boundary from the
content type with the name/value parser, which ends a raw value at `;`, so the
parser holds the boundary `a`. On the stream of one part with the header
`A: 1` and the body `x` it takes the first boundary line for a boundary (the
line is two bytes longer than `a` and starts with `a`), reports the body, and
then reports the last boundary line as data of the part: the data reported is
not `x`, and no `onPartEnd` follows the part. -/
theorem multipart_semicolon_boundary_counterexample :
    bytes "a;b" ≠ [] ∧
    (Part.mk [Header.mk (bytes "A") (bytes "1") []] (bytes "x")).Wf (bytes "a;b") ∧
    (MultipartParser.new (bytes "multipart/form-data; boundary=" ++ bytes "a;b")).mBoundary =
      bytes "a" ∧
    ((MultipartParser.new (bytes "multipart/form-data; boundary=" ++ bytes "a;b")).parse
        (encodeMultipart (bytes "a;b")
          [Part.mk [Header.mk (bytes "A") (bytes "1") []] (bytes "x")])).2 =
      [MPEvent.onPartEnd, MPEvent.onPartStart,
        MPEvent.onPartHeader (bytes "A") (bytes "1"), MPEvent.onPartData (bytes "x"),
        MPEvent.onPartData (bytes "\r\n--a;b--")] := by
  decide

/-- C17, amended: for every boundary `b` that is not empty, holds no `;`, NUL,
CR or LF and does not open with a quote, and every list of parts with
well-formed headers whose bodies do not hold CR LF `--` `b`, the stream that
starts with the first boundary (of less than 2^64 - 3 bytes), given in one call
to a parser built from the content type `multipart/form-data; boundary=` `b`,
produces: `onPartEnd` for the first boundary; then for each part in order
`onPartStart`, the `onPartHeader` of its headers, `onPartData` events whose
data concatenate to the body of the part, and `onPartEnd`; then `onPartData`
with the empty rest of the stream. The parser stays valid and its buffer is
empty. -/
theorem multipart_one_shot (b : List Byte) (parts : List Part) (hb : BoundaryOk b)
    (hwf : ∀ part ∈ parts, part.Wf b)
    (hlen : (encodeMultipart b parts).length + 3 < 2 ^ 64) :
    ∃ segss : List (List (List Byte)),
      List.Forall₂ (fun (part : Part) segs => segs.flatten = part.data) parts segss ∧
        ((MultipartParser.new (bytes "multipart/form-data; boundary=" ++ b)).parse
            (encodeMultipart b parts)).2 =
          MPEvent.onPartEnd :: (partsEvents parts segss ++ [MPEvent.onPartData []]) ∧
        ((MultipartParser.new (bytes "multipart/form-data; boundary=" ++ b)).parse
            (encodeMultipart b parts)).1.mIncomingData = [] ∧
        ((MultipartParser.new (bytes "multipart/form-data; boundary=" ++ b)).parse
            (encodeMultipart b parts)).1.mIsValid = true :=
  MultipartParser.parse_parts b parts hb hwf hlen

/-- Witness of `multipart_one_shot`: the boundary `xyz` and two parts, the body
of the first one holding a line that starts with `--`. -/
theorem multipart_one_shot_witness :
    ∃ segss : List (List (List Byte)),
      List.Forall₂ (fun (part : Part) segs => segs.flatten = part.data)
        [Part.mk [Header.mk (bytes "A") (bytes "1") []] (bytes "x\r\n--y\r\nz"),
          Part.mk [] (bytes "w")] segss ∧
        ((MultipartParser.new (bytes "multipart/form-data; boundary=" ++ bytes "xyz")).parse
            (encodeMultipart (bytes "xyz")
              [Part.mk [Header.mk (bytes "A") (bytes "1") []] (bytes "x\r\n--y\r\nz"),
                Part.mk [] (bytes "w")])).2 =
          MPEvent.onPartEnd ::
            (partsEvents
              [Part.mk [Header.mk (bytes "A") (bytes "1") []] (bytes "x\r\n--y\r\nz"),
                Part.mk [] (bytes "w")] segss ++ [MPEvent.onPartData []]) ∧
        ((MultipartParser.new (bytes "multipart/form-data; boundary=" ++ bytes "xyz")).parse
            (encodeMultipart (bytes "xyz")
              [Part.mk [Header.mk (bytes "A") (bytes "1") []] (bytes "x\r\n--y\r\nz"),
                Part.mk [] (bytes "w")])).1.mIncomingData = [] ∧
        ((MultipartParser.new (bytes "multipart/form-data; boundary=" ++ bytes "xyz")).parse
            (encodeMultipart (bytes "xyz")
              [Part.mk [Header.mk (bytes "A") (bytes "1") []] (bytes "x\r\n--y\r\nz"),
                Part.mk [] (bytes "w")])).1.mIsValid = true :=
  multipart_one_shot (bytes "xyz")
    [Part.mk [Header.mk (bytes "A") (bytes "1") []] (bytes "x\r\n--y\r\nz"),
      Part.mk [] (bytes "w")] (by decide) (by decide) (by decide)

end Http

namespace Http

/-! ## C19 and C20: the name/value parser -/

/-- C19: for every list of well-formed items (a key alone, `k=v` with a raw
value, `k="v"`, `k='v'`), written with `;` between the items and any number of
spaces in front of each item, a parser that allows keys alone, given the string
and then finished, returns true from `finish` and holds exactly the map the
items denote: looking up a key gives the value of the last item with that key
(the empty string for a key alone, a quoted value without its quotes and as it
was written), and nothing for a key no item has. -/
theorem name_value_list_parsing (items : List (Nat × NVItem))
    (hwf : ∀ x ∈ items, x.2.Wf) :
    (((NameValueParser.new true).parse (serializeItems items)).finish).2 = true ∧
      (((NameValueParser.new true).parse (serializeItems items)).finish).1.mMap =
        itemsMap [] (items.map Prod.snd) ∧
      (∀ k, (((NameValueParser.new true).parse (serializeItems items)).finish).1.mMap.find k =
        lastValue (items.map Prod.snd) k) := by
  obtain ⟨h1, h2, _⟩ := NameValueParser.parse_items items hwf
  refine ⟨h1, h2, fun k => ?_⟩
  rw [h2, find_itemsMap]
  simp [StringMap.find]

/-- Witness of `name_value_list_parsing`: the string
`a=b; c="d;e";f;  a='x'`, in which the key `a` occurs twice. -/
theorem name_value_list_parsing_witness :
    (((NameValueParser.new true).parse
        (serializeItems [(0, NVItem.raw (bytes "a") (bytes "b")),
          (1, NVItem.dquoted (bytes "c") (bytes "d;e")),
          (0, NVItem.keyOnly (bytes "f")),
          (2, NVItem.squoted (bytes "a") (bytes "x"))])).finish).2 = true ∧
      (((NameValueParser.new true).parse
        (serializeItems [(0, NVItem.raw (bytes "a") (bytes "b")),
          (1, NVItem.dquoted (bytes "c") (bytes "d;e")),
          (0, NVItem.keyOnly (bytes "f")),
          (2, NVItem.squoted (bytes "a") (bytes "x"))])).finish).1.mMap =
        itemsMap [] ([(0, NVItem.raw (bytes "a") (bytes "b")),
          (1, NVItem.dquoted (bytes "c") (bytes "d;e")),
          (0, NVItem.keyOnly (bytes "f")),
          (2, NVItem.squoted (bytes "a") (bytes "x"))].map Prod.snd) ∧
      (∀ k, (((NameValueParser.new true).parse
        (serializeItems [(0, NVItem.raw (bytes "a") (bytes "b")),
          (1, NVItem.dquoted (bytes "c") (bytes "d;e")),
          (0, NVItem.keyOnly (bytes "f")),
          (2, NVItem.squoted (bytes "a") (bytes "x"))])).finish).1.mMap.find k =
        lastValue ([(0, NVItem.raw (bytes "a") (bytes "b")),
          (1, NVItem.dquoted (bytes "c") (bytes "d;e")),
          (0, NVItem.keyOnly (bytes "f")),
          (2, NVItem.squoted (bytes "a") (bytes "x"))].map Prod.snd) k) :=
  name_value_list_parsing _ (by decide)

/-- C20: `finish` in a raw value returns true and stores the pending key with
the pending value; so does a parser, between two items, whose input ends in
`k=v` with a raw value. `finish` in a quoted value returns false and leaves the
parser invalid; so a parser whose input ends in `k="v` or `k='v` without the
closing quote. A key followed by spaces and then by `;` or by the end of the
input makes a parser that does not allow keys alone invalid, and `finish` returns
false; a parser that allows them stores the key with the empty value. -/
theorem name_value_finish_validity :
    (∀ p : NameValueParser, p.mState = NVState.psValueRaw →
      p.finish =
        ({ p with mMap := p.mMap.set p.mCurrentKey p.mCurrentValue,
                  mState := NVState.psFinished }, true)) ∧
    (∀ (a : Bool) (m : StringMap) (n : Nat) (k v : List Byte),
      k ≠ [] → (∀ c ∈ k, isKeyByte c) → (NVItem.raw k v).valueOk →
      ((NameValueParser.mk NVState.psKeySpace a [] [] m).parse
          (List.replicate n 32 ++ k ++ 61 :: v)).finish =
        (NameValueParser.mk NVState.psFinished a k v (m.set k v), true)) ∧
    (∀ p : NameValueParser,
      p.mState = NVState.psValueInDQuotes ∨ p.mState = NVState.psValueInSQuotes →
      p.finish = ({ p with mState := NVState.psInvalid }, false) ∧
        p.finish.1.isValid = false) ∧
    (∀ (a : Bool) (m : StringMap) (n : Nat) (k v : List Byte) (q : Byte),
      k ≠ [] → (∀ c ∈ k, isKeyByte c) → (q = 34 ∨ q = 39) → q ∉ v →
      (((NameValueParser.mk NVState.psKeySpace a [] [] m).parse
          (List.replicate n 32 ++ k ++ 61 :: q :: v)).finish).2 = false ∧
        (((NameValueParser.mk NVState.psKeySpace a [] [] m).parse
          (List.replicate n 32 ++ k ++ 61 :: q :: v)).finish).1.isValid = false) ∧
    (∀ (m : StringMap) (n s : Nat) (k rest : List Byte),
      k ≠ [] → (∀ c ∈ k, isKeyByte c) →
      (((NameValueParser.mk NVState.psKeySpace false [] [] m).parse
          (List.replicate n 32 ++ k ++ List.replicate s 32 ++ 59 :: rest)).isValid = false ∧
        (((NameValueParser.mk NVState.psKeySpace false [] [] m).parse
          (List.replicate n 32 ++ k ++ List.replicate s 32 ++ 59 :: rest)).finish).2 = false) ∧
      ((((NameValueParser.mk NVState.psKeySpace false [] [] m).parse
          (List.replicate n 32 ++ k ++ List.replicate s 32)).finish).2 = false ∧
        (((NameValueParser.mk NVState.psKeySpace false [] [] m).parse
          (List.replicate n 32 ++ k ++ List.replicate s 32)).finish).1.isValid = false)) ∧
    (∀ (m : StringMap) (n s : Nat) (k : List Byte),
      k ≠ [] → (∀ c ∈ k, isKeyByte c) →
      (((NameValueParser.mk NVState.psKeySpace true [] [] m).parse
          (List.replicate n 32 ++ k ++ List.replicate s 32 ++ [59])).finish =
        (NameValueParser.mk NVState.psFinished true [] [] (m.set k []), true)) ∧
      ((((NameValueParser.mk NVState.psKeySpace true [] [] m).parse
          (List.replicate n 32 ++ k ++ List.replicate s 32)).finish).2 = true ∧
        (((NameValueParser.mk NVState.psKeySpace true [] [] m).parse
          (List.replicate n 32 ++ k ++ List.replicate s 32)).finish).1.mMap = m.set k [])) := by
  refine ⟨fun p hp => ?_, fun a m n k v hne hk hv => ?_, fun p hp => ?_,
    fun a m n k v q hne hk hq hv => ?_, fun m n s k rest hne hk => ?_,
    fun m n s k hne hk => ?_⟩
  · unfold NameValueParser.finish
    rw [hp]
  · rw [(NameValueParser.parse_open_value a m n k v hne hk).1 hv]
    rfl
  · rcases hp with hp | hp
    · unfold NameValueParser.finish NameValueParser.isValid
      rw [hp]
      simp
    · unfold NameValueParser.finish NameValueParser.isValid
      rw [hp]
      simp
  · rcases hq with hq | hq
    · subst hq
      rw [(NameValueParser.parse_open_value a m n k v hne hk).2.1 hv]
      exact ⟨rfl, rfl⟩
    · subst hq
      rw [(NameValueParser.parse_open_value a m n k v hne hk).2.2 hv]
      exact ⟨rfl, rfl⟩
  · obtain ⟨h1, h2, _⟩ := NameValueParser.parse_key_alone false m n s k rest hne hk
    rw [h1, h2 rfl]
    refine ⟨⟨rfl, rfl⟩, ?_⟩
    by_cases hs : s = 0
    · simp [hs, NameValueParser.finish, NameValueParser.isValid]
    · simp [hs, NameValueParser.finish, NameValueParser.isValid]
  · obtain ⟨h1, _, h3⟩ := NameValueParser.parse_key_alone true m n s k [] hne hk
    rw [h1, h3 rfl]
    refine ⟨rfl, ?_⟩
    have hke : k.isEmpty = false := by
      cases k with
      | nil => exact absurd rfl hne
      | cons c r => rfl
    by_cases hs : s = 0
    · simp [hs, NameValueParser.finish, hke]
    · simp [hs, NameValueParser.finish, hke]

/-- Witness of `name_value_finish_validity`: the inputs `k=v`, `k="v`, `k ;x`
and `k`, the last two for a parser that does not allow keys alone. -/
theorem name_value_finish_validity_witness :
    ((NameValueParser.mk NVState.psKeySpace false [] [] []).parse
        (List.replicate 0 32 ++ bytes "k" ++ 61 :: bytes "v")).finish =
      (NameValueParser.mk NVState.psFinished false (bytes "k") (bytes "v")
        (StringMap.set [] (bytes "k") (bytes "v")), true) ∧
    (((NameValueParser.mk NVState.psKeySpace true [] [] []).parse
        (List.replicate 0 32 ++ bytes "k" ++ 61 :: 34 :: bytes "v")).finish).2 = false ∧
    (((NameValueParser.mk NVState.psKeySpace false [] [] []).parse
        (List.replicate 0 32 ++ bytes "k" ++ List.replicate 1 32 ++ 59 :: bytes "x")).finish).2 =
      false ∧
    (((NameValueParser.mk NVState.psKeySpace false [] [] []).parse
        (List.replicate 0 32 ++ bytes "k" ++ List.replicate 0 32)).finish).2 = false :=
  ⟨name_value_finish_validity.2.1 false [] 0 (bytes "k") (bytes "v") (by decide) (by decide)
      (by decide),
    (name_value_finish_validity.2.2.2.1 true [] 0 (bytes "k") (bytes "v") 34 (by decide)
      (by decide) (Or.inl rfl) (by decide)).1,
    ((name_value_finish_validity.2.2.2.2.1 [] 0 1 (bytes "k") (bytes "x") (by decide)
      (by decide)).1).2,
    ((name_value_finish_validity.2.2.2.2.1 [] 0 0 (bytes "k") [] (by decide)
      (by decide)).2).1⟩

end Http

namespace Http

/-! ## C21, C22: URL decoding -/

/-- C21: for every list of units of a percent-encoder (a byte written as itself
when it is not `+` or `%`, a space written as `+`, a byte written as `%` and
its two hex digits of either case), `urlDecode` of the encoded text returns
`true` and the byte string the units stand for. -/
theorem url_decode_round_trip (ts : List UrlToken) (h : ∀ t ∈ ts, t.Wf) :
    Utils.urlDecode (urlEncode ts) = (true, urlDecoded ts) :=
  Utils.urlDecode_tokens ts h

/-- Witness of `url_decode_round_trip`: the text `a+%4a%2F.` stands for
`a J/.`. -/
theorem url_decode_round_trip_witness :
    urlEncode [UrlToken.literal 97, UrlToken.plus, UrlToken.escape 52 97,
        UrlToken.escape 50 70, UrlToken.literal 46] = bytes "a+%4a%2F." ∧
      Utils.urlDecode (urlEncode [UrlToken.literal 97, UrlToken.plus, UrlToken.escape 52 97,
        UrlToken.escape 50 70, UrlToken.literal 46]) =
        (true, urlDecoded [UrlToken.literal 97, UrlToken.plus, UrlToken.escape 52 97,
          UrlToken.escape 50 70, UrlToken.literal 46]) ∧
      urlDecoded [UrlToken.literal 97, UrlToken.plus, UrlToken.escape 52 97,
        UrlToken.escape 50 70, UrlToken.literal 46] = bytes "a J/." :=
  ⟨by decide,
    url_decode_round_trip [UrlToken.literal 97, UrlToken.plus, UrlToken.escape 52 97,
      UrlToken.escape 50 70, UrlToken.literal 46] (by decide),
    by decide⟩

/-- C22 fails: the code reads a Unicode escape as `%u0` followed by four hex
digits, seven chars in all. `urlDecode` of `%u00e9` is a failure, as the text
ends before the seventh char; followed by `ab` the escape takes the `a` for its
last digit and gives U+0E9A. The form body `a+b=c%20d&x=%u00e9` gives the map
with the one entry `a b` and `finish()` returns true: the entry of `x` is
dropped. -/
theorem url_decode_unicode_counterexample :
    Utils.urlDecode (bytes "%u00e9") = (false, []) ∧
      Utils.urlDecode (bytes "%u00e9ab") = (true, [224, 186, 154, 98]) ∧
      ((FormParser.newKind FormParser.Kind.fpkFormUrlEncoded
        (bytes "a+b=c%20d&x=%u00e9")).1.finish).1.mMap = [(bytes "a b", bytes "c d")] ∧
      ((FormParser.newKind FormParser.Kind.fpkFormUrlEncoded
        (bytes "a+b=c%20d&x=%u00e9")).1.finish).2 = true := by
  decide

/-- C22, amended: the escape `%u0XXXX` (`u` of either case, the char `0`, four
hex digits) of a code point U+XXXX that is not a surrogate, between any two
percent-encoded texts, decodes with success to the UTF-8 bytes of U+XXXX; an
escape `%u` followed by fewer than five chars at the end of the text makes the
decoding fail. -/
theorem url_decode_unicode (pre post : List UrlToken) (u h1 h2 h3 h4 : Byte)
    (hpre : ∀ t ∈ pre, t.Wf) (hpost : ∀ t ∈ post, t.Wf) (hu : u = 117 ∨ u = 85)
    (hh1 : isHexDigit h1) (hh2 : isHexDigit h2) (hh3 : isHexDigit h3) (hh4 : isHexDigit h4)
    (hns : hexValue [h1, h2, h3, h4] < 0xD800 ∨ 0xE000 ≤ hexValue [h1, h2, h3, h4]) :
    Utils.urlDecode (urlEncode pre ++ [37, u, 48, h1, h2, h3, h4] ++ urlEncode post) =
        (true, urlDecoded pre ++ utf8 (hexValue [h1, h2, h3, h4]) ++ urlDecoded post) ∧
      ∀ r : List Byte, r.length < 5 →
        Utils.urlDecode (urlEncode pre ++ 37 :: u :: r) = (false, []) := by
  refine ⟨?_, fun r hr => Utils.urlDecode_unicode_end pre u r hpre hu hr⟩
  rw [Utils.urlDecode_unicode pre post u h1 h2 h3 h4 hpre hpost hu hh1 hh2 hh3 hh4,
    if_neg (by omega)]

set_option maxRecDepth 100000 in
/-- Witness of `url_decode_unicode`: `x%U000E9+` decodes to `x`, the two bytes
C3 A9 and a space; `x%U00E9` does not decode. So `urlDecode` of `%u000e9` is
the two bytes C3 A9, and the form body `a+b=c%20d&x=%u000e9` gives the map of
`a b` with `c d` and `x` with the two bytes C3 A9. -/
theorem url_decode_unicode_witness :
    Utils.urlDecode (urlEncode [UrlToken.literal 120] ++ [37, 85, 48, 48, 48, 69, 57] ++
        urlEncode [UrlToken.plus]) =
        (true, urlDecoded [UrlToken.literal 120] ++ utf8 (hexValue [48, 48, 69, 57]) ++
          urlDecoded [UrlToken.plus]) ∧
      utf8 (hexValue [48, 48, 69, 57]) = [0xC3, 0xA9] ∧
      Utils.urlDecode (urlEncode [UrlToken.literal 120] ++ 37 :: 85 :: [48, 48, 69, 57]) =
        (false, []) ∧
      Utils.urlDecode (bytes "%u000e9") = (true, [0xC3, 0xA9]) ∧
      ((FormParser.newKind FormParser.Kind.fpkFormUrlEncoded
        (bytes "a+b=c%20d&x=%u000e9")).1.finish).1.mMap =
          [(bytes "a b", bytes "c d"), (bytes "x", [0xC3, 0xA9])] ∧
      ((FormParser.newKind FormParser.Kind.fpkFormUrlEncoded
        (bytes "a+b=c%20d&x=%u000e9")).1.finish).2 = true :=
  ⟨(url_decode_unicode [UrlToken.literal 120] [UrlToken.plus] 85 48 48 69 57 (by decide)
      (by decide) (by decide) (by decide) (by decide) (by decide) (by decide) (by decide)).1,
    by decide,
    (url_decode_unicode [UrlToken.literal 120] [UrlToken.plus] 85 48 48 69 57 (by decide)
      (by decide) (by decide) (by decide) (by decide) (by decide) (by decide)
      (by decide)).2 [48, 48, 69, 57] (by decide),
    by decide, by decide, by decide⟩

end Http

namespace Http

/-! ## C23, C24: Base64 decoding and the Basic authorisation -/

/-- C23: for every byte string `B` (of bytes below 256), `base64Decode` of the
standard padded Base64 encoding of `B` is `B`, and so is `base64Decode` of
every text `T` (shorter than 2^60 bytes) that is this encoding with bytes
outside the alphabet `A`-`Z`, `a`-`z`, `0`-`9`, `+`, `/`, `=` put in anywhere:
a text whose chars of the alphabet are, in order, the encoding. -/
theorem base64_decode_round_trip (B T : List Byte) (hB : ∀ x ∈ B, x < 256)
    (hT : T.filter isBase64Char = base64Encode B) (hl : T.length < 2 ^ 60) :
    Utils.base64Decode (base64Encode B) = B ∧ Utils.base64Decode T = B := by
  refine ⟨Utils.base64Decode_encode B hB ?_, Utils.base64Decode_text B T hB hT hl⟩
  have := List.length_filter_le isBase64Char T
  rw [hT] at this
  omega

/-- Witness of `base64_decode_round_trip`: the bytes `user:pass` and 255, whose
encoding `dXNlcjpwYXNz/w==` is broken by a space, a line break and a dot. -/
theorem base64_decode_round_trip_witness :
    base64Encode (bytes "user:pass" ++ [255]) = bytes "dXNlcjpwYXNz/w==" ∧
      Utils.base64Decode (base64Encode (bytes "user:pass" ++ [255])) =
        bytes "user:pass" ++ [255] ∧
      Utils.base64Decode (bytes "dXNl cjpw\r\nYXNz/.w==") = bytes "user:pass" ++ [255] :=
  ⟨by decide,
    base64_decode_round_trip (bytes "user:pass" ++ [255]) (bytes "dXNl cjpw\r\nYXNz/.w==")
      (by decide) (by decide) (by decide)⟩

/-- C24: for every user string `u` without `:` and every password string `p`
(of bytes below 256), adding to any request a header whose name is
`Authorization` in any case of letters, with the value `Basic ` followed by the
Base64 encoding of `u`, `:` and `p`, sets `hasAuth()` to true, `authUsername()`
to `u` and `authPassword()` to `p`. When the text after `Basic ` decodes to a
string without `:`, the three members are left as they were, so `hasAuth()`
stays false on a request that had no auth. -/
theorem basic_auth_decoding (r : IncomingRequest) (k u p : List Byte)
    (hk : Utils.strToLower k = bytes "authorization") (hu : 58 ∉ u)
    (hb : ∀ x ∈ u ++ 58 :: p, x < 256)
    (hl : (base64Encode (u ++ 58 :: p)).length < 2 ^ 60) :
    ((r.addHeader k (bytes "Basic " ++ base64Encode (u ++ 58 :: p))).mHasAuth = true ∧
        (r.addHeader k (bytes "Basic " ++ base64Encode (u ++ 58 :: p))).mAuthUsername = u ∧
        (r.addHeader k (bytes "Basic " ++ base64Encode (u ++ 58 :: p))).mAuthPassword = p) ∧
      ∀ X : List Byte, 58 ∉ Utils.base64Decode X →
        (r.addHeader k (bytes "Basic " ++ X)).mHasAuth = r.mHasAuth ∧
          (r.addHeader k (bytes "Basic " ++ X)).mAuthUsername = r.mAuthUsername ∧
          (r.addHeader k (bytes "Basic " ++ X)).mAuthPassword = r.mAuthPassword := by
  constructor
  · have e := IncomingRequest.addHeader_basic r k (base64Encode (u ++ 58 :: p)) hk
    rw [Utils.base64Decode_encode _ hb hl, findSub_byte 58 u p hu] at e
    simp only [List.take_left, Prod.mk.injEq] at e
    refine ⟨e.1, e.2.1, ?_⟩
    rw [e.2.2]
    simp
  · intro X hX
    have e := IncomingRequest.addHeader_basic r k X hk
    rw [findSub_byte_none 58 _ hX] at e
    simp only [Prod.mk.injEq] at e
    exact e

/-- Witness of `basic_auth_decoding`: the header
`AUTHORIZATION: Basic dXNlcjpwYXNz` on a new request gives the user `user` and
the password `pass`; the header `Basic dXNlcg==`, which decodes to `user`,
leaves the request without auth. -/
theorem basic_auth_decoding_witness :
    bytes "Basic " ++ base64Encode (bytes "user" ++ 58 :: bytes "pass") =
        bytes "Basic dXNlcjpwYXNz" ∧
      (((IncomingRequest.new (bytes "GET") (bytes "/") false).addHeader (bytes "AUTHORIZATION")
          (bytes "Basic " ++ base64Encode (bytes "user" ++ 58 :: bytes "pass"))).mHasAuth =
          true ∧
        ((IncomingRequest.new (bytes "GET") (bytes "/") false).addHeader (bytes "AUTHORIZATION")
          (bytes "Basic " ++ base64Encode (bytes "user" ++ 58 :: bytes "pass"))).mAuthUsername =
          bytes "user" ∧
        ((IncomingRequest.new (bytes "GET") (bytes "/") false).addHeader (bytes "AUTHORIZATION")
          (bytes "Basic " ++ base64Encode (bytes "user" ++ 58 :: bytes "pass"))).mAuthPassword =
          bytes "pass") ∧
      (((IncomingRequest.new (bytes "GET") (bytes "/") false).addHeader (bytes "AUTHORIZATION")
          (bytes "Basic " ++ bytes "dXNlcg==")).mHasAuth = false ∧
        ((IncomingRequest.new (bytes "GET") (bytes "/") false).addHeader (bytes "AUTHORIZATION")
          (bytes "Basic " ++ bytes "dXNlcg==")).mAuthUsername = [] ∧
        ((IncomingRequest.new (bytes "GET") (bytes "/") false).addHeader (bytes "AUTHORIZATION")
          (bytes "Basic " ++ bytes "dXNlcg==")).mAuthPassword = []) :=
  ⟨by decide,
    (basic_auth_decoding (IncomingRequest.new (bytes "GET") (bytes "/") false)
      (bytes "AUTHORIZATION") (bytes "user") (bytes "pass") (by decide) (by decide) (by decide)
      (by decide)).1,
    (basic_auth_decoding (IncomingRequest.new (bytes "GET") (bytes "/") false)
      (bytes "AUTHORIZATION") (bytes "user") (bytes "pass") (by decide) (by decide) (by decide)
      (by decide)).2 (bytes "dXNlcg==") (by decide)⟩

end Http

namespace Http

/-! ## C25, C26: the header map of a message -/

/-- C25: after adding headers whose names lowercase to the same key `K`, with
the values `v1`, ..., `vk` (at least one) in that order, to an initially empty
message, the header map holds exactly the entry of `K` with the value
`v1, v2, ..., vk` joined with a comma and a space. Added to any message, the
headers give every other key the value it had before, and give `K`, when it
was not in the map, the joined value. -/
theorem repeated_headers_are_folded (kind : Message.Kind) (m : Message) (K : List Byte)
    (h : List Byte × List Byte) (hs : List (List Byte × List Byte))
    (hk : ∀ x ∈ h :: hs, Utils.strToLower x.1 = K) :
    ((Message.new kind).addHeaders (h :: hs)).mHeaders =
        [(K, joinValues ((h :: hs).map Prod.snd))] ∧
      (∀ K', K' ≠ K → (m.addHeaders (h :: hs)).mHeaders.find K' = m.mHeaders.find K') ∧
      (m.mHeaders.find K = none →
        (m.addHeaders (h :: hs)).mHeaders.find K = some (joinValues ((h :: hs).map Prod.snd))) :=
  ⟨Message.addHeaders_new K kind h hs hk,
    fun K' hne => Message.addHeaders_other K K' hne (h :: hs) m hk,
    fun ho => Message.addHeaders_none K h hs m hk ho⟩

/-- Witness of `repeated_headers_are_folded`: `Accept` is added three times, in
three spellings, to the empty message and to a message with a content type. -/
theorem repeated_headers_are_folded_witness :
    ((Message.new Message.Kind.mkRequest).addHeaders
        [(bytes "Accept", bytes "a"), (bytes "ACCEPT", bytes "b"),
          (bytes "accept", bytes "c")]).mHeaders = [(bytes "accept", bytes "a, b, c")] ∧
      (∀ K', K' ≠ bytes "accept" →
        ((((Message.new Message.Kind.mkRequest).setContentType (bytes "t")).addHeaders
          [(bytes "Accept", bytes "a"), (bytes "ACCEPT", bytes "b"),
            (bytes "accept", bytes "c")]).mHeaders.find K' =
          ((Message.new Message.Kind.mkRequest).setContentType (bytes "t")).mHeaders.find K')) ∧
      ((((Message.new Message.Kind.mkRequest).setContentType (bytes "t")).addHeaders
          [(bytes "Accept", bytes "a"), (bytes "ACCEPT", bytes "b"),
            (bytes "accept", bytes "c")]).mHeaders.find (bytes "accept") =
        some (bytes "a, b, c")) :=
  ⟨(repeated_headers_are_folded Message.Kind.mkRequest
      ((Message.new Message.Kind.mkRequest).setContentType (bytes "t")) (bytes "accept")
      (bytes "Accept", bytes "a") [(bytes "ACCEPT", bytes "b"), (bytes "accept", bytes "c")]
      (by decide)).1,
    (repeated_headers_are_folded Message.Kind.mkRequest
      ((Message.new Message.Kind.mkRequest).setContentType (bytes "t")) (bytes "accept")
      (bytes "Accept", bytes "a") [(bytes "ACCEPT", bytes "b"), (bytes "accept", bytes "c")]
      (by decide)).2.1,
    (repeated_headers_are_folded Message.Kind.mkRequest
      ((Message.new Message.Kind.mkRequest).setContentType (bytes "t")) (bytes "accept")
      (bytes "Accept", bytes "a") [(bytes "ACCEPT", bytes "b"), (bytes "accept", bytes "c")]
      (by decide)).2.2 (by decide)⟩

/-- C26: after any sequence of `addHeader`, `setContentType` and
`setContentLength` calls on a new message, every key of the header map equals
its own lower-case form, and `headerToValue` gives the same value for two names
that are equal but for the case of their letters, whatever the default. -/
theorem header_keys_are_lowercase (kind : Message.Kind) (ops : List MessageOp) :
    (∀ x ∈ ((Message.new kind).applyAll ops).mHeaders, Utils.strToLower x.1 = x.1) ∧
      ∀ N N' d : List Byte, Utils.strToLower N = Utils.strToLower N' →
        ((Message.new kind).applyAll ops).headerToValue N d =
          ((Message.new kind).applyAll ops).headerToValue N' d :=
  ⟨Message.lower_applyAll ops _ (by simp [Message.new]),
    fun N N' d h => Message.headerToValue_variant _ N N' d h⟩

/-- Witness of `header_keys_are_lowercase`: three calls, then the lookup of
`Content-Length` in two spellings. -/
theorem header_keys_are_lowercase_witness :
    ((Message.new Message.Kind.mkResponse).applyAll
        [MessageOp.addHeader (bytes "X-Test") (bytes "1"),
          MessageOp.setContentType (bytes "text/plain"),
          MessageOp.setContentLength 12]).mHeaders =
        [(bytes "content-length", bytes "12"), (bytes "content-type", bytes "text/plain"),
          (bytes "x-test", bytes "1")] ∧
      ((Message.new Message.Kind.mkResponse).applyAll
        [MessageOp.addHeader (bytes "X-Test") (bytes "1"),
          MessageOp.setContentType (bytes "text/plain"),
          MessageOp.setContentLength 12]).headerToValue (bytes "CONTENT-length") (bytes "d") =
        ((Message.new Message.Kind.mkResponse).applyAll
          [MessageOp.addHeader (bytes "X-Test") (bytes "1"),
            MessageOp.setContentType (bytes "text/plain"),
            MessageOp.setContentLength 12]).headerToValue (bytes "Content-Length") (bytes "d") :=
  ⟨by decide,
    (header_keys_are_lowercase Message.Kind.mkResponse
      [MessageOp.addHeader (bytes "X-Test") (bytes "1"),
        MessageOp.setContentType (bytes "text/plain"),
        MessageOp.setContentLength 12]).2 (bytes "CONTENT-length") (bytes "Content-Length")
      (bytes "d") (by decide)⟩

end Http

namespace Http

/-! ## C27, C29, C30: forms sent in the URL or URL-encoded -/

/-- C27: for every list of (name, value) pairs written with a percent-encoder
that writes no data byte as a literal `&`, `=`, `+` or `%`, the body
`enc(name)=enc(value)` joined with `&`, given in any number of `parse` calls to
the parser of a POST or PUT request whose content type starts with
`application/x-www-form-urlencoded`, and followed by `finish()`, makes
`finish()` return true and leaves the map equal to the map of the pairs, the
last occurrence of a name winning. The same holds for the parser made with the
kind `fpkFormUrlEncoded` and the first slice of the body. -/
theorem form_urlencoded_equals_reference (r : IncomingRequest) (kind0 : FormParser.Kind)
    (pairs : List (List UrlToken × List UrlToken)) (slices : List (List Byte))
    (hm : r.mMethod = bytes "POST" ∨ r.mMethod = bytes "PUT")
    (hct : ∃ t, r.mContentType = bytes "application/x-www-form-urlencoded" ++ t)
    (hwf : ∀ x ∈ pairs, (∀ t ∈ x.1, t.FormWf) ∧ ∀ t ∈ x.2, t.FormWf)
    (hs : slices.flatten = encodeForm pairs) :
    (((FormParser.new r kind0).feed slices).1.finish).2 = true ∧
      (((FormParser.new r kind0).feed slices).1.finish).1.mMap = formMap pairs ∧
      ∀ first rest : List (List Byte), first.flatten ++ rest.flatten = encodeForm pairs →
        ((((FormParser.newKind FormParser.Kind.fpkFormUrlEncoded first.flatten).1.feed
            rest).1.finish).2 = true ∧
          (((FormParser.newKind FormParser.Kind.fpkFormUrlEncoded first.flatten).1.feed
            rest).1.finish).1.mMap = formMap pairs) := by
  rw [FormParser.new_urlencoded r kind0 hm hct,
    FormParser.feed_finish (FormParser.init FormParser.Kind.fpkFormUrlEncoded) pairs slices hwf
      (by decide) rfl (by simpa [FormParser.init] using hs)]
  refine ⟨rfl, rfl, fun first rest h => ?_⟩
  have e : FormParser.newKind FormParser.Kind.fpkFormUrlEncoded first.flatten =
      ({ FormParser.init FormParser.Kind.fpkFormUrlEncoded with
        mIncomingData := first.flatten }, []) := by
    simp [FormParser.newKind, FormParser.parse, FormParser.init]
  rw [e, FormParser.feed_finish
    { FormParser.init FormParser.Kind.fpkFormUrlEncoded with mIncomingData := first.flatten }
    pairs rest hwf (by intro x; cases x) rfl h]
  exact ⟨rfl, rfl⟩

/-- Witness of `form_urlencoded_equals_reference`: the pairs `a b` = `c d`,
`x` = the empty string and `a b` = `e` give the body `a+b=c%20d&x=&a%20b=e`,
which is given in three slices. -/
theorem form_urlencoded_equals_reference_witness :
    [bytes "a+b=c", bytes "%20d&x=&a%2", bytes "0b=e"].flatten =
        encodeForm
          [([UrlToken.literal 97, UrlToken.plus, UrlToken.literal 98],
              [UrlToken.literal 99, UrlToken.escape 50 48, UrlToken.literal 100]),
            ([UrlToken.literal 120], []),
            ([UrlToken.literal 97, UrlToken.escape 50 48, UrlToken.literal 98],
              [UrlToken.literal 101])] ∧
      formMap
          [([UrlToken.literal 97, UrlToken.plus, UrlToken.literal 98],
              [UrlToken.literal 99, UrlToken.escape 50 48, UrlToken.literal 100]),
            ([UrlToken.literal 120], []),
            ([UrlToken.literal 97, UrlToken.escape 50 48, UrlToken.literal 98],
              [UrlToken.literal 101])] = [(bytes "a b", bytes "e"), (bytes "x", [])] ∧
      (((FormParser.new
          ((IncomingRequest.new (bytes "POST") (bytes "/f") false).addHeader
            (bytes "Content-Type") (bytes "application/x-www-form-urlencoded; charset=x"))
          FormParser.Kind.fpkURL).feed
          [bytes "a+b=c", bytes "%20d&x=&a%2", bytes "0b=e"]).1.finish).2 = true ∧
      (((FormParser.new
          ((IncomingRequest.new (bytes "POST") (bytes "/f") false).addHeader
            (bytes "Content-Type") (bytes "application/x-www-form-urlencoded; charset=x"))
          FormParser.Kind.fpkURL).feed
          [bytes "a+b=c", bytes "%20d&x=&a%2", bytes "0b=e"]).1.finish).1.mMap =
        formMap
          [([UrlToken.literal 97, UrlToken.plus, UrlToken.literal 98],
              [UrlToken.literal 99, UrlToken.escape 50 48, UrlToken.literal 100]),
            ([UrlToken.literal 120], []),
            ([UrlToken.literal 97, UrlToken.escape 50 48, UrlToken.literal 98],
              [UrlToken.literal 101])] :=
  ⟨by decide, by decide,
    (form_urlencoded_equals_reference
      ((IncomingRequest.new (bytes "POST") (bytes "/f") false).addHeader
        (bytes "Content-Type") (bytes "application/x-www-form-urlencoded; charset=x"))
      FormParser.Kind.fpkURL
      [([UrlToken.literal 97, UrlToken.plus, UrlToken.literal 98],
          [UrlToken.literal 99, UrlToken.escape 50 48, UrlToken.literal 100]),
        ([UrlToken.literal 120], []),
        ([UrlToken.literal 97, UrlToken.escape 50 48, UrlToken.literal 98],
          [UrlToken.literal 101])]
      [bytes "a+b=c", bytes "%20d&x=&a%2", bytes "0b=e"]
      (Or.inl (by decide)) ⟨bytes "; charset=x", by decide⟩ (by decide) (by decide)).1,
    (form_urlencoded_equals_reference
      ((IncomingRequest.new (bytes "POST") (bytes "/f") false).addHeader
        (bytes "Content-Type") (bytes "application/x-www-form-urlencoded; charset=x"))
      FormParser.Kind.fpkURL
      [([UrlToken.literal 97, UrlToken.plus, UrlToken.literal 98],
          [UrlToken.literal 99, UrlToken.escape 50 48, UrlToken.literal 100]),
        ([UrlToken.literal 120], []),
        ([UrlToken.literal 97, UrlToken.escape 50 48, UrlToken.literal 98],
          [UrlToken.literal 101])]
      [bytes "a+b=c", bytes "%20d&x=&a%2", bytes "0b=e"]
      (Or.inl (by decide)) ⟨bytes "; charset=x", by decide⟩ (by decide) (by decide)).2.1⟩

/-- C29 fails for a GET request whose URL has no `?`: the parser made from it is
valid, of the kind `fpkURL`, takes input, and its `finish()` returns true. -/
theorem form_get_without_query_counterexample :
    findSub [63] (bytes "/p") = none ∧
      (FormParser.new (IncomingRequest.new (bytes "GET") (bytes "/p") false)
        FormParser.Kind.fpkMultipart).mIsValid = true ∧
      (FormParser.new (IncomingRequest.new (bytes "GET") (bytes "/p") false)
        FormParser.Kind.fpkMultipart).mKind = FormParser.Kind.fpkURL ∧
      ((FormParser.new (IncomingRequest.new (bytes "GET") (bytes "/p") false)
        FormParser.Kind.fpkMultipart).finish).2 = true ∧
      ((FormParser.new (IncomingRequest.new (bytes "GET") (bytes "/p") false)
        FormParser.Kind.fpkMultipart).parse (bytes "a=1")).1.mIncomingData = bytes "a=1" := by
  decide

/-- C29, amended: a parser made from a request is valid exactly when the method
is GET (the kind is then `fpkURL`, with or without a `?` in the URL), or the
method is POST or PUT and the content type starts with
`application/x-www-form-urlencoded` (kind `fpkFormUrlEncoded`) or with
`multipart/form-data` (kind `fpkMultipart`). For every other request the parser
is not valid: `parse` leaves it as it is and makes no callback, and `finish()`
returns false, before and after any `parse` call, whatever the value of the
member `mKind`, which the constructor does not set. -/
theorem form_parser_dispatch (r : IncomingRequest) (kind0 : FormParser.Kind) :
    ((FormParser.new r kind0).mIsValid = true ↔
        (r.mMethod = bytes "GET" ∨
          ((r.mMethod = bytes "POST" ∨ r.mMethod = bytes "PUT") ∧
            ((∃ t, r.mContentType = bytes "application/x-www-form-urlencoded" ++ t) ∨
              ∃ t, r.mContentType = bytes "multipart/form-data" ++ t)))) ∧
      (r.mMethod = bytes "GET" → (FormParser.new r kind0).mKind = FormParser.Kind.fpkURL) ∧
      ((r.mMethod = bytes "POST" ∨ r.mMethod = bytes "PUT") →
        (∃ t, r.mContentType = bytes "application/x-www-form-urlencoded" ++ t) →
        (FormParser.new r kind0).mKind = FormParser.Kind.fpkFormUrlEncoded) ∧
      ((r.mMethod = bytes "POST" ∨ r.mMethod = bytes "PUT") →
        (∃ t, r.mContentType = bytes "multipart/form-data" ++ t) →
        (FormParser.new r kind0).mKind = FormParser.Kind.fpkMultipart) ∧
      ((FormParser.new r kind0).mIsValid = false →
        ((FormParser.new r kind0).finish).2 = false ∧
          ∀ d : List Byte, (FormParser.new r kind0).parse d = (FormParser.new r kind0, []) ∧
            (((FormParser.new r kind0).parse d).1.finish).2 = false) := by
  refine ⟨FormParser.new_valid r kind0, fun hg => ?_, fun hm hc => ?_, fun hm hc => ?_,
    fun hv => ⟨FormParser.finish_invalid _ hv, fun d => ?_⟩⟩
  · rw [FormParser.new_get r kind0 hg]
    cases findSub [63] r.mURL <;> rfl
  · rw [FormParser.new_urlencoded r kind0 hm hc]
    rfl
  · rw [FormParser.new_multipart r kind0 hm hc]
    rfl
  · rw [FormParser.parse_invalid _ d hv]
    exact ⟨rfl, FormParser.finish_invalid _ hv⟩

/-- Witness of `form_parser_dispatch`: a DELETE request gives a parser that is
not valid. -/
theorem form_parser_dispatch_witness :
    (FormParser.new (IncomingRequest.new (bytes "DELETE") (bytes "/p?a=1") false)
        FormParser.Kind.fpkURL).mIsValid = false ∧
      ((FormParser.new (IncomingRequest.new (bytes "DELETE") (bytes "/p?a=1") false)
        FormParser.Kind.fpkURL).finish).2 = false ∧
      ∀ d : List Byte,
        (FormParser.new (IncomingRequest.new (bytes "DELETE") (bytes "/p?a=1") false)
            FormParser.Kind.fpkURL).parse d =
          (FormParser.new (IncomingRequest.new (bytes "DELETE") (bytes "/p?a=1") false)
            FormParser.Kind.fpkURL, []) ∧
        (((FormParser.new (IncomingRequest.new (bytes "DELETE") (bytes "/p?a=1") false)
            FormParser.Kind.fpkURL).parse d).1.finish).2 = false :=
  ⟨by decide,
    (form_parser_dispatch (IncomingRequest.new (bytes "DELETE") (bytes "/p?a=1") false)
      FormParser.Kind.fpkURL).2.2.2.2 (by decide)⟩

/-- C30 fails: right after the construction from the GET request with the URL
`/p?a=1&b=2` the map is empty; the constructor has put the text after the `?`
in the buffer of the parser, and `finish()` is what parses it. -/
theorem form_get_query_counterexample :
    (FormParser.new (IncomingRequest.new (bytes "GET") (bytes "/p?a=1&b=2") false)
        FormParser.Kind.fpkMultipart).mMap = [] ∧
      (FormParser.new (IncomingRequest.new (bytes "GET") (bytes "/p?a=1&b=2") false)
        FormParser.Kind.fpkMultipart).mIncomingData = bytes "a=1&b=2" ∧
      ((FormParser.new (IncomingRequest.new (bytes "GET") (bytes "/p?a=1&b=2") false)
        FormParser.Kind.fpkMultipart).finish).1.mMap =
        [(bytes "a", bytes "1"), (bytes "b", bytes "2")] := by
  decide

/-- C30, amended: a parser made from a GET request whose URL is a path without
`?`, a `?` and the percent-encoded pairs `enc(name)=enc(value)` joined with `&`
holds, right after construction, an empty map and the text after the first `?`
in its buffer; after `finish()`, which returns true, the map is the map of the
pairs. -/
theorem form_get_query_is_parsed_by_finish (r : IncomingRequest) (kind0 : FormParser.Kind)
    (path : List Byte) (pairs : List (List UrlToken × List UrlToken))
    (hm : r.mMethod = bytes "GET") (hp : 63 ∉ path)
    (hurl : r.mURL = path ++ 63 :: encodeForm pairs)
    (hwf : ∀ x ∈ pairs, (∀ t ∈ x.1, t.FormWf) ∧ ∀ t ∈ x.2, t.FormWf) :
    (FormParser.new r kind0).mMap = [] ∧
      (FormParser.new r kind0).mIncomingData = encodeForm pairs ∧
      ((FormParser.new r kind0).finish).1.mMap = formMap pairs ∧
      ((FormParser.new r kind0).finish).2 = true := by
  have e : FormParser.new r kind0 =
      { FormParser.init FormParser.Kind.fpkURL with mIncomingData := encodeForm pairs } := by
    rw [FormParser.new_get r kind0 hm, hurl, findSub_byte 63 path _ hp]
    simp
  rw [e, FormParser.finish_form _ pairs hwf rfl (by intro x; cases x) rfl]
  exact ⟨rfl, rfl, rfl, rfl⟩

/-- Witness of `form_get_query_is_parsed_by_finish`: the URL `/p?a=1&b=2`. -/
theorem form_get_query_is_parsed_by_finish_witness :
    (FormParser.new (IncomingRequest.new (bytes "GET") (bytes "/p?a=1&b=2") false)
        FormParser.Kind.fpkMultipart).mMap = [] ∧
      (FormParser.new (IncomingRequest.new (bytes "GET") (bytes "/p?a=1&b=2") false)
        FormParser.Kind.fpkMultipart).mIncomingData =
        encodeForm [([UrlToken.literal 97], [UrlToken.literal 49]),
          ([UrlToken.literal 98], [UrlToken.literal 50])] ∧
      ((FormParser.new (IncomingRequest.new (bytes "GET") (bytes "/p?a=1&b=2") false)
        FormParser.Kind.fpkMultipart).finish).1.mMap =
        formMap [([UrlToken.literal 97], [UrlToken.literal 49]),
          ([UrlToken.literal 98], [UrlToken.literal 50])] ∧
      ((FormParser.new (IncomingRequest.new (bytes "GET") (bytes "/p?a=1&b=2") false)
        FormParser.Kind.fpkMultipart).finish).2 = true :=
  form_get_query_is_parsed_by_finish
    (IncomingRequest.new (bytes "GET") (bytes "/p?a=1&b=2") false) FormParser.Kind.fpkMultipart
    (bytes "/p")
    [([UrlToken.literal 97], [UrlToken.literal 49]),
      ([UrlToken.literal 98], [UrlToken.literal 50])]
    (by decide) (by decide) (by decide) (by decide)

end Http

namespace Http

/-! ## C28: a multipart form given in one call -/

/-- C28: for a boundary `b` the parser recognises and a list of parts with
distinct names, each with the one header `Content-Disposition` of the value
`form-data; name="N"` (a field) or `form-data; name="N"; filename="F"` (a
file), `N` and `F` not empty and without double quote, CR or LF, and a content
that is not empty and does not hold CR LF `--` `b`: the stream of the parts
(shorter than 2^64 - 3 bytes), given in one `parse` call to the parser of a POST
or PUT request with the content type `multipart/form-data; boundary=` `b`,
makes the callbacks `onFileStart(F)`, `onFileData` for segments that
concatenate to the content, and `onFileEnd` for each file, in the order of the
parts, and nothing else; the map is then the map of the fields, which gives
every field its content and has no entry for the name of a file or for any
other name; and `finish()` returns true. -/
theorem multipart_form_fields_and_files (b : List Byte) (parts : List FormPart)
    (r : IncomingRequest) (kind0 : FormParser.Kind)
    (hm : r.mMethod = bytes "POST" ∨ r.mMethod = bytes "PUT")
    (hct : r.mContentType = bytes "multipart/form-data; boundary=" ++ b)
    (hb : BoundaryOk b) (hwf : ∀ x ∈ parts, x.Wf b)
    (hnd : (parts.map FormPart.name).Nodup)
    (hlen : (encodeMultipart b (parts.map FormPart.toPart)).length + 3 < 2 ^ 64) :
    (∃ segss : List (List (List Byte)),
      List.Forall₂ (fun (x : FormPart) segs => segs.flatten = x.content) parts segss ∧
        ((FormParser.new r kind0).parse
            (encodeMultipart b (parts.map FormPart.toPart))).2 = fileEvents parts segss) ∧
      ((FormParser.new r kind0).parse
          (encodeMultipart b (parts.map FormPart.toPart))).1.mMap = fieldMap parts ∧
      (∀ x ∈ parts, (fieldMap parts).find x.name =
        match x.fileName with
        | none => some x.content
        | some _ => none) ∧
      (∀ k, k ∉ parts.map FormPart.name → (fieldMap parts).find k = none) ∧
      (((FormParser.new r kind0).parse
          (encodeMultipart b (parts.map FormPart.toPart))).1.finish).2 = true := by
  obtain ⟨segss, h1, h2, h3, h4⟩ :=
    FormParser.parse_multipart b parts r kind0 hm hct hb hwf hnd hlen
  refine ⟨⟨segss, h1, h2⟩, h3, fun x hx => ?_, fun k hk => ?_, h4⟩
  · have := find_fieldMapFrom_part parts [] x hx hnd
    unfold fieldMap
    rw [this]
    cases x.fileName <;> rfl
  · exact find_fieldMapFrom_other parts [] k hk

set_option maxRecDepth 100000 in
/-- Witness of `multipart_form_fields_and_files`: the boundary `ABC`, the field
`field` with the content `value` and the file `up` with the file name `f.txt`
and the content `DATA`; the callbacks are `onFileStart("f.txt")`,
`onFileData("DATA")` and `onFileEnd`, the map holds `field`. -/
theorem multipart_form_fields_and_files_witness :
    ((∃ segss : List (List (List Byte)),
      List.Forall₂ (fun (x : FormPart) segs => segs.flatten = x.content)
          [FormPart.mk (bytes "field") none (bytes "value"),
            FormPart.mk (bytes "up") (some (bytes "f.txt")) (bytes "DATA")] segss ∧
        ((FormParser.new
            ((IncomingRequest.new (bytes "POST") (bytes "/u") false).addHeader
              (bytes "Content-Type") (bytes "multipart/form-data; boundary=ABC"))
            FormParser.Kind.fpkURL).parse
            (encodeMultipart (bytes "ABC")
              ([FormPart.mk (bytes "field") none (bytes "value"),
                FormPart.mk (bytes "up") (some (bytes "f.txt")) (bytes "DATA")].map
                FormPart.toPart))).2 =
          fileEvents
            [FormPart.mk (bytes "field") none (bytes "value"),
              FormPart.mk (bytes "up") (some (bytes "f.txt")) (bytes "DATA")] segss) ∧
      ((FormParser.new
          ((IncomingRequest.new (bytes "POST") (bytes "/u") false).addHeader
            (bytes "Content-Type") (bytes "multipart/form-data; boundary=ABC"))
          FormParser.Kind.fpkURL).parse
          (encodeMultipart (bytes "ABC")
            ([FormPart.mk (bytes "field") none (bytes "value"),
              FormPart.mk (bytes "up") (some (bytes "f.txt")) (bytes "DATA")].map
              FormPart.toPart))).1.mMap =
        fieldMap
          [FormPart.mk (bytes "field") none (bytes "value"),
            FormPart.mk (bytes "up") (some (bytes "f.txt")) (bytes "DATA")] ∧
      (((FormParser.new
          ((IncomingRequest.new (bytes "POST") (bytes "/u") false).addHeader
            (bytes "Content-Type") (bytes "multipart/form-data; boundary=ABC"))
          FormParser.Kind.fpkURL).parse
          (encodeMultipart (bytes "ABC")
            ([FormPart.mk (bytes "field") none (bytes "value"),
              FormPart.mk (bytes "up") (some (bytes "f.txt")) (bytes "DATA")].map
              FormPart.toPart))).1.finish).2 = true) ∧
      fieldMap
          [FormPart.mk (bytes "field") none (bytes "value"),
            FormPart.mk (bytes "up") (some (bytes "f.txt")) (bytes "DATA")] =
        [(bytes "field", bytes "value")] ∧
      ((FormParser.new
          ((IncomingRequest.new (bytes "POST") (bytes "/u") false).addHeader
            (bytes "Content-Type") (bytes "multipart/form-data; boundary=ABC"))
          FormParser.Kind.fpkURL).parse
          (encodeMultipart (bytes "ABC")
            ([FormPart.mk (bytes "field") none (bytes "value"),
              FormPart.mk (bytes "up") (some (bytes "f.txt")) (bytes "DATA")].map
              FormPart.toPart))).2 =
        [FormEvent.onFileStart (bytes "f.txt"), FormEvent.onFileData (bytes "DATA"),
          FormEvent.onFileEnd] :=
  ⟨⟨(multipart_form_fields_and_files (bytes "ABC")
        [FormPart.mk (bytes "field") none (bytes "value"),
          FormPart.mk (bytes "up") (some (bytes "f.txt")) (bytes "DATA")]
        ((IncomingRequest.new (bytes "POST") (bytes "/u") false).addHeader
          (bytes "Content-Type") (bytes "multipart/form-data; boundary=ABC"))
        FormParser.Kind.fpkURL (Or.inl (by decide)) (by decide) (by decide) (by decide)
        (by decide) (by decide)).1,
      (multipart_form_fields_and_files (bytes "ABC")
        [FormPart.mk (bytes "field") none (bytes "value"),
          FormPart.mk (bytes "up") (some (bytes "f.txt")) (bytes "DATA")]
        ((IncomingRequest.new (bytes "POST") (bytes "/u") false).addHeader
          (bytes "Content-Type") (bytes "multipart/form-data; boundary=ABC"))
        FormParser.Kind.fpkURL (Or.inl (by decide)) (by decide) (by decide) (by decide)
        (by decide) (by decide)).2.1,
      (multipart_form_fields_and_files (bytes "ABC")
        [FormPart.mk (bytes "field") none (bytes "value"),
          FormPart.mk (bytes "up") (some (bytes "f.txt")) (bytes "DATA")]
        ((IncomingRequest.new (bytes "POST") (bytes "/u") false).addHeader
          (bytes "Content-Type") (bytes "multipart/form-data; boundary=ABC"))
        FormParser.Kind.fpkURL (Or.inl (by decide)) (by decide) (by decide) (by decide)
        (by decide) (by decide)).2.2.2.2⟩,
    by decide, by decide⟩

end Http

namespace Http

/-! ## C31, C38: the serialization of responses -/

/-- C31: for every response `m` with its header map, every status code `c`,
reason text `r`, content type `ct` and body (strings without NUL bytes, and
lines that `printf` can format: shorter than 2^31 bytes),
`OutgoingResponse::serialize(c, r)` is `HTTP/1.1 `, the decimal text of `c`, a
space, `r` and CR LF, then `name: value` and CR LF for each header of the map
in the order of the keys, then a final CR LF; and
`SimpleOutgoingResponse::serialize(c, r, ct, body)` is the same status line, the
two header lines `Content-Length: ` with the decimal length of the body and
`Content-Type: ` with `ct`, the blank line, and the body. -/
theorem response_serialization_format (m : Message) (c : Int) (r ct body : List Byte)
    (hr : 0 ∉ r) (hct : 0 ∉ ct) (hlen : (statusLine c r).length + 2 < 2 ^ 31)
    (hlen2 : ct.length + 16 < 2 ^ 31) (hb : body.length < 2 ^ 64) :
    OutgoingResponse.serialize m c r =
        some (bytes "HTTP/1.1 " ++ decimalInt c ++ bytes " " ++ r ++ bytes "\r\n" ++
          (m.mHeaders.map (fun x => x.1 ++ bytes ": " ++ x.2 ++ bytes "\r\n")).flatten ++
          bytes "\r\n") ∧
      SimpleOutgoingResponse.serializeType c r ct body =
        some (bytes "HTTP/1.1 " ++ decimalInt c ++ bytes " " ++ r ++ bytes "\r\n" ++
          (bytes "Content-Length: " ++ decimal body.length ++ bytes "\r\n") ++
          (bytes "Content-Type: " ++ ct ++ bytes "\r\n") ++ bytes "\r\n" ++ body) := by
  have e1 : bytes " " = [32] := by decide
  have e2 : bytes "\r\n" = crlf := by decide
  have e3 : bytes ": " = [58, 32] := by decide
  constructor
  · rw [outgoing_serialize m c r hr hlen]
    simp [statusLine, headerLines, e1, e2, e3]
  · rw [serializeType_eq c r ct body hr hct hlen hlen2 hb]
    simp [statusLine, e1, e2]

/-- Witness of `response_serialization_format`: a response with the headers
`B: 2` and `a: 1` set in this order, serialized with the code 404; and the
simple response of the code 200 with a body of five bytes. -/
theorem response_serialization_format_witness :
    OutgoingResponse.serialize
        ((OutgoingResponse.new.addHeader (bytes "B") (bytes "2")).addHeader (bytes "a")
          (bytes "1")) 200 (bytes "OK") =
        some (bytes "HTTP/1.1 200 OK\r\na: 1\r\nb: 2\r\n\r\n") ∧
      SimpleOutgoingResponse.serializeType 200 (bytes "OK") (bytes "text/plain")
          (bytes "hello") =
        some (bytes
          "HTTP/1.1 200 OK\r\nContent-Length: 5\r\nContent-Type: text/plain\r\n\r\nhello") := by
  have h := response_serialization_format
    ((OutgoingResponse.new.addHeader (bytes "B") (bytes "2")).addHeader (bytes "a")
      (bytes "1")) 200 (bytes "OK") (bytes "text/plain") (bytes "hello")
    (by decide) (by decide) (by decide) (by decide) (by decide)
  refine ⟨h.1.trans ?_, h.2.trans ?_⟩ <;> decide

/-- C38: for every status code `c`, every reason text `r` without CR, LF or NUL
and every body `B` (the whole response shorter than 2^64 - 1 bytes, its status
line shorter than 2^31), `SimpleOutgoingResponse::serialize(c, r, B)` returns a
string `S`, and a fresh `MessageParser` fed `S` in one call returns the length
of `S`, reports no error and emits `onFirstLine` with `HTTP/1.1 `, the decimal
text of `c`, a space and `r`, `onHeaderLine("Content-Length", decimal |B|)`,
`onHeadersFinished`, `onBodyData` with `B` (only when `B` is not empty) and
`onBodyFinished`. -/
theorem serializer_parser_round_trip (c : Int) (r B : List Byte) (hr : noCRorLF r)
    (h0 : 0 ∉ r) (hlen : (statusLine c r).length + 2 < 2 ^ 31)
    (hS : (statusLine c r).length + (decimal B.length).length + B.length + 22 < npos) :
    ∃ S, SimpleOutgoingResponse.serializeBody c r B = some S ∧
      (MessageParser.new.parse S).2 =
        (Event.onFirstLine (bytes "HTTP/1.1 " ++ decimalInt c ++ bytes " " ++ r) ::
          Event.onHeaderLine (bytes "Content-Length") (decimal B.length) ::
          Event.onHeadersFinished ::
            ((if B = [] then [] else [Event.onBodyData B]) ++ [Event.onBodyFinished]),
          S.length) ∧
      (MessageParser.new.parse S).1.mHasHadError = false := by
  have e1 : bytes " " = [32] := by decide
  have kl : (bytes "Content-Length").length = 14 := by decide
  have hB : B.length < 2 ^ 64 := by
    unfold npos at hS
    omega
  have hl : (encodeMessage (statusLine c r)
      [Header.mk (bytes "Content-Length") (decimal B.length) []] B).length < npos := by
    simp only [encodeMessage, encodeBlock, encodeHeaders, Header.encode, List.length_append,
      List.map_cons, List.map_nil, List.flatten_cons, List.flatten_nil, List.length_cons,
      List.length_nil, crlf, kl]
    omega
  refine ⟨_, serializeBody_eq c r B h0 hlen hB, ?_⟩
  have h := parse_serialized c r B hr hl
  refine ⟨?_, h.2⟩
  rw [h.1]
  simp [statusLine, e1]

/-- Witness of `serializer_parser_round_trip`: the response `200 OK` with the
body `hello`. -/
theorem serializer_parser_round_trip_witness :
    SimpleOutgoingResponse.serializeBody 200 (bytes "OK") (bytes "hello") =
        some (bytes "HTTP/1.1 200 OK\r\nContent-Length: 5\r\n\r\nhello") ∧
      (MessageParser.new.parse (bytes "HTTP/1.1 200 OK\r\nContent-Length: 5\r\n\r\nhello")).2 =
        ([Event.onFirstLine (bytes "HTTP/1.1 200 OK"),
          Event.onHeaderLine (bytes "Content-Length") (bytes "5"), Event.onHeadersFinished,
          Event.onBodyData (bytes "hello"), Event.onBodyFinished], 43) ∧
      (MessageParser.new.parse
        (bytes "HTTP/1.1 200 OK\r\nContent-Length: 5\r\n\r\nhello")).1.mHasHadError = false := by
  obtain ⟨S, h1, h2, h3⟩ := serializer_parser_round_trip 200 (bytes "OK") (bytes "hello")
    (by decide) (by decide) (by decide) (by decide)
  have e : SimpleOutgoingResponse.serializeBody 200 (bytes "OK") (bytes "hello") =
      some (bytes "HTTP/1.1 200 OK\r\nContent-Length: 5\r\n\r\nhello") := by decide
  have eS : S = bytes "HTTP/1.1 200 OK\r\nContent-Length: 5\r\n\r\nhello" :=
    Option.some.inj (h1.symm.trans e)
  subst eS
  exact ⟨e, h2.trans (by decide), h3⟩

end Http

namespace Http

/-! ## C32: the bounds-checked integer parsing -/

/-- Counterexample to C32 as stated: `stringToInteger<size_t>` returns true and
stores 0 for the empty string and for the string `+`, which have no digit. -/
theorem string_to_integer_counterexample :
    Utils.stringToInteger [] = some 0 ∧ Utils.stringToInteger (bytes "+") = some 0 := by
  decide

/-- C32, amended: `stringToInteger<size_t>(s, n)` returns true and stores `n`
exactly when `s` is an optional `+` followed by any number of decimal digits,
none included, and nothing else, the value `n` of the digits (0 when there is
none) being at most 2^64 - 1; in every other case (a byte that is not a digit, a
leading `-`, a value above 2^64 - 1) it returns false and stores nothing. -/
theorem string_to_integer_accepts (s : List Byte) (n : Nat) :
    (Utils.stringToInteger s = some n ↔
      ∃ ds, (s = ds ∨ s = 43 :: ds) ∧ (∀ c ∈ ds, 48 ≤ c ∧ c ≤ 57) ∧
        decValueFrom 0 ds = n ∧ n ≤ 2 ^ 64 - 1) ∧
      (Utils.stringToInteger s = none ↔
        ¬ ∃ ds, (s = ds ∨ s = 43 :: ds) ∧ (∀ c ∈ ds, 48 ≤ c ∧ c ≤ 57) ∧
          decValueFrom 0 ds ≤ 2 ^ 64 - 1) := by
  have key : ∀ m, Utils.stringToInteger s = some m ↔
      ∃ ds, (s = ds ∨ s = 43 :: ds) ∧ (∀ c ∈ ds, 48 ≤ c ∧ c ≤ 57) ∧
        decValueFrom 0 ds = m ∧ m ≤ 2 ^ 64 - 1 := by
    intro m
    rw [stringToInteger_some_iff]
    constructor
    · rintro ⟨ds, a, b, c, d⟩
      exact ⟨ds, a, b, c, by omega⟩
    · rintro ⟨ds, a, b, c, d⟩
      exact ⟨ds, a, b, c, by omega⟩
  refine ⟨key n, ?_⟩
  constructor
  · rintro h ⟨ds, a, b, d⟩
    have := (key (decValueFrom 0 ds)).2 ⟨ds, a, b, rfl, d⟩
    rw [h] at this
    exact absurd this (by simp)
  · intro h
    cases hs : Utils.stringToInteger s with
    | none => rfl
    | some m =>
      obtain ⟨ds, a, b, c, d⟩ := (key m).1 hs
      exact absurd ⟨ds, a, b, by rw [c]; exact d⟩ h

/-- Examples of `string_to_integer_accepts`: the largest value and a value with a
sign are accepted; 2^64, a leading `-`, a space and a digit after a second sign
are refused. -/
theorem string_to_integer_accepts_witness :
    Utils.stringToInteger (bytes "18446744073709551615") = some (2 ^ 64 - 1) ∧
      Utils.stringToInteger (bytes "+0042") = some 42 ∧
      Utils.stringToInteger (bytes "18446744073709551616") = none ∧
      Utils.stringToInteger (bytes "-1") = none ∧
      Utils.stringToInteger (bytes "1 ") = none ∧
      Utils.stringToInteger (bytes "+-1") = none :=
  ⟨(string_to_integer_accepts (bytes "18446744073709551615") (2 ^ 64 - 1)).1.2
      ⟨bytes "18446744073709551615", Or.inl rfl, by decide, by decide, le_refl _⟩,
    by decide, by decide, by decide, by decide, by decide⟩

end Http

namespace Http

/-! ## C33, C39: the first line of a message that begins with CR LF -/

set_option maxRecDepth 100000 in
/-- C33 does not hold on the code: a fresh message parser fed the slice CR LF
calls `onFirstLine` with the empty line and keeps `mFirstLine` empty, which is
how the parser records that the first line is not parsed yet; fed the slice
`GET / HTTP/1.1`, CR LF, `Host: a`, CR LF, CR LF next, it calls `onFirstLine`
a second time. Fed the two slices as one, the call stops after the empty line:
it emits `onFirstLine` with the empty line, returns the whole length 29 and
leaves the 27 bytes after the first CR LF in the buffer. -/
theorem first_line_event_repeats :
    (MessageParser.new.parse (bytes "\r\n")).2 = ([Event.onFirstLine []], 2) ∧
      (MessageParser.new.parse (bytes "\r\n")).1.mFirstLine = [] ∧
      ((MessageParser.new.parse (bytes "\r\n")).1.parse
          (bytes "GET / HTTP/1.1\r\nHost: a\r\n\r\n")).2 =
        ([Event.onFirstLine (bytes "GET / HTTP/1.1"),
          Event.onHeaderLine (bytes "Host") (bytes "a"), Event.onHeadersFinished,
          Event.onBodyFinished], 27) ∧
      (MessageParser.new.parse (bytes "\r\nGET / HTTP/1.1\r\nHost: a\r\n\r\n")).2 =
        ([Event.onFirstLine []], 29) ∧
      (MessageParser.new.parse (bytes "\r\nGET / HTTP/1.1\r\nHost: a\r\n\r\n")).1.mBuffer =
        bytes "GET / HTTP/1.1\r\nHost: a\r\n\r\n" := by
  decide

set_option maxRecDepth 100000 in
/-- C39 does not hold on the code: for a fresh parser and the empty slice,
`parseFirstLine` consumes 0 bytes, so the assertion
`bytesConsumedFirstLine > inBufferSoFar` is false. After the slice CR LF, `G`,
CR LF, `Host: a`, CR LF, CR LF, which begins with an empty line, the parser
still waits for the first line with 14 bytes in its buffer; for the next slice
`x` `parseFirstLine` consumes 3 bytes, fewer than the 14 bytes buffered before,
and the envelope parser consumes 11 bytes, more than 3 + 1, so the assertion
`bytesConsumedEnvelope <= bytesConsumedFirstLine + aSize` is false too. -/
theorem message_parse_assertions_fail :
    MessageParser.firstLineAsserts MessageParser.new [] = (true, false) ∧
      (MessageParser.new.parse (bytes "\r\nG\r\nHost: a\r\n\r\n")).1.mFirstLine = [] ∧
      (MessageParser.new.parse (bytes "\r\nG\r\nHost: a\r\n\r\n")).1.mHasHadError = false ∧
      (MessageParser.new.parse (bytes "\r\nG\r\nHost: a\r\n\r\n")).1.mIsFinished = false ∧
      (MessageParser.new.parse (bytes "\r\nG\r\nHost: a\r\n\r\n")).1.mBuffer.length = 14 ∧
      MessageParser.firstLineAsserts
          (MessageParser.new.parse (bytes "\r\nG\r\nHost: a\r\n\r\n")).1 (bytes "x") =
        (true, false) ∧
      MessageParser.envelopeAssert
          (MessageParser.new.parse (bytes "\r\nG\r\nHost: a\r\n\r\n")).1 (bytes "x") =
        false := by
  decide

end Http

namespace Http

/-! ## C34, C40: the order of the multipart callbacks, and boundary lines -/

set_option maxRecDepth 100000 in
/-- Counterexample to C34 as stated: for the stream of one part with the
boundary `AB`, the first callback is `onPartEnd`, before any `onPartStart`; the
sequence of the callbacks is not in the order of the parts. -/
theorem multipart_callback_order_counterexample :
    ((MultipartParser.new (bytes "multipart/form-data; boundary=AB")).parse
        (bytes "--AB\r\nA: 1\r\n\r\nx\r\n--AB--\r\n")).2 =
      [MPEvent.onPartEnd, MPEvent.onPartStart, MPEvent.onPartHeader (bytes "A") (bytes "1"),
        MPEvent.onPartData (bytes "x"), MPEvent.onPartEnd, MPEvent.onPartData []] ∧
      orderRun PartPhase.outside
        ((MultipartParser.new (bytes "multipart/form-data; boundary=AB")).parse
          (bytes "--AB\r\nA: 1\r\n\r\nx\r\n--AB--\r\n")).2 = none := by
  decide

/-- C34, amended: for a well-formed multipart stream fed in one call, the
callbacks are one `onPartEnd` for the opening boundary, then the callbacks `E`
of the parts, then one `onPartData` with the empty epilogue. In `E` the
callbacks of each part occur as `onPartStart`, its `onPartHeader` callbacks, its
`onPartData` callbacks and `onPartEnd`, in source order, so within `E` every
`onPartEnd` ends the part of the last `onPartStart`; `E` has one `onPartStart`
for each part. -/
theorem multipart_callback_order (b : List Byte) (parts : List Part) (hb : BoundaryOk b)
    (hwf : ∀ part ∈ parts, part.Wf b)
    (hlen : (encodeMultipart b parts).length + 3 < 2 ^ 64) :
    ∃ E : List MPEvent,
      ((MultipartParser.new (bytes "multipart/form-data; boundary=" ++ b)).parse
          (encodeMultipart b parts)).2 = MPEvent.onPartEnd :: (E ++ [MPEvent.onPartData []]) ∧
        orderRun PartPhase.outside E = some PartPhase.outside ∧
        countPartStart E = parts.length ∧
        (∃ segss : List (List (List Byte)), E = partsEvents parts segss ∧
          segss.length = parts.length) := by
  obtain ⟨segss, h1, h2, -, -⟩ := MultipartParser.parse_parts b parts hb hwf hlen
  refine ⟨partsEvents parts segss, h2, ?_, countPartStart_partsEvents parts segss h1,
    segss, rfl, h1.length_eq.symm⟩
  have := orderRun_partsEvents parts segss []
  simpa [orderRun] using this

set_option maxRecDepth 100000 in
/-- Witness of `multipart_callback_order`: two parts with the boundary `AB`. -/
theorem multipart_callback_order_witness :
    BoundaryOk (bytes "AB") ∧
      ∃ E : List MPEvent,
        ((MultipartParser.new (bytes "multipart/form-data; boundary=" ++ bytes "AB")).parse
            (encodeMultipart (bytes "AB")
              [Part.mk [Header.mk (bytes "A") (bytes "1") []] (bytes "x"),
                Part.mk [Header.mk (bytes "B") (bytes "2") []] []])).2 =
          MPEvent.onPartEnd :: (E ++ [MPEvent.onPartData []]) ∧
        orderRun PartPhase.outside E = some PartPhase.outside ∧
        countPartStart E =
          [Part.mk [Header.mk (bytes "A") (bytes "1") []] (bytes "x"),
            Part.mk [Header.mk (bytes "B") (bytes "2") []] []].length ∧
        (∃ segss : List (List (List Byte)),
          E = partsEvents [Part.mk [Header.mk (bytes "A") (bytes "1") []] (bytes "x"),
            Part.mk [Header.mk (bytes "B") (bytes "2") []] []] segss ∧
          segss.length =
            [Part.mk [Header.mk (bytes "A") (bytes "1") []] (bytes "x"),
              Part.mk [Header.mk (bytes "B") (bytes "2") []] []].length) :=
  ⟨by decide,
    multipart_callback_order (bytes "AB")
      [Part.mk [Header.mk (bytes "A") (bytes "1") []] (bytes "x"),
        Part.mk [Header.mk (bytes "B") (bytes "2") []] []] (by decide) (by decide) (by decide)⟩

set_option maxRecDepth 100000 in
/-- C40 does not hold on the code: with the boundary `ABC`, the line `--ABCxy`
inside the body of a part is taken for a part separator: the parser calls
`onPartEnd` and `onPartStart` for it and reads the next lines as the headers of
a new part, so the stream of one part is reported as two parts, and the line
is not delivered through `onPartData`. When the line that follows is not a
header line, the parser becomes invalid. A line `--ABCx`, of another length, is
delivered as data. -/
theorem near_boundary_line_splits_part :
    ((MultipartParser.new (bytes "multipart/form-data; boundary=ABC")).parse
        (bytes "--ABC\r\nA: 1\r\n\r\nbody\r\n--ABCxy\r\nB: 2\r\n\r\nmore\r\n--ABC--\r\n")).2 =
      [MPEvent.onPartEnd, MPEvent.onPartStart, MPEvent.onPartHeader (bytes "A") (bytes "1"),
        MPEvent.onPartData (bytes "body"), MPEvent.onPartEnd, MPEvent.onPartStart,
        MPEvent.onPartHeader (bytes "B") (bytes "2"), MPEvent.onPartData (bytes "more"),
        MPEvent.onPartEnd, MPEvent.onPartData []] ∧
      ((MultipartParser.new (bytes "multipart/form-data; boundary=ABC")).parse
        (bytes "--ABC\r\nA: 1\r\n\r\nbody\r\n--ABCxy\r\nmore\r\n--ABC--\r\n")).2 =
      [MPEvent.onPartEnd, MPEvent.onPartStart, MPEvent.onPartHeader (bytes "A") (bytes "1"),
        MPEvent.onPartData (bytes "body"), MPEvent.onPartEnd, MPEvent.onPartStart] ∧
      ((MultipartParser.new (bytes "multipart/form-data; boundary=ABC")).parse
        (bytes "--ABC\r\nA: 1\r\n\r\nbody\r\n--ABCxy\r\nmore\r\n--ABC--\r\n")).1.mIsValid =
        false ∧
      ((MultipartParser.new (bytes "multipart/form-data; boundary=ABC")).parse
        (bytes "--ABC\r\nA: 1\r\n\r\nbody\r\n--ABCx\r\nmore\r\n--ABC--\r\n")).2 =
      [MPEvent.onPartEnd, MPEvent.onPartStart, MPEvent.onPartHeader (bytes "A") (bytes "1"),
        MPEvent.onPartData (bytes "body"), MPEvent.onPartData (bytes "\r\n--ABCx"),
        MPEvent.onPartData (bytes "\r\nmore"), MPEvent.onPartEnd, MPEvent.onPartData []] := by
  decide

end Http

namespace Http

/-! ## C35: the part data of a multipart stream fed in slices -/

/-- C35: for every boundary `b` the parser can be given, every list of
well-formed parts (no body holds CR LF, `--` and the boundary) and every
partition of the stream into slices whose ends do not lie inside the header
block of a part (ends inside the bodies, inside the CR LF in front of a
boundary and inside the boundary lines are all allowed, and so are empty
slices), a fresh parser that is fed the slices one by one emits `onPartEnd` for
the opening boundary, then for each part `onPartStart`, its headers,
`onPartData` callbacks whose concatenation is exactly the body of the part, and
`onPartEnd`, then the empty epilogue: no byte of a boundary line or of the
CR LF in front of it is delivered through `onPartData`. -/
theorem multipart_data_slicing (b : List Byte) (parts : List Part)
    (slices : List (List Byte)) (hb : BoundaryOk b) (hwf : ∀ part ∈ parts, part.Wf b)
    (hlen : (encodeMultipart b parts).length + 3 < 2 ^ 64)
    (hs : slices.flatten = encodeMultipart b parts) (hc : cutsOk b parts 0 slices = true) :
    ∃ segss : List (List (List Byte)),
      List.Forall₂ (fun (part : Part) segs => segs.flatten = part.data) parts segss ∧
        ((MultipartParser.new (bytes "multipart/form-data; boundary=" ++ b)).feed slices).2 =
          MPEvent.onPartEnd :: (partsEvents parts segss ++ [MPEvent.onPartData []]) :=
  StreamPos.feed_parts b parts slices hb hwf hlen hs hc

set_option maxRecDepth 100000 in
/-- Witness of `multipart_data_slicing`: two parts with the boundary `AB`, the
first with the body `x`, CR LF, `--y`, in nine slices that end inside the first
boundary line, inside the bodies, inside the CR LF in front of a boundary and
inside the boundary lines. -/
theorem multipart_data_slicing_witness :
    [bytes "--A", bytes "B\r\nA: 1\r\n\r\nx\r", bytes "\n--y\r", bytes "\n--",
        bytes "AB\r\n\r\nhe", bytes "llo\r", bytes "\n--A", bytes "B--\r", bytes "\n"].flatten =
      encodeMultipart (bytes "AB")
        [Part.mk [Header.mk (bytes "A") (bytes "1") []] (bytes "x\r\n--y"),
          Part.mk [] (bytes "hello")] ∧
      ∃ segss : List (List (List Byte)),
        List.Forall₂ (fun (part : Part) segs => segs.flatten = part.data)
          [Part.mk [Header.mk (bytes "A") (bytes "1") []] (bytes "x\r\n--y"),
            Part.mk [] (bytes "hello")] segss ∧
        ((MultipartParser.new (bytes "multipart/form-data; boundary=" ++ bytes "AB")).feed
          [bytes "--A", bytes "B\r\nA: 1\r\n\r\nx\r", bytes "\n--y\r", bytes "\n--",
            bytes "AB\r\n\r\nhe", bytes "llo\r", bytes "\n--A", bytes "B--\r", bytes "\n"]).2 =
          MPEvent.onPartEnd ::
            (partsEvents [Part.mk [Header.mk (bytes "A") (bytes "1") []] (bytes "x\r\n--y"),
              Part.mk [] (bytes "hello")] segss ++ [MPEvent.onPartData []]) :=
  ⟨by decide,
    multipart_data_slicing (bytes "AB")
      [Part.mk [Header.mk (bytes "A") (bytes "1") []] (bytes "x\r\n--y"),
        Part.mk [] (bytes "hello")]
      [bytes "--A", bytes "B\r\nA: 1\r\n\r\nx\r", bytes "\n--y\r", bytes "\n--",
        bytes "AB\r\n\r\nhe", bytes "llo\r", bytes "\n--A", bytes "B--\r", bytes "\n"]
      (by decide) (by decide) (by decide) (by decide) (by decide)⟩

end Http

namespace Http

/-! ## C36, C37: surrogates in URL decoding, and the scheme of the authorisation -/

/-- C36 does not hold on the code: `UnicodeCharToUtf8` returns the empty string
for a surrogate, which its comment calls an error, and `urlDecode` appends it
and goes on: `urlDecode` of `%u0D800` returns true with the empty string, and
`a%u0DFFFb` returns true with `ab`, while U+D7FF is decoded to its three
bytes. -/
theorem url_decode_accepts_surrogates :
    Utils.UnicodeCharToUtf8 0xD800 = [] ∧
      Utils.urlDecode (bytes "%u0D800") = (true, []) ∧
      Utils.urlDecode (bytes "a%u0DFFFb") = (true, bytes "ab") ∧
      Utils.urlDecode (bytes "%u0D7FF") = (true, [237, 159, 191]) := by
  decide

set_option maxRecDepth 100000 in
/-- Counterexample to C37 as stated: the header `Authorization` with the value
`basic dXNlcjpwYXNz` or `BASIC dXNlcjpwYXNz` leaves `hasAuth()` false and the
user name empty, while the value `Basic dXNlcjpwYXNz` sets the user `user` and
the password `pass`. -/
theorem auth_scheme_case_counterexample :
    ((IncomingRequest.new (bytes "GET") (bytes "/") false).addHeader (bytes "Authorization")
        (bytes "basic dXNlcjpwYXNz")).mHasAuth = false ∧
      ((IncomingRequest.new (bytes "GET") (bytes "/") false).addHeader (bytes "Authorization")
        (bytes "BASIC dXNlcjpwYXNz")).mHasAuth = false ∧
      ((IncomingRequest.new (bytes "GET") (bytes "/") false).addHeader (bytes "Authorization")
        (bytes "basic dXNlcjpwYXNz")).mAuthUsername = [] ∧
      ((IncomingRequest.new (bytes "GET") (bytes "/") false).addHeader (bytes "Authorization")
        (bytes "Basic dXNlcjpwYXNz")).mHasAuth = true ∧
      ((IncomingRequest.new (bytes "GET") (bytes "/") false).addHeader (bytes "Authorization")
        (bytes "Basic dXNlcjpwYXNz")).mAuthUsername = bytes "user" ∧
      ((IncomingRequest.new (bytes "GET") (bytes "/") false).addHeader (bytes "Authorization")
        (bytes "Basic dXNlcjpwYXNz")).mAuthPassword = bytes "pass" := by
  decide

/-- C37, amended: the header name `Authorization` is matched in any case of
letters, the scheme only in the spelling `Basic`. For every name `k` that is
`Authorization` in some case and every text `X`, the value `Basic ` followed by
`X` sets `hasAuth()`, the user name and the password from the Base64 decoding
of `X` when it holds a `:`. Every value that does not start with the six chars
`Basic `, such as one with the scheme word in another case, leaves the three
members as they were, whatever the name. -/
theorem auth_scheme_is_case_sensitive (r : IncomingRequest) (k v : List Byte) :
    (Utils.strToLower k = bytes "authorization" → ∀ X : List Byte, v = bytes "Basic " ++ X →
      ∀ i, findSub [58] (Utils.base64Decode X) = some i →
        (r.addHeader k v).mHasAuth = true ∧
          (r.addHeader k v).mAuthUsername = (Utils.base64Decode X).take i ∧
          (r.addHeader k v).mAuthPassword = (Utils.base64Decode X).drop (i + 1)) ∧
      (v.take 6 ≠ bytes "Basic " →
        (r.addHeader k v).mHasAuth = r.mHasAuth ∧
          (r.addHeader k v).mAuthUsername = r.mAuthUsername ∧
          (r.addHeader k v).mAuthPassword = r.mAuthPassword) := by
  refine ⟨?_, IncomingRequest.addHeader_other_scheme r k v⟩
  intro hk X hv i hi
  subst hv
  have e := IncomingRequest.addHeader_basic r k X hk
  rw [hi] at e
  simp only [Prod.mk.injEq] at e
  exact e

set_option maxRecDepth 100000 in
/-- Witness of `auth_scheme_is_case_sensitive`: the name `AUTHORIZATION` with the
value `Basic dXNlcjpwYXNz` sets the user `user` and the password `pass`; with
the value `basic dXNlcjpwYXNz` a request without auth stays without auth. -/
theorem auth_scheme_is_case_sensitive_witness :
    ((IncomingRequest.new (bytes "GET") (bytes "/") false).addHeader (bytes "AUTHORIZATION")
        (bytes "Basic dXNlcjpwYXNz")).mHasAuth = true ∧
      ((IncomingRequest.new (bytes "GET") (bytes "/") false).addHeader (bytes "AUTHORIZATION")
        (bytes "Basic dXNlcjpwYXNz")).mAuthUsername = bytes "user" ∧
      ((IncomingRequest.new (bytes "GET") (bytes "/") false).addHeader (bytes "AUTHORIZATION")
        (bytes "Basic dXNlcjpwYXNz")).mAuthPassword = bytes "pass" ∧
      ((IncomingRequest.new (bytes "GET") (bytes "/") false).addHeader (bytes "AUTHORIZATION")
        (bytes "basic dXNlcjpwYXNz")).mHasAuth = false := by
  have h1 := (auth_scheme_is_case_sensitive (IncomingRequest.new (bytes "GET") (bytes "/") false)
    (bytes "AUTHORIZATION") (bytes "Basic dXNlcjpwYXNz")).1 (by decide) (bytes "dXNlcjpwYXNz")
    (by decide) 4 (by decide)
  have h2 := (auth_scheme_is_case_sensitive (IncomingRequest.new (bytes "GET") (bytes "/") false)
    (bytes "AUTHORIZATION") (bytes "basic dXNlcjpwYXNz")).2 (by decide)
  exact ⟨h1.1, h1.2.1.trans (by decide), h1.2.2.trans (by decide), h2.1.trans (by decide)⟩

end Http

namespace Http

/-! ## C4, C6, C8, C9: the code at the inputs where it departs from the claims -/

/-- C4 (code at the failing input): fed the chunked body of the specification's
own scenario, `4;foo=bar` CR LF `abcd` CR LF `0` CR LF CR LF, the chunked parser
calls `onError` and returns `npos`, and delivers neither body data nor
`onBodyFinished`: `parseChunkLengthTrailer` returns the index of the CR without
consuming it, so `parseChunkLengthLF` meets the CR where it wants the LF. -/
theorem chunk_extension_is_rejected :
    (ChunkedTEParser.new.parse (bytes "4;foo=bar\r\nabcd\r\n0\r\n\r\n")).2 =
      ([TEEvent.onError (bytes "Invalid character past chunk length's CR: 0xd")], npos) := by
  decide

/-- C6 (code at the failing input): the message `G` CR LF `A: b` CR LF CR LF has
11 bytes; fed with one excess byte `Z` in the slices `G` CR LF and the rest, the
two calls return 3 and 9, which add up to 12: the call in which the headers end
returns the size of its slice although the body parser left `Z` unconsumed. The
same bytes fed in one call are counted right, 11. -/
theorem message_consumed_count_overshoots :
    (MessageParser.new.feed [bytes "G\r\n", bytes "A: b\r\n\r\nZ"]).2.2 = [3, 9] ∧
    (bytes "G\r\nA: b\r\n\r\n").length = 11 ∧
    ((MessageParser.new.feed [bytes "G\r\n", bytes "A: b\r\n\r\nZ"]).2.2).sum = 12 ∧
    (MessageParser.new.parse (bytes "G\r\nA: b\r\n\r\nZ")).2.2 = 11 := by
  decide

/-- C8 (code at the failing input): a chunked body that starts with the invalid
byte `Z` makes the chunked parser report an error, yet `MessageParser::parse`
returns 35 for a slice of 34 bytes, neither `npos` nor a count within the slice;
and in the body state the call on the one-byte slice `Z` returns 2:
`parseBody` subtracts the sentinel from the slice size. -/
theorem message_body_error_returns_count :
    (MessageParser.new.parse (bytes "G\r\nTransfer-Encoding: chunked\r\n\r\nZ")).2 =
      ([Event.onFirstLine (bytes "G"),
        Event.onHeaderLine (bytes "Transfer-Encoding") (bytes "chunked"),
        Event.onHeadersFinished,
        Event.onError (bytes "Invalid character in chunk length line: 0x5a")], 35) ∧
    (bytes "G\r\nTransfer-Encoding: chunked\r\n\r\nZ").length = 34 ∧
    (35 : Nat) ≠ npos ∧
    (MessageParser.new.feed
      [bytes "G\r\nTransfer-Encoding: chunked\r\n\r\n", bytes "Z"]).2 =
      ([Event.onFirstLine (bytes "G"),
        Event.onHeaderLine (bytes "Transfer-Encoding") (bytes "chunked"),
        Event.onHeadersFinished,
        Event.onError (bytes "Invalid character in chunk length line: 0x5a")], [33, 2]) := by
  decide

/-- C9 (code at the failing input): for the message `G` CR LF `Content-Length: x`
CR LF CR LF the call that processes the header calls `onError`, but then goes
on: it emits `onHeadersFinished` and `onBodyFinished` and returns the count 24,
not `npos`. -/
theorem invalid_content_length_goes_on :
    (MessageParser.new.parse (bytes "G\r\nContent-Length: x\r\n\r\n")).2 =
      ([Event.onFirstLine (bytes "G"),
        Event.onHeaderLine (bytes "Content-Length") (bytes "x"),
        Event.onError (bytes "Invalid content length header value: \"x\""),
        Event.onHeadersFinished,
        Event.onBodyFinished], 24) ∧
    (24 : Nat) ≠ npos := by
  decide

end Http

namespace Http

/-! ## C18: a slice inside the header block of a part -/

/-- C18 fails on the code: the stream `--b`, CR LF, `A: 1`, CR LF, CR LF, `x`,
CR LF, `--b--`, CR LF given in one call reports the header (`A`, `1`); given in
the three slices `--b` CR LF, `A: ` and the rest, it reports the header
(`A`, `A: 1`): the second slice is given to the envelope parser twice. -/
theorem multipart_header_slice_is_fed_twice :
    ((MultipartParser.new (bytes "multipart/form-data; boundary=b")).parse
        (bytes "--b\r\nA: 1\r\n\r\nx\r\n--b--\r\n")).2 =
      [MPEvent.onPartEnd, MPEvent.onPartStart, MPEvent.onPartHeader (bytes "A") (bytes "1"),
        MPEvent.onPartData (bytes "x"), MPEvent.onPartEnd, MPEvent.onPartData []] ∧
    ((MultipartParser.new (bytes "multipart/form-data; boundary=b")).feed
        [bytes "--b\r\n", bytes "A: ", bytes "1\r\n\r\nx\r\n--b--\r\n"]).2 =
      [MPEvent.onPartEnd, MPEvent.onPartStart, MPEvent.onPartHeader (bytes "A") (bytes "A: 1"),
        MPEvent.onPartData (bytes "x"), MPEvent.onPartEnd, MPEvent.onPartData []] ∧
    [bytes "--b\r\n", bytes "A: ", bytes "1\r\n\r\nx\r\n--b--\r\n"].flatten =
      bytes "--b\r\nA: 1\r\n\r\nx\r\n--b--\r\n" := by
  decide

end Http
